import Mathlib

/-! Work-to-worker distributor: balancing and liveness loop.

A shallow embedding of `distributor.go` (package `main` of
`scientificideas/distributor`) together with the storage contract of
`storage/storage.go` and the consistent-hashing ring the balancer is built on.

* Go `string` values are Lean `String`s; `sort.Strings` orders them by their
  characters (for valid UTF-8 that is Go's byte-wise order).
* Go maps are finite partial functions `String → Option V`.
* The hash ring comes from the imported package `github.com/serialx/hashring`.
  Its hash function (MD5 folded into a pair of integers) is kept abstract:
  every definition takes `hashFunc : String → K` for a linearly ordered key
  type `K`.
* Storage calls may fail: the store carries the outcomes of its upcoming calls.
* `Storage` answers `GetList` with a new slice, as `storage.Redis` does; what
  the distributor does to the slice never reaches the store. The store of the
  tests, `mocks.MockStorage`, hands out the slice it holds; the distributor
  over that store is embedded separately (`MockStorage`, `MockDistributor`).
-/

namespace Main

/-! ## Go strings, slices and maps -/

/-- Order used by `sort.Strings`: lexicographic comparison of the characters. -/
def strLe (a b : String) : Prop := a.data ≤ b.data

instance strLe.decidable : DecidableRel strLe :=
  fun a b => inferInstanceAs (Decidable (a.data ≤ b.data))

/-- Model of `sort.Strings`: the sorted rearrangement of the slice. -/
def sortStrings (l : List String) : List String := l.insertionSort strLe

/-- Model of `strings.Join(elems, sep)`. -/
def Join (elems : List String) (sep : String) : String := sep.intercalate elems

/-- A Go map with `string` keys. -/
abbrev GoMap (V : Type) := String → Option V

/-- The empty map, `make(map[string]V)`. -/
def GoMap.empty {V : Type} : GoMap V := fun _ => none

/-- Assignment `m[k] = v`. -/
def GoMap.set {V : Type} (m : GoMap V) (k : String) (v : V) : GoMap V :=
  fun x => if x = k then some v else m x

/-- Builtin `delete(m, k)`. -/
def GoMap.delete {V : Type} (m : GoMap V) (k : String) : GoMap V :=
  fun x => if x = k then none else m x

/-- Function `includes(source, item)`. -/
def includes (source : List String) (item : String) : Bool :=
  match source with
  | [] => false
  | s :: rest => if s = item then true else includes rest item

/-! ## The hash ring (`github.com/serialx/hashring`) -/

section Ring

variable {K : Type} [LinearOrder K]

/-- Type `HashRing`: `ring` lists the writes `h.ring[key] = node` in the order
they were made (a later write of a key replaces an earlier one). -/
structure HashRing (K : Type) where
  ring : List (K × String)
  sortedKeys : List K
  nodes : List String
  weights : GoMap Nat

/-- Map read `h.ring[key]` (the zero value `""` when the key is absent). -/
def ringGet (ring : List (K × String)) (key : K) : String :=
  ((ring.foldl (fun (m : K → Option String) e => Function.update m e.1 (some e.2))
    (fun _ => none)) key).getD ""

/-- The keys `hashFunc(node + "-" + j)` for `j = 0 .. weight-1`. -/
def nodeKeys (hashFunc : String → K) (node : String) (weight : Nat) : List K :=
  (List.range weight).map fun j => hashFunc (node ++ "-" ++ toString j)

/-- The writes of `generateCircle`: for every node, in order, one per replica. -/
def circleEntries (hashFunc : String → K) (nodes : List String) (weights : GoMap Nat) :
    List (K × String) :=
  nodes.flatMap fun node =>
    (nodeKeys hashFunc node ((weights node).getD 1)).map fun key => (key, node)

/-- Method `generateCircle` applied to a ring with the given nodes and weights. -/
def generateCircle (hashFunc : String → K) (nodes : List String) (weights : GoMap Nat) :
    HashRing K :=
  { ring := circleEntries hashFunc nodes weights
    sortedKeys := ((circleEntries hashFunc nodes weights).map Prod.fst).insertionSort (· ≤ ·)
    nodes := nodes
    weights := weights }

/-- Constructor `NewWithWeights(nil)`. -/
def NewWithWeights (hashFunc : String → K) : HashRing K :=
  generateCircle hashFunc [] GoMap.empty

/-- Method `AddWeightedNode`. -/
def AddWeightedNode (hashFunc : String → K) (h : HashRing K) (node : String) (weight : Nat) :
    HashRing K :=
  if weight = 0 then h
  else if (h.weights node).isSome then h
  else generateCircle hashFunc (h.nodes ++ [node]) (h.weights.set node weight)

/-- Method `RemoveNode`. -/
def RemoveNode (hashFunc : String → K) (h : HashRing K) (node : String) : HashRing K :=
  if (h.weights node).isSome then
    generateCircle hashFunc (h.nodes.filter (· ≠ node)) (h.weights.delete node)
  else h

/-- Method `GetNodePos`: `sort.Search` finds the first sorted key greater than
the key of `stringKey`; past the end it wraps to position 0. -/
def GetNodePos (hashFunc : String → K) (h : HashRing K) (stringKey : String) : Nat × Bool :=
  if h.ring.length = 0 then (0, false)
  else
    let key := hashFunc stringKey
    let pos := h.sortedKeys.findIdx (fun k => decide (key < k))
    if pos = h.sortedKeys.length then (0, true) else (pos, true)

/-- The loop of `GetNodes` over the keys met from `pos` on, once around. -/
def getNodesLoop (ring : List (K × String)) (size : Nat) :
    List K → List String → List String
  | [], resultSlice => resultSlice
  | key :: rest, resultSlice =>
    let val := ringGet ring key
    let resultSlice := if val ∈ resultSlice then resultSlice else resultSlice ++ [val]
    if resultSlice.length = size then resultSlice
    else getNodesLoop ring size rest resultSlice

/-- Method `GetNodes`. -/
def GetNodes (hashFunc : String → K) (h : HashRing K) (stringKey : String) (size : Nat) :
    List String × Bool :=
  match GetNodePos hashFunc h stringKey with
  | (_, false) => ([], false)
  | (pos, true) =>
    if size > h.nodes.length then ([], false)
    else
      let resultSlice :=
        getNodesLoop h.ring size (h.sortedKeys.drop pos ++ h.sortedKeys.take pos) []
      (resultSlice, decide (resultSlice.length = size))

end Ring

/-! ## The balancer -/

section Balancer

variable {K : Type} [LinearOrder K]

/-- The ring built at the head of `PutToMatchingTable`. -/
def buildRing (hashFunc : String → K) (ringMembers : List String) : HashRing K :=
  ringMembers.foldl (fun ring member => AddWeightedNode hashFunc ring member 50)
    (NewWithWeights hashFunc)

/-- The loop `for i, service := range services` of `PutToMatchingTable`; the
table holds each `matchingMembers` slice, joined when the table is written. -/
def matchingLoop (hashFunc : String → K) (lenServices lenRingMembers : Nat) :
    List String → Nat → Nat → HashRing K → GoMap (List String) → GoMap (List String)
  | [], _, _, _, matchingTable => matchingTable
  | service :: rest, i, itemsCountPerMember, ring, matchingTable =>
    let itemsCountPerMember :=
      if i = lenServices - 1 ∧ lenRingMembers > lenServices then
        itemsCountPerMember + lenRingMembers % lenServices
      else itemsCountPerMember
    let matchingMembers := (GetNodes hashFunc ring service itemsCountPerMember).1
    let ring := matchingMembers.foldl (fun r member => RemoveNode hashFunc r member) ring
    matchingLoop hashFunc lenServices lenRingMembers rest (i + 1) itemsCountPerMember ring
      (matchingTable.set service matchingMembers)

/-- The matching table computed by `PutToMatchingTable` for a non-empty list
of services, before its values are comma-joined. -/
def matchingTable (hashFunc : String → K) (services ringMembers : List String) :
    GoMap (List String) :=
  let ring := buildRing hashFunc ringMembers
  let itemsCountPerMember := ringMembers.length / services.length
  let itemsCountPerMember := if itemsCountPerMember < 1 then 1 else itemsCountPerMember
  matchingLoop hashFunc services.length ringMembers.length (sortStrings services) 0
    itemsCountPerMember ring GoMap.empty

end Balancer

/-! ## Storage (`storage/storage.go`) -/

/-- Errors and run-time failures a call can end with. -/
inductive Error where
  /-- A storage call failed (transport failure). -/
  | storage
  /-- Error "units of work not found in storage". -/
  | unitsNotFound
  /-- Error "no one service responded". -/
  | noService
  /-- Run-time panic: integer divide by zero. -/
  | divideByZero
  deriving DecidableEq, Repr

/-- State of a `storage.Storage` that answers every read with a copy of what
it holds, as `storage.Redis` does: the lists and hash tables it holds, and for
each upcoming call whether that call fails. A failed call changes nothing. -/
structure Storage where
  Lists : String → List String
  HashTable : String → GoMap String
  faults : Nat → Bool

namespace Storage

/-- The store once a call has been answered. -/
def next (s : Storage) : Storage := { s with faults := fun n => s.faults (n + 1) }

/-- Method `GetList` (`storage/redis.go`): a new slice with the elements of the
list stored at `key`; nothing the caller does to that slice reaches the store. -/
def GetList (s : Storage) (key : String) : Except Error (List String) × Storage :=
  if s.faults 0 then (.error .storage, s.next) else (.ok (s.Lists key), s.next)

/-- The store once the fields of `m` are written into the hash at `key`. -/
def writeFields (s : Storage) (key : String) (m : GoMap String) : Storage :=
  { s with
    HashTable := fun k => if k = key then
      fun field => match m field with
        | some v => some v
        | none => s.HashTable key field
      else s.HashTable k }

/-- The store once `field` is removed from the hash at `mapname`. -/
def removeField (s : Storage) (mapname field : String) : Storage :=
  { s with
    HashTable := fun k => if k = mapname then (s.HashTable mapname).delete field
      else s.HashTable k }

/-- The store once every occurrence of `item` is removed from the list at
`listname`. -/
def removeItem (s : Storage) (listname item : String) : Storage :=
  { s with
    Lists := fun k => if k = listname then (s.Lists listname).filter (· ≠ item)
      else s.Lists k }

/-- Method `SetMap`: creates or overwrites the fields of `m` in the hash at
`key`, for a map `m` with at least one field, the only case the distributor
reaches. -/
def SetMap (s : Storage) (key : String) (m : GoMap String) : Option Error × Storage :=
  if s.faults 0 then (some .storage, s.next) else (none, s.next.writeFields key m)

/-- Method `DelFromMap`: removes `field` from the hash at `mapname`. -/
def DelFromMap (s : Storage) (mapname field : String) : Option Error × Storage :=
  if s.faults 0 then (some .storage, s.next) else (none, s.next.removeField mapname field)

/-- Method `DelFromList`: removes every occurrence of `item` from the list. -/
def DelFromList (s : Storage) (listname item : String) : Option Error × Storage :=
  if s.faults 0 then (some .storage, s.next) else (none, s.next.removeItem listname item)

end Storage

/-! ## The distributor (`distributor.go`) -/

/-- Type `Transport`: durations in nanoseconds. -/
structure Transport where
  PingTimeout : Nat
  PollInterval : Nat
  deriving DecidableEq, Repr

/-- Type `ServiceCache`: the keys of the `services` map, in the order `all()`
ranges over them. -/
structure ServiceCache where
  services : List String

/-- Method `ServiceCache.add`. -/
def ServiceCache.add (s : ServiceCache) (service : String) : ServiceCache :=
  if service ∈ s.services then s else { services := s.services ++ [service] }

/-- Method `ServiceCache.del`. -/
def ServiceCache.del (s : ServiceCache) (service : String) : ServiceCache :=
  { services := s.services.filter (· ≠ service) }

/-- Method `ServiceCache.exist`. -/
def ServiceCache.exist (s : ServiceCache) (service : String) : Bool :=
  decide (service ∈ s.services)

/-- Method `ServiceCache.all`. -/
def ServiceCache.all (s : ServiceCache) : List String := s.services

/-- Type `WorkUnitsCache`: the keys of the `workunits` map. -/
structure WorkUnitsCache where
  workunits : List String

/-- Method `WorkUnitsCache.add`. -/
def WorkUnitsCache.add (s : WorkUnitsCache) (workunit : String) : WorkUnitsCache :=
  if workunit ∈ s.workunits then s else { workunits := s.workunits ++ [workunit] }

/-- Method `WorkUnitsCache.del`. -/
def WorkUnitsCache.del (s : WorkUnitsCache) (workunit : String) : WorkUnitsCache :=
  { workunits := s.workunits.filter (· ≠ workunit) }

/-- Method `WorkUnitsCache.exist`. -/
def WorkUnitsCache.exist (s : WorkUnitsCache) (workunit : String) : Bool :=
  decide (workunit ∈ s.workunits)

/-- Method `WorkUnitsCache.all`. -/
def WorkUnitsCache.all (s : WorkUnitsCache) : List String := s.workunits

/-- Type `Distributor`. Field `p` gives the outcome of `Ping` per endpoint:
`true` when the call returns no error. -/
structure Distributor where
  Storage : Storage
  ringMembers : String
  serviceNamespace : String
  distributionNamespace : String
  p : String → Bool
  serviceCache : ServiceCache
  workUnitsCache : WorkUnitsCache
  transport : Option Transport

section Methods

variable {K : Type} [LinearOrder K]

/-- Method `Services`. -/
def Distributor.Services (d : Distributor) : Except Error (List String) × Distributor :=
  let r := d.Storage.GetList d.serviceNamespace
  (r.1, { d with Storage := r.2 })

/-- Method `RingMembers`. -/
def Distributor.RingMembers (d : Distributor) : Except Error (List String) × Distributor :=
  let r := d.Storage.GetList d.ringMembers
  (r.1, { d with Storage := r.2 })

/-- Method `PutToMatchingTable`. Dividing by `len(services) = 0` panics. The
call `sort.Strings(services)` sorts the slice of the caller in place; over this
store that slice is a copy, so the sort shows only in the order the loop ranges
in, which `matchingTable` takes from `sortStrings services`. Over a store that
hands out the slice it holds see `MockDistributor.PutToMatchingTable`. -/
def Distributor.PutToMatchingTable (hashFunc : String → K) (d : Distributor)
    (services ringMembers : List String) : Option Error × Distributor :=
  if services.length = 0 then (some .divideByZero, d)
  else
    let r := d.Storage.SetMap d.distributionNamespace
      (fun service => (matchingTable hashFunc services ringMembers service).map (Join · ","))
    (r.1, { d with Storage := r.2 })

/-- Method `balance`. -/
def Distributor.balance (hashFunc : String → K) (d : Distributor) : Option Error × Distributor :=
  match d.RingMembers with
  | (.error err, d) => (some err, d)
  | (.ok ringMembers, d) =>
    if ringMembers.length = 0 then (some .unitsNotFound, d)
    else
      match d.Services with
      | (.error err, d) => (some err, d)
      | (.ok services, d) =>
        if services.length = 0 then (some .noService, d)
        else d.PutToMatchingTable hashFunc services ringMembers

/-- First loop of `LivenessCheck`: cached services that left the storage. -/
def pruneServices (hashFunc : String → K) (servicesFromStorage : List String) :
    List String → Distributor → Option Error × Distributor
  | [], d => (none, d)
  | serviceFromCache :: rest, d =>
    if !includes servicesFromStorage serviceFromCache then
      let d := { d with serviceCache := d.serviceCache.del serviceFromCache }
      match d.Storage.DelFromMap d.distributionNamespace serviceFromCache with
      | (some err, st) => (some err, { d with Storage := st })
      | (none, st) =>
        match Distributor.balance hashFunc { d with Storage := st } with
        | (some err, d) => (some err, d)
        | (none, d) => pruneServices hashFunc servicesFromStorage rest d
    else pruneServices hashFunc servicesFromStorage rest d

/-- The adoption step of the second loop: rebalance for a service that is not
in the cache, and cache it when the rebalance succeeded. -/
def adoptService (hashFunc : String → K) (d : Distributor) (service : String) : Distributor :=
  if !d.serviceCache.exist service then
    match Distributor.balance hashFunc d with
    | (some _, d) => d
    | (none, d) => { d with serviceCache := d.serviceCache.add service }
  else d

/-- Second loop of `LivenessCheck`: adopt and ping the services of the storage,
ranging over the copy of the list read at the start of the tick (for a slice
shared with the store see `Mock.probeServices`). -/
def probeServices (hashFunc : String → K) : List String → Distributor → Option Error × Distributor
  | [], d => (none, d)
  | service :: rest, d =>
    let d := adoptService hashFunc d service
    if d.p service then probeServices hashFunc rest d
    else
      let d := { d with serviceCache := d.serviceCache.del service }
      match d.Storage.DelFromList d.serviceNamespace service with
      | (some err, st) => (some err, { d with Storage := st })
      | (none, st) =>
        match st.DelFromMap d.distributionNamespace service with
        | (some err, st) => (some err, { d with Storage := st })
        | (none, st) =>
          match Distributor.balance hashFunc { d with Storage := st } with
          | (some err, d) => (some err, d)
          | (none, d) => probeServices hashFunc rest d

/-- Third loop of `LivenessCheck`: cached work units that left the storage. -/
def pruneWorkUnits (hashFunc : String → K) (workunitsFromStorage : List String) :
    List String → Distributor → Option Error × Distributor
  | [], d => (none, d)
  | workUnitFromCache :: rest, d =>
    if !includes workunitsFromStorage workUnitFromCache then
      let d := { d with workUnitsCache := d.workUnitsCache.del workUnitFromCache }
      match d.Storage.DelFromMap d.distributionNamespace workUnitFromCache with
      | (some err, st) => (some err, { d with Storage := st })
      | (none, st) =>
        match Distributor.balance hashFunc { d with Storage := st } with
        | (some err, d) => (some err, d)
        | (none, d) => pruneWorkUnits hashFunc workunitsFromStorage rest d
    else pruneWorkUnits hashFunc workunitsFromStorage rest d

/-- Fourth loop of `LivenessCheck`: work units of the storage not yet cached. -/
def adoptWorkUnits (hashFunc : String → K) : List String → Distributor → Distributor
  | [], d => d
  | workUnitFromStorage :: rest, d =>
    if !d.workUnitsCache.exist workUnitFromStorage then
      match Distributor.balance hashFunc d with
      | (some _, d) => adoptWorkUnits hashFunc rest d
      | (none, d) =>
        adoptWorkUnits hashFunc rest
          { d with workUnitsCache := d.workUnitsCache.add workUnitFromStorage }
    else adoptWorkUnits hashFunc rest d

/-- Method `LivenessCheck`: one tick. -/
def Distributor.LivenessCheck (hashFunc : String → K) (d : Distributor) :
    Option Error × Distributor :=
  match d.Services with
  | (.error err, d) => (some err, d)
  | (.ok servicesFromStorage, d) =>
    match d.RingMembers with
    | (.error err, d) => (some err, d)
    | (.ok workunitsFromStorage, d) =>
      match pruneServices hashFunc servicesFromStorage d.serviceCache.all d with
      | (some err, d) => (some err, d)
      | (none, d) =>
        match probeServices hashFunc servicesFromStorage d with
        | (some err, d) => (some err, d)
        | (none, d) =>
          match pruneWorkUnits hashFunc workunitsFromStorage d.workUnitsCache.all d with
          | (some err, d) => (some err, d)
          | (none, d) => (none, adoptWorkUnits hashFunc workunitsFromStorage d)

end Methods

end Main

/-! ## Predicates used in the statements -/

namespace Main

section Predicates

variable {K : Type} [LinearOrder K]

/-- Collision freedom of the hash on the replica keys of a list of units: two
different units never share a ring key. -/
def NoCollision (hashFunc : String → K) (units : List String) : Prop :=
  ∀ u ∈ units, ∀ v ∈ units, ∀ i < 50, ∀ j < 50,
    hashFunc (u ++ "-" ++ toString i) = hashFunc (v ++ "-" ++ toString j) → u = v

instance NoCollision.decidable (hashFunc : String → K) (units : List String) :
    Decidable (NoCollision hashFunc units) := by
  unfold NoCollision; infer_instance

/-- Every ring the balancer holds is the circle generated from its own nodes,
each of weight 50, and lists no node twice. -/
structure RingInv (hashFunc : String → K) (h : HashRing K) : Prop where
  circle : h = generateCircle hashFunc h.nodes h.weights
  weights_eq : ∀ n, h.weights n = if n ∈ h.nodes then some 50 else none
  nodup : h.nodes.Nodup

end Predicates

/-- No upcoming storage call fails. -/
def NoFault (s : Storage) : Prop := ∀ n, s.faults n = false

/-- The list of services currently in the storage. -/
def Distributor.svcList (d : Distributor) : List String :=
  d.Storage.Lists d.serviceNamespace

/-- The list of work units currently in the storage. -/
def Distributor.unitList (d : Distributor) : List String :=
  d.Storage.Lists d.ringMembers

/-- The matching table currently in the storage. -/
def Distributor.table (d : Distributor) : GoMap String :=
  d.Storage.HashTable d.distributionNamespace

section Transformers

variable {K : Type} [LinearOrder K]

/-- The distributor after a rebalance that went through: the table computed
from the two lists of the storage is written over the stored one. -/
def Distributor.rebalanced (hashFunc : String → K) (d : Distributor) : Distributor :=
  { d with
    Storage :=
      d.Storage.writeFields d.distributionNamespace
        (fun service => (matchingTable hashFunc d.svcList d.unitList service).map (Join · ",")) }

end Transformers

end Main

/-! ## Sample data used to instantiate the statements -/

namespace Main

/-- A sample hash function: a polynomial rolling hash of the characters. -/
def sampleHash (s : String) : Nat :=
  s.toList.foldl (fun acc c => (acc * 131 + c.toNat) % 1000003) 7

/-- A hash function under which all ring keys collide. -/
def collidingHash (_ : String) : Nat := 0

/-- A sample store: workers under `"W"`, work units under `"U"`, the matching
table under `"T"`, every call answered. -/
def sampleStorage (workers units : List String) (table : GoMap String) : Storage :=
  { Lists := fun k => if k = "W" then workers else if k = "U" then units else []
    HashTable := fun k => if k = "T" then table else GoMap.empty
    faults := fun _ => false }

/-- A sample distributor over `sampleStorage`; `Ping` fails exactly for the
endpoints whose name starts with `bad`. -/
def sampleDistributor (workers units : List String) (table : GoMap String)
    (serviceCache workUnitsCache : List String) : Distributor :=
  { Storage := sampleStorage workers units table
    ringMembers := "U"
    serviceNamespace := "W"
    distributionNamespace := "T"
    p := fun url => !("bad".data.isPrefixOf url.data)
    serviceCache := { services := serviceCache }
    workUnitsCache := { workunits := workUnitsCache }
    transport := some { PingTimeout := 1000000, PollInterval := 1000000 } }

end Main

/-! ## The state changes of one tick -/

namespace Main

/-- First loop, before the rebalance: the service leaves the cache and its
field leaves the table. -/
def Distributor.dropService (d : Distributor) (x : String) : Distributor :=
  { d with
    serviceCache := d.serviceCache.del x
    Storage := d.Storage.removeField d.distributionNamespace x }

/-- Second loop, after a failed ping and before the rebalance: the service
leaves the cache, the list of services and the table. -/
def Distributor.evictService (d : Distributor) (x : String) : Distributor :=
  { d with
    serviceCache := d.serviceCache.del x
    Storage := (d.Storage.removeItem d.serviceNamespace x).removeField
      d.distributionNamespace x }

/-- Third loop, before the rebalance: the work unit leaves the cache and the
field of its name leaves the table. -/
def Distributor.dropWorkUnit (d : Distributor) (x : String) : Distributor :=
  { d with
    workUnitsCache := d.workUnitsCache.del x
    Storage := d.Storage.removeField d.distributionNamespace x }

/-- The service enters the cache. -/
def Distributor.cacheService (d : Distributor) (x : String) : Distributor :=
  { d with serviceCache := d.serviceCache.add x }

/-- The work unit enters the cache. -/
def Distributor.cacheWorkUnit (d : Distributor) (x : String) : Distributor :=
  { d with workUnitsCache := d.workUnitsCache.add x }

/-- The preconditions of a rebalance are not met: no work unit or no service. -/
def Distributor.balanceFails (d : Distributor) : Prop := d.unitList = [] ∨ d.svcList = []

instance Distributor.balanceFails.decidable (d : Distributor) : Decidable d.balanceFails := by
  unfold Distributor.balanceFails; infer_instance

/-- The error `balance` returns when its preconditions are not met. -/
def Distributor.balanceError (d : Distributor) : Error :=
  if d.unitList = [] then Error.unitsNotFound else Error.noService

section StableDef

variable {K : Type} [LinearOrder K]

/-- A property of the distributor that every state change of a tick keeps. -/
structure Stable (hashFunc : String → K) (Q : Distributor → Prop) : Prop where
  rebalanced : ∀ d, Q d → Q (d.rebalanced hashFunc)
  dropService : ∀ d x, Q d → Q (d.dropService x)
  evictService : ∀ d x, Q d → Q (d.evictService x)
  dropWorkUnit : ∀ d x, Q d → Q (d.dropWorkUnit x)
  cacheService : ∀ d x, Q d → Q (d.cacheService x)
  cacheWorkUnit : ∀ d x, Q d → Q (d.cacheWorkUnit x)

end StableDef

end Main

namespace Main

section Steps

variable {K : Type} [LinearOrder K]

/-- One iteration of the first loop that does not end the tick. -/
def pruneServiceStep (hashFunc : String → K) (S : List String) (d : Distributor)
    (x : String) : Distributor :=
  if x ∈ S then d else (d.dropService x).rebalanced hashFunc

/-- The first loop goes on after the iteration for `x`. -/
def pruneServiceOk (S : List String) (d : Distributor) (x : String) : Prop :=
  x ∈ S ∨ ¬ (d.dropService x).balanceFails

instance pruneServiceOk.decidable (S : List String) (d : Distributor) (x : String) :
    Decidable (pruneServiceOk S d x) := by
  unfold pruneServiceOk; infer_instance

/-- One iteration of the second loop that does not end the tick. -/
def probeStep (hashFunc : String → K) (d : Distributor) (w : String) : Distributor :=
  if (adoptService hashFunc d w).p w = true then adoptService hashFunc d w
  else ((adoptService hashFunc d w).evictService w).rebalanced hashFunc

/-- The second loop goes on after the iteration for `w`. -/
def probeOk (hashFunc : String → K) (d : Distributor) (w : String) : Prop :=
  (adoptService hashFunc d w).p w = true ∨
    ¬ ((adoptService hashFunc d w).evictService w).balanceFails

instance probeOk.decidable (hashFunc : String → K) (d : Distributor) (w : String) :
    Decidable (probeOk hashFunc d w) := by
  unfold probeOk; infer_instance

/-- One iteration of the third loop that does not end the tick. -/
def pruneUnitStep (hashFunc : String → K) (U : List String) (d : Distributor)
    (x : String) : Distributor :=
  if x ∈ U then d else (d.dropWorkUnit x).rebalanced hashFunc

/-- The third loop goes on after the iteration for `x`. -/
def pruneUnitOk (U : List String) (d : Distributor) (x : String) : Prop :=
  x ∈ U ∨ ¬ (d.dropWorkUnit x).balanceFails

instance pruneUnitOk.decidable (U : List String) (d : Distributor) (x : String) :
    Decidable (pruneUnitOk U d x) := by
  unfold pruneUnitOk; infer_instance

/-- One iteration of the fourth loop. -/
def adoptUnitStep (hashFunc : String → K) (d : Distributor) (u : String) : Distributor :=
  if u ∈ d.workUnitsCache.workunits then d
  else if d.balanceFails then d
  else (d.rebalanced hashFunc).cacheWorkUnit u

end Steps

end Main

namespace Main

/-- The endpoint `w` is neither in the list of services of the storage nor a
field of the matching table. -/
def Distributor.Absent (d : Distributor) (w : String) : Prop :=
  w ∉ d.svcList ∧ d.table w = none

end Main

namespace Main

/-- The storage lists a work unit and a service that answers its ping: no
rebalance is refused. -/
def Distributor.Healthy (d : Distributor) : Prop :=
  d.unitList ≠ [] ∧ ∃ g ∈ d.svcList, d.p g = true

/-- Every service listed in the storage has a field in the matching table. -/
def Distributor.Covered (d : Distributor) : Prop :=
  ∀ x ∈ d.svcList, (d.table x).isSome = true

/-- Every field of the matching table is a service listed in the storage. -/
def Distributor.Tight (d : Distributor) : Prop :=
  ∀ x, (d.table x).isSome = true → x ∈ d.svcList

end Main
namespace Main

/-- What no step of a tick changes when the list of services and the list of
work units are stored under different keys: the outcome of the pings, the two
keys and the list of work units. -/
def Distributor.Frame (d0 d : Distributor) : Prop :=
  d.p = d0.p ∧ d.ringMembers = d0.ringMembers ∧ d.serviceNamespace = d0.serviceNamespace ∧
    d.unitList = d0.unitList

/-- A tick finds nothing to do: every cached service is listed, every listed
service answers its ping and is cached unless a rebalance would be refused,
every cached work unit is listed, and every listed work unit is cached unless a
rebalance would be refused. -/
def Distributor.Quiescent (d : Distributor) : Prop :=
  (∀ x ∈ d.serviceCache.services, x ∈ d.svcList) ∧
  (∀ w ∈ d.svcList, d.p w = true) ∧
  ((∀ w ∈ d.svcList, w ∈ d.serviceCache.services) ∨ d.balanceFails) ∧
  (∀ x ∈ d.workUnitsCache.workunits, x ∈ d.unitList) ∧
  ((∀ u ∈ d.unitList, u ∈ d.workUnitsCache.workunits) ∨ d.balanceFails)

end Main
namespace Main

/-- What every step of a tick keeps, whatever the keys: the outcome of the
pings; the list of work units only loses entries; and it is the list `d0` held
unless it is stored under the key of the list of services. -/
def Distributor.Loose (d0 d : Distributor) : Prop :=
  d.p = d0.p ∧ (∀ y ∈ d.unitList, y ∈ d0.unitList) ∧
    (d.unitList = d0.unitList ∨ d.ringMembers = d.serviceNamespace)

end Main

namespace Main

section SyncedDef

variable {K : Type} [LinearOrder K]

/-- The field of every listed service holds the assignment `PutToMatchingTable`
computes from the two lists of the storage, comma-joined. -/
def Distributor.Synced (hashFunc : String → K) (d : Distributor) : Prop :=
  ∀ w ∈ d.svcList,
    d.table w = (matchingTable hashFunc d.svcList d.unitList w).map (Join · ",")

end SyncedDef

end Main
/-! ## Reading the matching table back -/

namespace Main

/-- The pieces of a list of characters between the occurrences of `sep`: one
more piece than there are occurrences. -/
def splitChars (sep : Char) : List Char → List (List Char)
  | [] => [[]]
  | c :: cs =>
    if c = sep then [] :: splitChars sep cs
    else
      match splitChars sep cs with
      | [] => [[c]]
      | piece :: pieces => (c :: piece) :: pieces

/-- Model of `strings.Split(s, sep)` for a separator of one character; the
empty string is split into one empty piece. -/
def Split (s : String) (sep : Char) : List String :=
  (splitChars sep s.data).map String.mk

/-- Method `GetMapField` (`storage/redis.go`): the value of `field` in the hash
at `key`, split on commas. The call fails when the storage does or when the
hash has no such field (`HGET` then answers the error `redis.Nil`). -/
def Storage.GetMapField (s : Storage) (key field : String) :
    Except Error (List String) × Storage :=
  if s.faults 0 then (.error .storage, s.next)
  else
    match s.HashTable key field with
    | none => (.error .storage, s.next)
    | some res => (.ok (Split res ','), s.next)

end Main
namespace Main

section GuardedDef

variable {K : Type} [LinearOrder K]

/-- A property of the distributor that every state change of a tick keeps,
the rebalance being one only where `balance` does not refuse it. -/
structure Guarded (hashFunc : String → K) (Q : Distributor → Prop) : Prop where
  rebalanced : ∀ d, ¬ d.balanceFails → Q d → Q (d.rebalanced hashFunc)
  dropService : ∀ d x, Q d → Q (d.dropService x)
  evictService : ∀ d x, Q d → Q (d.evictService x)
  dropWorkUnit : ∀ d x, Q d → Q (d.dropWorkUnit x)
  cacheService : ∀ d x, Q d → Q (d.cacheService x)
  cacheWorkUnit : ∀ d x, Q d → Q (d.cacheWorkUnit x)

end GuardedDef

/-- Every field of the matching table holds the value it holds in `T`, or is
absent, or belongs to a listed service while a work unit is listed. -/
def Distributor.Untouched (T : GoMap String) (d : Distributor) : Prop :=
  ∀ f, d.table f = T f ∨ d.table f = none ∨ (f ∈ d.svcList ∧ d.unitList ≠ [])

end Main
/-! ## Start-up: `main.go`, `NewDistributor` and the gRPC pinger -/

namespace Main

/-- Type `Config` of package `config`: the two settings `main` parses into
durations. -/
structure Config where
  PollInterval : String
  PingTimeout : String

/-- The `Transport` that `main` hands to `NewDistributor`. `ParseDuration`
stands for `time.ParseDuration`, with `none` for its error, on which `main`
ends the process. -/
def mainTransport (ParseDuration : String → Option Nat) (configuration : Config) :
    Option Transport :=
  match ParseDuration configuration.PingTimeout with
  | none => none
  | some pingTimeout =>
    match ParseDuration configuration.PingTimeout with
    | none => none
    | some pollInterval => some { PingTimeout := pingTimeout, PollInterval := pollInterval }

/-- A sample of `time.ParseDuration` on a few settings, in nanoseconds. -/
def sampleParseDuration (s : String) : Option Nat :=
  if s = "1s" then some 1000000000
  else if s = "5s" then some 5000000000
  else if s = "1000ms" then some 1000000000
  else none

/-- Type `keepalive.ClientParameters`, durations in nanoseconds. -/
structure ClientParameters where
  Time : Nat
  Timeout : Nat
  PermitWithoutStream : Bool
  deriving DecidableEq, Repr

/-- Type `client.GRPCClient`: a connection, with the keep-alive parameters
`client.NewClient` dialled it with. -/
structure GRPCClient where
  keepaliveParams : ClientParameters
  deriving DecidableEq, Repr

/-- Type `Pinger` of package `grpc`: the pool maps a url to its connection. -/
structure Pinger where
  connPool : GoMap GRPCClient
  kaParameters : ClientParameters

/-- Function `NewPinger`: the struct literal sets `connPool` only, so
`kaParameters` has the zero value. -/
def NewPinger (_kaparameters : ClientParameters) : Pinger :=
  { connPool := GoMap.empty
    kaParameters := { Time := 0, Timeout := 0, PermitWithoutStream := false } }

/-- Method `connAlreadyExistsInPool`. -/
def Pinger.connAlreadyExistsInPool (p : Pinger) (url : String) : Bool :=
  (p.connPool url).isSome

/-- Method `addConnToPool`. -/
def Pinger.addConnToPool (p : Pinger) (url : String) (conn : GRPCClient) : Pinger :=
  { p with connPool := p.connPool.set url conn }

/-- Function `client.NewClient`: dials `url` with the keep-alive parameters;
`dial url` tells whether the dial succeeds. -/
def NewClient (dial : String → Bool) (url : String) (keepaliveParams : ClientParameters) :
    Option GRPCClient :=
  if dial url then some { keepaliveParams := keepaliveParams } else none

/-- Method `Pinger.Init`; the result is `true` when no error is returned. -/
def Pinger.Init (dial : String → Bool) : Pinger → List String → Bool × Pinger
  | p, [] => (true, p)
  | p, url :: urls =>
    if !p.connAlreadyExistsInPool url then
      match NewClient dial url p.kaParameters with
      | none => (false, p)
      | some pingerClient => Pinger.Init dial (p.addConnToPool url pingerClient) urls
    else Pinger.Init dial p urls

/-- Method `Pinger.Ping`; `answers url` tells whether the call over the
connection returns no error, and so does the result. -/
def Pinger.Ping (dial answers : String → Bool) (p : Pinger) (url : String) : Bool × Pinger :=
  if p.connAlreadyExistsInPool url then (answers url, p)
  else
    match NewClient dial url p.kaParameters with
    | none => (false, p)
    | some c => (answers url, p.addConnToPool url c)

/-- Constant `defaultPingTimeout`: 800 ms. -/
def defaultPingTimeout : Nat := 800000000

/-- Constant `defaultPollInterval`: 500 ms. -/
def defaultPollInterval : Nat := 500000000

/-- What a call of `NewDistributor` can end with instead of a distributor. -/
inductive InitError where
  /-- An option returned an error. -/
  | option
  /-- Run-time panic: nil pointer dereference. -/
  | nilDereference
  /-- Error "got empty work distribution namespace". -/
  | emptyDistributionNamespace
  /-- Error "ring members list key is empty". -/
  | emptyRingMembers
  /-- Error "service namespace is not set". -/
  | emptyServiceNamespace
  /-- The read of the list of services failed. -/
  | storage
  /-- The `Init` of the pinger failed. -/
  | pingerInit
  deriving DecidableEq, Repr

/-- The distributor under construction in `NewDistributor`, as the options see
it: `none` is Go's `nil`. -/
structure Builder where
  Storage : Option Storage
  transport : Option Transport

/-- Type `Option` of `opts.go`. -/
abbrev Opt := Builder → Except InitError Builder

/-- Function `WithTransport`; the pointer may be `nil`. -/
def WithTransport (tr : Option Transport) : Opt :=
  fun d => .ok { d with transport := tr }

/-- Function `WithStorage`. -/
def WithStorage (stor : Storage) : Opt :=
  fun d => .ok { d with Storage := some stor }

/-- The loop `for _, opt := range opts` of `NewDistributor`. -/
def applyOpts : List Opt → Builder → Except InitError Builder
  | [], d => .ok d
  | opt :: opts, d =>
    match opt d with
    | .error err => .error err
    | .ok d => applyOpts opts d

/-- Function `NewDistributor`. `p` gives the outcome of `Ping` per endpoint
and `pInit` that of `Init` on the list of services: `true` for no error. -/
def NewDistributor (distributionNamespace ringMembers serviceNamespace : String)
    (p : String → Bool) (pInit : List String → Bool) (opts : List Opt) :
    Except InitError Distributor :=
  match applyOpts opts { Storage := none, transport := none } with
  | .error err => .error err
  | .ok d =>
    match d.transport with
    | none => .error .nilDereference
    | some transport =>
      let transport : Transport :=
        if transport.PingTimeout = 0 then { transport with PingTimeout := defaultPingTimeout }
        else transport
      let transport : Transport :=
        if transport.PollInterval = 0 then { transport with PollInterval := defaultPollInterval }
        else transport
      if distributionNamespace = "" then .error .emptyDistributionNamespace
      else if ringMembers = "" then .error .emptyRingMembers
      else if serviceNamespace = "" then .error .emptyServiceNamespace
      else
        match d.Storage with
        | none => .error .nilDereference
        | some stor =>
          match stor.GetList serviceNamespace with
          | (.error _, _) => .error .storage
          | (.ok urls, stor) =>
            if pInit urls then
              .ok { Storage := stor
                    ringMembers := ringMembers
                    serviceNamespace := serviceNamespace
                    distributionNamespace := distributionNamespace
                    p := p
                    serviceCache := { services := [] }
                    workUnitsCache := { workunits := [] }
                    transport := some transport }
            else .error .pingerInit

end Main
namespace Main

section GuardedOnDef

variable {K : Type} [LinearOrder K]

/-- A property of the distributor that every state change of a tick keeps,
the rebalance being one only where `balance` does not refuse it and the
deletions being those a tick makes: of a member of `C` (the cached services)
missing from `S` (the services read), of a member of `S` whose ping fails, and
of a member of `W` (the cached work units) missing from `U` (the units read). -/
structure GuardedOn (hashFunc : String → K) (C S W U : List String)
    (Q : Distributor → Prop) : Prop where
  rebalanced : ∀ d, ¬ d.balanceFails → Q d → Q (d.rebalanced hashFunc)
  dropService : ∀ d x, x ∈ C → x ∉ S → Q d → Q (d.dropService x)
  evictService : ∀ d x, x ∈ S → d.p x = false → Q d → Q (d.evictService x)
  dropWorkUnit : ∀ d x, x ∈ W → x ∉ U → Q d → Q (d.dropWorkUnit x)
  cacheService : ∀ d x, Q d → Q (d.cacheService x)
  cacheWorkUnit : ∀ d x, Q d → Q (d.cacheWorkUnit x)

end GuardedOnDef

/-- The names whose field a tick started in `d` may delete: a cached service
missing from the list of services, a listed service whose ping fails, a cached
work unit missing from the list of work units. -/
def Distributor.Removable (d : Distributor) (f : String) : Prop :=
  (f ∈ d.serviceCache.services ∧ f ∉ d.svcList) ∨
  (f ∈ d.svcList ∧ d.p f = false) ∨
  (f ∈ d.workUnitsCache.workunits ∧ f ∉ d.unitList)

/-- The pings answer as in `d0`, and every field of the matching table holds
the value it holds in `d0`, or is absent and removable, or belongs to a listed
service while a work unit is listed. -/
def Distributor.Cleared (d0 d : Distributor) : Prop :=
  d.p = d0.p ∧
  ∀ f, d.table f = d0.table f ∨ (d.table f = none ∧ d0.Removable f) ∨
    (f ∈ d.svcList ∧ d.unitList ≠ [])

end Main
namespace Main

section SettledDef

variable {K : Type} [LinearOrder K]

/-- The state a tick that returns no error leaves: every cached service is
listed, every listed service answers its ping and is cached unless a rebalance
would be refused, every listed work unit is cached unless a rebalance would be
refused, and either every cached work unit is listed, or the table is the one
of the two lists, no rebalance would be refused, and no cached work unit that
is not listed has a field. -/
def Distributor.Settled (hashFunc : String → K) (d : Distributor) : Prop :=
  (∀ x ∈ d.serviceCache.services, x ∈ d.svcList) ∧
  (∀ w ∈ d.svcList, d.p w = true) ∧
  ((∀ w ∈ d.svcList, w ∈ d.serviceCache.services) ∨ d.balanceFails) ∧
  ((∀ u ∈ d.unitList, u ∈ d.workUnitsCache.workunits) ∨ d.balanceFails) ∧
  ((∀ x ∈ d.workUnitsCache.workunits, x ∈ d.unitList) ∨
    (d.Synced hashFunc ∧ ¬ d.balanceFails ∧
      ∀ x ∈ d.workUnitsCache.workunits, x ∉ d.unitList → d.table x = none))

end SettledDef

end Main
namespace Main

/-! ## The in-memory store of the tests (`mocks/mockStorage.go`)

`Storage` above answers `GetList` with a new slice, as `storage.Redis` does.
`mocks.MockStorage` answers with the slice it holds, so the slice a tick ranges
over shares its array with the store, and `sort.Strings(services)` in
`PutToMatchingTable` reorders it under the running loop. This section embeds
the methods of `Distributor` over that store. -/

/-- Type `mocks.MockStorage`. -/
structure MockStorage where
  Lists : String → List String
  HashTable : GoMap String

/-- A slice returned by `MockStorage.GetList`. `GetList` returns `m.Lists[key]`
itself: while the store holds that slice (`own = none`) its elements are the
list stored at `key`, whatever has been done to it in place; once `DelFromList`
has put a new slice under `key`, it keeps the elements it had then
(`own = some elems`). Its length never changes. -/
structure Slice where
  key : String
  own : Option (List String)

/-- The elements of the slice, the store being `m`. -/
def Slice.elems (s : Slice) (m : MockStorage) : List String :=
  match s.own with
  | some l => l
  | none => m.Lists s.key

/-- Call `sort.Strings(s)`: the array of the slice is sorted in place, which is
the stored list when the slice is shared with the store. -/
def Slice.sort (s : Slice) (m : MockStorage) : Slice × MockStorage :=
  match s.own with
  | some l => ({ s with own := some (sortStrings l) }, m)
  | none =>
    (s, { m with Lists := fun k => if k = s.key then sortStrings (m.Lists s.key)
      else m.Lists k })

/-- The slice once `DelFromList(listname, _)` is called on the store `m`: the
store gets a new slice under `listname`, and a slice shared with the old one
keeps the old elements. -/
def Slice.detach (s : Slice) (m : MockStorage) (listname : String) : Slice :=
  match s.own with
  | some _ => s
  | none => if s.key = listname then { s with own := some (m.Lists listname) } else s

namespace MockStorage

/-- Method `GetList`: `m.Lists[key]` itself; it never fails. -/
def GetList (_ : MockStorage) (key : String) : Slice := { key := key, own := none }

/-- Method `SetMap`: the one table gets the fields of `value`, whatever the key. -/
def SetMap (m : MockStorage) (_ : String) (value : GoMap String) : MockStorage :=
  { m with
    HashTable := fun k => match value k with
      | some v => some v
      | none => m.HashTable k }

/-- Method `DelFromMap`. -/
def DelFromMap (m : MockStorage) (_ : String) (field : String) : MockStorage :=
  { m with HashTable := m.HashTable.delete field }

/-- Method `DelFromList`: a new slice, without `item`, is put under `listname`. -/
def DelFromList (m : MockStorage) (listname item : String) : MockStorage :=
  { m with
    Lists := fun k => if k = listname then (m.Lists listname).filter (· ≠ item)
      else m.Lists k }

end MockStorage

/-- Type `Distributor` built with `WithStorage(&mocks.MockStorage{...})`. Field
`p` gives the outcome of `Ping` per endpoint. -/
structure MockDistributor where
  Storage : MockStorage
  ringMembers : String
  serviceNamespace : String
  distributionNamespace : String
  p : String → Bool
  serviceCache : ServiceCache
  workUnitsCache : WorkUnitsCache

section MockMethods

variable {K : Type} [LinearOrder K]

/-- Method `Services`. -/
def MockDistributor.Services (d : MockDistributor) : Slice :=
  d.Storage.GetList d.serviceNamespace

/-- Method `RingMembers`. -/
def MockDistributor.RingMembers (d : MockDistributor) : Slice :=
  d.Storage.GetList d.ringMembers

/-- Method `PutToMatchingTable`: the ring is built from `ringMembers`, then
`services` is sorted in place, then the table is computed and written. The
third component is the slice `services` as the caller holds it afterwards.
Dividing by `len(services) = 0` panics. -/
def MockDistributor.PutToMatchingTable (hashFunc : String → K) (d : MockDistributor)
    (services ringMembers : Slice) : Option Error × MockDistributor × Slice :=
  let members := ringMembers.elems d.Storage
  if (services.elems d.Storage).length = 0 then (some .divideByZero, d, services)
  else
    let table := matchingTable hashFunc (services.elems d.Storage) members
    let r := services.sort d.Storage
    let st := r.2.SetMap d.distributionNamespace
      (fun service => (table service).map (Join · ","))
    (none, { d with Storage := st }, r.1)

/-- Method `balance`. -/
def MockDistributor.balance (hashFunc : String → K) (d : MockDistributor) :
    Option Error × MockDistributor :=
  let ringMembers := d.RingMembers
  if (ringMembers.elems d.Storage).length = 0 then (some .unitsNotFound, d)
  else
    let services := d.Services
    if (services.elems d.Storage).length = 0 then (some .noService, d)
    else
      let r := d.PutToMatchingTable hashFunc services ringMembers
      (r.1, r.2.1)

namespace Mock

/-- First loop of `LivenessCheck`: cached services that left the storage. -/
def pruneServices (hashFunc : String → K) (servicesFromStorage : Slice) :
    List String → MockDistributor → Option Error × MockDistributor
  | [], d => (none, d)
  | serviceFromCache :: rest, d =>
    if !includes (servicesFromStorage.elems d.Storage) serviceFromCache then
      let d := { d with serviceCache := d.serviceCache.del serviceFromCache }
      let st := d.Storage.DelFromMap d.distributionNamespace serviceFromCache
      let d := { d with Storage := st }
      match d.balance hashFunc with
      | (some err, d) => (some err, d)
      | (none, d) => pruneServices hashFunc servicesFromStorage rest d
    else pruneServices hashFunc servicesFromStorage rest d

/-- The adoption step of the second loop: rebalance for a service that is not
in the cache, and cache it when the rebalance succeeded. -/
def adoptService (hashFunc : String → K) (d : MockDistributor) (service : String) :
    MockDistributor :=
  if !d.serviceCache.exist service then
    match d.balance hashFunc with
    | (some _, d) => d
    | (none, d) => { d with serviceCache := d.serviceCache.add service }
  else d

/-- Second loop of `LivenessCheck`, `for _, service := range servicesFromStorage`:
`count` iterations are left, the next one reads the element at `index` of the
array as it is then (`""` stands for an index out of range, which is never
met). The two slices the tick holds are returned as they are at the end. -/
def probeServices (hashFunc : String → K) :
    Nat → Nat → Slice → Slice → MockDistributor →
      Option Error × MockDistributor × Slice × Slice
  | 0, _, servicesFromStorage, workunitsFromStorage, d =>
    (none, d, servicesFromStorage, workunitsFromStorage)
  | count + 1, index, servicesFromStorage, workunitsFromStorage, d =>
    let service := (servicesFromStorage.elems d.Storage).getD index ""
    let d := adoptService hashFunc d service
    if d.p service then
      probeServices hashFunc count (index + 1) servicesFromStorage workunitsFromStorage d
    else
      let d := { d with serviceCache := d.serviceCache.del service }
      let servicesFromStorage := servicesFromStorage.detach d.Storage d.serviceNamespace
      let workunitsFromStorage := workunitsFromStorage.detach d.Storage d.serviceNamespace
      let d := { d with Storage := d.Storage.DelFromList d.serviceNamespace service }
      let d := { d with Storage := d.Storage.DelFromMap d.distributionNamespace service }
      match d.balance hashFunc with
      | (some err, d) => (some err, d, servicesFromStorage, workunitsFromStorage)
      | (none, d) =>
        probeServices hashFunc count (index + 1) servicesFromStorage workunitsFromStorage d

/-- Third loop of `LivenessCheck`: cached work units that left the storage. -/
def pruneWorkUnits (hashFunc : String → K) (workunitsFromStorage : Slice) :
    List String → MockDistributor → Option Error × MockDistributor
  | [], d => (none, d)
  | workUnitFromCache :: rest, d =>
    if !includes (workunitsFromStorage.elems d.Storage) workUnitFromCache then
      let d := { d with workUnitsCache := d.workUnitsCache.del workUnitFromCache }
      let st := d.Storage.DelFromMap d.distributionNamespace workUnitFromCache
      let d := { d with Storage := st }
      match d.balance hashFunc with
      | (some err, d) => (some err, d)
      | (none, d) => pruneWorkUnits hashFunc workunitsFromStorage rest d
    else pruneWorkUnits hashFunc workunitsFromStorage rest d

/-- Fourth loop of `LivenessCheck`, `for _, workUnitFromStorage := range
workunitsFromStorage`, by index as the second loop. -/
def adoptWorkUnits (hashFunc : String → K) :
    Nat → Nat → Slice → MockDistributor → MockDistributor
  | 0, _, _, d => d
  | count + 1, index, workunitsFromStorage, d =>
    let workUnitFromStorage := (workunitsFromStorage.elems d.Storage).getD index ""
    if !d.workUnitsCache.exist workUnitFromStorage then
      match d.balance hashFunc with
      | (some _, d) => adoptWorkUnits hashFunc count (index + 1) workunitsFromStorage d
      | (none, d) =>
        adoptWorkUnits hashFunc count (index + 1) workunitsFromStorage
          { d with workUnitsCache := d.workUnitsCache.add workUnitFromStorage }
    else adoptWorkUnits hashFunc count (index + 1) workunitsFromStorage d

end Mock

/-- Method `LivenessCheck`: one tick over `mocks.MockStorage`. -/
def MockDistributor.LivenessCheck (hashFunc : String → K) (d : MockDistributor) :
    Option Error × MockDistributor :=
  let servicesFromStorage := d.Services
  let workunitsFromStorage := d.RingMembers
  match Mock.pruneServices hashFunc servicesFromStorage d.serviceCache.all d with
  | (some err, d) => (some err, d)
  | (none, d) =>
    match Mock.probeServices hashFunc (servicesFromStorage.elems d.Storage).length 0
      servicesFromStorage workunitsFromStorage d with
    | (some err, d, _, _) => (some err, d)
    | (none, d, _, workunitsFromStorage) =>
      match Mock.pruneWorkUnits hashFunc workunitsFromStorage d.workUnitsCache.all d with
      | (some err, d) => (some err, d)
      | (none, d) =>
        (none, Mock.adoptWorkUnits hashFunc (workunitsFromStorage.elems d.Storage).length 0
          workunitsFromStorage d)

end MockMethods

/-- A sample distributor over `mocks.MockStorage`, with the keys and the pings
of `sampleDistributor`. -/
def sampleMock (workers units : List String) (table : GoMap String)
    (serviceCache workUnitsCache : List String) : MockDistributor :=
  { Storage :=
      { Lists := fun k => if k = "W" then workers else if k = "U" then units else []
        HashTable := table }
    ringMembers := "U"
    serviceNamespace := "W"
    distributionNamespace := "T"
    p := fun url => !("bad".data.isPrefixOf url.data)
    serviceCache := { services := serviceCache }
    workUnitsCache := { workunits := workUnitsCache } }

end Main
namespace Main

section RingLemmas

variable {K : Type} [LinearOrder K]

theorem foldl_update_spec (ring : List (K × String)) :
    ∀ (m0 : K → Option String) (k : K),
      (k ∉ ring.map Prod.fst ∧
        (ring.foldl (fun (m : K → Option String) e => Function.update m e.1 (some e.2)) m0) k
          = m0 k) ∨
      (∃ n, (k, n) ∈ ring ∧
        (ring.foldl (fun (m : K → Option String) e => Function.update m e.1 (some e.2)) m0) k
          = some n) := by
  induction ring with
  | nil => intro m0 k; left; simp
  | cons e rest ih =>
    intro m0 k
    rcases ih (Function.update m0 e.1 (some e.2)) k with ⟨hk, heq⟩ | ⟨n, hn, heq⟩
    · by_cases hke : k = e.1
      · right
        refine ⟨e.2, ?_, ?_⟩
        · subst hke; simp
        · simp only [List.foldl_cons]; rw [heq, hke]; simp
      · left
        refine ⟨?_, ?_⟩
        · simp only [List.map_cons, List.mem_cons, not_or]; exact ⟨hke, hk⟩
        · simp only [List.foldl_cons]; rw [heq]; simp [Function.update, hke]
    · right
      exact ⟨n, List.mem_cons_of_mem _ hn, by simpa using heq⟩

theorem ringGet_mem (ring : List (K × String)) (k : K) (hk : k ∈ ring.map Prod.fst) :
    ∃ n, (k, n) ∈ ring ∧ ringGet ring k = n := by
  rcases foldl_update_spec ring (fun _ => none) k with ⟨hk', _⟩ | ⟨n, hn, heq⟩
  · exact absurd hk hk'
  · exact ⟨n, hn, by simp [ringGet, heq]⟩

theorem ringGet_unique (ring : List (K × String)) (k : K) (n : String) (hmem : (k, n) ∈ ring)
    (huniq : ∀ n', (k, n') ∈ ring → n' = n) : ringGet ring k = n := by
  obtain ⟨n', hn', heq⟩ := ringGet_mem ring k (List.mem_map.mpr ⟨(k, n), hmem, rfl⟩)
  rw [heq]; exact huniq n' hn'

omit [LinearOrder K] in
theorem mem_circleEntries (hashFunc : String → K) (nodes : List String) (weights : GoMap Nat)
    (k : K) (n : String) :
    (k, n) ∈ circleEntries hashFunc nodes weights ↔
      n ∈ nodes ∧ ∃ j < (weights n).getD 1, k = hashFunc (n ++ "-" ++ toString j) := by
  simp only [circleEntries, nodeKeys, List.mem_flatMap, List.mem_map, List.mem_range,
    Prod.mk.injEq]
  constructor
  · rintro ⟨a, ha, k', ⟨j, hj, rfl⟩, rfl, rfl⟩
    exact ⟨ha, j, hj, rfl⟩
  · rintro ⟨hn, j, hj, rfl⟩
    exact ⟨n, hn, _, ⟨j, hj, rfl⟩, rfl, rfl⟩

theorem getNodesLoop_cons (ring : List (K × String)) (size : Nat) (key : K) (rest : List K)
    (acc : List String) :
    getNodesLoop ring size (key :: rest) acc =
      if (if ringGet ring key ∈ acc then acc else acc ++ [ringGet ring key]).length = size then
        (if ringGet ring key ∈ acc then acc else acc ++ [ringGet ring key])
      else getNodesLoop ring size rest
        (if ringGet ring key ∈ acc then acc else acc ++ [ringGet ring key]) := rfl

theorem getNodesLoop_nodup (ring : List (K × String)) (size : Nat) :
    ∀ (keys : List K) (acc : List String), acc.Nodup →
      (getNodesLoop ring size keys acc).Nodup := by
  intro keys
  induction keys with
  | nil => intro acc h; simpa [getNodesLoop] using h
  | cons key rest ih =>
    intro acc h
    have hacc : (if ringGet ring key ∈ acc then acc else acc ++ [ringGet ring key]).Nodup := by
      split
      · exact h
      · rename_i hni
        rw [List.nodup_append]
        refine ⟨h, by simp, ?_⟩
        intro a ha hb
        simp at hb
        subst hb
        exact hni ha
    rw [getNodesLoop_cons]
    generalize (if ringGet ring key ∈ acc then acc else acc ++ [ringGet ring key]) = acc1 at hacc ⊢
    by_cases hl : acc1.length = size
    · simpa [hl] using hacc
    · simpa [hl] using ih _ hacc

theorem getNodesLoop_subset (ring : List (K × String)) (size : Nat) :
    ∀ (keys : List K) (acc : List String) (x : String),
      x ∈ getNodesLoop ring size keys acc → x ∈ acc ∨ ∃ k ∈ keys, x = ringGet ring k := by
  intro keys
  induction keys with
  | nil => intro acc x h; left; simpa [getNodesLoop] using h
  | cons key rest ih =>
    intro acc x h
    have hstep : ∀ y, y ∈ (if ringGet ring key ∈ acc then acc else acc ++ [ringGet ring key]) →
        y ∈ acc ∨ y = ringGet ring key := by
      intro y hy
      split at hy
      · exact Or.inl hy
      · simpa using hy
    rw [getNodesLoop_cons] at h
    generalize (if ringGet ring key ∈ acc then acc else acc ++ [ringGet ring key]) = acc1
      at hstep h
    by_cases hl : acc1.length = size
    · simp only [hl, if_true] at h
      rcases hstep x h with h1 | h1
      · exact Or.inl h1
      · exact Or.inr ⟨key, by simp, h1⟩
    · simp only [hl, if_false] at h
      rcases ih _ x h with h1 | ⟨k, hk, hx⟩
      · rcases hstep x h1 with h2 | h2
        · exact Or.inl h2
        · exact Or.inr ⟨key, by simp, h2⟩
      · exact Or.inr ⟨k, List.mem_cons_of_mem _ hk, hx⟩

theorem getNodesLoop_length (ring : List (K × String)) (size : Nat) :
    ∀ (keys : List K) (acc : List String), acc.Nodup → acc.length < size →
      size ≤ (acc ++ keys.map (ringGet ring)).toFinset.card →
      (getNodesLoop ring size keys acc).length = size := by
  intro keys
  induction keys with
  | nil =>
    intro acc hnd hlt hcard
    simp only [List.map_nil, List.append_nil] at hcard
    rw [List.toFinset_card_of_nodup hnd] at hcard
    omega
  | cons key rest ih =>
    intro acc hnd hlt hcard
    rw [getNodesLoop_cons]
    by_cases hmem : ringGet ring key ∈ acc
    · simp only [hmem, if_true]
      have hne : acc.length ≠ size := by omega
      simp only [hne, if_false]
      apply ih acc hnd hlt
      have : (acc ++ (key :: rest).map (ringGet ring)).toFinset
          = (acc ++ rest.map (ringGet ring)).toFinset := by
        ext x
        simp only [List.map_cons, List.toFinset_append, List.toFinset_cons, Finset.mem_union,
          List.mem_toFinset, Finset.mem_insert]
        constructor
        · rintro (h | h | h)
          · exact Or.inl h
          · exact Or.inl (h ▸ hmem)
          · exact Or.inr h
        · rintro (h | h)
          · exact Or.inl h
          · exact Or.inr (Or.inr h)
      rw [← this]; exact hcard
    · simp only [hmem, if_false]
      split
      · assumption
      · rename_i hne
        have hnd' : (acc ++ [ringGet ring key]).Nodup := by
          rw [List.nodup_append]
          refine ⟨hnd, by simp, ?_⟩
          intro a ha hb
          simp at hb
          subst hb
          exact hmem ha
        apply ih _ hnd'
        · simp only [List.length_append, List.length_singleton] at hne ⊢; omega
        · have : (acc ++ (key :: rest).map (ringGet ring)).toFinset
              = (acc ++ [ringGet ring key] ++ rest.map (ringGet ring)).toFinset := by
            simp
          rw [← this]; exact hcard

end RingLemmas

end Main
namespace Main

section RingInvariant

variable {K : Type} [LinearOrder K]

theorem RingInv_new (hashFunc : String → K) : RingInv hashFunc (NewWithWeights hashFunc) := by
  refine ⟨rfl, ?_, ?_⟩
  · intro n; simp [NewWithWeights, generateCircle, GoMap.empty]
  · simp [NewWithWeights, generateCircle]

theorem AddWeightedNode_nodes (hashFunc : String → K) (h : HashRing K)
    (hinv : RingInv hashFunc h) (node : String) :
    (AddWeightedNode hashFunc h node 50).nodes
      = if node ∈ h.nodes then h.nodes else h.nodes ++ [node] := by
  unfold AddWeightedNode
  have hw := hinv.weights_eq node
  by_cases hmem : node ∈ h.nodes
  · simp [hmem, hw]
  · simp [hmem, hw, generateCircle]

theorem RingInv_add (hashFunc : String → K) (h : HashRing K) (hinv : RingInv hashFunc h)
    (node : String) : RingInv hashFunc (AddWeightedNode hashFunc h node 50) := by
  unfold AddWeightedNode
  have hw := hinv.weights_eq node
  by_cases hmem : node ∈ h.nodes
  · simpa [hmem, hw] using hinv
  · simp only [hmem, if_false] at hw
    have h50 : ¬ ((50 : Nat) = 0) := by decide
    simp only [hw, Option.isSome_none, Bool.false_eq_true, if_false, h50]
    refine ⟨rfl, ?_, ?_⟩
    · intro n
      simp only [generateCircle, GoMap.set, List.mem_append, List.mem_singleton]
      by_cases hn : n = node
      · simp [hn]
      · simp [hn, hinv.weights_eq n]
    · simp only [generateCircle]
      rw [List.nodup_append]
      refine ⟨hinv.nodup, by simp, ?_⟩
      intro a ha hb
      simp at hb
      subst hb
      exact hmem ha

theorem RemoveNode_nodes (hashFunc : String → K) (h : HashRing K)
    (hinv : RingInv hashFunc h) (node : String) :
    (RemoveNode hashFunc h node).nodes = h.nodes.filter (· ≠ node) := by
  unfold RemoveNode
  have hw := hinv.weights_eq node
  by_cases hmem : node ∈ h.nodes
  · simp [hmem, hw, generateCircle]
  · simp only [hmem, if_false] at hw
    simp only [hw, Option.isSome_none, Bool.false_eq_true, if_false]
    symm
    rw [List.filter_eq_self]
    intro a ha
    simp only [ne_eq, decide_not, Bool.not_eq_true', decide_eq_false_iff_not]
    rintro rfl
    exact hmem ha

theorem RingInv_remove (hashFunc : String → K) (h : HashRing K) (hinv : RingInv hashFunc h)
    (node : String) : RingInv hashFunc (RemoveNode hashFunc h node) := by
  unfold RemoveNode
  have hw := hinv.weights_eq node
  by_cases hmem : node ∈ h.nodes
  · simp only [hmem, if_true] at hw
    simp only [hw, Option.isSome_some, if_true]
    refine ⟨rfl, ?_, ?_⟩
    · intro n
      simp only [generateCircle, GoMap.delete, List.mem_filter, ne_eq, decide_not,
        Bool.not_eq_true', decide_eq_false_iff_not]
      by_cases hn : n = node
      · simp [hn]
      · simp [hn, hinv.weights_eq n]
    · exact hinv.nodup.filter _
  · simp only [hmem, if_false] at hw
    simpa [hw] using hinv

theorem removeNodes_spec (hashFunc : String → K) (ms : List String) :
    ∀ (h : HashRing K), RingInv hashFunc h →
      RingInv hashFunc (ms.foldl (fun r member => RemoveNode hashFunc r member) h) ∧
      (ms.foldl (fun r member => RemoveNode hashFunc r member) h).nodes
        = h.nodes.filter (· ∉ ms) := by
  induction ms with
  | nil => intro h hinv; simp [hinv]
  | cons m rest ih =>
    intro h hinv
    obtain ⟨h1, h2⟩ := ih (RemoveNode hashFunc h m) (RingInv_remove hashFunc h hinv m)
    refine ⟨by simpa using h1, ?_⟩
    simp only [List.foldl_cons]
    rw [h2, RemoveNode_nodes hashFunc h hinv, List.filter_filter]
    apply List.filter_congr
    intro x _
    by_cases h1 : x = m <;> by_cases h2 : x ∈ rest <;> simp [h1, h2]

theorem addNodes_spec (hashFunc : String → K) (l : List String) :
    ∀ (h : HashRing K), RingInv hashFunc h →
      RingInv hashFunc (l.foldl (fun ring member => AddWeightedNode hashFunc ring member 50) h) ∧
      (∀ x, x ∈ (l.foldl (fun ring member => AddWeightedNode hashFunc ring member 50) h).nodes
        ↔ x ∈ h.nodes ∨ x ∈ l) ∧
      (l.Nodup → (∀ x ∈ l, x ∉ h.nodes) →
        (l.foldl (fun ring member => AddWeightedNode hashFunc ring member 50) h).nodes
          = h.nodes ++ l) := by
  induction l with
  | nil => intro h hinv; simp [hinv]
  | cons m rest ih =>
    intro h hinv
    obtain ⟨h1, h2, h3⟩ := ih (AddWeightedNode hashFunc h m 50) (RingInv_add hashFunc h hinv m)
    have hn := AddWeightedNode_nodes hashFunc h hinv m
    refine ⟨by simpa using h1, ?_, ?_⟩
    · intro x
      simp only [List.foldl_cons, h2, hn, List.mem_cons]
      by_cases hm : m ∈ h.nodes
      · simp only [hm, if_true]
        constructor
        · rintro (h | h)
          · exact Or.inl h
          · exact Or.inr (Or.inr h)
        · rintro (h | rfl | h)
          · exact Or.inl h
          · exact Or.inl hm
          · exact Or.inr h
      · simp only [hm, if_false, List.mem_append, List.mem_singleton]
        tauto
    · intro hnd hdisj
      have hm : m ∉ h.nodes := hdisj m (by simp)
      simp only [hm, if_false] at hn
      simp only [List.foldl_cons]
      rw [h3 (List.nodup_cons.mp hnd).2, hn]
      · simp
      · intro x hx
        rw [hn]
        simp only [List.mem_append, List.mem_singleton, not_or]
        refine ⟨hdisj x (List.mem_cons_of_mem _ hx), ?_⟩
        rintro rfl
        exact (List.nodup_cons.mp hnd).1 hx

theorem buildRing_inv (hashFunc : String → K) (ringMembers : List String) :
    RingInv hashFunc (buildRing hashFunc ringMembers) :=
  (addNodes_spec hashFunc ringMembers _ (RingInv_new hashFunc)).1

theorem mem_buildRing_nodes (hashFunc : String → K) (ringMembers : List String) (x : String) :
    x ∈ (buildRing hashFunc ringMembers).nodes ↔ x ∈ ringMembers := by
  have := (addNodes_spec hashFunc ringMembers _ (RingInv_new hashFunc)).2.1 x
  simpa [NewWithWeights, generateCircle] using this

theorem buildRing_nodes_of_nodup (hashFunc : String → K) (ringMembers : List String)
    (hnd : ringMembers.Nodup) : (buildRing hashFunc ringMembers).nodes = ringMembers := by
  have := (addNodes_spec hashFunc ringMembers _ (RingInv_new hashFunc)).2.2 hnd
    (by simp [NewWithWeights, generateCircle])
  simpa [NewWithWeights, generateCircle] using this

end RingInvariant

end Main
namespace Main

section GetNodesLemmas

variable {K : Type} [LinearOrder K]

theorem GetNodes_fst (hashFunc : String → K) (h : HashRing K) (s : String) (size : Nat) :
    (GetNodes hashFunc h s size).1 =
      if h.ring.length = 0 then []
      else if size > h.nodes.length then []
      else getNodesLoop h.ring size
        (h.sortedKeys.drop (GetNodePos hashFunc h s).1
          ++ h.sortedKeys.take (GetNodePos hashFunc h s).1) [] := by
  unfold GetNodes GetNodePos
  by_cases h0 : h.ring.length = 0
  · simp [h0]
  · simp only [h0, if_false]
    by_cases hp : List.findIdx (fun k => decide (hashFunc s < k)) h.sortedKeys
        = h.sortedKeys.length
    · simp only [hp, if_true]
      by_cases hs : size > h.nodes.length <;> simp [hs]
    · simp only [hp, if_false]
      by_cases hs : size > h.nodes.length <;> simp [hs]

theorem GetNodes_nodup (hashFunc : String → K) (h : HashRing K) (s : String) (size : Nat) :
    (GetNodes hashFunc h s size).1.Nodup := by
  rw [GetNodes_fst]
  split
  · simp
  · split
    · simp
    · exact getNodesLoop_nodup _ _ _ _ List.nodup_nil

theorem mem_sortedKeys (hashFunc : String → K) (h : HashRing K) (hinv : RingInv hashFunc h)
    (k : K) : k ∈ h.sortedKeys ↔ k ∈ h.ring.map Prod.fst := by
  have hc := hinv.circle
  have h1 : h.sortedKeys = ((circleEntries hashFunc h.nodes h.weights).map
      Prod.fst).insertionSort (· ≤ ·) := by
    conv_lhs => rw [hc]
    rfl
  have h2 : h.ring = circleEntries hashFunc h.nodes h.weights := by
    conv_lhs => rw [hc]
    rfl
  rw [h1, h2]
  exact (List.perm_insertionSort _ _).mem_iff

theorem ring_eq (hashFunc : String → K) (h : HashRing K) (hinv : RingInv hashFunc h) :
    h.ring = circleEntries hashFunc h.nodes h.weights := by
  have hc := hinv.circle
  conv_lhs => rw [hc]
  rfl

theorem mem_drop_take {α : Type} (l : List α) (p : Nat) (x : α) :
    x ∈ l.drop p ++ l.take p ↔ x ∈ l := by
  rw [List.mem_append, or_comm, ← List.mem_append, List.take_append_drop]

theorem GetNodes_subset (hashFunc : String → K) (h : HashRing K) (hinv : RingInv hashFunc h)
    (s : String) (size : Nat) (x : String) (hx : x ∈ (GetNodes hashFunc h s size).1) :
    x ∈ h.nodes := by
  rw [GetNodes_fst] at hx
  split at hx
  · simp at hx
  · split at hx
    · simp at hx
    · rcases getNodesLoop_subset _ _ _ _ x hx with h1 | ⟨k, hk, rfl⟩
      · simp at h1
      · rw [mem_drop_take, mem_sortedKeys hashFunc h hinv] at hk
        obtain ⟨n, hn, heq⟩ := ringGet_mem h.ring k hk
        rw [heq]
        rw [ring_eq hashFunc h hinv, mem_circleEntries] at hn
        exact hn.1

theorem GetNodes_empty (hashFunc : String → K) (h : HashRing K) (hinv : RingInv hashFunc h)
    (s : String) (size : Nat) (hn : h.nodes = []) : (GetNodes hashFunc h s size).1 = [] := by
  rw [GetNodes_fst, ring_eq hashFunc h hinv, hn]
  simp [circleEntries]

theorem GetNodes_length (hashFunc : String → K) (h : HashRing K) (hinv : RingInv hashFunc h)
    (hcol : NoCollision hashFunc h.nodes) (s : String) (size : Nat) (h1 : 1 ≤ size)
    (h2 : size ≤ h.nodes.length) : (GetNodes hashFunc h s size).1.length = size := by
  have hring := ring_eq hashFunc h hinv
  have hkey : ∀ n ∈ h.nodes, (hashFunc (n ++ "-" ++ toString 0), n) ∈ h.ring := by
    intro n hn
    rw [hring, mem_circleEntries]
    refine ⟨hn, 0, ?_, rfl⟩
    rw [hinv.weights_eq n]; simp [hn]
  have hget : ∀ n ∈ h.nodes, ringGet h.ring (hashFunc (n ++ "-" ++ toString 0)) = n := by
    intro n hn
    apply ringGet_unique _ _ _ (hkey n hn)
    intro n' hn'
    rw [hring, mem_circleEntries] at hn'
    obtain ⟨hn'mem, j, hj, hjeq⟩ := hn'
    rw [hinv.weights_eq n'] at hj
    simp only [hn'mem, if_true, Option.getD_some] at hj
    exact (hcol n hn n' hn'mem 0 (by decide) j hj hjeq).symm
  rw [GetNodes_fst]
  have hne : h.nodes ≠ [] := by
    intro he; rw [he] at h2; simp at h2; omega
  obtain ⟨n0, hn0⟩ := List.exists_mem_of_ne_nil _ hne
  have hr0 : ¬ (h.ring.length = 0) := by
    intro he
    have := hkey n0 hn0
    rw [List.length_eq_zero] at he
    rw [he] at this
    simp at this
  have hs : ¬ (size > h.nodes.length) := by omega
  simp only [hr0, hs, if_false]
  apply getNodesLoop_length _ _ _ _ List.nodup_nil (by simpa using h1)
  simp only [List.nil_append]
  calc size ≤ h.nodes.length := h2
    _ = h.nodes.toFinset.card := (List.toFinset_card_of_nodup hinv.nodup).symm
    _ ≤ _ := by
      apply Finset.card_le_card
      intro n hn
      rw [List.mem_toFinset] at hn ⊢
      rw [List.mem_map]
      refine ⟨hashFunc (n ++ "-" ++ toString 0), ?_, hget n hn⟩
      rw [mem_drop_take, mem_sortedKeys hashFunc h hinv]
      exact List.mem_map.mpr ⟨_, hkey n hn, rfl⟩

theorem GetNodes_too_many (hashFunc : String → K) (h : HashRing K) (s : String) (size : Nat)
    (hs : h.nodes.length < size) : (GetNodes hashFunc h s size).1 = [] := by
  rw [GetNodes_fst]
  split
  · rfl
  · simp [hs]

end GetNodesLemmas

end Main
namespace Main

section LoopLemmas

variable {K : Type} [LinearOrder K]

theorem matchingLoop_cons (hashFunc : String → K) (m n : Nat) (service : String)
    (rest : List String) (i cnt : Nat) (ring : HashRing K) (tbl : GoMap (List String)) :
    matchingLoop hashFunc m n (service :: rest) i cnt ring tbl =
      matchingLoop hashFunc m n rest (i + 1)
        (if i = m - 1 ∧ n > m then cnt + n % m else cnt)
        ((GetNodes hashFunc ring service
          (if i = m - 1 ∧ n > m then cnt + n % m else cnt)).1.foldl
            (fun r member => RemoveNode hashFunc r member) ring)
        (tbl.set service (GetNodes hashFunc ring service
          (if i = m - 1 ∧ n > m then cnt + n % m else cnt)).1) := rfl

theorem matchingLoop_not_mem (hashFunc : String → K) (m n : Nat) :
    ∀ (rest : List String) (i cnt : Nat) (ring : HashRing K) (tbl : GoMap (List String))
      (w : String), w ∉ rest → matchingLoop hashFunc m n rest i cnt ring tbl w = tbl w := by
  intro rest
  induction rest with
  | nil => intro i cnt ring tbl w _; rfl
  | cons s rest ih =>
    intro i cnt ring tbl w hw
    simp only [List.mem_cons, not_or] at hw
    rw [matchingLoop_cons, ih _ _ _ _ w hw.2]
    simp [GoMap.set, hw.1]

theorem matchingLoop_mem (hashFunc : String → K) (m n : Nat) :
    ∀ (rest : List String) (i cnt : Nat) (ring : HashRing K) (tbl : GoMap (List String)),
      RingInv hashFunc ring → ∀ w ∈ rest,
        ∃ a, matchingLoop hashFunc m n rest i cnt ring tbl w = some a ∧ a.Nodup ∧
          ∀ u ∈ a, u ∈ ring.nodes := by
  intro rest
  induction rest with
  | nil => intro i cnt ring tbl _ w hw; simp at hw
  | cons s rest ih =>
    intro i cnt ring tbl hinv w hw
    rw [matchingLoop_cons]
    generalize (if i = m - 1 ∧ n > m then cnt + n % m else cnt) = q
    obtain ⟨hinv', hnodes'⟩ := removeNodes_spec hashFunc (GetNodes hashFunc ring s q).1 ring hinv
    by_cases hwr : w ∈ rest
    · obtain ⟨a, ha, hnd, hsub⟩ := ih (i + 1) q _ (tbl.set s (GetNodes hashFunc ring s q).1)
        hinv' w hwr
      refine ⟨a, ha, hnd, ?_⟩
      intro u hu
      have := hsub u hu
      rw [hnodes'] at this
      exact (List.mem_filter.mp this).1
    · have hws : w = s := by simpa [hwr] using hw
      subst hws
      rw [matchingLoop_not_mem hashFunc m n rest _ _ _ _ w hwr]
      refine ⟨(GetNodes hashFunc ring w q).1, by simp [GoMap.set], GetNodes_nodup _ _ _ _, ?_⟩
      intro u hu
      exact GetNodes_subset hashFunc ring hinv w q u hu

theorem matchingLoop_disjoint (hashFunc : String → K) (m n : Nat) :
    ∀ (rest : List String) (i cnt : Nat) (ring : HashRing K) (tbl : GoMap (List String)),
      RingInv hashFunc ring → ∀ w1 ∈ rest, ∀ w2 ∈ rest, w1 ≠ w2 → ∀ a1 a2,
        matchingLoop hashFunc m n rest i cnt ring tbl w1 = some a1 →
        matchingLoop hashFunc m n rest i cnt ring tbl w2 = some a2 →
        ∀ u ∈ a1, u ∉ a2 := by
  intro rest
  induction rest with
  | nil => intro i cnt ring tbl _ w1 hw1; simp at hw1
  | cons s rest ih =>
    intro i cnt ring tbl hinv w1 hw1 w2 hw2 hne a1 a2 h1 h2 u hu1 hu2
    rw [matchingLoop_cons] at h1 h2
    generalize (if i = m - 1 ∧ n > m then cnt + n % m else cnt) = q at h1 h2
    obtain ⟨hinv', hnodes'⟩ := removeNodes_spec hashFunc (GetNodes hashFunc ring s q).1 ring hinv
    have key : ∀ w ∈ rest, ∀ a, matchingLoop hashFunc m n rest (i + 1) q
        ((GetNodes hashFunc ring s q).1.foldl (fun r member => RemoveNode hashFunc r member) ring)
        (tbl.set s (GetNodes hashFunc ring s q).1) w = some a →
        ∀ x ∈ a, x ∉ (GetNodes hashFunc ring s q).1 := by
      intro w hw a ha x hx
      obtain ⟨a', ha', _, hsub⟩ := matchingLoop_mem hashFunc m n rest (i + 1) q _
        (tbl.set s (GetNodes hashFunc ring s q).1) hinv' w hw
      rw [ha] at ha'
      cases ha'
      have := hsub x hx
      rw [hnodes'] at this
      simpa using (List.mem_filter.mp this).2
    have own : ∀ w, w ∉ rest → w ∈ s :: rest → ∀ a, matchingLoop hashFunc m n rest (i + 1) q
        ((GetNodes hashFunc ring s q).1.foldl (fun r member => RemoveNode hashFunc r member) ring)
        (tbl.set s (GetNodes hashFunc ring s q).1) w = some a →
        a = (GetNodes hashFunc ring s q).1 := by
      intro w hwr hw a ha
      have hws : w = s := by simpa [hwr] using hw
      subst hws
      rw [matchingLoop_not_mem hashFunc m n rest _ _ _ _ w hwr] at ha
      simpa [GoMap.set] using ha.symm
    by_cases hr1 : w1 ∈ rest
    · by_cases hr2 : w2 ∈ rest
      · exact ih (i + 1) q _ _ hinv' w1 hr1 w2 hr2 hne a1 a2 h1 h2 u hu1 hu2
      · have := own w2 hr2 hw2 a2 h2
        subst this
        exact key w1 hr1 a1 h1 u hu1 hu2
    · have e1 := own w1 hr1 hw1 a1 h1
      subst e1
      by_cases hr2 : w2 ∈ rest
      · exact key w2 hr2 a2 h2 u hu2 hu1
      · have hw1s : w1 = s := by simpa [hr1] using hw1
        have hw2s : w2 = s := by simpa [hr2] using hw2
        exact hne (hw1s.trans hw2s.symm)

end LoopLemmas

end Main
namespace Main

section Counting

variable {K : Type} [LinearOrder K]

omit [LinearOrder K] in
theorem NoCollision_mono (hashFunc : String → K) (l l' : List String)
    (hsub : ∀ x ∈ l', x ∈ l) (h : NoCollision hashFunc l) : NoCollision hashFunc l' :=
  fun u hu v hv i hi j hj heq => h u (hsub u hu) v (hsub v hv) i hi j hj heq

theorem length_filter_not_mem (l ms : List String) (hl : l.Nodup) (hms : ms.Nodup)
    (hsub : ∀ x ∈ ms, x ∈ l) : (l.filter (· ∉ ms)).length = l.length - ms.length := by
  have h1 : (l.filter (· ∉ ms)).toFinset = l.toFinset \ ms.toFinset := by
    ext x
    simp [List.mem_filter]
  have h2 : ms.toFinset ⊆ l.toFinset := by
    intro x hx
    rw [List.mem_toFinset] at hx ⊢
    exact hsub x hx
  rw [← List.toFinset_card_of_nodup (hl.filter _), h1, Finset.card_sdiff h2,
    List.toFinset_card_of_nodup hl, List.toFinset_card_of_nodup hms]

theorem mem_of_length_eq (l ms : List String) (hl : l.Nodup) (hms : ms.Nodup)
    (hsub : ∀ x ∈ ms, x ∈ l) (hlen : ms.length = l.length) : ∀ u ∈ l, u ∈ ms := by
  have h2 : ms.toFinset ⊆ l.toFinset := by
    intro x hx
    rw [List.mem_toFinset] at hx ⊢
    exact hsub x hx
  have h3 : l.toFinset.card ≤ ms.toFinset.card := by
    rw [List.toFinset_card_of_nodup hl, List.toFinset_card_of_nodup hms, hlen]
  have := Finset.eq_of_subset_of_card_le h2 h3
  intro u hu
  have hu' : u ∈ l.toFinset := List.mem_toFinset.mpr hu
  rw [← this] at hu'
  exact List.mem_toFinset.mp hu'

/-- The loop on the branch `len(ringMembers) >= len(services)`: every service
but the last takes `b = n / m` units, the last takes `b + n % m`, and the ring
is used up. -/
theorem matchingLoop_even (hashFunc : String → K) (m n b r : Nat) (hb : 1 ≤ b)
    (hr : n % m = r) (hmn : m ≤ n) (hdm : m * b + r = n) :
    ∀ (rest : List String) (i : Nat) (ring : HashRing K) (tbl : GoMap (List String)),
      rest ≠ [] → rest.Nodup → i + rest.length = m → RingInv hashFunc ring →
      NoCollision hashFunc ring.nodes → ring.nodes.length + i * b = n →
      (∀ w ∈ rest, ∃ a, matchingLoop hashFunc m n rest i b ring tbl w = some a ∧
          a.length = if rest.getLast? = some w then b + r else b) ∧
      (∀ u ∈ ring.nodes, ∃ w ∈ rest, ∃ a,
          matchingLoop hashFunc m n rest i b ring tbl w = some a ∧ u ∈ a) := by
  intro rest
  induction rest with
  | nil => intro i ring tbl hne; exact absurd rfl hne
  | cons s rest ih =>
    intro i ring tbl _ hnd hlen hinv hcol hsize
    rw [List.nodup_cons] at hnd
    obtain ⟨hs, hnd'⟩ := hnd
    simp only [List.length_cons] at hlen
    rw [matchingLoop_cons, hr]
    have hmul : m * b = i * b + rest.length * b + b := by
      rw [← hlen]; ring
    by_cases hrest : rest = []
    · subst hrest
      simp only [List.length_nil, zero_mul, add_zero] at hlen hmul
      have hi : i = m - 1 := by omega
      have hq : (if i = m - 1 ∧ n > m then b + r else b) = ring.nodes.length := by
        by_cases hgt : n > m
        · simp only [hi, hgt, and_self, if_true]
          omega
        · have hnm : n = m := by omega
          simp only [hgt, and_false, if_false]
          have hb1 : b = 1 := by
            have h1 : m * b ≤ m * 1 := by omega
            have := Nat.le_of_mul_le_mul_left h1 (by omega : 0 < m)
            omega
          subst hb1
          simp only [mul_one] at hmul hsize hdm
          omega
      rw [hq]
      have hlenms := GetNodes_length hashFunc ring hinv hcol s ring.nodes.length
        (by omega) (le_refl _)
      have hmsall := mem_of_length_eq ring.nodes _ hinv.nodup (GetNodes_nodup hashFunc ring s _)
        (fun x hx => GetNodes_subset hashFunc ring hinv s _ x hx) hlenms
      have hval : matchingLoop hashFunc m n [] (i + 1) ring.nodes.length
          ((GetNodes hashFunc ring s ring.nodes.length).1.foldl
            (fun r member => RemoveNode hashFunc r member) ring)
          (tbl.set s (GetNodes hashFunc ring s ring.nodes.length).1) s
          = some (GetNodes hashFunc ring s ring.nodes.length).1 := by
        simp [matchingLoop, GoMap.set]
      constructor
      · intro w hw
        have hws : w = s := by simpa using hw
        subst hws
        refine ⟨_, hval, ?_⟩
        simp only [List.getLast?_singleton, if_true]
        rw [hlenms]
        omega
      · intro u hu
        exact ⟨s, by simp, _, hval, hmsall u hu⟩
    · have hpos : 0 < rest.length := List.length_pos.mpr hrest
      have hi : ¬ (i = m - 1 ∧ n > m) := by
        rintro ⟨h1, _⟩; omega
      simp only [hi, if_false]
      have hge : 1 * b ≤ rest.length * b := Nat.mul_le_mul_right _ hpos
      have hlenms := GetNodes_length hashFunc ring hinv hcol s b hb (by omega)
      obtain ⟨hinv', hnodes'⟩ :=
        removeNodes_spec hashFunc (GetNodes hashFunc ring s b).1 ring hinv
      have hsub : ∀ x ∈ (GetNodes hashFunc ring s b).1, x ∈ ring.nodes :=
        fun x hx => GetNodes_subset hashFunc ring hinv s _ x hx
      have hlen' := length_filter_not_mem ring.nodes _ hinv.nodup
        (GetNodes_nodup hashFunc ring s b) hsub
      rw [← hnodes', hlenms] at hlen'
      have hcol' : NoCollision hashFunc ((GetNodes hashFunc ring s b).1.foldl
          (fun r member => RemoveNode hashFunc r member) ring).nodes := by
        apply NoCollision_mono hashFunc ring.nodes _ _ hcol
        intro x hx
        rw [hnodes'] at hx
        exact (List.mem_filter.mp hx).1
      have hexp1 : (i + 1) * b = i * b + b := by ring
      obtain ⟨ih1, ih2⟩ := ih (i + 1) _ (tbl.set s (GetNodes hashFunc ring s b).1)
        hrest hnd' (by omega) hinv' hcol' (by rw [hlen', hexp1]; omega)
      have hlast : (s :: rest).getLast? = rest.getLast? := by
        cases rest with
        | nil => exact absurd rfl hrest
        | cons c tl => simp [List.getLast?_cons_cons]
      have hown : matchingLoop hashFunc m n rest (i + 1) b
          ((GetNodes hashFunc ring s b).1.foldl
            (fun r member => RemoveNode hashFunc r member) ring)
          (tbl.set s (GetNodes hashFunc ring s b).1) s
          = some (GetNodes hashFunc ring s b).1 := by
        rw [matchingLoop_not_mem hashFunc m n rest _ _ _ _ s hs]
        simp [GoMap.set]
      constructor
      · intro w hw
        by_cases hwr : w ∈ rest
        · rw [hlast]; exact ih1 w hwr
        · have hws : w = s := by simpa [hwr] using hw
          subst hws
          refine ⟨_, hown, ?_⟩
          rw [hlenms, hlast]
          have : rest.getLast? ≠ some w := by
            intro hl
            exact hwr (List.mem_of_getLast?_eq_some hl)
          simp [this]
      · intro u hu
        by_cases hums : u ∈ (GetNodes hashFunc ring s b).1
        · exact ⟨s, by simp, _, hown, hums⟩
        · have hu' : u ∈ ((GetNodes hashFunc ring s b).1.foldl
              (fun r member => RemoveNode hashFunc r member) ring).nodes := by
            rw [hnodes']
            exact List.mem_filter.mpr ⟨hu, by simpa using hums⟩
          obtain ⟨w, hw, a, ha, hua⟩ := ih2 u hu'
          exact ⟨w, List.mem_cons_of_mem _ hw, a, ha, hua⟩

end Counting

end Main
namespace Main

section Surplus

variable {K : Type} [LinearOrder K]

/-- With quota 1 and a ring that has a node, `GetNodes` returns exactly one
node, whatever the hash function. -/
theorem GetNodes_length_one (hashFunc : String → K) (h : HashRing K)
    (hinv : RingInv hashFunc h) (s : String) (hne : h.nodes ≠ []) :
    (GetNodes hashFunc h s 1).1.length = 1 := by
  have hring := ring_eq hashFunc h hinv
  obtain ⟨n0, hn0⟩ := List.exists_mem_of_ne_nil _ hne
  have hkey : (hashFunc (n0 ++ "-" ++ toString 0), n0) ∈ h.ring := by
    rw [hring, mem_circleEntries]
    refine ⟨hn0, 0, ?_, rfl⟩
    rw [hinv.weights_eq n0]; simp [hn0]
  have hr0 : ¬ (h.ring.length = 0) := by
    intro he
    rw [List.length_eq_zero] at he
    rw [he] at hkey
    simp at hkey
  have hs : ¬ (1 > h.nodes.length) := by
    have := List.length_pos.mpr hne
    omega
  rw [GetNodes_fst]
  simp only [hr0, hs, if_false]
  apply getNodesLoop_length _ _ _ _ List.nodup_nil (by simp)
  simp only [List.nil_append]
  rw [Nat.succ_le_iff, Finset.card_pos]
  refine ⟨ringGet h.ring (hashFunc (n0 ++ "-" ++ toString 0)), ?_⟩
  rw [List.mem_toFinset, List.mem_map]
  refine ⟨hashFunc (n0 ++ "-" ++ toString 0), ?_, rfl⟩
  rw [mem_drop_take, mem_sortedKeys hashFunc h hinv]
  exact List.mem_map.mpr ⟨_, hkey, rfl⟩

/-- The loop on the branch `len(services) >= len(ringMembers)` (quota 1),
whatever the hash function: the services met while the ring still has nodes
take one unit each, the later ones get the empty slice, and when there are at
least as many services as nodes every node of the ring is taken. -/
theorem matchingLoop_surplus (hashFunc : String → K) (m n : Nat) (hmn : ¬ (n > m)) :
    ∀ (rest : List String) (i : Nat) (ring : HashRing K) (tbl : GoMap (List String)),
      rest.Nodup → RingInv hashFunc ring →
      (∀ w ∈ rest.take ring.nodes.length,
          ∃ a, matchingLoop hashFunc m n rest i 1 ring tbl w = some a ∧ a.length = 1) ∧
      (∀ w ∈ rest.drop ring.nodes.length,
          matchingLoop hashFunc m n rest i 1 ring tbl w = some []) ∧
      (ring.nodes.length ≤ rest.length → ∀ u ∈ ring.nodes, ∃ w ∈ rest, ∃ a,
          matchingLoop hashFunc m n rest i 1 ring tbl w = some a ∧ u ∈ a) := by
  intro rest
  induction rest with
  | nil =>
    intro i ring tbl _ _
    refine ⟨by simp, by simp, ?_⟩
    intro hle u hu
    simp only [List.length_nil, Nat.le_zero, List.length_eq_zero] at hle
    rw [hle] at hu
    simp at hu
  | cons s rest ih =>
    intro i ring tbl hnd hinv
    rw [List.nodup_cons] at hnd
    obtain ⟨hs, hnd'⟩ := hnd
    rw [matchingLoop_cons]
    have hi : ¬ (i = m - 1 ∧ n > m) := fun h => hmn h.2
    simp only [hi, if_false]
    obtain ⟨hinv', hnodes'⟩ :=
      removeNodes_spec hashFunc (GetNodes hashFunc ring s 1).1 ring hinv
    have hown : matchingLoop hashFunc m n rest (i + 1) 1
        ((GetNodes hashFunc ring s 1).1.foldl
          (fun r member => RemoveNode hashFunc r member) ring)
        (tbl.set s (GetNodes hashFunc ring s 1).1) s
        = some (GetNodes hashFunc ring s 1).1 := by
      rw [matchingLoop_not_mem hashFunc m n rest _ _ _ _ s hs]
      simp [GoMap.set]
    obtain ⟨ih1, ih2, ih3⟩ := ih (i + 1) _ (tbl.set s (GetNodes hashFunc ring s 1).1)
      hnd' hinv'
    have hsub : ∀ x ∈ (GetNodes hashFunc ring s 1).1, x ∈ ring.nodes :=
      fun x hx => GetNodes_subset hashFunc ring hinv s _ x hx
    have hlen' := length_filter_not_mem ring.nodes _ hinv.nodup
      (GetNodes_nodup hashFunc ring s 1) hsub
    rw [← hnodes'] at hlen'
    by_cases hN : ring.nodes.length = 0
    · have hempty := GetNodes_empty hashFunc ring hinv s 1 (List.length_eq_zero.mp hN)
      rw [hempty] at hlen' hown ih1 ih2 ⊢
      simp only [List.length_nil, Nat.sub_zero] at hlen'
      rw [hlen', hN] at ih2
      rw [hN]
      refine ⟨?_, ?_, ?_⟩
      · intro w hw; simp at hw
      · intro w hw
        simp only [List.drop_zero, List.mem_cons] at hw
        by_cases hwr : w ∈ rest
        · exact ih2 w (by simpa using hwr)
        · have hws : w = s := by simpa [hwr] using hw
          subst hws
          exact hown
      · intro _ u hu
        rw [List.length_eq_zero.mp hN] at hu
        simp at hu
    · have hlenms := GetNodes_length_one hashFunc ring hinv s
        (fun he => hN (by rw [he]; rfl))
      rw [hlenms] at hlen'
      have hmem' : ∀ u ∈ ring.nodes, u ∉ (GetNodes hashFunc ring s 1).1 →
          u ∈ ((GetNodes hashFunc ring s 1).1.foldl
            (fun r member => RemoveNode hashFunc r member) ring).nodes := by
        intro u hu hnot
        rw [hnodes']
        exact List.mem_filter.mpr ⟨hu, by simpa using hnot⟩
      rw [hlen'] at ih1 ih2 ih3
      obtain ⟨N, hNeq⟩ : ∃ N, ring.nodes.length = N + 1 := ⟨ring.nodes.length - 1, by omega⟩
      rw [hNeq] at ih1 ih2 ih3 ⊢
      simp only [Nat.add_sub_cancel] at ih1 ih2 ih3
      refine ⟨?_, ?_, ?_⟩
      · intro w hw
        simp only [List.take_succ_cons, List.mem_cons] at hw
        by_cases hwr : w ∈ rest.take N
        · exact ih1 w hwr
        · have hws : w = s := by simpa [hwr] using hw
          subst hws
          exact ⟨_, hown, hlenms⟩
      · intro w hw
        simp only [List.drop_succ_cons] at hw
        exact ih2 w hw
      · intro hle u hu
        simp only [List.length_cons] at hle
        by_cases hum : u ∈ (GetNodes hashFunc ring s 1).1
        · exact ⟨s, by simp, _, hown, hum⟩
        · obtain ⟨w, hw, a, ha, hua⟩ := ih3 (by omega) u (hmem' u hu hum)
          exact ⟨w, List.mem_cons_of_mem _ hw, a, ha, hua⟩

end Surplus

end Main
namespace Main

section SortLemmas

instance strLe.isTotal : IsTotal String strLe := ⟨fun a b => le_total a.data b.data⟩

instance strLe.isTrans : IsTrans String strLe :=
  ⟨fun a b c h1 h2 => @le_trans (List Char) _ a.data b.data c.data h1 h2⟩

instance strLe.isAntisymm : IsAntisymm String strLe :=
  ⟨fun _ _ h1 h2 => String.ext (le_antisymm h1 h2)⟩

theorem sortStrings_perm (l : List String) : (sortStrings l).Perm l :=
  List.perm_insertionSort strLe l

theorem sortStrings_sorted (l : List String) : (sortStrings l).Sorted strLe :=
  List.sorted_insertionSort strLe l

theorem sortStrings_eq_of_perm (l l' : List String) (h : l.Perm l') :
    sortStrings l = sortStrings l' :=
  List.eq_of_perm_of_sorted
    (((sortStrings_perm l).trans h).trans (sortStrings_perm l').symm)
    (sortStrings_sorted l) (sortStrings_sorted l')

theorem mem_sortStrings (l : List String) (x : String) : x ∈ sortStrings l ↔ x ∈ l :=
  (sortStrings_perm l).mem_iff

theorem length_sortStrings (l : List String) : (sortStrings l).length = l.length :=
  (sortStrings_perm l).length_eq

theorem nodup_sortStrings (l : List String) (h : l.Nodup) : (sortStrings l).Nodup :=
  (sortStrings_perm l).nodup_iff.mpr h

end SortLemmas

section TableLemmas

variable {K : Type} [LinearOrder K]

theorem matchingTable_eq (hashFunc : String → K) (services ringMembers : List String) :
    matchingTable hashFunc services ringMembers =
      matchingLoop hashFunc services.length ringMembers.length (sortStrings services) 0
        (if ringMembers.length / services.length < 1 then 1
          else ringMembers.length / services.length)
        (buildRing hashFunc ringMembers) GoMap.empty := rfl

theorem matchingTable_isSome (hashFunc : String → K) (services ringMembers : List String)
    (w : String) : (matchingTable hashFunc services ringMembers w).isSome ↔ w ∈ services := by
  rw [matchingTable_eq]
  by_cases hw : w ∈ services
  · obtain ⟨a, ha, _⟩ := matchingLoop_mem hashFunc services.length ringMembers.length
      (sortStrings services) 0 (if ringMembers.length / services.length < 1 then 1
          else ringMembers.length / services.length) _ GoMap.empty
      (buildRing_inv hashFunc ringMembers) w ((mem_sortStrings services w).mpr hw)
    rw [ha]; simp [hw]
  · rw [matchingLoop_not_mem hashFunc _ _ _ _ _ _ _ w
      (fun h => hw ((mem_sortStrings services w).mp h))]
    simp [GoMap.empty, hw]

theorem matchingTable_sub (hashFunc : String → K) (services ringMembers : List String)
    (w : String) (a : List String) (h : matchingTable hashFunc services ringMembers w = some a) :
    a.Nodup ∧ ∀ u ∈ a, u ∈ ringMembers := by
  have hw : w ∈ services := by
    rw [← matchingTable_isSome hashFunc services ringMembers w, h]; rfl
  rw [matchingTable_eq] at h
  obtain ⟨a', ha', hnd, hsub⟩ := matchingLoop_mem hashFunc services.length ringMembers.length
    (sortStrings services) 0 _ _ GoMap.empty (buildRing_inv hashFunc ringMembers) w
    ((mem_sortStrings services w).mpr hw)
  rw [h] at ha'
  cases ha'
  exact ⟨hnd, fun u hu => (mem_buildRing_nodes hashFunc ringMembers u).mp (hsub u hu)⟩

theorem matchingTable_disjoint (hashFunc : String → K) (services ringMembers : List String)
    (w₁ w₂ : String) (a₁ a₂ : List String) (hne : w₁ ≠ w₂)
    (h₁ : matchingTable hashFunc services ringMembers w₁ = some a₁)
    (h₂ : matchingTable hashFunc services ringMembers w₂ = some a₂) :
    ∀ u ∈ a₁, u ∉ a₂ := by
  have hw₁ : w₁ ∈ services := by
    rw [← matchingTable_isSome hashFunc services ringMembers w₁, h₁]; rfl
  have hw₂ : w₂ ∈ services := by
    rw [← matchingTable_isSome hashFunc services ringMembers w₂, h₂]; rfl
  rw [matchingTable_eq] at h₁ h₂
  exact matchingLoop_disjoint hashFunc _ _ _ _ _ _ _ (buildRing_inv hashFunc ringMembers)
    w₁ ((mem_sortStrings services w₁).mpr hw₁) w₂ ((mem_sortStrings services w₂).mpr hw₂)
    hne a₁ a₂ h₁ h₂

/-- The state after a `PutToMatchingTable` whose `SetMap` call is answered. -/
theorem PutToMatchingTable_ok (hashFunc : String → K) (d : Distributor)
    (services ringMembers : List String) (hne : services ≠ [])
    (hf : d.Storage.faults 0 = false) :
    (d.PutToMatchingTable hashFunc services ringMembers).1 = none ∧
    ∀ w, (d.PutToMatchingTable hashFunc services ringMembers).2.Storage.HashTable
        d.distributionNamespace w =
      match matchingTable hashFunc services ringMembers w with
      | some a => some (Join a ",")
      | none => d.Storage.HashTable d.distributionNamespace w := by
  have hl : ¬ (services.length = 0) := by
    rw [List.length_eq_zero]; exact hne
  unfold Distributor.PutToMatchingTable Storage.SetMap
  simp only [hl, hf, if_false, Bool.false_eq_true, Storage.next, Storage.writeFields]
  refine ⟨trivial, ?_⟩
  intro w
  simp only [if_true]
  cases matchingTable hashFunc services ringMembers w <;> rfl

theorem PutToMatchingTable_none (hashFunc : String → K) (d : Distributor)
    (services ringMembers : List String)
    (h : (d.PutToMatchingTable hashFunc services ringMembers).1 = none) :
    services ≠ [] ∧ d.Storage.faults 0 = false := by
  unfold Distributor.PutToMatchingTable Storage.SetMap at h
  by_cases hl : services.length = 0
  · simp [hl] at h
  · refine ⟨fun he => hl (by simp [he]), ?_⟩
    by_cases hf : d.Storage.faults 0 = true
    · simp [hl, hf] at h
    · simpa using hf

end TableLemmas

end Main
namespace Main

section RingCongr

variable {K : Type} [LinearOrder K]

theorem getNodesLoop_congr (ring ring' : List (K × String)) (size : Nat) :
    ∀ (keys : List K) (acc : List String),
      (∀ k ∈ keys, ringGet ring k = ringGet ring' k) →
      getNodesLoop ring size keys acc = getNodesLoop ring' size keys acc := by
  intro keys
  induction keys with
  | nil => intro acc _; rfl
  | cons key rest ih =>
    intro acc h
    rw [getNodesLoop_cons, getNodesLoop_cons, h key (by simp),
      ih _ (fun k hk => h k (List.mem_cons_of_mem _ hk))]

theorem circleEntries_eq (hashFunc : String → K) (h : HashRing K) (hinv : RingInv hashFunc h) :
    h.ring = h.nodes.flatMap fun node =>
      (nodeKeys hashFunc node 50).map fun key => (key, node) := by
  rw [ring_eq hashFunc h hinv]
  unfold circleEntries
  apply List.flatMap_congr
  intro n hn
  rw [hinv.weights_eq n]
  simp [hn]

/-- Two rings over the same nodes, listed in different orders, answer every
`GetNodes` query alike when the hash has no collision on their ring keys. -/
theorem GetNodes_congr (hashFunc : String → K) (h h' : HashRing K)
    (hinv : RingInv hashFunc h) (hinv' : RingInv hashFunc h')
    (hperm : h.nodes.Perm h'.nodes) (hcol : NoCollision hashFunc h.nodes)
    (s : String) (size : Nat) :
    (GetNodes hashFunc h s size).1 = (GetNodes hashFunc h' s size).1 := by
  have hring : h.ring.Perm h'.ring := by
    rw [circleEntries_eq hashFunc h hinv, circleEntries_eq hashFunc h' hinv']
    exact hperm.flatMap_right _
  have hkeys : h.sortedKeys = h'.sortedKeys := by
    have e1 : h.sortedKeys = (h.ring.map Prod.fst).insertionSort (· ≤ ·) := by
      conv_lhs => rw [hinv.circle]
      rw [ring_eq hashFunc h hinv]; rfl
    have e2 : h'.sortedKeys = (h'.ring.map Prod.fst).insertionSort (· ≤ ·) := by
      conv_lhs => rw [hinv'.circle]
      rw [ring_eq hashFunc h' hinv']; rfl
    rw [e1, e2]
    apply List.eq_of_perm_of_sorted (r := (· ≤ ·))
    · exact ((List.perm_insertionSort _ _).trans (hring.map _)).trans
        (List.perm_insertionSort _ _).symm
    · exact List.sorted_insertionSort _ _
    · exact List.sorted_insertionSort _ _
  have hlen : h.ring.length = h'.ring.length := hring.length_eq
  have hnl : h.nodes.length = h'.nodes.length := hperm.length_eq
  have hpos : GetNodePos hashFunc h s = GetNodePos hashFunc h' s := by
    unfold GetNodePos
    rw [hlen, hkeys]
  have huniq : ∀ k n n', (k, n) ∈ h.ring → (k, n') ∈ h.ring → n' = n := by
    intro k n n' hn hn'
    rw [ring_eq hashFunc h hinv, mem_circleEntries] at hn hn'
    obtain ⟨hm, j, hj, hk⟩ := hn
    obtain ⟨hm', j', hj', hk'⟩ := hn'
    rw [hinv.weights_eq n] at hj
    rw [hinv.weights_eq n'] at hj'
    simp only [hm, hm', if_true, Option.getD_some] at hj hj'
    exact hcol n' hm' n hm j' hj' j hj (hk'.symm.trans hk)
  have hget : ∀ k ∈ h.sortedKeys, ringGet h.ring k = ringGet h'.ring k := by
    intro k hk
    rw [mem_sortedKeys hashFunc h hinv] at hk
    obtain ⟨n, hn, heq⟩ := ringGet_mem h.ring k hk
    rw [heq]
    symm
    apply ringGet_unique _ _ _ (hring.mem_iff.mp hn)
    intro n' hn'
    exact huniq k n n' hn (hring.mem_iff.mpr hn')
  rw [GetNodes_fst, GetNodes_fst, hpos, hlen, hnl, ← hkeys]
  split
  · rfl
  · split
    · rfl
    · apply getNodesLoop_congr
      intro k hk
      rw [mem_drop_take] at hk
      exact hget k hk

theorem matchingLoop_congr (hashFunc : String → K) (m n : Nat) :
    ∀ (rest : List String) (i cnt : Nat) (h h' : HashRing K) (tbl : GoMap (List String)),
      RingInv hashFunc h → RingInv hashFunc h' → h.nodes.Perm h'.nodes →
      NoCollision hashFunc h.nodes →
      matchingLoop hashFunc m n rest i cnt h tbl = matchingLoop hashFunc m n rest i cnt h' tbl := by
  intro rest
  induction rest with
  | nil => intro i cnt h h' tbl _ _ _ _; rfl
  | cons s rest ih =>
    intro i cnt h h' tbl hinv hinv' hperm hcol
    rw [matchingLoop_cons, matchingLoop_cons]
    generalize (if i = m - 1 ∧ n > m then cnt + n % m else cnt) = q
    rw [← GetNodes_congr hashFunc h h' hinv hinv' hperm hcol s q]
    obtain ⟨i1, n1⟩ := removeNodes_spec hashFunc (GetNodes hashFunc h s q).1 h hinv
    obtain ⟨i2, n2⟩ := removeNodes_spec hashFunc (GetNodes hashFunc h s q).1 h' hinv'
    apply ih _ _ _ _ _ i1 i2
    · rw [n1, n2]; exact hperm.filter _
    · apply NoCollision_mono hashFunc h.nodes _ _ hcol
      intro x hx
      rw [n1] at hx
      exact (List.mem_filter.mp hx).1

theorem matchingTable_perm (hashFunc : String → K) (services services' : List String)
    (ringMembers ringMembers' : List String) (hs : services'.Perm services)
    (hu : ringMembers'.Perm ringMembers) (hcol : NoCollision hashFunc ringMembers) :
    matchingTable hashFunc services' ringMembers' = matchingTable hashFunc services ringMembers := by
  rw [matchingTable_eq, matchingTable_eq, hs.length_eq, hu.length_eq,
    sortStrings_eq_of_perm services' services hs]
  apply matchingLoop_congr hashFunc _ _ _ _ _ _ _ _ (buildRing_inv hashFunc ringMembers')
    (buildRing_inv hashFunc ringMembers)
  · rw [List.perm_ext_iff_of_nodup (buildRing_inv hashFunc ringMembers').nodup
      (buildRing_inv hashFunc ringMembers).nodup]
    intro a
    rw [mem_buildRing_nodes, mem_buildRing_nodes]
    exact hu.mem_iff
  · apply NoCollision_mono hashFunc ringMembers _ _ hcol
    intro x hx
    rw [mem_buildRing_nodes] at hx
    exact hu.mem_iff.mp hx

end RingCongr

end Main
namespace Main

section StorageLemmas

theorem Storage.next_eq (s : Storage) (h : NoFault s) : s.next = s := by
  cases s with
  | mk Lists HashTable faults =>
    simp only [Storage.next, Storage.mk.injEq, true_and]
    funext n
    have h1 : faults n = false := h n
    have h2 : faults (n + 1) = false := h (n + 1)
    rw [h1, h2]

theorem Storage.GetList_noFault (s : Storage) (key : String) (h : NoFault s) :
    s.GetList key = (.ok (s.Lists key), s) := by
  unfold Storage.GetList
  rw [Storage.next_eq s h, h 0]
  rfl

theorem Storage.SetMap_noFault (s : Storage) (key : String) (m : GoMap String) (h : NoFault s) :
    s.SetMap key m = (none, s.writeFields key m) := by
  unfold Storage.SetMap
  rw [Storage.next_eq s h, h 0]
  rfl

theorem Storage.DelFromMap_noFault (s : Storage) (mapname field : String) (h : NoFault s) :
    s.DelFromMap mapname field = (none, s.removeField mapname field) := by
  unfold Storage.DelFromMap
  rw [Storage.next_eq s h, h 0]
  rfl

theorem Storage.DelFromList_noFault (s : Storage) (listname item : String) (h : NoFault s) :
    s.DelFromList listname item = (none, s.removeItem listname item) := by
  unfold Storage.DelFromList
  rw [Storage.next_eq s h, h 0]
  rfl

theorem Distributor.Services_noFault (d : Distributor) (h : NoFault d.Storage) :
    d.Services = (.ok d.svcList, d) := by
  unfold Distributor.Services
  rw [Storage.GetList_noFault _ _ h]
  rfl

theorem Distributor.RingMembers_noFault (d : Distributor) (h : NoFault d.Storage) :
    d.RingMembers = (.ok d.unitList, d) := by
  unfold Distributor.RingMembers
  rw [Storage.GetList_noFault _ _ h]
  rfl

end StorageLemmas

section BalanceLemmas

variable {K : Type} [LinearOrder K]

theorem Distributor.PutToMatchingTable_noFault (hashFunc : String → K) (d : Distributor)
    (h : NoFault d.Storage) (hne : d.svcList ≠ []) :
    d.PutToMatchingTable hashFunc d.svcList d.unitList = (none, d.rebalanced hashFunc) := by
  unfold Distributor.PutToMatchingTable
  have hl : ¬ (d.svcList.length = 0) := by
    rw [List.length_eq_zero]; exact hne
  simp only [hl, if_false]
  rw [Storage.SetMap_noFault _ _ _ h]
  rfl

theorem Distributor.balance_eq (hashFunc : String → K) (d : Distributor)
    (h : NoFault d.Storage) :
    d.balance hashFunc =
      if d.unitList = [] then (some Error.unitsNotFound, d)
      else if d.svcList = [] then (some Error.noService, d)
      else (none, d.rebalanced hashFunc) := by
  unfold Distributor.balance
  rw [Distributor.RingMembers_noFault d h]
  simp only [List.length_eq_zero]
  by_cases hu : d.unitList = []
  · simp [hu]
  · simp only [hu, if_false]
    rw [Distributor.Services_noFault d h]
    simp only [List.length_eq_zero]
    by_cases hs : d.svcList = []
    · simp [hs]
    · simp only [hs, if_false]
      exact Distributor.PutToMatchingTable_noFault hashFunc d h hs

theorem Distributor.balance_ok (hashFunc : String → K) (d : Distributor)
    (h : NoFault d.Storage) (hu : d.unitList ≠ []) (hs : d.svcList ≠ []) :
    d.balance hashFunc = (none, d.rebalanced hashFunc) := by
  rw [Distributor.balance_eq hashFunc d h]
  simp [hu, hs]

theorem Distributor.table_rebalanced (hashFunc : String → K) (d : Distributor) (w : String) :
    (d.rebalanced hashFunc).table w =
      match matchingTable hashFunc d.svcList d.unitList w with
      | some a => some (Join a ",")
      | none => d.table w := by
  simp only [Distributor.rebalanced, Distributor.table, Storage.writeFields, if_true]
  cases matchingTable hashFunc d.svcList d.unitList w <;> rfl

theorem Distributor.table_rebalanced_isSome (hashFunc : String → K) (d : Distributor)
    (w : String) :
    ((d.rebalanced hashFunc).table w).isSome ↔ (d.table w).isSome ∨ w ∈ d.svcList := by
  rw [Distributor.table_rebalanced, ← matchingTable_isSome hashFunc d.svcList d.unitList w]
  cases matchingTable hashFunc d.svcList d.unitList w <;> simp

end BalanceLemmas

end Main
namespace Main

section StepLemmas

variable {K : Type} [LinearOrder K]

theorem includes_iff (source : List String) (item : String) :
    includes source item = true ↔ item ∈ source := by
  induction source with
  | nil => simp [includes]
  | cons s rest ih =>
    unfold includes
    by_cases h : s = item
    · simp [h]
    · simp only [h, if_false, ih, List.mem_cons]
      constructor
      · exact Or.inr
      · rintro (h' | h')
        · exact absurd h'.symm h
        · exact h'

theorem Distributor.balance_eq' (hashFunc : String → K) (d : Distributor)
    (h : NoFault d.Storage) :
    d.balance hashFunc =
      if d.balanceFails then (some d.balanceError, d) else (none, d.rebalanced hashFunc) := by
  rw [Distributor.balance_eq hashFunc d h]
  unfold Distributor.balanceFails Distributor.balanceError
  by_cases hu : d.unitList = []
  · simp [hu]
  · by_cases hs : d.svcList = []
    · simp [hu, hs]
    · simp [hu, hs]

theorem pruneServices_step (hashFunc : String → K) (S : List String) (x : String)
    (rest : List String) (d : Distributor) (h : NoFault d.Storage) :
    pruneServices hashFunc S (x :: rest) d =
      if x ∈ S then pruneServices hashFunc S rest d
      else if (d.dropService x).balanceFails then
        (some (d.dropService x).balanceError, d.dropService x)
      else pruneServices hashFunc S rest ((d.dropService x).rebalanced hashFunc) := by
  rw [pruneServices]
  by_cases hx : x ∈ S
  · have : includes S x = true := (includes_iff S x).mpr hx
    simp [this, hx]
  · have : includes S x = false := by
      rw [← Bool.not_eq_true, includes_iff]; exact hx
    simp only [this, Bool.not_false, if_true, hx, if_false]
    rw [Storage.DelFromMap_noFault _ _ _ h]
    simp only []
    change (match Distributor.balance hashFunc (d.dropService x) with
      | (some err, d) => (some err, d)
      | (none, d) => pruneServices hashFunc S rest d) = _
    rw [Distributor.balance_eq' hashFunc (d.dropService x) h]
    by_cases hf : (d.dropService x).balanceFails <;> simp only [hf, if_true, if_false]

theorem adoptService_eq (hashFunc : String → K) (d : Distributor) (w : String)
    (h : NoFault d.Storage) :
    adoptService hashFunc d w =
      if w ∈ d.serviceCache.services then d
      else if d.balanceFails then d
      else (d.rebalanced hashFunc).cacheService w := by
  unfold adoptService ServiceCache.exist
  by_cases hw : w ∈ d.serviceCache.services
  · simp [hw]
  · simp only [hw, decide_False, Bool.not_false, if_true, if_false]
    rw [Distributor.balance_eq' hashFunc d h]
    by_cases hf : d.balanceFails
    · simp only [hf, if_true]
    · simp only [hf, if_false]; rfl

theorem probeServices_step (hashFunc : String → K) (w : String) (rest : List String)
    (d : Distributor) (h : NoFault (adoptService hashFunc d w).Storage) :
    probeServices hashFunc (w :: rest) d =
      if (adoptService hashFunc d w).p w = true then
        probeServices hashFunc rest (adoptService hashFunc d w)
      else if ((adoptService hashFunc d w).evictService w).balanceFails then
        (some ((adoptService hashFunc d w).evictService w).balanceError,
          (adoptService hashFunc d w).evictService w)
      else probeServices hashFunc rest
        (((adoptService hashFunc d w).evictService w).rebalanced hashFunc) := by
  rw [probeServices]
  generalize adoptService hashFunc d w = d1 at h ⊢
  by_cases hp : d1.p w = true
  · simp [hp]
  · simp only [hp, if_false, Bool.false_eq_true]
    rw [Storage.DelFromList_noFault _ _ _ h]
    simp only []
    rw [Storage.DelFromMap_noFault (d1.Storage.removeItem d1.serviceNamespace w) _ _ h]
    simp only []
    change (match Distributor.balance hashFunc (d1.evictService w) with
      | (some err, d) => (some err, d)
      | (none, d) => probeServices hashFunc rest d) = _
    rw [Distributor.balance_eq' hashFunc (d1.evictService w) h]
    by_cases hf : (d1.evictService w).balanceFails <;> simp only [hf, if_true, if_false]

theorem pruneWorkUnits_step (hashFunc : String → K) (U : List String) (x : String)
    (rest : List String) (d : Distributor) (h : NoFault d.Storage) :
    pruneWorkUnits hashFunc U (x :: rest) d =
      if x ∈ U then pruneWorkUnits hashFunc U rest d
      else if (d.dropWorkUnit x).balanceFails then
        (some (d.dropWorkUnit x).balanceError, d.dropWorkUnit x)
      else pruneWorkUnits hashFunc U rest ((d.dropWorkUnit x).rebalanced hashFunc) := by
  rw [pruneWorkUnits]
  by_cases hx : x ∈ U
  · have : includes U x = true := (includes_iff U x).mpr hx
    simp [this, hx]
  · have : includes U x = false := by
      rw [← Bool.not_eq_true, includes_iff]; exact hx
    simp only [this, Bool.not_false, if_true, hx, if_false]
    rw [Storage.DelFromMap_noFault _ _ _ h]
    simp only []
    change (match Distributor.balance hashFunc (d.dropWorkUnit x) with
      | (some err, d) => (some err, d)
      | (none, d) => pruneWorkUnits hashFunc U rest d) = _
    rw [Distributor.balance_eq' hashFunc (d.dropWorkUnit x) h]
    by_cases hf : (d.dropWorkUnit x).balanceFails <;> simp only [hf, if_true, if_false]

theorem adoptWorkUnits_step (hashFunc : String → K) (u : String) (rest : List String)
    (d : Distributor) (h : NoFault d.Storage) :
    adoptWorkUnits hashFunc (u :: rest) d =
      if u ∈ d.workUnitsCache.workunits then adoptWorkUnits hashFunc rest d
      else if d.balanceFails then adoptWorkUnits hashFunc rest d
      else adoptWorkUnits hashFunc rest ((d.rebalanced hashFunc).cacheWorkUnit u) := by
  rw [adoptWorkUnits]
  unfold WorkUnitsCache.exist
  by_cases hu : u ∈ d.workUnitsCache.workunits
  · simp [hu]
  · simp only [hu, decide_False, Bool.not_false, if_true, if_false]
    rw [Distributor.balance_eq' hashFunc d h]
    by_cases hf : d.balanceFails
    · simp only [hf, if_true]
    · simp only [hf, if_false]; rfl

theorem LivenessCheck_eq (hashFunc : String → K) (d : Distributor) (h : NoFault d.Storage) :
    d.LivenessCheck hashFunc =
      match pruneServices hashFunc d.svcList d.serviceCache.services d with
      | (some err, d1) => (some err, d1)
      | (none, d1) =>
        match probeServices hashFunc d.svcList d1 with
        | (some err, d2) => (some err, d2)
        | (none, d2) =>
          match pruneWorkUnits hashFunc d.unitList d2.workUnitsCache.workunits d2 with
          | (some err, d3) => (some err, d3)
          | (none, d3) => (none, adoptWorkUnits hashFunc d.unitList d3) := by
  unfold Distributor.LivenessCheck
  rw [Distributor.Services_noFault d h]
  simp only []
  rw [Distributor.RingMembers_noFault d h]
  rfl

end StepLemmas

end Main
namespace Main

section RunLemmas

variable {K : Type} [LinearOrder K]

theorem NoFault_adoptService (hashFunc : String → K) (d : Distributor) (w : String)
    (h : NoFault d.Storage) : NoFault (adoptService hashFunc d w).Storage := by
  rw [adoptService_eq hashFunc d w h]
  split
  · exact h
  · split
    · exact h
    · exact h

theorem NoFault_probeStep (hashFunc : String → K) (d : Distributor) (w : String)
    (h : NoFault d.Storage) : NoFault (probeStep hashFunc d w).Storage := by
  unfold probeStep
  split
  · exact NoFault_adoptService hashFunc d w h
  · exact NoFault_adoptService hashFunc d w h

theorem NoFault_pruneServiceStep (hashFunc : String → K) (S : List String) (d : Distributor)
    (x : String) (h : NoFault d.Storage) :
    NoFault (pruneServiceStep hashFunc S d x).Storage := by
  unfold pruneServiceStep
  split
  · exact h
  · exact h

theorem NoFault_pruneUnitStep (hashFunc : String → K) (U : List String) (d : Distributor)
    (x : String) (h : NoFault d.Storage) :
    NoFault (pruneUnitStep hashFunc U d x).Storage := by
  unfold pruneUnitStep
  split
  · exact h
  · exact h

theorem NoFault_adoptUnitStep (hashFunc : String → K) (d : Distributor) (u : String)
    (h : NoFault d.Storage) : NoFault (adoptUnitStep hashFunc d u).Storage := by
  unfold adoptUnitStep
  split
  · exact h
  · split
    · exact h
    · exact h

theorem pruneServices_cons (hashFunc : String → K) (S : List String) (x : String)
    (rest : List String) (d : Distributor) (h : NoFault d.Storage) :
    pruneServices hashFunc S (x :: rest) d =
      if pruneServiceOk S d x then pruneServices hashFunc S rest (pruneServiceStep hashFunc S d x)
      else (some (d.dropService x).balanceError, d.dropService x) := by
  rw [pruneServices_step hashFunc S x rest d h]
  unfold pruneServiceOk pruneServiceStep
  by_cases hx : x ∈ S
  · simp [hx]
  · by_cases hf : (d.dropService x).balanceFails <;> simp [hx, hf]

theorem probeServices_cons (hashFunc : String → K) (w : String) (rest : List String)
    (d : Distributor) (h : NoFault d.Storage) :
    probeServices hashFunc (w :: rest) d =
      if probeOk hashFunc d w then probeServices hashFunc rest (probeStep hashFunc d w)
      else (some ((adoptService hashFunc d w).evictService w).balanceError,
        (adoptService hashFunc d w).evictService w) := by
  rw [probeServices_step hashFunc w rest d (NoFault_adoptService hashFunc d w h)]
  unfold probeOk probeStep
  by_cases hp : (adoptService hashFunc d w).p w = true
  · simp [hp]
  · by_cases hf : ((adoptService hashFunc d w).evictService w).balanceFails <;> simp [hp, hf]

theorem pruneWorkUnits_cons (hashFunc : String → K) (U : List String) (x : String)
    (rest : List String) (d : Distributor) (h : NoFault d.Storage) :
    pruneWorkUnits hashFunc U (x :: rest) d =
      if pruneUnitOk U d x then pruneWorkUnits hashFunc U rest (pruneUnitStep hashFunc U d x)
      else (some (d.dropWorkUnit x).balanceError, d.dropWorkUnit x) := by
  rw [pruneWorkUnits_step hashFunc U x rest d h]
  unfold pruneUnitOk pruneUnitStep
  by_cases hx : x ∈ U
  · simp [hx]
  · by_cases hf : (d.dropWorkUnit x).balanceFails <;> simp [hx, hf]

theorem adoptWorkUnits_cons (hashFunc : String → K) (u : String) (rest : List String)
    (d : Distributor) (h : NoFault d.Storage) :
    adoptWorkUnits hashFunc (u :: rest) d =
      adoptWorkUnits hashFunc rest (adoptUnitStep hashFunc d u) := by
  rw [adoptWorkUnits_step hashFunc u rest d h]
  unfold adoptUnitStep
  by_cases hu : u ∈ d.workUnitsCache.workunits
  · simp [hu]
  · by_cases hf : d.balanceFails <;> simp [hu, hf]

/-- Along a first loop that does not end the tick: an invariant `Q` kept by
every iteration stays, and a property `B x` kept by every iteration and
established by the iteration of the elements marked by `A` holds at the end. -/
theorem pruneServices_each (hashFunc : String → K) (S : List String) (M : String → Prop) (Q : Distributor → Prop)
    (A : String → Prop) (B : String → Distributor → Prop)
    (hQ : ∀ d w, M w → NoFault d.Storage → pruneServiceOk S d w → Q d → Q (pruneServiceStep hashFunc S d w))
    (hkeep : ∀ d w x, M w → NoFault d.Storage → pruneServiceOk S d w → Q d → (B x d ∨ (w = x ∧ A x)) →
      B x (pruneServiceStep hashFunc S d w)) :
    ∀ (rest : List String) (d : Distributor), (∀ w ∈ rest, M w) → NoFault d.Storage → Q d →
      (pruneServices hashFunc S rest d).1 = none →
      NoFault (pruneServices hashFunc S rest d).2.Storage ∧ Q (pruneServices hashFunc S rest d).2 ∧
      ∀ x, ((x ∈ rest ∧ A x) ∨ B x d) → B x (pruneServices hashFunc S rest d).2 := by
  intro rest
  induction rest with
  | nil =>
    intro d _ h hq _
    refine ⟨h, hq, ?_⟩
    rintro x (⟨hx, _⟩ | hb)
    · simp at hx
    · exact hb
  | cons w rest ih =>
    intro d hM h hq hnone
    have hMw : M w := hM w (List.mem_cons_self _ _)
    have hM' : ∀ v ∈ rest, M v := fun v hv => hM v (List.mem_cons_of_mem _ hv)
    rw [pruneServices_cons hashFunc S w rest d h] at hnone ⊢
    by_cases hok : pruneServiceOk S d w
    · simp only [hok, if_true] at hnone ⊢
      obtain ⟨h1, hq1, h2⟩ :=
        ih _ hM' (NoFault_pruneServiceStep hashFunc S d w h) (hQ d w hMw h hok hq) hnone
      refine ⟨h1, hq1, ?_⟩
      rintro x (⟨hx, ha⟩ | hb)
      · rcases List.mem_cons.mp hx with rfl | hx'
        · exact h2 x (Or.inr (hkeep d x x hMw h hok hq (Or.inr ⟨rfl, ha⟩)))
        · exact h2 x (Or.inl ⟨hx', ha⟩)
      · exact h2 x (Or.inr (hkeep d w x hMw h hok hq (Or.inl hb)))
    · simp [hok] at hnone

/-- A first loop does not end the tick when an invariant kept by its
iterations lets every iteration go on. -/
theorem pruneServices_none (hashFunc : String → K) (S : List String) (Q : Distributor → Prop)
    (hQ : ∀ d w, NoFault d.Storage → pruneServiceOk S d w → Q d → Q (pruneServiceStep hashFunc S d w))
    (hok : ∀ d w, NoFault d.Storage → Q d → pruneServiceOk S d w) :
    ∀ (rest : List String) (d : Distributor), NoFault d.Storage → Q d →
      (pruneServices hashFunc S rest d).1 = none := by
  intro rest
  induction rest with
  | nil => intro d _ _; rfl
  | cons w rest ih =>
    intro d h hq
    rw [pruneServices_cons hashFunc S w rest d h]
    simp only [hok d w h hq, if_true]
    exact ih _ (NoFault_pruneServiceStep hashFunc S d w h) (hQ d w h (hok d w h hq) hq)

/-- Along a second loop that does not end the tick: an invariant `Q` kept by
every iteration stays, and a property `B x` kept by every iteration and
established by the iteration of the elements marked by `A` holds at the end. -/
theorem probeServices_each (hashFunc : String → K) (M : String → Prop) (Q : Distributor → Prop)
    (A : String → Prop) (B : String → Distributor → Prop)
    (hQ : ∀ d w, M w → NoFault d.Storage → probeOk hashFunc d w → Q d → Q (probeStep hashFunc d w))
    (hkeep : ∀ d w x, M w → NoFault d.Storage → probeOk hashFunc d w → Q d → (B x d ∨ (w = x ∧ A x)) →
      B x (probeStep hashFunc d w)) :
    ∀ (rest : List String) (d : Distributor), (∀ w ∈ rest, M w) → NoFault d.Storage → Q d →
      (probeServices hashFunc rest d).1 = none →
      NoFault (probeServices hashFunc rest d).2.Storage ∧ Q (probeServices hashFunc rest d).2 ∧
      ∀ x, ((x ∈ rest ∧ A x) ∨ B x d) → B x (probeServices hashFunc rest d).2 := by
  intro rest
  induction rest with
  | nil =>
    intro d _ h hq _
    refine ⟨h, hq, ?_⟩
    rintro x (⟨hx, _⟩ | hb)
    · simp at hx
    · exact hb
  | cons w rest ih =>
    intro d hM h hq hnone
    have hMw : M w := hM w (List.mem_cons_self _ _)
    have hM' : ∀ v ∈ rest, M v := fun v hv => hM v (List.mem_cons_of_mem _ hv)
    rw [probeServices_cons hashFunc w rest d h] at hnone ⊢
    by_cases hok : probeOk hashFunc d w
    · simp only [hok, if_true] at hnone ⊢
      obtain ⟨h1, hq1, h2⟩ :=
        ih _ hM' (NoFault_probeStep hashFunc d w h) (hQ d w hMw h hok hq) hnone
      refine ⟨h1, hq1, ?_⟩
      rintro x (⟨hx, ha⟩ | hb)
      · rcases List.mem_cons.mp hx with rfl | hx'
        · exact h2 x (Or.inr (hkeep d x x hMw h hok hq (Or.inr ⟨rfl, ha⟩)))
        · exact h2 x (Or.inl ⟨hx', ha⟩)
      · exact h2 x (Or.inr (hkeep d w x hMw h hok hq (Or.inl hb)))
    · simp [hok] at hnone

/-- A second loop does not end the tick when an invariant kept by its
iterations lets every iteration go on. -/
theorem probeServices_none (hashFunc : String → K) (Q : Distributor → Prop)
    (hQ : ∀ d w, NoFault d.Storage → probeOk hashFunc d w → Q d → Q (probeStep hashFunc d w))
    (hok : ∀ d w, NoFault d.Storage → Q d → probeOk hashFunc d w) :
    ∀ (rest : List String) (d : Distributor), NoFault d.Storage → Q d →
      (probeServices hashFunc rest d).1 = none := by
  intro rest
  induction rest with
  | nil => intro d _ _; rfl
  | cons w rest ih =>
    intro d h hq
    rw [probeServices_cons hashFunc w rest d h]
    simp only [hok d w h hq, if_true]
    exact ih _ (NoFault_probeStep hashFunc d w h) (hQ d w h (hok d w h hq) hq)

/-- Along a third loop that does not end the tick: an invariant `Q` kept by
every iteration stays, and a property `B x` kept by every iteration and
established by the iteration of the elements marked by `A` holds at the end. -/
theorem pruneWorkUnits_each (hashFunc : String → K) (U : List String) (M : String → Prop) (Q : Distributor → Prop)
    (A : String → Prop) (B : String → Distributor → Prop)
    (hQ : ∀ d w, M w → NoFault d.Storage → pruneUnitOk U d w → Q d → Q (pruneUnitStep hashFunc U d w))
    (hkeep : ∀ d w x, M w → NoFault d.Storage → pruneUnitOk U d w → Q d → (B x d ∨ (w = x ∧ A x)) →
      B x (pruneUnitStep hashFunc U d w)) :
    ∀ (rest : List String) (d : Distributor), (∀ w ∈ rest, M w) → NoFault d.Storage → Q d →
      (pruneWorkUnits hashFunc U rest d).1 = none →
      NoFault (pruneWorkUnits hashFunc U rest d).2.Storage ∧ Q (pruneWorkUnits hashFunc U rest d).2 ∧
      ∀ x, ((x ∈ rest ∧ A x) ∨ B x d) → B x (pruneWorkUnits hashFunc U rest d).2 := by
  intro rest
  induction rest with
  | nil =>
    intro d _ h hq _
    refine ⟨h, hq, ?_⟩
    rintro x (⟨hx, _⟩ | hb)
    · simp at hx
    · exact hb
  | cons w rest ih =>
    intro d hM h hq hnone
    have hMw : M w := hM w (List.mem_cons_self _ _)
    have hM' : ∀ v ∈ rest, M v := fun v hv => hM v (List.mem_cons_of_mem _ hv)
    rw [pruneWorkUnits_cons hashFunc U w rest d h] at hnone ⊢
    by_cases hok : pruneUnitOk U d w
    · simp only [hok, if_true] at hnone ⊢
      obtain ⟨h1, hq1, h2⟩ :=
        ih _ hM' (NoFault_pruneUnitStep hashFunc U d w h) (hQ d w hMw h hok hq) hnone
      refine ⟨h1, hq1, ?_⟩
      rintro x (⟨hx, ha⟩ | hb)
      · rcases List.mem_cons.mp hx with rfl | hx'
        · exact h2 x (Or.inr (hkeep d x x hMw h hok hq (Or.inr ⟨rfl, ha⟩)))
        · exact h2 x (Or.inl ⟨hx', ha⟩)
      · exact h2 x (Or.inr (hkeep d w x hMw h hok hq (Or.inl hb)))
    · simp [hok] at hnone

/-- A third loop does not end the tick when an invariant kept by its
iterations lets every iteration go on. -/
theorem pruneWorkUnits_none (hashFunc : String → K) (U : List String) (Q : Distributor → Prop)
    (hQ : ∀ d w, NoFault d.Storage → pruneUnitOk U d w → Q d → Q (pruneUnitStep hashFunc U d w))
    (hok : ∀ d w, NoFault d.Storage → Q d → pruneUnitOk U d w) :
    ∀ (rest : List String) (d : Distributor), NoFault d.Storage → Q d →
      (pruneWorkUnits hashFunc U rest d).1 = none := by
  intro rest
  induction rest with
  | nil => intro d _ _; rfl
  | cons w rest ih =>
    intro d h hq
    rw [pruneWorkUnits_cons hashFunc U w rest d h]
    simp only [hok d w h hq, if_true]
    exact ih _ (NoFault_pruneUnitStep hashFunc U d w h) (hQ d w h (hok d w h hq) hq)

/-- Along the fourth loop, which never ends the tick: an invariant `Q` kept by
every iteration stays, and a property `B x` kept by every iteration and
established by the iteration of the elements marked by `A` holds at the end. -/
theorem adoptWorkUnits_each (hashFunc : String → K) (M : String → Prop) (Q : Distributor → Prop)
    (A : String → Prop) (B : String → Distributor → Prop)
    (hQ : ∀ d w, M w → NoFault d.Storage → Q d → Q (adoptUnitStep hashFunc d w))
    (hkeep : ∀ d w x, M w → NoFault d.Storage → Q d → (B x d ∨ (w = x ∧ A x)) →
      B x (adoptUnitStep hashFunc d w)) :
    ∀ (rest : List String) (d : Distributor), (∀ w ∈ rest, M w) → NoFault d.Storage → Q d →
      NoFault (adoptWorkUnits hashFunc rest d).Storage ∧ Q (adoptWorkUnits hashFunc rest d) ∧
      ∀ x, ((x ∈ rest ∧ A x) ∨ B x d) → B x (adoptWorkUnits hashFunc rest d) := by
  intro rest
  induction rest with
  | nil =>
    intro d _ h hq
    refine ⟨h, hq, ?_⟩
    rintro x (⟨hx, _⟩ | hb)
    · simp at hx
    · exact hb
  | cons w rest ih =>
    intro d hM h hq
    have hMw : M w := hM w (List.mem_cons_self _ _)
    have hM' : ∀ v ∈ rest, M v := fun v hv => hM v (List.mem_cons_of_mem _ hv)
    rw [adoptWorkUnits_cons hashFunc w rest d h]
    obtain ⟨h1, hq1, h2⟩ :=
      ih _ hM' (NoFault_adoptUnitStep hashFunc d w h) (hQ d w hMw h hq)
    refine ⟨h1, hq1, ?_⟩
    rintro x (⟨hx, ha⟩ | hb)
    · rcases List.mem_cons.mp hx with rfl | hx'
      · exact h2 x (Or.inr (hkeep d x x hMw h hq (Or.inr ⟨rfl, ha⟩)))
      · exact h2 x (Or.inl ⟨hx', ha⟩)
    · exact h2 x (Or.inr (hkeep d w x hMw h hq (Or.inl hb)))

end RunLemmas

end Main
namespace Main

section Projections

variable {K : Type} [LinearOrder K]

@[simp]
theorem Distributor.rebalanced_p (hashFunc : String → K) (d : Distributor) :
    (d.rebalanced hashFunc).p = d.p := by
  simp [Distributor.rebalanced, Distributor.svcList, Distributor.unitList, Distributor.table,
    Storage.writeFields, Storage.removeField, Storage.removeItem]

@[simp]
theorem Distributor.rebalanced_ringMembers (hashFunc : String → K) (d : Distributor) :
    (d.rebalanced hashFunc).ringMembers = d.ringMembers := by
  simp [Distributor.rebalanced, Distributor.svcList, Distributor.unitList, Distributor.table,
    Storage.writeFields, Storage.removeField, Storage.removeItem]

@[simp]
theorem Distributor.rebalanced_serviceNamespace (hashFunc : String → K) (d : Distributor) :
    (d.rebalanced hashFunc).serviceNamespace = d.serviceNamespace := by
  simp [Distributor.rebalanced, Distributor.svcList, Distributor.unitList, Distributor.table,
    Storage.writeFields, Storage.removeField, Storage.removeItem]

@[simp]
theorem Distributor.rebalanced_distributionNamespace (hashFunc : String → K) (d : Distributor) :
    (d.rebalanced hashFunc).distributionNamespace = d.distributionNamespace := by
  simp [Distributor.rebalanced, Distributor.svcList, Distributor.unitList, Distributor.table,
    Storage.writeFields, Storage.removeField, Storage.removeItem]

@[simp]
theorem Distributor.rebalanced_svcList (hashFunc : String → K) (d : Distributor) :
    (d.rebalanced hashFunc).svcList = d.svcList := by
  simp [Distributor.rebalanced, Distributor.svcList, Distributor.unitList, Distributor.table,
    Storage.writeFields, Storage.removeField, Storage.removeItem]

@[simp]
theorem Distributor.rebalanced_unitList (hashFunc : String → K) (d : Distributor) :
    (d.rebalanced hashFunc).unitList = d.unitList := by
  simp [Distributor.rebalanced, Distributor.svcList, Distributor.unitList, Distributor.table,
    Storage.writeFields, Storage.removeField, Storage.removeItem]

@[simp]
theorem Distributor.rebalanced_serviceCache (hashFunc : String → K) (d : Distributor) :
    (d.rebalanced hashFunc).serviceCache = d.serviceCache := by
  simp [Distributor.rebalanced, Distributor.svcList, Distributor.unitList, Distributor.table,
    Storage.writeFields, Storage.removeField, Storage.removeItem]

@[simp]
theorem Distributor.rebalanced_workUnitsCache (hashFunc : String → K) (d : Distributor) :
    (d.rebalanced hashFunc).workUnitsCache = d.workUnitsCache := by
  simp [Distributor.rebalanced, Distributor.svcList, Distributor.unitList, Distributor.table,
    Storage.writeFields, Storage.removeField, Storage.removeItem]

@[simp]
theorem Distributor.rebalanced_transport (hashFunc : String → K) (d : Distributor) :
    (d.rebalanced hashFunc).transport = d.transport := by
  simp [Distributor.rebalanced, Distributor.svcList, Distributor.unitList, Distributor.table,
    Storage.writeFields, Storage.removeField, Storage.removeItem]

omit [LinearOrder K] in
@[simp]
theorem Distributor.dropService_p (x : String) (d : Distributor) :
    (d.dropService x).p = d.p := by
  simp [Distributor.dropService, Distributor.svcList, Distributor.unitList, Distributor.table,
    Storage.writeFields, Storage.removeField, Storage.removeItem]

omit [LinearOrder K] in
@[simp]
theorem Distributor.dropService_ringMembers (x : String) (d : Distributor) :
    (d.dropService x).ringMembers = d.ringMembers := by
  simp [Distributor.dropService, Distributor.svcList, Distributor.unitList, Distributor.table,
    Storage.writeFields, Storage.removeField, Storage.removeItem]

omit [LinearOrder K] in
@[simp]
theorem Distributor.dropService_serviceNamespace (x : String) (d : Distributor) :
    (d.dropService x).serviceNamespace = d.serviceNamespace := by
  simp [Distributor.dropService, Distributor.svcList, Distributor.unitList, Distributor.table,
    Storage.writeFields, Storage.removeField, Storage.removeItem]

omit [LinearOrder K] in
@[simp]
theorem Distributor.dropService_distributionNamespace (x : String) (d : Distributor) :
    (d.dropService x).distributionNamespace = d.distributionNamespace := by
  simp [Distributor.dropService, Distributor.svcList, Distributor.unitList, Distributor.table,
    Storage.writeFields, Storage.removeField, Storage.removeItem]

omit [LinearOrder K] in
@[simp]
theorem Distributor.dropService_svcList (x : String) (d : Distributor) :
    (d.dropService x).svcList = d.svcList := by
  simp [Distributor.dropService, Distributor.svcList, Distributor.unitList, Distributor.table,
    Storage.writeFields, Storage.removeField, Storage.removeItem]

omit [LinearOrder K] in
@[simp]
theorem Distributor.dropService_unitList (x : String) (d : Distributor) :
    (d.dropService x).unitList = d.unitList := by
  simp [Distributor.dropService, Distributor.svcList, Distributor.unitList, Distributor.table,
    Storage.writeFields, Storage.removeField, Storage.removeItem]

omit [LinearOrder K] in
@[simp]
theorem Distributor.dropService_table (x : String) (d : Distributor) :
    (d.dropService x).table = d.table.delete x := by
  simp [Distributor.dropService, Distributor.svcList, Distributor.unitList, Distributor.table,
    Storage.writeFields, Storage.removeField, Storage.removeItem]

omit [LinearOrder K] in
@[simp]
theorem Distributor.dropService_serviceCache (x : String) (d : Distributor) :
    (d.dropService x).serviceCache = d.serviceCache.del x := by
  simp [Distributor.dropService, Distributor.svcList, Distributor.unitList, Distributor.table,
    Storage.writeFields, Storage.removeField, Storage.removeItem]

omit [LinearOrder K] in
@[simp]
theorem Distributor.dropService_workUnitsCache (x : String) (d : Distributor) :
    (d.dropService x).workUnitsCache = d.workUnitsCache := by
  simp [Distributor.dropService, Distributor.svcList, Distributor.unitList, Distributor.table,
    Storage.writeFields, Storage.removeField, Storage.removeItem]

omit [LinearOrder K] in
@[simp]
theorem Distributor.dropService_transport (x : String) (d : Distributor) :
    (d.dropService x).transport = d.transport := by
  simp [Distributor.dropService, Distributor.svcList, Distributor.unitList, Distributor.table,
    Storage.writeFields, Storage.removeField, Storage.removeItem]

omit [LinearOrder K] in
@[simp]
theorem Distributor.evictService_p (x : String) (d : Distributor) :
    (d.evictService x).p = d.p := by
  simp [Distributor.evictService, Distributor.svcList, Distributor.unitList, Distributor.table,
    Storage.writeFields, Storage.removeField, Storage.removeItem]

omit [LinearOrder K] in
@[simp]
theorem Distributor.evictService_ringMembers (x : String) (d : Distributor) :
    (d.evictService x).ringMembers = d.ringMembers := by
  simp [Distributor.evictService, Distributor.svcList, Distributor.unitList, Distributor.table,
    Storage.writeFields, Storage.removeField, Storage.removeItem]

omit [LinearOrder K] in
@[simp]
theorem Distributor.evictService_serviceNamespace (x : String) (d : Distributor) :
    (d.evictService x).serviceNamespace = d.serviceNamespace := by
  simp [Distributor.evictService, Distributor.svcList, Distributor.unitList, Distributor.table,
    Storage.writeFields, Storage.removeField, Storage.removeItem]

omit [LinearOrder K] in
@[simp]
theorem Distributor.evictService_distributionNamespace (x : String) (d : Distributor) :
    (d.evictService x).distributionNamespace = d.distributionNamespace := by
  simp [Distributor.evictService, Distributor.svcList, Distributor.unitList, Distributor.table,
    Storage.writeFields, Storage.removeField, Storage.removeItem]

omit [LinearOrder K] in
@[simp]
theorem Distributor.evictService_svcList (x : String) (d : Distributor) :
    (d.evictService x).svcList = d.svcList.filter (· ≠ x) := by
  simp [Distributor.evictService, Distributor.svcList, Distributor.unitList, Distributor.table,
    Storage.writeFields, Storage.removeField, Storage.removeItem]

omit [LinearOrder K] in
@[simp]
theorem Distributor.evictService_unitList (x : String) (d : Distributor) :
    (d.evictService x).unitList = if d.ringMembers = d.serviceNamespace then d.unitList.filter (· ≠ x) else d.unitList := by
  unfold Distributor.evictService Distributor.unitList Storage.removeField Storage.removeItem
  by_cases h : d.ringMembers = d.serviceNamespace
  · simp [h]
  · simp [h]

omit [LinearOrder K] in
@[simp]
theorem Distributor.evictService_table (x : String) (d : Distributor) :
    (d.evictService x).table = d.table.delete x := by
  simp [Distributor.evictService, Distributor.svcList, Distributor.unitList, Distributor.table,
    Storage.writeFields, Storage.removeField, Storage.removeItem]

omit [LinearOrder K] in
@[simp]
theorem Distributor.evictService_serviceCache (x : String) (d : Distributor) :
    (d.evictService x).serviceCache = d.serviceCache.del x := by
  simp [Distributor.evictService, Distributor.svcList, Distributor.unitList, Distributor.table,
    Storage.writeFields, Storage.removeField, Storage.removeItem]

omit [LinearOrder K] in
@[simp]
theorem Distributor.evictService_workUnitsCache (x : String) (d : Distributor) :
    (d.evictService x).workUnitsCache = d.workUnitsCache := by
  simp [Distributor.evictService, Distributor.svcList, Distributor.unitList, Distributor.table,
    Storage.writeFields, Storage.removeField, Storage.removeItem]

omit [LinearOrder K] in
@[simp]
theorem Distributor.evictService_transport (x : String) (d : Distributor) :
    (d.evictService x).transport = d.transport := by
  simp [Distributor.evictService, Distributor.svcList, Distributor.unitList, Distributor.table,
    Storage.writeFields, Storage.removeField, Storage.removeItem]

omit [LinearOrder K] in
@[simp]
theorem Distributor.dropWorkUnit_p (x : String) (d : Distributor) :
    (d.dropWorkUnit x).p = d.p := by
  simp [Distributor.dropWorkUnit, Distributor.svcList, Distributor.unitList, Distributor.table,
    Storage.writeFields, Storage.removeField, Storage.removeItem]

omit [LinearOrder K] in
@[simp]
theorem Distributor.dropWorkUnit_ringMembers (x : String) (d : Distributor) :
    (d.dropWorkUnit x).ringMembers = d.ringMembers := by
  simp [Distributor.dropWorkUnit, Distributor.svcList, Distributor.unitList, Distributor.table,
    Storage.writeFields, Storage.removeField, Storage.removeItem]

omit [LinearOrder K] in
@[simp]
theorem Distributor.dropWorkUnit_serviceNamespace (x : String) (d : Distributor) :
    (d.dropWorkUnit x).serviceNamespace = d.serviceNamespace := by
  simp [Distributor.dropWorkUnit, Distributor.svcList, Distributor.unitList, Distributor.table,
    Storage.writeFields, Storage.removeField, Storage.removeItem]

omit [LinearOrder K] in
@[simp]
theorem Distributor.dropWorkUnit_distributionNamespace (x : String) (d : Distributor) :
    (d.dropWorkUnit x).distributionNamespace = d.distributionNamespace := by
  simp [Distributor.dropWorkUnit, Distributor.svcList, Distributor.unitList, Distributor.table,
    Storage.writeFields, Storage.removeField, Storage.removeItem]

omit [LinearOrder K] in
@[simp]
theorem Distributor.dropWorkUnit_svcList (x : String) (d : Distributor) :
    (d.dropWorkUnit x).svcList = d.svcList := by
  simp [Distributor.dropWorkUnit, Distributor.svcList, Distributor.unitList, Distributor.table,
    Storage.writeFields, Storage.removeField, Storage.removeItem]

omit [LinearOrder K] in
@[simp]
theorem Distributor.dropWorkUnit_unitList (x : String) (d : Distributor) :
    (d.dropWorkUnit x).unitList = d.unitList := by
  simp [Distributor.dropWorkUnit, Distributor.svcList, Distributor.unitList, Distributor.table,
    Storage.writeFields, Storage.removeField, Storage.removeItem]

omit [LinearOrder K] in
@[simp]
theorem Distributor.dropWorkUnit_table (x : String) (d : Distributor) :
    (d.dropWorkUnit x).table = d.table.delete x := by
  simp [Distributor.dropWorkUnit, Distributor.svcList, Distributor.unitList, Distributor.table,
    Storage.writeFields, Storage.removeField, Storage.removeItem]

omit [LinearOrder K] in
@[simp]
theorem Distributor.dropWorkUnit_serviceCache (x : String) (d : Distributor) :
    (d.dropWorkUnit x).serviceCache = d.serviceCache := by
  simp [Distributor.dropWorkUnit, Distributor.svcList, Distributor.unitList, Distributor.table,
    Storage.writeFields, Storage.removeField, Storage.removeItem]

omit [LinearOrder K] in
@[simp]
theorem Distributor.dropWorkUnit_workUnitsCache (x : String) (d : Distributor) :
    (d.dropWorkUnit x).workUnitsCache = d.workUnitsCache.del x := by
  simp [Distributor.dropWorkUnit, Distributor.svcList, Distributor.unitList, Distributor.table,
    Storage.writeFields, Storage.removeField, Storage.removeItem]

omit [LinearOrder K] in
@[simp]
theorem Distributor.dropWorkUnit_transport (x : String) (d : Distributor) :
    (d.dropWorkUnit x).transport = d.transport := by
  simp [Distributor.dropWorkUnit, Distributor.svcList, Distributor.unitList, Distributor.table,
    Storage.writeFields, Storage.removeField, Storage.removeItem]

omit [LinearOrder K] in
@[simp]
theorem Distributor.cacheService_p (x : String) (d : Distributor) :
    (d.cacheService x).p = d.p := by
  simp [Distributor.cacheService, Distributor.svcList, Distributor.unitList, Distributor.table,
    Storage.writeFields, Storage.removeField, Storage.removeItem]

omit [LinearOrder K] in
@[simp]
theorem Distributor.cacheService_ringMembers (x : String) (d : Distributor) :
    (d.cacheService x).ringMembers = d.ringMembers := by
  simp [Distributor.cacheService, Distributor.svcList, Distributor.unitList, Distributor.table,
    Storage.writeFields, Storage.removeField, Storage.removeItem]

omit [LinearOrder K] in
@[simp]
theorem Distributor.cacheService_serviceNamespace (x : String) (d : Distributor) :
    (d.cacheService x).serviceNamespace = d.serviceNamespace := by
  simp [Distributor.cacheService, Distributor.svcList, Distributor.unitList, Distributor.table,
    Storage.writeFields, Storage.removeField, Storage.removeItem]

omit [LinearOrder K] in
@[simp]
theorem Distributor.cacheService_distributionNamespace (x : String) (d : Distributor) :
    (d.cacheService x).distributionNamespace = d.distributionNamespace := by
  simp [Distributor.cacheService, Distributor.svcList, Distributor.unitList, Distributor.table,
    Storage.writeFields, Storage.removeField, Storage.removeItem]

omit [LinearOrder K] in
@[simp]
theorem Distributor.cacheService_svcList (x : String) (d : Distributor) :
    (d.cacheService x).svcList = d.svcList := by
  simp [Distributor.cacheService, Distributor.svcList, Distributor.unitList, Distributor.table,
    Storage.writeFields, Storage.removeField, Storage.removeItem]

omit [LinearOrder K] in
@[simp]
theorem Distributor.cacheService_unitList (x : String) (d : Distributor) :
    (d.cacheService x).unitList = d.unitList := by
  simp [Distributor.cacheService, Distributor.svcList, Distributor.unitList, Distributor.table,
    Storage.writeFields, Storage.removeField, Storage.removeItem]

omit [LinearOrder K] in
@[simp]
theorem Distributor.cacheService_table (x : String) (d : Distributor) :
    (d.cacheService x).table = d.table := by
  simp [Distributor.cacheService, Distributor.svcList, Distributor.unitList, Distributor.table,
    Storage.writeFields, Storage.removeField, Storage.removeItem]

omit [LinearOrder K] in
@[simp]
theorem Distributor.cacheService_serviceCache (x : String) (d : Distributor) :
    (d.cacheService x).serviceCache = d.serviceCache.add x := by
  simp [Distributor.cacheService, Distributor.svcList, Distributor.unitList, Distributor.table,
    Storage.writeFields, Storage.removeField, Storage.removeItem]

omit [LinearOrder K] in
@[simp]
theorem Distributor.cacheService_workUnitsCache (x : String) (d : Distributor) :
    (d.cacheService x).workUnitsCache = d.workUnitsCache := by
  simp [Distributor.cacheService, Distributor.svcList, Distributor.unitList, Distributor.table,
    Storage.writeFields, Storage.removeField, Storage.removeItem]

omit [LinearOrder K] in
@[simp]
theorem Distributor.cacheService_transport (x : String) (d : Distributor) :
    (d.cacheService x).transport = d.transport := by
  simp [Distributor.cacheService, Distributor.svcList, Distributor.unitList, Distributor.table,
    Storage.writeFields, Storage.removeField, Storage.removeItem]

omit [LinearOrder K] in
@[simp]
theorem Distributor.cacheWorkUnit_p (x : String) (d : Distributor) :
    (d.cacheWorkUnit x).p = d.p := by
  simp [Distributor.cacheWorkUnit, Distributor.svcList, Distributor.unitList, Distributor.table,
    Storage.writeFields, Storage.removeField, Storage.removeItem]

omit [LinearOrder K] in
@[simp]
theorem Distributor.cacheWorkUnit_ringMembers (x : String) (d : Distributor) :
    (d.cacheWorkUnit x).ringMembers = d.ringMembers := by
  simp [Distributor.cacheWorkUnit, Distributor.svcList, Distributor.unitList, Distributor.table,
    Storage.writeFields, Storage.removeField, Storage.removeItem]

omit [LinearOrder K] in
@[simp]
theorem Distributor.cacheWorkUnit_serviceNamespace (x : String) (d : Distributor) :
    (d.cacheWorkUnit x).serviceNamespace = d.serviceNamespace := by
  simp [Distributor.cacheWorkUnit, Distributor.svcList, Distributor.unitList, Distributor.table,
    Storage.writeFields, Storage.removeField, Storage.removeItem]

omit [LinearOrder K] in
@[simp]
theorem Distributor.cacheWorkUnit_distributionNamespace (x : String) (d : Distributor) :
    (d.cacheWorkUnit x).distributionNamespace = d.distributionNamespace := by
  simp [Distributor.cacheWorkUnit, Distributor.svcList, Distributor.unitList, Distributor.table,
    Storage.writeFields, Storage.removeField, Storage.removeItem]

omit [LinearOrder K] in
@[simp]
theorem Distributor.cacheWorkUnit_svcList (x : String) (d : Distributor) :
    (d.cacheWorkUnit x).svcList = d.svcList := by
  simp [Distributor.cacheWorkUnit, Distributor.svcList, Distributor.unitList, Distributor.table,
    Storage.writeFields, Storage.removeField, Storage.removeItem]

omit [LinearOrder K] in
@[simp]
theorem Distributor.cacheWorkUnit_unitList (x : String) (d : Distributor) :
    (d.cacheWorkUnit x).unitList = d.unitList := by
  simp [Distributor.cacheWorkUnit, Distributor.svcList, Distributor.unitList, Distributor.table,
    Storage.writeFields, Storage.removeField, Storage.removeItem]

omit [LinearOrder K] in
@[simp]
theorem Distributor.cacheWorkUnit_table (x : String) (d : Distributor) :
    (d.cacheWorkUnit x).table = d.table := by
  simp [Distributor.cacheWorkUnit, Distributor.svcList, Distributor.unitList, Distributor.table,
    Storage.writeFields, Storage.removeField, Storage.removeItem]

omit [LinearOrder K] in
@[simp]
theorem Distributor.cacheWorkUnit_serviceCache (x : String) (d : Distributor) :
    (d.cacheWorkUnit x).serviceCache = d.serviceCache := by
  simp [Distributor.cacheWorkUnit, Distributor.svcList, Distributor.unitList, Distributor.table,
    Storage.writeFields, Storage.removeField, Storage.removeItem]

omit [LinearOrder K] in
@[simp]
theorem Distributor.cacheWorkUnit_workUnitsCache (x : String) (d : Distributor) :
    (d.cacheWorkUnit x).workUnitsCache = d.workUnitsCache.add x := by
  simp [Distributor.cacheWorkUnit, Distributor.svcList, Distributor.unitList, Distributor.table,
    Storage.writeFields, Storage.removeField, Storage.removeItem]

omit [LinearOrder K] in
@[simp]
theorem Distributor.cacheWorkUnit_transport (x : String) (d : Distributor) :
    (d.cacheWorkUnit x).transport = d.transport := by
  simp [Distributor.cacheWorkUnit, Distributor.svcList, Distributor.unitList, Distributor.table,
    Storage.writeFields, Storage.removeField, Storage.removeItem]

omit [LinearOrder K] in
theorem ServiceCache.mem_add (c : ServiceCache) (x y : String) :
    y ∈ (c.add x).services ↔ y = x ∨ y ∈ c.services := by
  unfold ServiceCache.add
  by_cases h : x ∈ c.services
  · simp only [h, if_true]
    constructor
    · exact Or.inr
    · rintro (rfl | h')
      · exact h
      · exact h'
  · simp only [h, if_false, List.mem_append, List.mem_singleton]
    tauto

omit [LinearOrder K] in
theorem ServiceCache.mem_del (c : ServiceCache) (x y : String) :
    y ∈ (c.del x).services ↔ y ≠ x ∧ y ∈ c.services := by
  simp [ServiceCache.del, List.mem_filter, and_comm]

omit [LinearOrder K] in
theorem WorkUnitsCache.mem_add_unit (c : WorkUnitsCache) (x y : String) :
    y ∈ (c.add x).workunits ↔ y = x ∨ y ∈ c.workunits := by
  unfold WorkUnitsCache.add
  by_cases h : x ∈ c.workunits
  · simp only [h, if_true]
    constructor
    · exact Or.inr
    · rintro (rfl | h')
      · exact h
      · exact h'
  · simp only [h, if_false, List.mem_append, List.mem_singleton]
    tauto

omit [LinearOrder K] in
theorem WorkUnitsCache.mem_del_unit (c : WorkUnitsCache) (x y : String) :
    y ∈ (c.del x).workunits ↔ y ≠ x ∧ y ∈ c.workunits := by
  simp [WorkUnitsCache.del, List.mem_filter, and_comm]

end Projections

end Main
namespace Main

section StableLemmas

variable {K : Type} [LinearOrder K]

theorem matchingTable_none (hashFunc : String → K) (services ringMembers : List String)
    (w : String) (hw : w ∉ services) : matchingTable hashFunc services ringMembers w = none := by
  have := matchingTable_isSome hashFunc services ringMembers w
  cases h : matchingTable hashFunc services ringMembers w with
  | none => rfl
  | some a =>
    rw [h] at this
    exact absurd (this.mp rfl) hw

theorem Stable.adoptService {hashFunc : String → K} {Q : Distributor → Prop}
    (hQ : Stable hashFunc Q) (d : Distributor) (w : String) (h : NoFault d.Storage)
    (hq : Q d) : Q (adoptService hashFunc d w) := by
  rw [adoptService_eq hashFunc d w h]
  split
  · exact hq
  · split
    · exact hq
    · exact hQ.cacheService _ _ (hQ.rebalanced _ hq)

theorem Stable.probeStep {hashFunc : String → K} {Q : Distributor → Prop}
    (hQ : Stable hashFunc Q) (d : Distributor) (w : String) (h : NoFault d.Storage)
    (hq : Q d) : Q (probeStep hashFunc d w) := by
  unfold Main.probeStep
  split
  · exact hQ.adoptService d w h hq
  · exact hQ.rebalanced _ (hQ.evictService _ _ (hQ.adoptService d w h hq))

theorem pruneServices_stable (hashFunc : String → K) (S : List String)
    (Q : Distributor → Prop) (hQ : Stable hashFunc Q) :
    ∀ (rest : List String) (d : Distributor), NoFault d.Storage → Q d →
      NoFault (pruneServices hashFunc S rest d).2.Storage ∧
      Q (pruneServices hashFunc S rest d).2 := by
  intro rest
  induction rest with
  | nil => intro d h hq; exact ⟨h, hq⟩
  | cons w rest ih =>
    intro d h hq
    rw [pruneServices_cons hashFunc S w rest d h]
    by_cases hok : pruneServiceOk S d w
    · simp only [hok, if_true]
      apply ih _ (NoFault_pruneServiceStep hashFunc S d w h)
      unfold pruneServiceStep
      split
      · exact hq
      · exact hQ.rebalanced _ (hQ.dropService _ _ hq)
    · simp only [hok, if_false]
      exact ⟨h, hQ.dropService _ _ hq⟩

theorem probeServices_stable (hashFunc : String → K)
    (Q : Distributor → Prop) (hQ : Stable hashFunc Q) :
    ∀ (rest : List String) (d : Distributor), NoFault d.Storage → Q d →
      NoFault (probeServices hashFunc rest d).2.Storage ∧
      Q (probeServices hashFunc rest d).2 := by
  intro rest
  induction rest with
  | nil => intro d h hq; exact ⟨h, hq⟩
  | cons w rest ih =>
    intro d h hq
    rw [probeServices_cons hashFunc w rest d h]
    by_cases hok : probeOk hashFunc d w
    · simp only [hok, if_true]
      exact ih _ (NoFault_probeStep hashFunc d w h) (hQ.probeStep d w h hq)
    · simp only [hok, if_false]
      exact ⟨NoFault_adoptService hashFunc d w h,
        hQ.evictService _ _ (hQ.adoptService d w h hq)⟩

theorem pruneWorkUnits_stable (hashFunc : String → K) (U : List String)
    (Q : Distributor → Prop) (hQ : Stable hashFunc Q) :
    ∀ (rest : List String) (d : Distributor), NoFault d.Storage → Q d →
      NoFault (pruneWorkUnits hashFunc U rest d).2.Storage ∧
      Q (pruneWorkUnits hashFunc U rest d).2 := by
  intro rest
  induction rest with
  | nil => intro d h hq; exact ⟨h, hq⟩
  | cons w rest ih =>
    intro d h hq
    rw [pruneWorkUnits_cons hashFunc U w rest d h]
    by_cases hok : pruneUnitOk U d w
    · simp only [hok, if_true]
      apply ih _ (NoFault_pruneUnitStep hashFunc U d w h)
      unfold pruneUnitStep
      split
      · exact hq
      · exact hQ.rebalanced _ (hQ.dropWorkUnit _ _ hq)
    · simp only [hok, if_false]
      exact ⟨h, hQ.dropWorkUnit _ _ hq⟩

theorem adoptWorkUnits_stable (hashFunc : String → K)
    (Q : Distributor → Prop) (hQ : Stable hashFunc Q) :
    ∀ (rest : List String) (d : Distributor), NoFault d.Storage → Q d →
      NoFault (adoptWorkUnits hashFunc rest d).Storage ∧
      Q (adoptWorkUnits hashFunc rest d) := by
  intro rest
  induction rest with
  | nil => intro d h hq; exact ⟨h, hq⟩
  | cons w rest ih =>
    intro d h hq
    rw [adoptWorkUnits_cons hashFunc w rest d h]
    apply ih _ (NoFault_adoptUnitStep hashFunc d w h)
    unfold adoptUnitStep
    split
    · exact hq
    · split
      · exact hq
      · exact hQ.cacheWorkUnit _ _ (hQ.rebalanced _ hq)

/-- What follows the first loop in a tick keeps every stable property. -/
theorem tickTail_stable (hashFunc : String → K) (Q : Distributor → Prop)
    (hQ : Stable hashFunc Q) (S U : List String) (d1 : Distributor) (h : NoFault d1.Storage)
    (hq : Q d1) :
    Q (match probeServices hashFunc S d1 with
      | (some err, d2) => (some err, d2)
      | (none, d2) =>
        match pruneWorkUnits hashFunc U d2.workUnitsCache.workunits d2 with
        | (some err, d3) => (some err, d3)
        | (none, d3) => (none, adoptWorkUnits hashFunc U d3)).2 := by
  obtain ⟨h2, q2⟩ := probeServices_stable hashFunc Q hQ S d1 h hq
  rcases hr2 : probeServices hashFunc S d1 with ⟨e2, d2⟩
  rw [hr2] at h2 q2
  cases e2 with
  | some err => exact q2
  | none =>
    simp only []
    obtain ⟨h3, q3⟩ := pruneWorkUnits_stable hashFunc U Q hQ d2.workUnitsCache.workunits d2 h2 q2
    rcases hr3 : pruneWorkUnits hashFunc U d2.workUnitsCache.workunits d2 with ⟨e3, d3⟩
    rw [hr3] at h3 q3
    cases e3 with
    | some err => exact q3
    | none => exact (adoptWorkUnits_stable hashFunc Q hQ U d3 h3 q3).2

theorem LivenessCheck_stable (hashFunc : String → K) (Q : Distributor → Prop)
    (hQ : Stable hashFunc Q) (d : Distributor) (h : NoFault d.Storage) (hq : Q d) :
    Q (d.LivenessCheck hashFunc).2 := by
  rw [LivenessCheck_eq hashFunc d h]
  obtain ⟨h1, q1⟩ := pruneServices_stable hashFunc d.svcList Q hQ d.serviceCache.services d h hq
  rcases hr1 : pruneServices hashFunc d.svcList d.serviceCache.services d with ⟨e1, d1⟩
  rw [hr1] at h1 q1
  cases e1 with
  | some err => exact q1
  | none => exact tickTail_stable hashFunc Q hQ d.svcList d.unitList d1 h1 q1

theorem Absent_stable (hashFunc : String → K) (w : String) :
    Stable hashFunc (fun d => d.Absent w) := by
  refine ⟨?_, ?_, ?_, ?_, ?_, ?_⟩
  · intro d hq
    refine ⟨by simpa using hq.1, ?_⟩
    rw [Distributor.table_rebalanced, matchingTable_none hashFunc _ _ w hq.1]
    exact hq.2
  · intro d x hq
    refine ⟨by simpa using hq.1, ?_⟩
    simp [GoMap.delete, hq.2]
  · intro d x hq
    refine ⟨?_, ?_⟩
    · simp only [Distributor.evictService_svcList, List.mem_filter, not_and]
      intro hmem
      exact absurd hmem hq.1
    · simp [GoMap.delete, hq.2]
  · intro d x hq
    refine ⟨by simpa using hq.1, ?_⟩
    simp [GoMap.delete, hq.2]
  · intro d x hq
    exact ⟨by simpa using hq.1, by simpa using hq.2⟩
  · intro d x hq
    exact ⟨by simpa using hq.1, by simpa using hq.2⟩

end StableLemmas

end Main
namespace Main

section HealthyLemmas

variable {K : Type} [LinearOrder K]

theorem Distributor.Healthy.not_fails {d : Distributor} (h : d.Healthy) : ¬ d.balanceFails := by
  unfold Distributor.balanceFails
  obtain ⟨hu, g, hg, _⟩ := h
  rintro (h1 | h1)
  · exact hu h1
  · rw [h1] at hg; simp at hg

theorem Distributor.Healthy.rebalanced (hashFunc : String → K) {d : Distributor}
    (h : d.Healthy) : (d.rebalanced hashFunc).Healthy := by
  simpa [Distributor.Healthy] using h

theorem Distributor.Healthy.dropService {d : Distributor} (h : d.Healthy) (x : String) :
    (d.dropService x).Healthy := by
  simpa [Distributor.Healthy] using h

theorem Distributor.Healthy.dropWorkUnit {d : Distributor} (h : d.Healthy) (x : String) :
    (d.dropWorkUnit x).Healthy := by
  simpa [Distributor.Healthy] using h

theorem Distributor.Healthy.cacheService {d : Distributor} (h : d.Healthy) (x : String) :
    (d.cacheService x).Healthy := by
  simpa [Distributor.Healthy] using h

theorem Distributor.Healthy.cacheWorkUnit {d : Distributor} (h : d.Healthy) (x : String) :
    (d.cacheWorkUnit x).Healthy := by
  simpa [Distributor.Healthy] using h

theorem Distributor.Healthy.evictService {d : Distributor} (h : d.Healthy) (x : String)
    (hx : d.p x = false) : (d.evictService x).Healthy := by
  obtain ⟨hu, g, hg, hpg⟩ := h
  have hgx : g ≠ x := by
    rintro rfl
    rw [hx] at hpg
    cases hpg
  have hg' : g ∈ d.svcList.filter (· ≠ x) := by
    simp [List.mem_filter, hg, hgx]
  refine ⟨?_, g, by simpa using hg', by simpa using hpg⟩
  rw [Distributor.evictService_unitList]
  split
  · rename_i hk
    have hul : d.unitList = d.svcList := by
      unfold Distributor.unitList Distributor.svcList
      rw [hk]
    rw [hul]
    intro he
    rw [he] at hg'
    simp at hg'
  · exact hu

theorem adoptService_healthy (hashFunc : String → K) (d : Distributor) (w : String)
    (h : NoFault d.Storage) (hh : d.Healthy) :
    adoptService hashFunc d w =
      if w ∈ d.serviceCache.services then d else (d.rebalanced hashFunc).cacheService w := by
  rw [adoptService_eq hashFunc d w h]
  simp [hh.not_fails]

theorem Healthy_adoptService (hashFunc : String → K) (d : Distributor) (w : String)
    (h : NoFault d.Storage) (hh : d.Healthy) : (adoptService hashFunc d w).Healthy := by
  rw [adoptService_healthy hashFunc d w h hh]
  split
  · exact hh
  · exact (hh.rebalanced hashFunc).cacheService w

theorem probeOk_healthy (hashFunc : String → K) (d : Distributor) (w : String)
    (h : NoFault d.Storage) (hh : d.Healthy) : probeOk hashFunc d w := by
  unfold probeOk
  by_cases hp : (adoptService hashFunc d w).p w = true
  · exact Or.inl hp
  · right
    exact ((Healthy_adoptService hashFunc d w h hh).evictService w (by simpa using hp)).not_fails

theorem Healthy_probeStep (hashFunc : String → K) (d : Distributor) (w : String)
    (h : NoFault d.Storage) (hh : d.Healthy) : (probeStep hashFunc d w).Healthy := by
  unfold probeStep
  by_cases hp : (adoptService hashFunc d w).p w = true
  · simp only [hp, if_true]
    exact Healthy_adoptService hashFunc d w h hh
  · simp only [hp, if_false]
    exact ((Healthy_adoptService hashFunc d w h hh).evictService w
      (by simpa using hp)).rebalanced hashFunc

theorem Healthy_pruneServiceStep (hashFunc : String → K) (S : List String) (d : Distributor)
    (w : String) (hh : d.Healthy) : (pruneServiceStep hashFunc S d w).Healthy := by
  unfold pruneServiceStep
  split
  · exact hh
  · exact (hh.dropService w).rebalanced hashFunc

theorem Healthy_pruneUnitStep (hashFunc : String → K) (U : List String) (d : Distributor)
    (w : String) (hh : d.Healthy) : (pruneUnitStep hashFunc U d w).Healthy := by
  unfold pruneUnitStep
  split
  · exact hh
  · exact (hh.dropWorkUnit w).rebalanced hashFunc

theorem adoptUnitStep_healthy (hashFunc : String → K) (d : Distributor) (u : String)
    (hh : d.Healthy) :
    adoptUnitStep hashFunc d u =
      if u ∈ d.workUnitsCache.workunits then d else (d.rebalanced hashFunc).cacheWorkUnit u := by
  unfold adoptUnitStep
  simp [hh.not_fails]

theorem Healthy_adoptUnitStep (hashFunc : String → K) (d : Distributor) (u : String)
    (hh : d.Healthy) : (adoptUnitStep hashFunc d u).Healthy := by
  rw [adoptUnitStep_healthy hashFunc d u hh]
  split
  · exact hh
  · exact (hh.rebalanced hashFunc).cacheWorkUnit u

theorem Distributor.Covered.of_rebalanced (hashFunc : String → K) (d : Distributor) :
    (d.rebalanced hashFunc).Covered := by
  intro x hx
  rw [Distributor.table_rebalanced_isSome]
  right
  simpa using hx

theorem Tight_stable (hashFunc : String → K) : Stable hashFunc Distributor.Tight := by
  refine ⟨?_, ?_, ?_, ?_, ?_, ?_⟩
  · intro d hq x hx
    rw [Distributor.table_rebalanced_isSome] at hx
    rcases hx with hx | hx
    · simpa using hq x hx
    · simpa using hx
  · intro d y hq x hx
    have : (d.table x).isSome = true := by
      simp only [Distributor.dropService_table, GoMap.delete] at hx
      split at hx
      · cases hx
      · exact hx
    simpa using hq x this
  · intro d y hq x hx
    simp only [Distributor.evictService_table, GoMap.delete] at hx
    by_cases hxy : x = y
    · simp [hxy] at hx
    · simp only [hxy, if_false] at hx
      simp only [Distributor.evictService_svcList, List.mem_filter]
      exact ⟨hq x hx, by simpa using hxy⟩
  · intro d y hq x hx
    have : (d.table x).isSome = true := by
      simp only [Distributor.dropWorkUnit_table, GoMap.delete] at hx
      split at hx
      · cases hx
      · exact hx
    simpa using hq x this
  · intro d y hq x hx
    simpa using hq x (by simpa using hx)
  · intro d y hq x hx
    simpa using hq x (by simpa using hx)

end HealthyLemmas

end Main
namespace Main

section HealthyLoops

variable {K : Type} [LinearOrder K]

/-- The first loop from a healthy state: it does not end the tick, keeps the
list of services, and leaves in the cache no service that is not listed. -/
theorem pruneServices_healthy (hashFunc : String → K) (L : List String) (p0 : String → Bool)
    (rest : List String) (d : Distributor) (h : NoFault d.Storage) (hh : d.Healthy)
    (hp : d.p = p0) (hl : d.svcList = L) :
    (pruneServices hashFunc L rest d).1 = none ∧
    NoFault (pruneServices hashFunc L rest d).2.Storage ∧
    (pruneServices hashFunc L rest d).2.Healthy ∧
    (pruneServices hashFunc L rest d).2.p = p0 ∧
    (pruneServices hashFunc L rest d).2.svcList = L ∧
    (∀ x, x ∉ L → (x ∈ rest ∨ x ∉ d.serviceCache.services) →
      x ∉ (pruneServices hashFunc L rest d).2.serviceCache.services) ∧
    ((d.Covered ∨ d.serviceCache.services = []) →
      ((pruneServices hashFunc L rest d).2.Covered ∨
        (pruneServices hashFunc L rest d).2.serviceCache.services = [])) := by
  have hQ : ∀ (d' : Distributor) (w : String), NoFault d'.Storage → pruneServiceOk L d' w →
      (d'.Healthy ∧ d'.p = p0 ∧ d'.svcList = L) →
      ((pruneServiceStep hashFunc L d' w).Healthy ∧ (pruneServiceStep hashFunc L d' w).p = p0 ∧
        (pruneServiceStep hashFunc L d' w).svcList = L) := by
    intro d' w _ _ hq
    refine ⟨Healthy_pruneServiceStep hashFunc L d' w hq.1, ?_, ?_⟩
    · unfold pruneServiceStep; split
      · exact hq.2.1
      · simpa using hq.2.1
    · unfold pruneServiceStep; split
      · exact hq.2.2
      · simpa using hq.2.2
  have hnone := pruneServices_none hashFunc L _ hQ
    (fun d' w _ hq => Or.inr (hq.1.dropService w).not_fails) rest d h ⟨hh, hp, hl⟩
  obtain ⟨h1, hq1, hb1⟩ := pruneServices_each hashFunc L (fun _ => True)
    (fun d' => d'.Healthy ∧ d'.p = p0 ∧ d'.svcList = L) (fun x => x ∉ L)
    (fun x d' => x ∉ d'.serviceCache.services) (fun d' w _ => hQ d' w)
    (by
      intro d' w x _ _ _ _ hb
      unfold pruneServiceStep
      rcases hb with hb | ⟨rfl, hx⟩
      · split
        · exact hb
        · simp only [Distributor.rebalanced_serviceCache, Distributor.dropService_serviceCache,
            ServiceCache.mem_del]
          exact fun hc => hb hc.2
      · simp only [hx, if_false, Distributor.rebalanced_serviceCache,
          Distributor.dropService_serviceCache, ServiceCache.mem_del]
        exact fun hc => hc.1 rfl)
    rest d (fun _ _ => trivial) h ⟨hh, hp, hl⟩ hnone
  obtain ⟨_, _, hb2⟩ := pruneServices_each hashFunc L (fun _ => True)
    (fun d' => d'.Healthy ∧ d'.p = p0 ∧ d'.svcList = L) (fun _ => False)
    (fun _ d' => d'.Covered ∨ d'.serviceCache.services = []) (fun d' w _ => hQ d' w)
    (by
      intro d' w x _ _ _ _ hb
      unfold pruneServiceStep
      rcases hb with hb | ⟨_, hx⟩
      · split
        · exact hb
        · exact Or.inl (Distributor.Covered.of_rebalanced hashFunc _)
      · exact absurd hx id)
    rest d (fun _ _ => trivial) h ⟨hh, hp, hl⟩ hnone
  refine ⟨hnone, h1, hq1.1, hq1.2.1, hq1.2.2, ?_, ?_⟩
  · intro x hx hor
    rcases hor with hr | hc
    · exact hb1 x (Or.inl ⟨hr, hx⟩)
    · exact hb1 x (Or.inr hc)
  · intro hc
    exact hb2 "" (Or.inr hc)

end HealthyLoops

end Main
namespace Main

section ProbeLoop

variable {K : Type} [LinearOrder K]

theorem probeStep_healthy (hashFunc : String → K) (d : Distributor) (w : String)
    (h : NoFault d.Storage) (hh : d.Healthy) :
    probeStep hashFunc d w =
      if d.p w = true then
        (if w ∈ d.serviceCache.services then d else (d.rebalanced hashFunc).cacheService w)
      else
        ((if w ∈ d.serviceCache.services then d
          else (d.rebalanced hashFunc).cacheService w).evictService w).rebalanced hashFunc := by
  unfold probeStep
  rw [adoptService_healthy hashFunc d w h hh]
  by_cases hc : w ∈ d.serviceCache.services <;> simp [hc]

theorem probeStep_p (hashFunc : String → K) (d : Distributor) (w : String)
    (h : NoFault d.Storage) (hh : d.Healthy) : (probeStep hashFunc d w).p = d.p := by
  rw [probeStep_healthy hashFunc d w h hh]
  by_cases hp : d.p w = true <;> by_cases hc : w ∈ d.serviceCache.services <;> simp [hp, hc]

theorem probeStep_svcList (hashFunc : String → K) (d : Distributor) (w : String)
    (h : NoFault d.Storage) (hh : d.Healthy) :
    (probeStep hashFunc d w).svcList =
      if d.p w = true then d.svcList else d.svcList.filter (· ≠ w) := by
  rw [probeStep_healthy hashFunc d w h hh]
  by_cases hp : d.p w = true <;> by_cases hc : w ∈ d.serviceCache.services <;> simp [hp, hc]

theorem probeStep_cache (hashFunc : String → K) (d : Distributor) (w : String)
    (h : NoFault d.Storage) (hh : d.Healthy) (y : String) :
    y ∈ (probeStep hashFunc d w).serviceCache.services ↔
      if d.p w = true then (y = w ∨ y ∈ d.serviceCache.services)
      else (y ≠ w ∧ y ∈ d.serviceCache.services) := by
  rw [probeStep_healthy hashFunc d w h hh]
  by_cases hp : d.p w = true <;> by_cases hc : w ∈ d.serviceCache.services
  · simp only [hp, hc, if_true]
    constructor
    · exact Or.inr
    · rintro (rfl | h')
      · exact hc
      · exact h'
  · simp [hp, hc, ServiceCache.mem_add]
  · simp [hp, hc, ServiceCache.mem_del]
  · simp only [hp, hc, if_false, Bool.false_eq_true, Distributor.rebalanced_serviceCache,
      Distributor.evictService_serviceCache, Distributor.cacheService_serviceCache,
      ServiceCache.mem_del, ServiceCache.mem_add]
    tauto

theorem probeStep_covered (hashFunc : String → K) (d : Distributor) (w : String)
    (h : NoFault d.Storage) (hh : d.Healthy)
    (hc : d.Covered ∨ w ∉ d.serviceCache.services ∨ d.p w = false) :
    (probeStep hashFunc d w).Covered := by
  rw [probeStep_healthy hashFunc d w h hh]
  by_cases hp : d.p w = true
  · simp only [hp, if_true]
    by_cases hw : w ∈ d.serviceCache.services
    · simp only [hw, if_true]
      rcases hc with hc | hc | hc
      · exact hc
      · exact absurd hw hc
      · rw [hp] at hc; cases hc
    · simp only [hw, if_false]
      intro x hx
      have := Distributor.Covered.of_rebalanced hashFunc d x (by simpa using hx)
      simpa using this
  · simp only [hp, if_false]
    exact Distributor.Covered.of_rebalanced hashFunc _

theorem probeStep_absent (hashFunc : String → K) (d : Distributor) (w x : String)
    (h : NoFault d.Storage) (hh : d.Healthy)
    (hc : d.Absent x ∨ (w = x ∧ d.p x = false)) :
    (probeStep hashFunc d w).Absent x := by
  rcases hc with hc | ⟨rfl, hp⟩
  · exact (Absent_stable hashFunc x).probeStep d w h hc
  · rw [probeStep_healthy hashFunc d w h hh]
    simp only [hp, Bool.false_eq_true, if_false]
    have hx : w ∉ ((if w ∈ d.serviceCache.services then d
        else (d.rebalanced hashFunc).cacheService w).evictService w).svcList := by
      simp [List.mem_filter]
    refine ⟨by simp, ?_⟩
    rw [Distributor.table_rebalanced, matchingTable_none hashFunc _ _ w hx]
    simp [GoMap.delete]

/-- The second loop from a healthy state: it does not end the tick; the
services whose ping fails leave the list, the cache and the table, the others
stay listed and end in the cache. -/
theorem probeServices_healthy (hashFunc : String → K) (L : List String) (p0 : String → Bool)
    (rest : List String) (d : Distributor) (hrest : ∀ w ∈ rest, w ∈ L)
    (h : NoFault d.Storage) (hh : d.Healthy) (hp : d.p = p0)
    (hf : ∃ f : String → Bool, d.svcList = L.filter f)
    (hgood : ∀ x ∈ L, p0 x = true → x ∈ d.svcList)
    (hcache : ∀ x, x ∉ L → x ∉ d.serviceCache.services) :
    (probeServices hashFunc rest d).1 = none ∧
    NoFault (probeServices hashFunc rest d).2.Storage ∧
    (probeServices hashFunc rest d).2.Healthy ∧
    (probeServices hashFunc rest d).2.p = p0 ∧
    (∃ f : String → Bool, (probeServices hashFunc rest d).2.svcList = L.filter f) ∧
    (∀ x ∈ L, p0 x = true → x ∈ (probeServices hashFunc rest d).2.svcList) ∧
    (∀ x, x ∉ L → x ∉ (probeServices hashFunc rest d).2.serviceCache.services) ∧
    (∀ x, ((x ∈ rest ∧ p0 x = false) ∨
        (p0 x = false ∧ x ∉ d.serviceCache.services ∧ d.Absent x)) →
      x ∉ (probeServices hashFunc rest d).2.serviceCache.services ∧
      (probeServices hashFunc rest d).2.Absent x) ∧
    (∀ x, ((x ∈ rest ∧ p0 x = true) ∨ (p0 x = true ∧ x ∈ d.serviceCache.services)) →
      x ∈ (probeServices hashFunc rest d).2.serviceCache.services) ∧
    (((∃ x ∈ rest, p0 x = false) ∨ d.Covered ∨ d.serviceCache.services = []) →
      ((probeServices hashFunc rest d).2.Covered ∨
        (probeServices hashFunc rest d).2.serviceCache.services = [])) := by
  have hQ : ∀ (d' : Distributor) (w : String), w ∈ L → NoFault d'.Storage →
      probeOk hashFunc d' w →
      (d'.Healthy ∧ d'.p = p0 ∧ (∃ f : String → Bool, d'.svcList = L.filter f) ∧
        (∀ x ∈ L, p0 x = true → x ∈ d'.svcList) ∧
        (∀ x, x ∉ L → x ∉ d'.serviceCache.services)) →
      ((probeStep hashFunc d' w).Healthy ∧ (probeStep hashFunc d' w).p = p0 ∧
        (∃ f : String → Bool, (probeStep hashFunc d' w).svcList = L.filter f) ∧
        (∀ x ∈ L, p0 x = true → x ∈ (probeStep hashFunc d' w).svcList) ∧
        (∀ x, x ∉ L → x ∉ (probeStep hashFunc d' w).serviceCache.services)) := by
    intro d' w hw h' _ ⟨hh', hp', ⟨f, hf'⟩, hg', hc'⟩
    refine ⟨Healthy_probeStep hashFunc d' w h' hh',
      (probeStep_p hashFunc d' w h' hh').trans hp', ?_, ?_, ?_⟩
    · rw [probeStep_svcList hashFunc d' w h' hh']
      split
      · exact ⟨f, hf'⟩
      · exact ⟨fun a => decide (a ≠ w) && f a, by rw [hf', List.filter_filter]⟩
    · intro x hx hpx
      rw [probeStep_svcList hashFunc d' w h' hh']
      split
      · exact hg' x hx hpx
      · rename_i hpw
        rw [hp'] at hpw
        simp only [List.mem_filter, decide_eq_true_eq]
        refine ⟨hg' x hx hpx, ?_⟩
        rintro rfl
        exact hpw hpx
    · intro x hx
      rw [probeStep_cache hashFunc d' w h' hh' x]
      split
      · rintro (rfl | hc)
        · exact hx hw
        · exact hc' x hx hc
      · exact fun hc => hc' x hx hc.2
  have hq0 : d.Healthy ∧ d.p = p0 ∧ (∃ f : String → Bool, d.svcList = L.filter f) ∧
      (∀ x ∈ L, p0 x = true → x ∈ d.svcList) ∧
      (∀ x, x ∉ L → x ∉ d.serviceCache.services) := ⟨hh, hp, hf, hgood, hcache⟩
  have hnone : (probeServices hashFunc rest d).1 = none :=
    probeServices_none hashFunc (fun d' => d'.Healthy)
      (fun d' w h' _ hq => Healthy_probeStep hashFunc d' w h' hq)
      (fun d' w h' hq => probeOk_healthy hashFunc d' w h' hq) rest d h hh
  obtain ⟨h1, hq1, hb1⟩ := probeServices_each hashFunc (fun w => w ∈ L) _ (fun x => p0 x = false)
    (fun x d' => p0 x = false ∧ x ∉ d'.serviceCache.services ∧ d'.Absent x) hQ
    (by
      intro d' w x _ h' _ hq hb
      have hpw : d'.p = p0 := hq.2.1
      rcases hb with ⟨hpx, hc, ha⟩ | ⟨rfl, hpx⟩
      · refine ⟨hpx, ?_, probeStep_absent hashFunc d' w x h' hq.1 (Or.inl ha)⟩
        rw [probeStep_cache hashFunc d' w h' hq.1 x]
        split
        · rename_i hw
          rintro (rfl | hc')
          · rw [hpw, hpx] at hw; cases hw
          · exact hc hc'
        · exact fun hc' => hc hc'.2
      · refine ⟨hpx, ?_, probeStep_absent hashFunc d' w w h' hq.1
          (Or.inr ⟨rfl, by rw [hpw]; exact hpx⟩)⟩
        rw [probeStep_cache hashFunc d' w h' hq.1 w]
        rw [hpw, hpx]
        simp)
    rest d hrest h hq0 hnone
  obtain ⟨_, _, hb2⟩ := probeServices_each hashFunc (fun w => w ∈ L) _ (fun x => p0 x = true)
    (fun x d' => p0 x = true ∧ x ∈ d'.serviceCache.services) hQ
    (by
      intro d' w x _ h' _ hq hb
      have hpw : d'.p = p0 := hq.2.1
      rcases hb with ⟨hpx, hc⟩ | ⟨rfl, hpx⟩
      · refine ⟨hpx, ?_⟩
        rw [probeStep_cache hashFunc d' w h' hq.1 x]
        split
        · exact Or.inr hc
        · rename_i hw
          refine ⟨?_, hc⟩
          rintro rfl
          rw [hpw] at hw
          exact hw hpx
      · refine ⟨hpx, ?_⟩
        rw [probeStep_cache hashFunc d' w h' hq.1 w, hpw, hpx]
        simp)
    rest d hrest h hq0 hnone
  obtain ⟨_, _, hb3⟩ := probeServices_each hashFunc (fun w => w ∈ L) _ (fun x => p0 x = false)
    (fun _ d' => d'.Covered ∨ d'.serviceCache.services = []) hQ
    (by
      intro d' w x _ h' _ hq hb
      have hpw : d'.p = p0 := hq.2.1
      left
      apply probeStep_covered hashFunc d' w h' hq.1
      rcases hb with (hc | hc) | ⟨rfl, hpx⟩
      · exact Or.inl hc
      · right; left
        rw [hc]; simp
      · right; right
        rw [hpw]; exact hpx)
    rest d hrest h hq0 hnone
  refine ⟨hnone, h1, hq1.1, hq1.2.1, hq1.2.2.1, hq1.2.2.2.1, hq1.2.2.2.2, ?_, ?_, ?_⟩
  · intro x hx
    rcases hx with hx | hx
    · exact (hb1 x (Or.inl hx)).2
    · exact (hb1 x (Or.inr hx)).2
  · intro x hx
    rcases hx with hx | hx
    · exact (hb2 x (Or.inl hx)).2
    · exact (hb2 x (Or.inr hx)).2
  · rintro (⟨x, hx, hpx⟩ | hc)
    · exact hb3 x (Or.inl ⟨hx, hpx⟩)
    · exact hb3 "" (Or.inr hc)

end ProbeLoop

end Main
namespace Main

section UnitLoops

variable {K : Type} [LinearOrder K]

/-- The third loop from a healthy state: it does not end the tick and keeps
the list and the cache of services; a covered table stays covered. -/
theorem pruneWorkUnits_healthy (hashFunc : String → K) (U rest : List String)
    (d : Distributor) (h : NoFault d.Storage) (hh : d.Healthy) :
    (pruneWorkUnits hashFunc U rest d).1 = none ∧
    NoFault (pruneWorkUnits hashFunc U rest d).2.Storage ∧
    (pruneWorkUnits hashFunc U rest d).2.Healthy ∧
    (pruneWorkUnits hashFunc U rest d).2.p = d.p ∧
    (pruneWorkUnits hashFunc U rest d).2.svcList = d.svcList ∧
    (pruneWorkUnits hashFunc U rest d).2.serviceCache = d.serviceCache ∧
    (d.Covered → (pruneWorkUnits hashFunc U rest d).2.Covered) ∧
    (∀ x, d.Absent x → (pruneWorkUnits hashFunc U rest d).2.Absent x) := by
  have hQ : ∀ (d' : Distributor) (w : String), NoFault d'.Storage → pruneUnitOk U d' w →
      (d'.Healthy ∧ d'.p = d.p ∧ d'.svcList = d.svcList ∧ d'.serviceCache = d.serviceCache) →
      ((pruneUnitStep hashFunc U d' w).Healthy ∧ (pruneUnitStep hashFunc U d' w).p = d.p ∧
        (pruneUnitStep hashFunc U d' w).svcList = d.svcList ∧
        (pruneUnitStep hashFunc U d' w).serviceCache = d.serviceCache) := by
    intro d' w _ _ hq
    refine ⟨Healthy_pruneUnitStep hashFunc U d' w hq.1, ?_, ?_, ?_⟩
    · unfold pruneUnitStep; split
      · exact hq.2.1
      · simpa using hq.2.1
    · unfold pruneUnitStep; split
      · exact hq.2.2.1
      · simpa using hq.2.2.1
    · unfold pruneUnitStep; split
      · exact hq.2.2.2
      · simpa using hq.2.2.2
  have hnone := pruneWorkUnits_none hashFunc U _ hQ
    (fun d' w _ hq => Or.inr (hq.1.dropWorkUnit w).not_fails) rest d h ⟨hh, rfl, rfl, rfl⟩
  obtain ⟨h1, hq1, hb1⟩ := pruneWorkUnits_each hashFunc U (fun _ => True)
    (fun d' => d'.Healthy ∧ d'.p = d.p ∧ d'.svcList = d.svcList ∧
      d'.serviceCache = d.serviceCache) (fun _ => False)
    (fun _ d' => d'.Covered) (fun d' w _ => hQ d' w)
    (by
      intro d' w x _ _ _ _ hb
      unfold pruneUnitStep
      rcases hb with hb | ⟨_, hx⟩
      · split
        · exact hb
        · exact Distributor.Covered.of_rebalanced hashFunc _
      · exact absurd hx id)
    rest d (fun _ _ => trivial) h ⟨hh, rfl, rfl, rfl⟩ hnone
  refine ⟨hnone, h1, hq1.1, hq1.2.1, hq1.2.2.1, hq1.2.2.2, fun hc => hb1 "" (Or.inr hc), ?_⟩
  intro x hx
  exact (pruneWorkUnits_stable hashFunc U (fun d => d.Absent x) (Absent_stable hashFunc x)
    rest d h hx).2

/-- The fourth loop from a healthy state keeps the list and the cache of
services; a covered table stays covered. -/
theorem adoptWorkUnits_healthy (hashFunc : String → K) (rest : List String)
    (d : Distributor) (h : NoFault d.Storage) (hh : d.Healthy) :
    NoFault (adoptWorkUnits hashFunc rest d).Storage ∧
    (adoptWorkUnits hashFunc rest d).Healthy ∧
    (adoptWorkUnits hashFunc rest d).p = d.p ∧
    (adoptWorkUnits hashFunc rest d).svcList = d.svcList ∧
    (adoptWorkUnits hashFunc rest d).serviceCache = d.serviceCache ∧
    (d.Covered → (adoptWorkUnits hashFunc rest d).Covered) ∧
    (∀ x, d.Absent x → (adoptWorkUnits hashFunc rest d).Absent x) := by
  have hQ : ∀ (d' : Distributor) (w : String), True → NoFault d'.Storage →
      (d'.Healthy ∧ d'.p = d.p ∧ d'.svcList = d.svcList ∧ d'.serviceCache = d.serviceCache) →
      ((adoptUnitStep hashFunc d' w).Healthy ∧ (adoptUnitStep hashFunc d' w).p = d.p ∧
        (adoptUnitStep hashFunc d' w).svcList = d.svcList ∧
        (adoptUnitStep hashFunc d' w).serviceCache = d.serviceCache) := by
    intro d' w _ _ hq
    refine ⟨Healthy_adoptUnitStep hashFunc d' w hq.1, ?_, ?_, ?_⟩
    · rw [adoptUnitStep_healthy hashFunc d' w hq.1]; split
      · exact hq.2.1
      · simpa using hq.2.1
    · rw [adoptUnitStep_healthy hashFunc d' w hq.1]; split
      · exact hq.2.2.1
      · simpa using hq.2.2.1
    · rw [adoptUnitStep_healthy hashFunc d' w hq.1]; split
      · exact hq.2.2.2
      · simpa using hq.2.2.2
  obtain ⟨h1, hq1, hb1⟩ := adoptWorkUnits_each hashFunc (fun _ => True)
    (fun d' => d'.Healthy ∧ d'.p = d.p ∧ d'.svcList = d.svcList ∧
      d'.serviceCache = d.serviceCache) (fun _ => False)
    (fun _ d' => d'.Covered) hQ
    (by
      intro d' w x _ _ hq hb
      rw [adoptUnitStep_healthy hashFunc d' w hq.1]
      rcases hb with hb | ⟨_, hx⟩
      · split
        · exact hb
        · intro y hy
          have := Distributor.Covered.of_rebalanced hashFunc d' y (by simpa using hy)
          simpa using this
      · exact absurd hx id)
    rest d (fun _ _ => trivial) h ⟨hh, rfl, rfl, rfl⟩
  refine ⟨h1, hq1.1, hq1.2.1, hq1.2.2.1, hq1.2.2.2, fun hc => hb1 "" (Or.inr hc), ?_⟩
  intro x hx
  exact (adoptWorkUnits_stable hashFunc (fun d => d.Absent x) (Absent_stable hashFunc x)
    rest d h hx).2

end UnitLoops

end Main
namespace Main

section HealthyTick

variable {K : Type} [LinearOrder K]

/-- One tick from a healthy state with no storage failure: it returns no
error; the listed services whose ping fails leave the list, the cache and the
table; the others stay listed and end in the cache; no unlisted service stays
in the cache; and the table covers the list as soon as a rebalance had to
happen. -/
theorem LivenessCheck_healthy (hashFunc : String → K) (d : Distributor)
    (h : NoFault d.Storage) (hh : d.Healthy) :
    (d.LivenessCheck hashFunc).1 = none ∧
    (d.LivenessCheck hashFunc).2.p = d.p ∧
    (d.LivenessCheck hashFunc).2.svcList = d.svcList.filter d.p ∧
    (∀ x ∈ d.svcList, d.p x = false →
      x ∉ (d.LivenessCheck hashFunc).2.serviceCache.services ∧
      (d.LivenessCheck hashFunc).2.Absent x) ∧
    (∀ x ∈ d.svcList, d.p x = true →
      x ∈ (d.LivenessCheck hashFunc).2.serviceCache.services) ∧
    (∀ x, x ∉ d.svcList → x ∉ (d.LivenessCheck hashFunc).2.serviceCache.services) ∧
    ((d.Covered ∨ d.serviceCache.services = [] ∨ ∃ b ∈ d.svcList, d.p b = false) →
      (d.LivenessCheck hashFunc).2.Covered) := by
  rw [LivenessCheck_eq hashFunc d h]
  obtain ⟨n1, h1, hh1, hp1, hl1, hc1, hcov1⟩ := pruneServices_healthy hashFunc d.svcList d.p
    d.serviceCache.services d h hh rfl rfl
  rcases hr1 : pruneServices hashFunc d.svcList d.serviceCache.services d with ⟨e1, d1⟩
  rw [hr1] at n1 h1 hh1 hp1 hl1 hc1 hcov1
  simp only at n1 h1 hh1 hp1 hl1 hc1 hcov1
  subst n1
  simp only []
  obtain ⟨n2, h2, hh2, hp2, ⟨f, hf2⟩, hg2, hcache2, hE1, hE2, hE3⟩ :=
    probeServices_healthy hashFunc d.svcList d.p d.svcList d1 (fun w hw => hw) h1 hh1 hp1
      ⟨fun _ => true, by rw [hl1]; simp⟩ (fun x hx _ => by rw [hl1]; exact hx)
      (fun x hx => hc1 x hx (Classical.em _))
  rcases hr2 : probeServices hashFunc d.svcList d1 with ⟨e2, d2⟩
  rw [hr2] at n2 h2 hh2 hp2 hf2 hg2 hcache2 hE1 hE2 hE3
  simp only at n2 h2 hh2 hp2 hf2 hg2 hcache2 hE1 hE2 hE3
  subst n2
  simp only []
  obtain ⟨n3, h3, hh3, hp3, hl3, hc3, hcov3, habs3⟩ :=
    pruneWorkUnits_healthy hashFunc d.unitList d2.workUnitsCache.workunits d2 h2 hh2
  rcases hr3 : pruneWorkUnits hashFunc d.unitList d2.workUnitsCache.workunits d2 with ⟨e3, d3⟩
  rw [hr3] at n3 h3 hh3 hp3 hl3 hc3 hcov3 habs3
  simp only at n3 h3 hh3 hp3 hl3 hc3 hcov3 habs3
  subst n3
  simp only []
  obtain ⟨_, _, hp4, hl4, hc4, hcov4, habs4⟩ :=
    adoptWorkUnits_healthy hashFunc d.unitList d3 h3 hh3
  have hfilter : d2.svcList = d.svcList.filter d.p := by
    rw [hf2]
    apply List.filter_congr
    intro x hx
    by_cases hpx : d.p x = true
    · have hm := hg2 x hx hpx
      rw [hf2, List.mem_filter] at hm
      rw [hm.2, hpx]
    · have hpx' : d.p x = false := by simpa using hpx
      have hab := (hE1 x (Or.inl ⟨hx, hpx'⟩)).2.1
      rw [hf2, List.mem_filter] at hab
      have : f x = false := by
        by_contra hfx
        exact hab ⟨hx, by simpa using hfx⟩
      rw [this, hpx']
  refine ⟨trivial, by rw [hp4, hp3, hp2], by rw [hl4, hl3, hfilter], ?_, ?_, ?_, ?_⟩
  · intro x hx hpx
    obtain ⟨hc, ha⟩ := hE1 x (Or.inl ⟨hx, hpx⟩)
    exact ⟨by rw [hc4, hc3]; exact hc, habs4 x (habs3 x ha)⟩
  · intro x hx hpx
    rw [hc4, hc3]
    exact hE2 x (Or.inl ⟨hx, hpx⟩)
  · intro x hx
    rw [hc4, hc3]
    exact hcache2 x hx
  · intro hcov
    apply hcov4
    apply hcov3
    obtain ⟨_, g, hg, hpg⟩ := hh
    have hgc : g ∈ d2.serviceCache.services := hE2 g (Or.inl ⟨hg, hpg⟩)
    have hor : d2.Covered ∨ d2.serviceCache.services = [] := by
      rcases hcov with hc | hc | ⟨b, hb, hpb⟩
      · exact hE3 (Or.inr (hcov1 (Or.inl hc)))
      · exact hE3 (Or.inr (hcov1 (Or.inr hc)))
      · exact hE3 (Or.inl ⟨b, hb, hpb⟩)
    rcases hor with hc | hc
    · exact hc
    · rw [hc] at hgc; simp at hgc

end HealthyTick

end Main
namespace Main

section IdleTick

variable {K : Type} [LinearOrder K]

theorem pruneServices_skip (hashFunc : String → K) (S : List String) :
    ∀ (rest : List String) (d : Distributor), NoFault d.Storage → (∀ x ∈ rest, x ∈ S) →
      pruneServices hashFunc S rest d = (none, d) := by
  intro rest
  induction rest with
  | nil => intro d _ _; rfl
  | cons x rest ih =>
    intro d h hs
    rw [pruneServices_step hashFunc S x rest d h]
    simp only [hs x (List.mem_cons_self _ _), if_true]
    exact ih d h (fun y hy => hs y (List.mem_cons_of_mem _ hy))

theorem probeServices_skip (hashFunc : String → K) :
    ∀ (rest : List String) (d : Distributor), NoFault d.Storage →
      (∀ w ∈ rest, d.p w = true ∧ (w ∈ d.serviceCache.services ∨ d.balanceFails)) →
      probeServices hashFunc rest d = (none, d) := by
  intro rest
  induction rest with
  | nil => intro d _ _; rfl
  | cons w rest ih =>
    intro d h hs
    obtain ⟨hp, hc⟩ := hs w (List.mem_cons_self _ _)
    have ha : adoptService hashFunc d w = d := by
      rw [adoptService_eq hashFunc d w h]
      by_cases hw : w ∈ d.serviceCache.services
      · simp [hw]
      · rcases hc with hc | hc
        · exact absurd hc hw
        · simp [hw, hc]
    rw [probeServices_step hashFunc w rest d (by rw [ha]; exact h), ha]
    simp only [hp, if_true]
    exact ih d h (fun y hy => hs y (List.mem_cons_of_mem _ hy))

theorem pruneWorkUnits_skip (hashFunc : String → K) (U : List String) :
    ∀ (rest : List String) (d : Distributor), NoFault d.Storage → (∀ x ∈ rest, x ∈ U) →
      pruneWorkUnits hashFunc U rest d = (none, d) := by
  intro rest
  induction rest with
  | nil => intro d _ _; rfl
  | cons x rest ih =>
    intro d h hs
    rw [pruneWorkUnits_step hashFunc U x rest d h]
    simp only [hs x (List.mem_cons_self _ _), if_true]
    exact ih d h (fun y hy => hs y (List.mem_cons_of_mem _ hy))

theorem adoptWorkUnits_skip (hashFunc : String → K) :
    ∀ (rest : List String) (d : Distributor), NoFault d.Storage →
      (∀ u ∈ rest, u ∈ d.workUnitsCache.workunits ∨ d.balanceFails) →
      adoptWorkUnits hashFunc rest d = d := by
  intro rest
  induction rest with
  | nil => intro d _ _; rfl
  | cons u rest ih =>
    intro d h hs
    rw [adoptWorkUnits_step hashFunc u rest d h]
    have hrec := ih d h (fun y hy => hs y (List.mem_cons_of_mem _ hy))
    by_cases hu : u ∈ d.workUnitsCache.workunits
    · simp only [hu, if_true]
      exact hrec
    · rcases hs u (List.mem_cons_self _ _) with hc | hc
      · exact absurd hc hu
      · simp only [hu, if_false, hc, if_true]
        exact hrec

/-- A tick from a quiescent state, no storage call failing, returns no error
and leaves the whole state as it was. -/
theorem LivenessCheck_quiescent (hashFunc : String → K) (d : Distributor)
    (h : NoFault d.Storage) (hq : d.Quiescent) :
    d.LivenessCheck hashFunc = (none, d) := by
  obtain ⟨q1, q2, q3, q4, q5⟩ := hq
  rw [LivenessCheck_eq hashFunc d h,
    pruneServices_skip hashFunc d.svcList d.serviceCache.services d h q1]
  simp only []
  rw [probeServices_skip hashFunc d.svcList d h (by
    intro w hw
    refine ⟨q2 w hw, ?_⟩
    rcases q3 with q3 | q3
    · exact Or.inl (q3 w hw)
    · exact Or.inr q3)]
  simp only []
  rw [pruneWorkUnits_skip hashFunc d.unitList d.workUnitsCache.workunits d h q4]
  simp only []
  rw [adoptWorkUnits_skip hashFunc d.unitList d h (by
    intro u hu
    rcases q5 with q5 | q5
    · exact Or.inl (q5 u hu)
    · exact Or.inr q5)]

end IdleTick

end Main
namespace Main

section DoneLoops

variable {K : Type} [LinearOrder K]

theorem Frame_stable (hashFunc : String → K) (d0 : Distributor)
    (hk : d0.ringMembers ≠ d0.serviceNamespace) : Stable hashFunc (Distributor.Frame d0) := by
  refine ⟨?_, ?_, ?_, ?_, ?_, ?_⟩
  · intro d hq
    simpa [Distributor.Frame] using hq
  · intro d x hq
    simpa [Distributor.Frame] using hq
  · rintro d x ⟨h1, h2, h3, h4⟩
    refine ⟨by simpa using h1, by simpa using h2, by simpa using h3, ?_⟩
    rw [Distributor.evictService_unitList, if_neg (by rw [h2, h3]; exact hk)]
    exact h4
  · intro d x hq
    simpa [Distributor.Frame] using hq
  · intro d x hq
    simpa [Distributor.Frame] using hq
  · intro d x hq
    simpa [Distributor.Frame] using hq

theorem adoptService_svcList (hashFunc : String → K) (d : Distributor) (w : String)
    (h : NoFault d.Storage) : (adoptService hashFunc d w).svcList = d.svcList := by
  rw [adoptService_eq hashFunc d w h]
  by_cases hc : w ∈ d.serviceCache.services <;> by_cases hf : d.balanceFails <;> simp [hc, hf]

theorem adoptService_unitList (hashFunc : String → K) (d : Distributor) (w : String)
    (h : NoFault d.Storage) : (adoptService hashFunc d w).unitList = d.unitList := by
  rw [adoptService_eq hashFunc d w h]
  by_cases hc : w ∈ d.serviceCache.services <;> by_cases hf : d.balanceFails <;> simp [hc, hf]

theorem adoptService_p (hashFunc : String → K) (d : Distributor) (w : String)
    (h : NoFault d.Storage) : (adoptService hashFunc d w).p = d.p := by
  rw [adoptService_eq hashFunc d w h]
  by_cases hc : w ∈ d.serviceCache.services <;> by_cases hf : d.balanceFails <;> simp [hc, hf]

theorem adoptService_fails (hashFunc : String → K) (d : Distributor) (w : String)
    (h : NoFault d.Storage) : (adoptService hashFunc d w).balanceFails ↔ d.balanceFails := by
  unfold Distributor.balanceFails
  rw [adoptService_svcList hashFunc d w h, adoptService_unitList hashFunc d w h]

theorem adoptService_cache (hashFunc : String → K) (d : Distributor) (w y : String)
    (h : NoFault d.Storage) :
    y ∈ (adoptService hashFunc d w).serviceCache.services ↔
      (y ∈ d.serviceCache.services ∨ (y = w ∧ ¬ d.balanceFails)) := by
  rw [adoptService_eq hashFunc d w h]
  by_cases hc : w ∈ d.serviceCache.services
  · simp only [hc, if_true]
    constructor
    · exact Or.inl
    · rintro (h' | ⟨rfl, _⟩)
      · exact h'
      · exact hc
  · by_cases hf : d.balanceFails
    · simp [hc, hf]
    · simp only [hc, hf, if_false, Distributor.cacheService_serviceCache,
        Distributor.rebalanced_serviceCache, ServiceCache.mem_add]
      tauto

theorem probeStep_eq (hashFunc : String → K) (d : Distributor) (w : String)
    (h : NoFault d.Storage) :
    probeStep hashFunc d w =
      if d.p w = true then adoptService hashFunc d w
      else ((adoptService hashFunc d w).evictService w).rebalanced hashFunc := by
  unfold probeStep
  rw [adoptService_p hashFunc d w h]

theorem probeOk_iff (hashFunc : String → K) (d : Distributor) (w : String)
    (h : NoFault d.Storage) :
    probeOk hashFunc d w ↔
      (d.p w = true ∨ ¬ ((adoptService hashFunc d w).evictService w).balanceFails) := by
  unfold probeOk
  rw [adoptService_p hashFunc d w h]

/-- A first loop that does not end the tick keeps the list of services and
leaves in the cache only services it found there and that are listed. -/
theorem pruneServices_done (hashFunc : String → K) (S rest : List String) (d : Distributor)
    (h : NoFault d.Storage) (hl : d.svcList = S)
    (hnone : (pruneServices hashFunc S rest d).1 = none) :
    (pruneServices hashFunc S rest d).2.svcList = S ∧
    (∀ x ∈ (pruneServices hashFunc S rest d).2.serviceCache.services,
      x ∈ d.serviceCache.services ∧ (x ∈ rest → x ∈ S)) := by
  obtain ⟨_, hq1, hb1⟩ := pruneServices_each hashFunc S (fun _ => True)
    (fun d' => d'.svcList = S ∧ ∀ x ∈ d'.serviceCache.services, x ∈ d.serviceCache.services)
    (fun x => x ∉ S) (fun x d' => x ∉ d'.serviceCache.services)
    (by
      intro d' w _ _ _ hq
      unfold pruneServiceStep
      split
      · exact hq
      · refine ⟨by simpa using hq.1, ?_⟩
        intro x hx
        simp only [Distributor.rebalanced_serviceCache, Distributor.dropService_serviceCache,
          ServiceCache.mem_del] at hx
        exact hq.2 x hx.2)
    (by
      intro d' w x _ _ _ _ hb
      unfold pruneServiceStep
      rcases hb with hb | ⟨rfl, hx⟩
      · split
        · exact hb
        · simp only [Distributor.rebalanced_serviceCache, Distributor.dropService_serviceCache,
            ServiceCache.mem_del]
          exact fun hc => hb hc.2
      · simp only [hx, if_false, Distributor.rebalanced_serviceCache,
          Distributor.dropService_serviceCache, ServiceCache.mem_del]
        exact fun hc => hc.1 rfl)
    rest d (fun _ _ => trivial) h ⟨hl, fun _ hx => hx⟩ hnone
  refine ⟨hq1.1, ?_⟩
  intro x hx
  refine ⟨hq1.2 x hx, ?_⟩
  intro hr
  by_contra hS
  exact hb1 x (Or.inl ⟨hr, hS⟩) hx

/-- A second loop that does not end the tick, the two lists being stored under
different keys: at its end every cached service is listed, every listed
service was listed before, no service it pinged without success is listed, and
every service it pinged with success is cached unless a rebalance would be
refused. -/
theorem probeServices_done (hashFunc : String → K) (rest : List String) (d : Distributor)
    (h : NoFault d.Storage) (hk : d.ringMembers ≠ d.serviceNamespace)
    (hrest : ∀ w ∈ rest, d.p w = true → w ∈ d.svcList)
    (hcache : ∀ x ∈ d.serviceCache.services, x ∈ d.svcList)
    (hnone : (probeServices hashFunc rest d).1 = none) :
    (∀ x ∈ (probeServices hashFunc rest d).2.serviceCache.services,
      x ∈ (probeServices hashFunc rest d).2.svcList) ∧
    (∀ x ∈ (probeServices hashFunc rest d).2.svcList, x ∈ d.svcList) ∧
    (∀ x ∈ rest, d.p x = false → x ∉ (probeServices hashFunc rest d).2.svcList) ∧
    (∀ x ∈ rest, d.p x = true →
      (x ∈ (probeServices hashFunc rest d).2.serviceCache.services ∨
        (probeServices hashFunc rest d).2.balanceFails)) := by
  have hQ : ∀ (d' : Distributor) (w : String), (d.p w = true → w ∈ d.svcList) →
      NoFault d'.Storage → probeOk hashFunc d' w →
      (d.Frame d' ∧ (∀ x ∈ d'.svcList, x ∈ d.svcList) ∧
        (∀ x ∈ d.svcList, d.p x = true → x ∈ d'.svcList) ∧
        (∀ x ∈ d'.serviceCache.services, x ∈ d'.svcList)) →
      (d.Frame (probeStep hashFunc d' w) ∧
        (∀ x ∈ (probeStep hashFunc d' w).svcList, x ∈ d.svcList) ∧
        (∀ x ∈ d.svcList, d.p x = true → x ∈ (probeStep hashFunc d' w).svcList) ∧
        (∀ x ∈ (probeStep hashFunc d' w).serviceCache.services,
          x ∈ (probeStep hashFunc d' w).svcList)) := by
    intro d' w hw h' _ ⟨hfr, hsub, hgood, hc⟩
    refine ⟨(Frame_stable hashFunc d hk).probeStep d' w h' hfr, ?_⟩
    rw [probeStep_eq hashFunc d' w h']
    by_cases hp : d'.p w = true
    · rw [if_pos hp, adoptService_svcList hashFunc d' w h']
      refine ⟨hsub, hgood, ?_⟩
      intro x hx
      rw [adoptService_cache hashFunc d' w x h'] at hx
      rcases hx with hx | ⟨rfl, _⟩
      · exact hc x hx
      · rw [hfr.1] at hp
        exact hgood x (hw hp) hp
    · rw [if_neg hp]
      simp only [Distributor.rebalanced_svcList, Distributor.evictService_svcList,
        Distributor.rebalanced_serviceCache, Distributor.evictService_serviceCache,
        adoptService_svcList hashFunc d' w h', List.mem_filter, decide_eq_true_eq,
        ServiceCache.mem_del]
      refine ⟨fun x hx => hsub x hx.1, ?_, ?_⟩
      · intro x hx hpx
        refine ⟨hgood x hx hpx, ?_⟩
        rintro rfl
        rw [hfr.1] at hp
        exact hp hpx
      · rintro x ⟨hxw, hx⟩
        rw [adoptService_cache hashFunc d' w x h'] at hx
        rcases hx with hx | ⟨rfl, _⟩
        · exact ⟨hc x hx, hxw⟩
        · exact absurd rfl hxw
  have hq0 : d.Frame d ∧ (∀ x ∈ d.svcList, x ∈ d.svcList) ∧
      (∀ x ∈ d.svcList, d.p x = true → x ∈ d.svcList) ∧
      (∀ x ∈ d.serviceCache.services, x ∈ d.svcList) :=
    ⟨⟨rfl, rfl, rfl, rfl⟩, fun _ hx => hx, fun _ hx _ => hx, hcache⟩
  obtain ⟨_, hq1, hb1⟩ := probeServices_each hashFunc (fun w => d.p w = true → w ∈ d.svcList) _
    (fun x => d.p x = false) (fun x d' => x ∉ d'.svcList) hQ
    (by
      intro d' w x _ h' _ hq hb
      rw [probeStep_eq hashFunc d' w h']
      rcases hb with hb | ⟨rfl, hpx⟩
      · by_cases hp : d'.p w = true
        · rw [if_pos hp, adoptService_svcList hashFunc d' w h']
          exact hb
        · rw [if_neg hp]
          simp only [Distributor.rebalanced_svcList,
            Distributor.evictService_svcList, adoptService_svcList hashFunc d' w h',
            List.mem_filter]
          exact fun hx => hb hx.1
      · have hp : ¬ d'.p w = true := by
          rw [hq.1.1, hpx]
          simp
        rw [if_neg hp]
        simp only [Distributor.rebalanced_svcList,
          Distributor.evictService_svcList, adoptService_svcList hashFunc d' w h',
          List.mem_filter, decide_eq_true_eq]
        exact fun hx => hx.2 rfl)
    rest d hrest h hq0 hnone
  obtain ⟨_, _, hb2⟩ := probeServices_each hashFunc (fun w => d.p w = true → w ∈ d.svcList) _
    (fun x => d.p x = true)
    (fun x d' => d.p x = true ∧ (x ∈ d'.serviceCache.services ∨ d'.balanceFails)) hQ
    (by
      intro d' w x _ h' hok hq hb
      rw [probeOk_iff hashFunc d' w h'] at hok
      rw [probeStep_eq hashFunc d' w h']
      rcases hb with ⟨hpx, hb⟩ | ⟨rfl, hpx⟩
      · refine ⟨hpx, ?_⟩
        by_cases hp : d'.p w = true
        · rw [if_pos hp]
          rcases hb with hb | hb
          · left
            rw [adoptService_cache hashFunc d' w x h']
            exact Or.inl hb
          · right
            exact (adoptService_fails hashFunc d' w h').mpr hb
        · rw [if_neg hp]
          have hnf : ¬ ((adoptService hashFunc d' w).evictService w).balanceFails := by
            rcases hok with hok | hok
            · exact absurd hok hp
            · exact hok
          have hxw : x ≠ w := by
            rintro rfl
            rw [hq.1.1] at hp
            exact hp hpx
          rcases hb with hb | hb
          · left
            simp only [Distributor.rebalanced_serviceCache,
              Distributor.evictService_serviceCache, ServiceCache.mem_del]
            refine ⟨hxw, ?_⟩
            rw [adoptService_cache hashFunc d' w x h']
            exact Or.inl hb
          · exfalso
            apply hnf
            have hfr := (Frame_stable hashFunc d hk).adoptService d' w h' hq.1
            unfold Distributor.balanceFails at hb ⊢
            rw [Distributor.evictService_unitList, Distributor.evictService_svcList,
              if_neg (by rw [hfr.2.1, hfr.2.2.1]; exact hk),
              adoptService_svcList hashFunc d' w h', adoptService_unitList hashFunc d' w h']
            rcases hb with hb | hb
            · exact Or.inl hb
            · right
              rw [hb]
              rfl
      · have hp : d'.p w = true := by
          rw [hq.1.1]
          exact hpx
        rw [if_pos hp]
        refine ⟨hpx, ?_⟩
        by_cases hf : d'.balanceFails
        · right
          exact (adoptService_fails hashFunc d' w h').mpr hf
        · left
          rw [adoptService_cache hashFunc d' w w h']
          exact Or.inr ⟨rfl, hf⟩)
    rest d hrest h hq0 hnone
  refine ⟨hq1.2.2.2, hq1.2.1, ?_, ?_⟩
  · intro x hx hpx
    exact hb1 x (Or.inl ⟨hx, hpx⟩)
  · intro x hx hpx
    exact (hb2 x (Or.inl ⟨hx, hpx⟩)).2

/-- A third loop that does not end the tick keeps the list and the cache of
services and leaves in the cache of work units only units it found there and
that are listed. -/
theorem pruneWorkUnits_done (hashFunc : String → K) (U rest : List String) (d : Distributor)
    (h : NoFault d.Storage) (hnone : (pruneWorkUnits hashFunc U rest d).1 = none) :
    (pruneWorkUnits hashFunc U rest d).2.svcList = d.svcList ∧
    (pruneWorkUnits hashFunc U rest d).2.serviceCache = d.serviceCache ∧
    (∀ x ∈ (pruneWorkUnits hashFunc U rest d).2.workUnitsCache.workunits,
      x ∈ d.workUnitsCache.workunits ∧ (x ∈ rest → x ∈ U)) := by
  obtain ⟨_, hq1, hb1⟩ := pruneWorkUnits_each hashFunc U (fun _ => True)
    (fun d' => d'.svcList = d.svcList ∧ d'.serviceCache = d.serviceCache ∧
      ∀ x ∈ d'.workUnitsCache.workunits, x ∈ d.workUnitsCache.workunits)
    (fun x => x ∉ U) (fun x d' => x ∉ d'.workUnitsCache.workunits)
    (by
      intro d' w _ _ _ hq
      unfold pruneUnitStep
      split
      · exact hq
      · refine ⟨by simpa using hq.1, by simpa using hq.2.1, ?_⟩
        intro x hx
        simp only [Distributor.rebalanced_workUnitsCache,
          Distributor.dropWorkUnit_workUnitsCache, WorkUnitsCache.mem_del_unit] at hx
        exact hq.2.2 x hx.2)
    (by
      intro d' w x _ _ _ _ hb
      unfold pruneUnitStep
      rcases hb with hb | ⟨rfl, hx⟩
      · split
        · exact hb
        · simp only [Distributor.rebalanced_workUnitsCache,
            Distributor.dropWorkUnit_workUnitsCache, WorkUnitsCache.mem_del_unit]
          exact fun hc => hb hc.2
      · simp only [hx, if_false, Distributor.rebalanced_workUnitsCache,
          Distributor.dropWorkUnit_workUnitsCache, WorkUnitsCache.mem_del_unit]
        exact fun hc => hc.1 rfl)
    rest d (fun _ _ => trivial) h ⟨rfl, rfl, fun _ hx => hx⟩ hnone
  refine ⟨hq1.1, hq1.2.1, ?_⟩
  intro x hx
  refine ⟨hq1.2.2 x hx, ?_⟩
  intro hr
  by_contra hU
  exact hb1 x (Or.inl ⟨hr, hU⟩) hx

/-- The fourth loop keeps the two lists and the cache of services; at its end
the cache of work units holds only units it held before or that the loop went
over, and every unit the loop went over is cached unless a rebalance would be
refused. -/
theorem adoptWorkUnits_done (hashFunc : String → K) (rest : List String) (d : Distributor)
    (h : NoFault d.Storage) :
    (adoptWorkUnits hashFunc rest d).svcList = d.svcList ∧
    (adoptWorkUnits hashFunc rest d).unitList = d.unitList ∧
    (adoptWorkUnits hashFunc rest d).serviceCache = d.serviceCache ∧
    (∀ x ∈ (adoptWorkUnits hashFunc rest d).workUnitsCache.workunits,
      x ∈ d.workUnitsCache.workunits ∨ x ∈ rest) ∧
    (∀ x ∈ rest, (x ∈ (adoptWorkUnits hashFunc rest d).workUnitsCache.workunits ∨
      (adoptWorkUnits hashFunc rest d).balanceFails)) := by
  have hQ : ∀ (d' : Distributor) (w : String), w ∈ rest → NoFault d'.Storage →
      (d'.svcList = d.svcList ∧ d'.unitList = d.unitList ∧ d'.serviceCache = d.serviceCache ∧
        ∀ x ∈ d'.workUnitsCache.workunits, x ∈ d.workUnitsCache.workunits ∨ x ∈ rest) →
      ((adoptUnitStep hashFunc d' w).svcList = d.svcList ∧
        (adoptUnitStep hashFunc d' w).unitList = d.unitList ∧
        (adoptUnitStep hashFunc d' w).serviceCache = d.serviceCache ∧
        ∀ x ∈ (adoptUnitStep hashFunc d' w).workUnitsCache.workunits,
          x ∈ d.workUnitsCache.workunits ∨ x ∈ rest) := by
    intro d' w hw _ hq
    unfold adoptUnitStep
    by_cases hc : w ∈ d'.workUnitsCache.workunits
    · rw [if_pos hc]
      exact hq
    · by_cases hf : d'.balanceFails
      · rw [if_neg hc, if_pos hf]
        exact hq
      · rw [if_neg hc, if_neg hf]
        refine ⟨by simpa using hq.1, by simpa using hq.2.1, by simpa using hq.2.2.1, ?_⟩
        intro x hx
        simp only [Distributor.cacheWorkUnit_workUnitsCache,
          Distributor.rebalanced_workUnitsCache, WorkUnitsCache.mem_add_unit] at hx
        rcases hx with rfl | hx
        · exact Or.inr hw
        · exact hq.2.2.2 x hx
  obtain ⟨_, hq1, hb1⟩ := adoptWorkUnits_each hashFunc (fun w => w ∈ rest) _
    (fun _ => True) (fun x d' => x ∈ d'.workUnitsCache.workunits ∨ d'.balanceFails) hQ
    (by
      intro d' w x _ _ _ hb
      unfold adoptUnitStep
      by_cases hc : w ∈ d'.workUnitsCache.workunits
      · rw [if_pos hc]
        rcases hb with hb | ⟨rfl, _⟩
        · exact hb
        · exact Or.inl hc
      · by_cases hf : d'.balanceFails
        · rw [if_neg hc, if_pos hf]
          exact Or.inr hf
        · rw [if_neg hc, if_neg hf]
          left
          simp only [Distributor.cacheWorkUnit_workUnitsCache,
            Distributor.rebalanced_workUnitsCache, WorkUnitsCache.mem_add_unit]
          rcases hb with (hb | hb) | ⟨rfl, _⟩
          · exact Or.inr hb
          · exact absurd hb hf
          · exact Or.inl rfl)
    rest d (fun _ hw => hw) h ⟨rfl, rfl, rfl, fun _ hx => Or.inl hx⟩
  exact ⟨hq1.1, hq1.2.1, hq1.2.2.1, hq1.2.2.2, fun x hx => hb1 x (Or.inl ⟨hx, trivial⟩)⟩

end DoneLoops

end Main
namespace Main

section DoneTick

variable {K : Type} [LinearOrder K]

/-- A tick that returns no error, no storage call failing and the two lists
being stored under different keys, ends in a quiescent state. -/
theorem LivenessCheck_done (hashFunc : String → K) (d : Distributor)
    (h : NoFault d.Storage) (hk : d.ringMembers ≠ d.serviceNamespace)
    (hnone : (d.LivenessCheck hashFunc).1 = none) :
    NoFault (d.LivenessCheck hashFunc).2.Storage ∧ (d.LivenessCheck hashFunc).2.Quiescent := by
  have hF := Frame_stable hashFunc d hk
  rw [LivenessCheck_eq hashFunc d h] at hnone ⊢
  obtain ⟨h1, f1⟩ := pruneServices_stable hashFunc d.svcList (Distributor.Frame d) hF
    d.serviceCache.services d h ⟨rfl, rfl, rfl, rfl⟩
  have hd1 := pruneServices_done hashFunc d.svcList d.serviceCache.services d h rfl
  rcases hr1 : pruneServices hashFunc d.svcList d.serviceCache.services d with ⟨e1, d1⟩
  rw [hr1] at hnone h1 f1 hd1
  cases e1 with
  | some err => simp at hnone
  | none =>
    simp only [] at hnone h1 f1 hd1 ⊢
    obtain ⟨hl1, hc1⟩ := hd1 trivial
    have hk1 : d1.ringMembers ≠ d1.serviceNamespace := by
      rw [f1.2.1, f1.2.2.1]
      exact hk
    obtain ⟨h2, f2⟩ := probeServices_stable hashFunc (Distributor.Frame d) hF d.svcList d1 h1 f1
    have hd2 := probeServices_done hashFunc d.svcList d1 h1 hk1
      (fun w hw _ => by rw [hl1]; exact hw)
      (fun x hx => by rw [hl1]; exact (hc1 x hx).2 (hc1 x hx).1)
    rcases hr2 : probeServices hashFunc d.svcList d1 with ⟨e2, d2⟩
    rw [hr2] at hnone h2 f2 hd2
    cases e2 with
    | some err => simp at hnone
    | none =>
      simp only [] at hnone h2 f2 hd2 ⊢
      obtain ⟨hcs2, hsub2, hbad2, hgood2⟩ := hd2 trivial
      obtain ⟨h3, f3⟩ := pruneWorkUnits_stable hashFunc d.unitList (Distributor.Frame d) hF
        d2.workUnitsCache.workunits d2 h2 f2
      have hd3 := pruneWorkUnits_done hashFunc d.unitList d2.workUnitsCache.workunits d2 h2
      rcases hr3 : pruneWorkUnits hashFunc d.unitList d2.workUnitsCache.workunits d2
        with ⟨e3, d3⟩
      rw [hr3] at hnone h3 f3 hd3
      cases e3 with
      | some err => simp at hnone
      | none =>
        simp only [] at hnone h3 f3 hd3 ⊢
        obtain ⟨hl3, hc3, hu3⟩ := hd3 trivial
        obtain ⟨h4, f4⟩ := adoptWorkUnits_stable hashFunc (Distributor.Frame d) hF
          d.unitList d3 h3 f3
        obtain ⟨hl4, hul4, hc4, hu4, hall4⟩ := adoptWorkUnits_done hashFunc d.unitList d3 h3
        refine ⟨h4, ?_⟩
        have hp4 : ∀ w ∈ (adoptWorkUnits hashFunc d.unitList d3).svcList,
            (adoptWorkUnits hashFunc d.unitList d3).p w = true := by
          intro w hw
          rw [hl4, hl3] at hw
          rw [f4.1]
          by_contra hp
          have hS : w ∈ d.svcList := by
            rw [← hl1]
            exact hsub2 w hw
          exact hbad2 w hS (by rw [f1.1]; simpa using hp) hw
        have hfails : (adoptWorkUnits hashFunc d.unitList d3).balanceFails ↔ d2.balanceFails := by
          unfold Distributor.balanceFails
          rw [hl4, hl3, f4.2.2.2, f2.2.2.2]
        refine ⟨?_, hp4, ?_, ?_, ?_⟩
        · intro x hx
          rw [hc4, hc3] at hx
          rw [hl4, hl3]
          exact hcs2 x hx
        · by_cases hf : (adoptWorkUnits hashFunc d.unitList d3).balanceFails
          · exact Or.inr hf
          · left
            intro w hw
            have hpw := hp4 w hw
            rw [f4.1] at hpw
            rw [hl4, hl3] at hw
            have hS : w ∈ d.svcList := by
              rw [← hl1]
              exact hsub2 w hw
            rw [hc4, hc3]
            rcases hgood2 w hS (by rw [f1.1]; exact hpw) with hg | hg
            · exact hg
            · exact absurd (hfails.mpr hg) hf
        · intro x hx
          rw [f4.2.2.2]
          rcases hu4 x hx with hx' | hx'
          · exact (hu3 x hx').2 (hu3 x hx').1
          · exact hx'
        · by_cases hf : (adoptWorkUnits hashFunc d.unitList d3).balanceFails
          · exact Or.inr hf
          · left
            intro u hu
            rw [f4.2.2.2] at hu
            rcases hall4 u hu with hg | hg
            · exact hg
            · exact absurd hg hf

end DoneTick

end Main
namespace Main

section CacheLoops

variable {K : Type} [LinearOrder K]

theorem Loose_stable (hashFunc : String → K) (d0 : Distributor) :
    Stable hashFunc (Distributor.Loose d0) := by
  refine ⟨?_, ?_, ?_, ?_, ?_, ?_⟩
  · intro d hq
    simpa [Distributor.Loose] using hq
  · intro d x hq
    simpa [Distributor.Loose] using hq
  · rintro d x ⟨h1, h2, h3⟩
    refine ⟨by simpa using h1, ?_, ?_⟩
    · intro y hy
      rw [Distributor.evictService_unitList] at hy
      split at hy
      · exact h2 y (List.mem_filter.mp hy).1
      · exact h2 y hy
    · by_cases hk : d.ringMembers = d.serviceNamespace
      · right
        simpa using hk
      · left
        rw [Distributor.evictService_unitList, if_neg hk]
        rcases h3 with h3 | h3
        · exact h3
        · exact absurd h3 hk
  · intro d x hq
    simpa [Distributor.Loose] using hq
  · intro d x hq
    simpa [Distributor.Loose] using hq
  · intro d x hq
    simpa [Distributor.Loose] using hq

theorem unitList_eq_of_keys (d : Distributor) (hk : d.ringMembers = d.serviceNamespace) :
    d.unitList = d.svcList := by
  unfold Distributor.unitList Distributor.svcList
  rw [hk]

/-- A first loop that does not end the tick keeps the two lists and the
outcome of the pings, and keeps in the cache exactly the services that it did
not go over or that are listed. -/
theorem pruneServices_cache (hashFunc : String → K) (S rest : List String) (d : Distributor)
    (h : NoFault d.Storage) (hl : d.svcList = S)
    (hnone : (pruneServices hashFunc S rest d).1 = none) :
    (pruneServices hashFunc S rest d).2.svcList = S ∧
    (pruneServices hashFunc S rest d).2.unitList = d.unitList ∧
    (pruneServices hashFunc S rest d).2.p = d.p ∧
    (∀ x, x ∈ (pruneServices hashFunc S rest d).2.serviceCache.services ↔
      (x ∈ d.serviceCache.services ∧ (x ∈ rest → x ∈ S))) := by
  obtain ⟨_, hq1, hb1⟩ := pruneServices_each hashFunc S (fun w => w ∈ rest)
    (fun d' => d'.svcList = S ∧ d'.unitList = d.unitList ∧ d'.p = d.p)
    (fun _ => False)
    (fun x d' => (x ∈ rest → x ∈ S) ∧ x ∈ d'.serviceCache.services)
    (by
      intro d' w _ _ _ hq
      unfold pruneServiceStep
      split
      · exact hq
      · exact ⟨by simpa using hq.1, by simpa using hq.2.1, by simpa using hq.2.2⟩)
    (by
      intro d' w x hw _ _ _ hb
      unfold pruneServiceStep
      rcases hb with hb | ⟨_, hx⟩
      · split
        · exact hb
        · rename_i hwS
          refine ⟨hb.1, ?_⟩
          simp only [Distributor.rebalanced_serviceCache, Distributor.dropService_serviceCache,
            ServiceCache.mem_del]
          refine ⟨?_, hb.2⟩
          rintro rfl
          exact hwS (hb.1 hw)
      · exact absurd hx id)
    rest d (fun _ hw => hw) h ⟨hl, rfl, rfl⟩ hnone
  obtain ⟨_, hsub⟩ := pruneServices_done hashFunc S rest d h hl hnone
  refine ⟨hq1.1, hq1.2.1, hq1.2.2, ?_⟩
  intro x
  constructor
  · exact hsub x
  · intro hx
    exact (hb1 x (Or.inr ⟨hx.2, hx.1⟩)).2

/-- A second loop that does not end the tick: at its end the cache holds
exactly the services whose ping succeeds and that were cached before or that
the loop went over while the list of work units was not empty. -/
theorem probeServices_cache (hashFunc : String → K) (rest : List String) (d : Distributor)
    (h : NoFault d.Storage) (hrest : ∀ w ∈ rest, w ∈ d.svcList)
    (hcache : ∀ x ∈ d.serviceCache.services, d.p x = false → x ∈ rest)
    (hnone : (probeServices hashFunc rest d).1 = none) :
    ∀ x, x ∈ (probeServices hashFunc rest d).2.serviceCache.services ↔
      (d.p x = true ∧ (x ∈ d.serviceCache.services ∨ (x ∈ rest ∧ d.unitList ≠ []))) := by
  have hL := Loose_stable hashFunc d
  have hQ : ∀ (d' : Distributor) (w : String), w ∈ rest →
      NoFault d'.Storage → probeOk hashFunc d' w →
      (d.Loose d' ∧ (∀ y ∈ d.svcList, d.p y = true → y ∈ d'.svcList) ∧
        (∀ x ∈ d'.serviceCache.services,
          x ∈ d.serviceCache.services ∨ (x ∈ rest ∧ d.unitList ≠ []))) →
      (d.Loose (probeStep hashFunc d' w) ∧
        (∀ y ∈ d.svcList, d.p y = true → y ∈ (probeStep hashFunc d' w).svcList) ∧
        (∀ x ∈ (probeStep hashFunc d' w).serviceCache.services,
          x ∈ d.serviceCache.services ∨ (x ∈ rest ∧ d.unitList ≠ []))) := by
    intro d' w hw h' _ ⟨hl, hgood, hc⟩
    refine ⟨hL.probeStep d' w h' hl, ?_⟩
    have hadopt : ∀ x ∈ (adoptService hashFunc d' w).serviceCache.services,
        x ∈ d.serviceCache.services ∨ (x ∈ rest ∧ d.unitList ≠ []) := by
      intro x hx
      rw [adoptService_cache hashFunc d' w x h'] at hx
      rcases hx with hx | ⟨rfl, hnf⟩
      · exact hc x hx
      · right
        refine ⟨hw, ?_⟩
        intro hU
        apply hnf
        left
        cases hu : d'.unitList with
        | nil => rfl
        | cons a t =>
          have := hl.2.1 a (by rw [hu]; exact List.mem_cons_self _ _)
          rw [hU] at this
          cases this
    rw [probeStep_eq hashFunc d' w h']
    by_cases hp : d'.p w = true
    · rw [if_pos hp, adoptService_svcList hashFunc d' w h']
      exact ⟨hgood, hadopt⟩
    · rw [if_neg hp]
      simp only [Distributor.rebalanced_svcList, Distributor.evictService_svcList,
        Distributor.rebalanced_serviceCache, Distributor.evictService_serviceCache,
        adoptService_svcList hashFunc d' w h', List.mem_filter, decide_eq_true_eq,
        ServiceCache.mem_del]
      refine ⟨?_, ?_⟩
      · intro y hy hpy
        refine ⟨hgood y hy hpy, ?_⟩
        rintro rfl
        rw [hl.1] at hp
        exact hp hpy
      · rintro x ⟨_, hx⟩
        exact hadopt x hx
  have hq0 : d.Loose d ∧ (∀ y ∈ d.svcList, d.p y = true → y ∈ d.svcList) ∧
      (∀ x ∈ d.serviceCache.services,
        x ∈ d.serviceCache.services ∨ (x ∈ rest ∧ d.unitList ≠ [])) :=
    ⟨⟨rfl, fun _ hy => hy, Or.inl rfl⟩, fun _ hy _ => hy, fun _ hx => Or.inl hx⟩
  obtain ⟨_, hq1, hb1⟩ := probeServices_each hashFunc (fun w => w ∈ rest) _
    (fun x => d.p x = false) (fun x d' => d.p x = false ∧ x ∉ d'.serviceCache.services) hQ
    (by
      intro d' w x _ h' _ hq hb
      rw [probeStep_eq hashFunc d' w h']
      have hpx : d.p x = false := by
        rcases hb with hb | hb
        · exact hb.1
        · exact hb.2
      refine ⟨hpx, ?_⟩
      by_cases hp : d'.p w = true
      · rw [if_pos hp, adoptService_cache hashFunc d' w x h']
        rintro (hx | ⟨rfl, _⟩)
        · rcases hb with hb | ⟨rfl, _⟩
          · exact hb.2 hx
          · rw [hq.1.1, hpx] at hp
            cases hp
        · rw [hq.1.1, hpx] at hp
          cases hp
      · rw [if_neg hp]
        simp only [Distributor.rebalanced_serviceCache, Distributor.evictService_serviceCache,
          ServiceCache.mem_del]
        rintro ⟨hxw, hx⟩
        rw [adoptService_cache hashFunc d' w x h'] at hx
        rcases hb with hb | ⟨rfl, _⟩
        · rcases hx with hx | ⟨rfl, _⟩
          · exact hb.2 hx
          · exact hxw rfl
        · exact hxw rfl)
    rest d (fun _ hw => hw) h hq0 hnone
  obtain ⟨_, _, hb2⟩ := probeServices_each hashFunc (fun w => w ∈ rest) _
    (fun x => d.p x = true ∧ d.unitList ≠ [])
    (fun x d' => d.p x = true ∧ x ∈ d'.serviceCache.services) hQ
    (by
      intro d' w x hw h' _ hq hb
      rw [probeStep_eq hashFunc d' w h']
      rcases hb with ⟨hpx, hb⟩ | ⟨rfl, hpx, hU⟩
      · refine ⟨hpx, ?_⟩
        by_cases hp : d'.p w = true
        · rw [if_pos hp, adoptService_cache hashFunc d' w x h']
          exact Or.inl hb
        · rw [if_neg hp]
          simp only [Distributor.rebalanced_serviceCache,
            Distributor.evictService_serviceCache, ServiceCache.mem_del]
          refine ⟨?_, by rw [adoptService_cache hashFunc d' w x h']; exact Or.inl hb⟩
          rintro rfl
          rw [hq.1.1] at hp
          exact hp hpx
      · have hp : d'.p w = true := by
          rw [hq.1.1]
          exact hpx
        rw [if_pos hp]
        refine ⟨hpx, ?_⟩
        rw [adoptService_cache hashFunc d' w w h']
        by_cases hc : w ∈ d'.serviceCache.services
        · exact Or.inl hc
        · right
          refine ⟨rfl, ?_⟩
          have hws : w ∈ d'.svcList := hq.2.1 w (hrest w hw) hpx
          unfold Distributor.balanceFails
          rintro (hf | hf)
          · rcases hq.1.2.2 with he | he
            · rw [he] at hf
              exact hU hf
            · rw [unitList_eq_of_keys d' he] at hf
              rw [hf] at hws
              cases hws
          · rw [hf] at hws
            cases hws)
    rest d (fun _ hw => hw) h hq0 hnone
  intro x
  constructor
  · intro hx
    have hor := hq1.2.2 x hx
    refine ⟨?_, hor⟩
    by_contra hp
    have hpx : d.p x = false := by simpa using hp
    have hxr : x ∈ rest := by
      rcases hor with hc | hc
      · exact hcache x hc hpx
      · exact hc.1
    exact (hb1 x (Or.inl ⟨hxr, hpx⟩)).2 hx
  · rintro ⟨hpx, hc | ⟨hr, hU⟩⟩
    · exact (hb2 x (Or.inr ⟨hpx, hc⟩)).2
    · exact (hb2 x (Or.inl ⟨hr, hpx, hU⟩)).2

/-- A tick that returns no error, no storage call failing: at its end the
cache of services holds exactly the listed services whose ping succeeds and
that were cached at the start or were adopted, which needs a work unit. -/
theorem LivenessCheck_cache (hashFunc : String → K) (d : Distributor)
    (h : NoFault d.Storage) (hnone : (d.LivenessCheck hashFunc).1 = none) :
    ∀ x, x ∈ (d.LivenessCheck hashFunc).2.serviceCache.services ↔
      (x ∈ d.svcList ∧ d.p x = true ∧ (x ∈ d.serviceCache.services ∨ d.unitList ≠ [])) := by
  rw [LivenessCheck_eq hashFunc d h] at hnone ⊢
  have h1 := (pruneServices_stable hashFunc d.svcList (fun _ => True)
    ⟨fun _ _ => trivial, fun _ _ _ => trivial, fun _ _ _ => trivial, fun _ _ _ => trivial,
      fun _ _ _ => trivial, fun _ _ _ => trivial⟩ d.serviceCache.services d h trivial).1
  have hd1 := pruneServices_cache hashFunc d.svcList d.serviceCache.services d h rfl
  rcases hr1 : pruneServices hashFunc d.svcList d.serviceCache.services d with ⟨e1, d1⟩
  rw [hr1] at hnone h1 hd1
  cases e1 with
  | some err => simp at hnone
  | none =>
    simp only [] at hnone h1 hd1 ⊢
    obtain ⟨hl1, hu1, hp1, hc1⟩ := hd1 trivial
    have h2 := (probeServices_stable hashFunc (fun _ => True)
      ⟨fun _ _ => trivial, fun _ _ _ => trivial, fun _ _ _ => trivial, fun _ _ _ => trivial,
        fun _ _ _ => trivial, fun _ _ _ => trivial⟩ d.svcList d1 h1 trivial).1
    have hd2 := probeServices_cache hashFunc d.svcList d1 h1
      (fun w hw => by rw [hl1]; exact hw)
      (fun x hx _ => ((hc1 x).mp hx).2 ((hc1 x).mp hx).1)
    rcases hr2 : probeServices hashFunc d.svcList d1 with ⟨e2, d2⟩
    rw [hr2] at hnone h2 hd2
    cases e2 with
    | some err => simp at hnone
    | none =>
      simp only [] at hnone h2 hd2 ⊢
      have hd2' := hd2 trivial
      have h3 := (pruneWorkUnits_stable hashFunc d.unitList (fun _ => True)
        ⟨fun _ _ => trivial, fun _ _ _ => trivial, fun _ _ _ => trivial, fun _ _ _ => trivial,
          fun _ _ _ => trivial, fun _ _ _ => trivial⟩ d2.workUnitsCache.workunits d2 h2
          trivial).1
      have hd3 := pruneWorkUnits_done hashFunc d.unitList d2.workUnitsCache.workunits d2 h2
      rcases hr3 : pruneWorkUnits hashFunc d.unitList d2.workUnitsCache.workunits d2
        with ⟨e3, d3⟩
      rw [hr3] at hnone h3 hd3
      cases e3 with
      | some err => simp at hnone
      | none =>
        simp only [] at hnone h3 hd3 ⊢
        obtain ⟨_, hc3, _⟩ := hd3 trivial
        obtain ⟨_, _, hc4, _, _⟩ := adoptWorkUnits_done hashFunc d.unitList d3 h3
        intro x
        rw [hc4, hc3, hd2' x, hp1, hu1, hc1 x]
        constructor
        · rintro ⟨hp, hc | hc⟩
          · exact ⟨hc.2 hc.1, hp, Or.inl hc.1⟩
          · exact ⟨hc.1, hp, Or.inr hc.2⟩
        · rintro ⟨hs, hp, hc | hc⟩
          · exact ⟨hp, Or.inl ⟨hc, fun _ => hs⟩⟩
          · exact ⟨hp, Or.inr ⟨hs, hc⟩⟩

end CacheLoops

end Main
namespace Main

section SyncedLoops

variable {K : Type} [LinearOrder K]

theorem Synced_rebalanced (hashFunc : String → K) (d : Distributor) :
    (d.rebalanced hashFunc).Synced hashFunc := by
  intro w hw
  have hw' : w ∈ d.svcList := by simpa using hw
  have hs := (matchingTable_isSome hashFunc d.svcList d.unitList w).mpr hw'
  rw [Distributor.table_rebalanced, Distributor.rebalanced_svcList,
    Distributor.rebalanced_unitList]
  cases hm : matchingTable hashFunc d.svcList d.unitList w with
  | none => rw [hm] at hs; cases hs
  | some a => rfl

theorem Synced_cacheService (hashFunc : String → K) (d : Distributor) (x : String)
    (h : d.Synced hashFunc) : (d.cacheService x).Synced hashFunc := by
  intro w hw
  simpa using h w (by simpa using hw)

theorem Synced_cacheWorkUnit (hashFunc : String → K) (d : Distributor) (x : String)
    (h : d.Synced hashFunc) : (d.cacheWorkUnit x).Synced hashFunc := by
  intro w hw
  simpa using h w (by simpa using hw)

/-- For pairwise distinct services and pairwise distinct work units whose ring
keys do not collide, with `1 <= |services| <= |units|`, every work unit is in
the slice of exactly one service. -/
theorem matchingTable_unique (hashFunc : String → K) (services ringMembers : List String)
    (hs : services.Nodup) (hu : ringMembers.Nodup) (hcol : NoCollision hashFunc ringMembers)
    (h1 : services ≠ []) (hle : services.length ≤ ringMembers.length) :
    ∀ u ∈ ringMembers,
      ∃! w, ∃ a, matchingTable hashFunc services ringMembers w = some a ∧ u ∈ a := by
  have hm : 0 < services.length := List.length_pos.mpr h1
  have hb : 1 ≤ ringMembers.length / services.length := (Nat.one_le_div_iff hm).mpr hle
  have hbase : (if ringMembers.length / services.length < 1 then 1
      else ringMembers.length / services.length) = ringMembers.length / services.length := by
    rw [if_neg (by omega)]
  have hnodes := buildRing_nodes_of_nodup hashFunc ringMembers hu
  have hne : sortStrings services ≠ [] := by
    intro he
    have := length_sortStrings services
    rw [he] at this
    simp at this
    omega
  obtain ⟨_, h2⟩ := matchingLoop_even hashFunc services.length ringMembers.length
    (ringMembers.length / services.length) (ringMembers.length % services.length) hb rfl hle
    (Nat.div_add_mod _ _) (sortStrings services) 0 (buildRing hashFunc ringMembers)
    GoMap.empty hne (nodup_sortStrings services hs) (by simp [length_sortStrings])
    (buildRing_inv hashFunc ringMembers) (by rw [hnodes]; exact hcol) (by simp [hnodes])
  intro u hmem
  obtain ⟨w, _, a, ha, hua⟩ := h2 u (by rw [hnodes]; exact hmem)
  have hT : matchingTable hashFunc services ringMembers w = some a := by
    rw [matchingTable_eq, hbase]; exact ha
  refine ⟨w, ⟨a, hT, hua⟩, ?_⟩
  rintro w' ⟨a', ha', hua'⟩
  by_contra hne'
  exact matchingTable_disjoint hashFunc services ringMembers w' w a' a hne' ha' hT u hua' hua

/-- A tick in which every listed service answers, with a service and a work
unit listed and no storage failure: it returns no error and keeps the two
lists; the cached work units that are no longer listed leave the cache; and if
there was one, or the table was already the one of the two lists, the table at
the end is the one `PutToMatchingTable` computes from the two lists. -/
theorem LivenessCheck_all_alive (hashFunc : String → K) (d : Distributor)
    (h : NoFault d.Storage) (hs : d.svcList ≠ []) (hp : ∀ w ∈ d.svcList, d.p w = true)
    (hu : d.unitList ≠ []) :
    (d.LivenessCheck hashFunc).1 = none ∧
    (d.LivenessCheck hashFunc).2.svcList = d.svcList ∧
    (d.LivenessCheck hashFunc).2.unitList = d.unitList ∧
    (∀ u ∈ d.workUnitsCache.workunits, u ∉ d.unitList →
      u ∉ (d.LivenessCheck hashFunc).2.workUnitsCache.workunits) ∧
    ((d.Synced hashFunc ∨ ∃ u ∈ d.workUnitsCache.workunits, u ∉ d.unitList) →
      (d.LivenessCheck hashFunc).2.Synced hashFunc) := by
  have hh : d.Healthy := by
    refine ⟨hu, ?_⟩
    cases hl : d.svcList with
    | nil => exact absurd hl hs
    | cons a t =>
      exact ⟨a, List.mem_cons_self _ _, hp a (by rw [hl]; exact List.mem_cons_self _ _)⟩
  rw [LivenessCheck_eq hashFunc d h]
  -- first loop
  obtain ⟨n1, h1, hh1, _, _, _, _⟩ := pruneServices_healthy hashFunc d.svcList d.p
    d.serviceCache.services d h hh rfl rfl
  obtain ⟨_, hq1, hb1⟩ := pruneServices_each hashFunc d.svcList (fun _ => True)
    (fun d' => d'.p = d.p ∧ d'.svcList = d.svcList ∧ d'.unitList = d.unitList ∧
      d'.workUnitsCache = d.workUnitsCache)
    (fun _ => False) (fun _ d' => d'.Synced hashFunc)
    (by
      intro d' w _ _ _ hq
      unfold pruneServiceStep
      split
      · exact hq
      · exact ⟨by simpa using hq.1, by simpa using hq.2.1, by simpa using hq.2.2.1,
          by simpa using hq.2.2.2⟩)
    (by
      intro d' w x _ _ _ _ hb
      unfold pruneServiceStep
      rcases hb with hb | ⟨_, hx⟩
      · split
        · exact hb
        · exact Synced_rebalanced hashFunc _
      · exact absurd hx id)
    d.serviceCache.services d (fun _ _ => trivial) h ⟨rfl, rfl, rfl, rfl⟩ n1
  rcases hr1 : pruneServices hashFunc d.svcList d.serviceCache.services d with ⟨e1, d1⟩
  rw [hr1] at n1 h1 hh1 hq1 hb1
  simp only at n1 h1 hh1 hq1 hb1
  subst n1
  simp only []
  obtain ⟨hp1, hl1, hu1, hw1⟩ := hq1
  -- second loop
  have n2 : (probeServices hashFunc d.svcList d1).1 = none :=
    probeServices_none hashFunc (fun d' => d'.Healthy)
      (fun d' w h' _ hq => Healthy_probeStep hashFunc d' w h' hq)
      (fun d' w h' hq => probeOk_healthy hashFunc d' w h' hq) d.svcList d1 h1 hh1
  obtain ⟨h2, hq2, hb2⟩ := probeServices_each hashFunc (fun w => d.p w = true)
    (fun d' => d'.Healthy ∧ d'.p = d.p ∧ d'.svcList = d.svcList ∧ d'.unitList = d.unitList ∧
      d'.workUnitsCache = d.workUnitsCache)
    (fun _ => False) (fun _ d' => d'.Synced hashFunc)
    (by
      intro d' w hw h' _ hq
      refine ⟨Healthy_probeStep hashFunc d' w h' hq.1, ?_⟩
      rw [probeStep_eq hashFunc d' w h', if_pos (by rw [hq.2.1]; exact hw),
        adoptService_healthy hashFunc d' w h' hq.1]
      split
      · exact hq.2
      · exact ⟨by simpa using hq.2.1, by simpa using hq.2.2.1, by simpa using hq.2.2.2.1,
          by simpa using hq.2.2.2.2⟩)
    (by
      intro d' w x hw h' _ hq hb
      rw [probeStep_eq hashFunc d' w h', if_pos (by rw [hq.2.1]; exact hw),
        adoptService_healthy hashFunc d' w h' hq.1]
      rcases hb with hb | ⟨_, hx⟩
      · split
        · exact hb
        · exact Synced_cacheService hashFunc _ w (Synced_rebalanced hashFunc d')
      · exact absurd hx id)
    d.svcList d1 hp h1 ⟨hh1, hp1, hl1, hu1, hw1⟩ n2
  rcases hr2 : probeServices hashFunc d.svcList d1 with ⟨e2, d2⟩
  rw [hr2] at n2 h2 hq2 hb2
  simp only at n2 h2 hq2 hb2
  subst n2
  simp only []
  obtain ⟨hh2, hp2, hl2, hu2, hw2⟩ := hq2
  -- third loop
  obtain ⟨n3, h3, hh3, _, _, _, _, _⟩ :=
    pruneWorkUnits_healthy hashFunc d.unitList d2.workUnitsCache.workunits d2 h2 hh2
  obtain ⟨_, hq3, hb3⟩ := pruneWorkUnits_each hashFunc d.unitList (fun _ => True)
    (fun d' => d'.svcList = d.svcList ∧ d'.unitList = d.unitList)
    (fun x => x ∉ d.unitList) (fun _ d' => d'.Synced hashFunc)
    (by
      intro d' w _ _ _ hq
      unfold pruneUnitStep
      split
      · exact hq
      · exact ⟨by simpa using hq.1, by simpa using hq.2⟩)
    (by
      intro d' w x _ _ _ _ hb
      unfold pruneUnitStep
      rcases hb with hb | ⟨rfl, hx⟩
      · split
        · exact hb
        · exact Synced_rebalanced hashFunc _
      · rw [if_neg hx]
        exact Synced_rebalanced hashFunc _)
    d2.workUnitsCache.workunits d2 (fun _ _ => trivial) h2 ⟨hl2, hu2⟩ n3
  have hd3 := pruneWorkUnits_done hashFunc d.unitList d2.workUnitsCache.workunits d2 h2 n3
  rcases hr3 : pruneWorkUnits hashFunc d.unitList d2.workUnitsCache.workunits d2 with ⟨e3, d3⟩
  rw [hr3] at n3 h3 hh3 hq3 hb3 hd3
  simp only at n3 h3 hh3 hq3 hb3 hd3
  subst n3
  simp only []
  obtain ⟨hl3, hu3⟩ := hq3
  -- fourth loop
  obtain ⟨hl4, hul4, _, hu4, _⟩ := adoptWorkUnits_done hashFunc d.unitList d3 h3
  obtain ⟨_, _, hb4⟩ := adoptWorkUnits_each hashFunc (fun _ => True) (fun _ => True)
    (fun _ => False) (fun _ d' => d'.Synced hashFunc)
    (fun _ _ _ _ _ => trivial)
    (by
      intro d' w x _ _ _ hb
      unfold adoptUnitStep
      rcases hb with hb | ⟨_, hx⟩
      · split
        · exact hb
        · split
          · exact hb
          · exact Synced_cacheWorkUnit hashFunc _ w (Synced_rebalanced hashFunc d')
      · exact absurd hx id)
    d.unitList d3 (fun _ _ => trivial) h3 trivial
  refine ⟨trivial, by rw [hl4, hl3], by rw [hul4, hu3], ?_, ?_⟩
  · intro u huc hnot hend
    rcases hu4 u hend with h' | h'
    · have := hd3.2.2 u h'
      rw [hw2] at this
      exact hnot (this.2 this.1)
    · exact hnot h'
  · intro hor
    apply hb4 "" (Or.inr _)
    rcases hor with hsy | ⟨u, huc, hnot⟩
    · exact hb3 "" (Or.inr (hb2 "" (Or.inr (hb1 "" (Or.inr hsy)))))
    · exact hb3 u (Or.inl ⟨by rw [hw2]; exact huc, hnot⟩)

end SyncedLoops

end Main
namespace Main

section SplitLemmas

theorem splitChars_ne_nil (sep : Char) (cs : List Char) : splitChars sep cs ≠ [] := by
  cases cs with
  | nil => simp [splitChars]
  | cons c cs =>
    unfold splitChars
    split
    · simp
    · split <;> simp

theorem splitChars_sep (sep : Char) (cs : List Char) :
    splitChars sep (sep :: cs) = [] :: splitChars sep cs := by
  rw [splitChars, if_pos rfl]

theorem splitChars_append (sep : Char) (xs ys : List Char) (hx : sep ∉ xs) :
    splitChars sep (xs ++ ys) =
      (xs ++ (splitChars sep ys).headD []) :: (splitChars sep ys).tail := by
  induction xs with
  | nil =>
    rw [List.nil_append]
    cases h : splitChars sep ys with
    | nil => exact absurd h (splitChars_ne_nil sep ys)
    | cons p ps => simp
  | cons c cs ih =>
    have hc : ¬ c = sep := fun he => hx (by rw [he]; exact List.mem_cons_self _ _)
    have hcs : sep ∉ cs := fun hm => hx (List.mem_cons_of_mem _ hm)
    rw [List.cons_append, splitChars, if_neg hc, ih hcs]
    simp

theorem intercalate_go_data (sep : String) (l : List String) (acc : String) :
    (String.intercalate.go acc sep l).data =
      acc.data ++ (l.map (fun a => sep.data ++ a.data)).flatten := by
  induction l generalizing acc with
  | nil => simp [String.intercalate.go]
  | cons a l ih =>
    rw [String.intercalate.go, ih]
    simp [String.data_append, List.append_assoc]

theorem Join_cons_data (a : String) (l : List String) (sep : String) :
    (Join (a :: l) sep).data = a.data ++ (l.map (fun b => sep.data ++ b.data)).flatten := by
  unfold Join
  rw [String.intercalate, intercalate_go_data]

theorem splitChars_joined (sep : Char) (l : List String) (hl : ∀ u ∈ l, sep ∉ u.data) :
    ∀ a : String, sep ∉ a.data →
      splitChars sep (a.data ++ (l.map (fun b => sep :: b.data)).flatten) =
        a.data :: l.map (fun b => b.data) := by
  induction l with
  | nil =>
    intro a ha
    rw [splitChars_append sep _ _ ha]
    simp [splitChars]
  | cons b l ih =>
    intro a ha
    have hb := hl b (List.mem_cons_self _ _)
    have hl' : ∀ u ∈ l, sep ∉ u.data := fun u hu => hl u (List.mem_cons_of_mem _ hu)
    simp only [List.map_cons, List.flatten_cons, List.cons_append]
    rw [splitChars_append sep _ _ ha, splitChars_sep, ih hl' b hb]
    simp

/-- Splitting on `sep` the join of a non-empty list of strings that do not
contain `sep` gives the list back. -/
theorem Split_Join (sep : Char) (l : List String) (hne : l ≠ [])
    (hl : ∀ u ∈ l, sep ∉ u.data) : Split (Join l (String.singleton sep)) sep = l := by
  cases l with
  | nil => exact absurd rfl hne
  | cons a l =>
    unfold Split
    rw [Join_cons_data]
    have hs : (String.singleton sep).data = [sep] := rfl
    simp only [hs, List.singleton_append]
    rw [splitChars_joined sep l (fun u hu => hl u (List.mem_cons_of_mem _ hu)) a
      (hl a (List.mem_cons_self _ _))]
    have hid : ∀ t : List String, (t.map (fun b => b.data)).map String.mk = t := by
      intro t
      induction t with
      | nil => rfl
      | cons b t ih => simp only [List.map_cons, ih]
    simp only [List.map_cons]
    rw [hid l]

end SplitLemmas

end Main
namespace Main

section GuardedLemmas

variable {K : Type} [LinearOrder K]

theorem Guarded.adopt {hashFunc : String → K} {Q : Distributor → Prop}
    (hQ : Guarded hashFunc Q) (d : Distributor) (w : String) (h : NoFault d.Storage)
    (hq : Q d) : Q (adoptService hashFunc d w) := by
  rw [adoptService_eq hashFunc d w h]
  split
  · exact hq
  · split
    · exact hq
    · rename_i hf
      exact hQ.cacheService _ _ (hQ.rebalanced _ hf hq)

theorem pruneServices_guarded (hashFunc : String → K) (S : List String)
    (Q : Distributor → Prop) (hQ : Guarded hashFunc Q) :
    ∀ (rest : List String) (d : Distributor), NoFault d.Storage → Q d →
      NoFault (pruneServices hashFunc S rest d).2.Storage ∧
      Q (pruneServices hashFunc S rest d).2 ∧
      ((pruneServices hashFunc S rest d).1 ≠ none →
        (pruneServices hashFunc S rest d).2.balanceFails) := by
  intro rest
  induction rest with
  | nil => intro d h hq; exact ⟨h, hq, fun hne => absurd rfl hne⟩
  | cons w rest ih =>
    intro d h hq
    rw [pruneServices_cons hashFunc S w rest d h]
    by_cases hok : pruneServiceOk S d w
    · rw [if_pos hok]
      apply ih _ (NoFault_pruneServiceStep hashFunc S d w h)
      unfold pruneServiceStep
      split
      · exact hq
      · rename_i hx
        rcases hok with hok | hok
        · exact absurd hok hx
        · exact hQ.rebalanced _ hok (hQ.dropService _ _ hq)
    · rw [if_neg hok]
      refine ⟨h, hQ.dropService _ _ hq, fun _ => ?_⟩
      by_contra hf
      exact hok (Or.inr hf)

theorem probeServices_guarded (hashFunc : String → K)
    (Q : Distributor → Prop) (hQ : Guarded hashFunc Q) :
    ∀ (rest : List String) (d : Distributor), NoFault d.Storage → Q d →
      NoFault (probeServices hashFunc rest d).2.Storage ∧
      Q (probeServices hashFunc rest d).2 ∧
      ((probeServices hashFunc rest d).1 ≠ none →
        (probeServices hashFunc rest d).2.balanceFails) := by
  intro rest
  induction rest with
  | nil => intro d h hq; exact ⟨h, hq, fun hne => absurd rfl hne⟩
  | cons w rest ih =>
    intro d h hq
    rw [probeServices_cons hashFunc w rest d h]
    by_cases hok : probeOk hashFunc d w
    · rw [if_pos hok]
      apply ih _ (NoFault_probeStep hashFunc d w h)
      unfold probeStep
      split
      · exact hQ.adopt d w h hq
      · rename_i hp
        rcases hok with hok | hok
        · exact absurd hok hp
        · exact hQ.rebalanced _ hok (hQ.evictService _ _ (hQ.adopt d w h hq))
    · rw [if_neg hok]
      refine ⟨NoFault_adoptService hashFunc d w h,
        hQ.evictService _ _ (hQ.adopt d w h hq), fun _ => ?_⟩
      by_contra hf
      exact hok (Or.inr hf)

theorem pruneWorkUnits_guarded (hashFunc : String → K) (U : List String)
    (Q : Distributor → Prop) (hQ : Guarded hashFunc Q) :
    ∀ (rest : List String) (d : Distributor), NoFault d.Storage → Q d →
      NoFault (pruneWorkUnits hashFunc U rest d).2.Storage ∧
      Q (pruneWorkUnits hashFunc U rest d).2 ∧
      ((pruneWorkUnits hashFunc U rest d).1 ≠ none →
        (pruneWorkUnits hashFunc U rest d).2.balanceFails) := by
  intro rest
  induction rest with
  | nil => intro d h hq; exact ⟨h, hq, fun hne => absurd rfl hne⟩
  | cons w rest ih =>
    intro d h hq
    rw [pruneWorkUnits_cons hashFunc U w rest d h]
    by_cases hok : pruneUnitOk U d w
    · rw [if_pos hok]
      apply ih _ (NoFault_pruneUnitStep hashFunc U d w h)
      unfold pruneUnitStep
      split
      · exact hq
      · rename_i hx
        rcases hok with hok | hok
        · exact absurd hok hx
        · exact hQ.rebalanced _ hok (hQ.dropWorkUnit _ _ hq)
    · rw [if_neg hok]
      refine ⟨h, hQ.dropWorkUnit _ _ hq, fun _ => ?_⟩
      by_contra hf
      exact hok (Or.inr hf)

theorem adoptWorkUnits_guarded (hashFunc : String → K)
    (Q : Distributor → Prop) (hQ : Guarded hashFunc Q) :
    ∀ (rest : List String) (d : Distributor), NoFault d.Storage → Q d →
      NoFault (adoptWorkUnits hashFunc rest d).Storage ∧
      Q (adoptWorkUnits hashFunc rest d) := by
  intro rest
  induction rest with
  | nil => intro d h hq; exact ⟨h, hq⟩
  | cons w rest ih =>
    intro d h hq
    rw [adoptWorkUnits_cons hashFunc w rest d h]
    apply ih _ (NoFault_adoptUnitStep hashFunc d w h)
    unfold adoptUnitStep
    split
    · exact hq
    · split
      · exact hq
      · rename_i hf
        exact hQ.cacheWorkUnit _ _ (hQ.rebalanced _ hf hq)

/-- A tick with no storage failure keeps every guarded property, and when it
returns an error it ends in a state in which `balance` is refused. -/
theorem LivenessCheck_guarded (hashFunc : String → K) (Q : Distributor → Prop)
    (hQ : Guarded hashFunc Q) (d : Distributor) (h : NoFault d.Storage) (hq : Q d) :
    Q (d.LivenessCheck hashFunc).2 ∧
    ((d.LivenessCheck hashFunc).1 ≠ none → (d.LivenessCheck hashFunc).2.balanceFails) := by
  rw [LivenessCheck_eq hashFunc d h]
  obtain ⟨h1, q1, f1⟩ := pruneServices_guarded hashFunc d.svcList Q hQ
    d.serviceCache.services d h hq
  rcases hr1 : pruneServices hashFunc d.svcList d.serviceCache.services d with ⟨e1, d1⟩
  rw [hr1] at h1 q1 f1
  cases e1 with
  | some err => exact ⟨q1, f1⟩
  | none =>
    simp only []
    obtain ⟨h2, q2, f2⟩ := probeServices_guarded hashFunc Q hQ d.svcList d1 h1 q1
    rcases hr2 : probeServices hashFunc d.svcList d1 with ⟨e2, d2⟩
    rw [hr2] at h2 q2 f2
    cases e2 with
    | some err => exact ⟨q2, f2⟩
    | none =>
      simp only []
      obtain ⟨h3, q3, f3⟩ := pruneWorkUnits_guarded hashFunc d.unitList Q hQ
        d2.workUnitsCache.workunits d2 h2 q2
      rcases hr3 : pruneWorkUnits hashFunc d.unitList d2.workUnitsCache.workunits d2
        with ⟨e3, d3⟩
      rw [hr3] at h3 q3 f3
      cases e3 with
      | some err => exact ⟨q3, f3⟩
      | none =>
        exact ⟨(adoptWorkUnits_guarded hashFunc Q hQ d.unitList d3 h3 q3).2,
          fun hne => absurd rfl hne⟩

theorem balanceFails_guarded (hashFunc : String → K) :
    Guarded hashFunc (fun d => d.balanceFails) := by
  refine ⟨?_, ?_, ?_, ?_, ?_, ?_⟩
  · intro d hf hq
    exact absurd hq hf
  · intro d x hq
    simpa [Distributor.balanceFails] using hq
  · intro d x hq
    unfold Distributor.balanceFails at hq ⊢
    rw [Distributor.evictService_unitList, Distributor.evictService_svcList]
    rcases hq with hq | hq
    · left
      split
      · rw [hq]; rfl
      · exact hq
    · right
      rw [hq]; rfl
  · intro d x hq
    simpa [Distributor.balanceFails] using hq
  · intro d x hq
    simpa [Distributor.balanceFails] using hq
  · intro d x hq
    simpa [Distributor.balanceFails] using hq

theorem Untouched_guarded (hashFunc : String → K) (T : GoMap String) :
    Guarded hashFunc (Distributor.Untouched T) := by
  refine ⟨?_, ?_, ?_, ?_, ?_, ?_⟩
  · intro d hf hq f
    rw [Distributor.table_rebalanced, Distributor.rebalanced_svcList,
      Distributor.rebalanced_unitList]
    cases hm : matchingTable hashFunc d.svcList d.unitList f with
    | none => exact hq f
    | some a =>
      right; right
      refine ⟨(matchingTable_isSome hashFunc d.svcList d.unitList f).mp (by rw [hm]; rfl), ?_⟩
      exact fun hu => hf (Or.inl hu)
  · intro d x hq f
    rw [Distributor.dropService_table, Distributor.dropService_svcList,
      Distributor.dropService_unitList]
    by_cases hfx : f = x
    · right; left
      simp [GoMap.delete, hfx]
    · simpa [GoMap.delete, hfx] using hq f
  · intro d x hq f
    rw [Distributor.evictService_table]
    by_cases hfx : f = x
    · right; left
      simp [GoMap.delete, hfx]
    · simp only [GoMap.delete, hfx, if_false]
      rcases hq f with hq | hq | ⟨hs, hu⟩
      · exact Or.inl hq
      · exact Or.inr (Or.inl hq)
      · right; right
        have hmem : f ∈ d.svcList.filter (· ≠ x) := by
          simp [List.mem_filter, hs, hfx]
        refine ⟨by rw [Distributor.evictService_svcList]; exact hmem, ?_⟩
        rw [Distributor.evictService_unitList]
        split
        · rename_i hk
          rw [unitList_eq_of_keys d hk]
          intro he
          rw [he] at hmem
          cases hmem
        · exact hu
  · intro d x hq f
    rw [Distributor.dropWorkUnit_table, Distributor.dropWorkUnit_svcList,
      Distributor.dropWorkUnit_unitList]
    by_cases hfx : f = x
    · right; left
      simp [GoMap.delete, hfx]
    · simpa [GoMap.delete, hfx] using hq f
  · intro d x hq f
    simpa using hq f
  · intro d x hq f
    simpa using hq f

/-- In a tick with no storage failure that ends with an empty list of
services or of work units, every field of the matching table is as it was at
the start or has been deleted. -/
theorem LivenessCheck_untouched (hashFunc : String → K) (d : Distributor)
    (h : NoFault d.Storage) (hf : (d.LivenessCheck hashFunc).2.balanceFails) :
    ∀ f, (d.LivenessCheck hashFunc).2.table f = d.table f ∨
      (d.LivenessCheck hashFunc).2.table f = none := by
  have hq := (LivenessCheck_guarded hashFunc _ (Untouched_guarded hashFunc d.table) d h
    (fun f => Or.inl rfl)).1
  intro f
  rcases hq f with hq | hq | ⟨hs, hu⟩
  · exact Or.inl hq
  · exact Or.inr hq
  · exfalso
    rcases hf with hf | hf
    · exact hu hf
    · rw [hf] at hs
      cases hs

end GuardedLemmas

end Main
namespace Main

section RawLoops

variable {K : Type} [LinearOrder K]

/-- Whatever the storage answers, `balance` leaves the outcome of the pings
and the two caches as they are. -/
theorem balance_local (hashFunc : String → K) (d : Distributor) :
    (d.balance hashFunc).2.p = d.p ∧
    (d.balance hashFunc).2.serviceCache = d.serviceCache ∧
    (d.balance hashFunc).2.workUnitsCache = d.workUnitsCache := by
  unfold Distributor.balance Distributor.RingMembers Distributor.Services
    Distributor.PutToMatchingTable Storage.GetList
  by_cases h0 : d.Storage.faults 0 = true
  · simp [h0]
  · simp only [h0, Bool.false_eq_true, if_false]
    by_cases hu : (d.Storage.Lists d.ringMembers).length = 0
    · simp [hu]
    · simp only [hu, if_false]
      by_cases h1 : d.Storage.next.faults 0 = true
      · simp [h1]
      · simp only [h1, Bool.false_eq_true, if_false]
        by_cases hs : (d.Storage.next.Lists d.serviceNamespace).length = 0
        · simp [hs]
        · simp [hs]

/-- Whatever the storage answers, the adoption step keeps the outcome of the
pings and the cache of work units, and adds at most its service to the cache
of services. -/
theorem adoptService_local (hashFunc : String → K) (d : Distributor) (w : String) :
    (adoptService hashFunc d w).p = d.p ∧
    (adoptService hashFunc d w).workUnitsCache = d.workUnitsCache ∧
    ∀ x ∈ (adoptService hashFunc d w).serviceCache.services,
      x ∈ d.serviceCache.services ∨ x = w := by
  obtain ⟨hp, hc, hu⟩ := balance_local hashFunc d
  unfold adoptService
  by_cases he : d.serviceCache.exist w = true
  · rw [if_neg (by simp [he])]
    exact ⟨rfl, rfl, fun x hx => Or.inl hx⟩
  · rw [if_pos (by simp [he])]
    generalize Distributor.balance hashFunc d = r at hp hc hu ⊢
    obtain ⟨e, d'⟩ := r
    simp only at hp hc hu
    cases e with
    | some err => exact ⟨hp, hu, fun x hx => Or.inl (by rw [← hc]; exact hx)⟩
    | none =>
      refine ⟨hp, hu, ?_⟩
      intro x hx
      simp only [ServiceCache.mem_add, hc] at hx
      rcases hx with hx | hx
      · exact Or.inr hx
      · exact Or.inl hx

theorem pruneServices_unfold (hashFunc : String → K) (S : List String) (x : String)
    (rest : List String) (d : Distributor) :
    pruneServices hashFunc S (x :: rest) d =
      if includes S x = true then pruneServices hashFunc S rest d
      else
        match d.Storage.DelFromMap d.distributionNamespace x with
        | (some err, st) =>
          (some err, { d with serviceCache := d.serviceCache.del x, Storage := st })
        | (none, st) =>
          match Distributor.balance hashFunc
            { d with serviceCache := d.serviceCache.del x, Storage := st } with
          | (some err, d') => (some err, d')
          | (none, d') => pruneServices hashFunc S rest d' := by
  rw [pruneServices]
  by_cases h : includes S x = true
  · simp [h]
  · simp only [h, Bool.not_false, if_true, if_false, Bool.not_eq_true]
    rfl

theorem pruneServices_raw (hashFunc : String → K) (S : List String) :
    ∀ (rest : List String) (d : Distributor),
      (pruneServices hashFunc S rest d).1 = none →
      (pruneServices hashFunc S rest d).2.p = d.p ∧
      (pruneServices hashFunc S rest d).2.workUnitsCache = d.workUnitsCache ∧
      ∀ x ∈ (pruneServices hashFunc S rest d).2.serviceCache.services,
        x ∈ d.serviceCache.services ∧ (x ∈ rest → x ∈ S) := by
  intro rest
  induction rest with
  | nil =>
    intro d _
    exact ⟨rfl, rfl, fun x hx => ⟨hx, fun h => by cases h⟩⟩
  | cons w rest ih =>
    intro d hnone
    rw [pruneServices_unfold] at hnone ⊢
    by_cases hw : includes S w = true
    · rw [if_pos hw] at hnone ⊢
      obtain ⟨hp, hu, hc⟩ := ih d hnone
      refine ⟨hp, hu, fun x hx => ⟨(hc x hx).1, ?_⟩⟩
      intro hm
      rcases List.mem_cons.mp hm with rfl | hm'
      · exact (includes_iff S x).mp hw
      · exact (hc x hx).2 hm'
    · rw [if_neg hw] at hnone ⊢
      generalize d.Storage.DelFromMap d.distributionNamespace w = r1 at hnone ⊢
      obtain ⟨e1, st⟩ := r1
      cases e1 with
      | some err => simp at hnone
      | none =>
        simp only at hnone ⊢
        obtain ⟨bp, bc, bu⟩ := balance_local hashFunc
          { d with serviceCache := d.serviceCache.del w, Storage := st }
        generalize Distributor.balance hashFunc
          { d with serviceCache := d.serviceCache.del w, Storage := st } = r2
          at hnone bp bc bu ⊢
        obtain ⟨e2, d2⟩ := r2
        cases e2 with
        | some err => simp at hnone
        | none =>
          simp only at hnone bp bc bu ⊢
          obtain ⟨hp, hu, hc⟩ := ih d2 hnone
          refine ⟨hp.trans bp, hu.trans bu, ?_⟩
          intro x hx
          have hx2 := (hc x hx).1
          rw [bc] at hx2
          simp only [ServiceCache.mem_del] at hx2
          refine ⟨hx2.2, ?_⟩
          intro hm
          rcases List.mem_cons.mp hm with rfl | hm'
          · exact absurd rfl hx2.1
          · exact (hc x hx).2 hm'

theorem probeServices_unfold (hashFunc : String → K) (w : String) (rest : List String)
    (d d1 : Distributor) (hd1 : adoptService hashFunc d w = d1) :
    probeServices hashFunc (w :: rest) d =
      if d1.p w = true then probeServices hashFunc rest d1
      else
        match d1.Storage.DelFromList d1.serviceNamespace w with
        | (some err, st) =>
          (some err, { d1 with serviceCache := d1.serviceCache.del w, Storage := st })
        | (none, st) =>
          match st.DelFromMap d1.distributionNamespace w with
          | (some err, st) =>
            (some err, { d1 with serviceCache := d1.serviceCache.del w, Storage := st })
          | (none, st) =>
            match Distributor.balance hashFunc
              { d1 with serviceCache := d1.serviceCache.del w, Storage := st } with
            | (some err, d') => (some err, d')
            | (none, d') => probeServices hashFunc rest d' := by
  rw [probeServices]
  subst hd1
  by_cases h : (adoptService hashFunc d w).p w = true
  · simp [h]
  · simp only [h, if_false, Bool.false_eq_true]
    try rfl

theorem probeServices_raw (hashFunc : String → K) :
    ∀ (rest : List String) (d : Distributor),
      (probeServices hashFunc rest d).1 = none →
      (probeServices hashFunc rest d).2.p = d.p ∧
      (probeServices hashFunc rest d).2.workUnitsCache = d.workUnitsCache ∧
      ∀ x ∈ (probeServices hashFunc rest d).2.serviceCache.services,
        (x ∈ d.serviceCache.services ∨ x ∈ rest) ∧ (x ∈ rest → d.p x = true) := by
  intro rest
  induction rest with
  | nil =>
    intro d _
    exact ⟨rfl, rfl, fun x hx => ⟨Or.inl hx, fun h => by cases h⟩⟩
  | cons w rest ih =>
    intro d hnone
    obtain ⟨ap, au, ac⟩ := adoptService_local hashFunc d w
    generalize hd1 : adoptService hashFunc d w = d1 at ap au ac
    rw [probeServices_unfold hashFunc w rest d d1 hd1] at hnone ⊢
    by_cases hp : d1.p w = true
    · rw [if_pos hp] at hnone ⊢
      obtain ⟨hp', hu, hc⟩ := ih d1 hnone
      refine ⟨hp'.trans ap, hu.trans au, ?_⟩
      intro x hx
      obtain ⟨h1, h2⟩ := hc x hx
      refine ⟨?_, ?_⟩
      · rcases h1 with h1 | h1
        · rcases ac x h1 with h3 | h3
          · exact Or.inl h3
          · exact Or.inr (by rw [h3]; exact List.mem_cons_self _ _)
        · exact Or.inr (List.mem_cons_of_mem _ h1)
      · intro hm
        rcases List.mem_cons.mp hm with rfl | hm'
        · rw [← ap]; exact hp
        · rw [← ap]; exact h2 hm'
    · rw [if_neg hp] at hnone ⊢
      generalize d1.Storage.DelFromList d1.serviceNamespace w = r1 at hnone ⊢
      obtain ⟨e1, st1⟩ := r1
      cases e1 with
      | some err => simp at hnone
      | none =>
        simp only at hnone ⊢
        generalize st1.DelFromMap d1.distributionNamespace w = r2 at hnone ⊢
        obtain ⟨e2, st2⟩ := r2
        cases e2 with
        | some err => simp at hnone
        | none =>
          simp only at hnone ⊢
          obtain ⟨bp, bc, bu⟩ := balance_local hashFunc
            { d1 with serviceCache := d1.serviceCache.del w, Storage := st2 }
          generalize Distributor.balance hashFunc
            { d1 with serviceCache := d1.serviceCache.del w, Storage := st2 } = r3
            at hnone bp bc bu ⊢
          obtain ⟨e3, d3⟩ := r3
          cases e3 with
          | some err => simp at hnone
          | none =>
            simp only at hnone bp bc bu ⊢
            obtain ⟨hp', hu, hc⟩ := ih d3 hnone
            refine ⟨(hp'.trans bp).trans ap, (hu.trans bu).trans au, ?_⟩
            intro x hx
            obtain ⟨h1, h2⟩ := hc x hx
            have hpx : x ∈ rest → d.p x = true := by
              intro hm
              rw [← ap, ← bp]
              exact h2 hm
            have hmem : (x ∈ d.serviceCache.services ∧ x ≠ w) ∨ x ∈ rest := by
              rcases h1 with h1 | h1
              · rw [bc] at h1
                simp only [ServiceCache.mem_del] at h1
                rcases ac x h1.2 with h3 | h3
                · exact Or.inl ⟨h3, h1.1⟩
                · exact absurd h3 h1.1
              · exact Or.inr h1
            refine ⟨?_, ?_⟩
            · rcases hmem with h3 | h3
              · exact Or.inl h3.1
              · exact Or.inr (List.mem_cons_of_mem _ h3)
            · intro hm
              rcases hmem with h3 | h3
              · rcases List.mem_cons.mp hm with h4 | h4
                · exact absurd h4 h3.2
                · exact hpx h4
              · exact hpx h3

theorem pruneWorkUnits_unfold (hashFunc : String → K) (U : List String) (x : String)
    (rest : List String) (d : Distributor) :
    pruneWorkUnits hashFunc U (x :: rest) d =
      if includes U x = true then pruneWorkUnits hashFunc U rest d
      else
        match d.Storage.DelFromMap d.distributionNamespace x with
        | (some err, st) =>
          (some err, { d with workUnitsCache := d.workUnitsCache.del x, Storage := st })
        | (none, st) =>
          match Distributor.balance hashFunc
            { d with workUnitsCache := d.workUnitsCache.del x, Storage := st } with
          | (some err, d') => (some err, d')
          | (none, d') => pruneWorkUnits hashFunc U rest d' := by
  rw [pruneWorkUnits]
  by_cases h : includes U x = true
  · simp [h]
  · simp only [h, Bool.not_false, if_true, if_false, Bool.not_eq_true]
    rfl

theorem pruneWorkUnits_raw (hashFunc : String → K) (U : List String) :
    ∀ (rest : List String) (d : Distributor),
      (pruneWorkUnits hashFunc U rest d).1 = none →
      (pruneWorkUnits hashFunc U rest d).2.p = d.p ∧
      (pruneWorkUnits hashFunc U rest d).2.serviceCache = d.serviceCache ∧
      ∀ x ∈ (pruneWorkUnits hashFunc U rest d).2.workUnitsCache.workunits,
        x ∈ d.workUnitsCache.workunits ∧ (x ∈ rest → x ∈ U) := by
  intro rest
  induction rest with
  | nil =>
    intro d _
    exact ⟨rfl, rfl, fun x hx => ⟨hx, fun h => by cases h⟩⟩
  | cons w rest ih =>
    intro d hnone
    rw [pruneWorkUnits_unfold] at hnone ⊢
    by_cases hw : includes U w = true
    · rw [if_pos hw] at hnone ⊢
      obtain ⟨hp, hu, hc⟩ := ih d hnone
      refine ⟨hp, hu, fun x hx => ⟨(hc x hx).1, ?_⟩⟩
      intro hm
      rcases List.mem_cons.mp hm with rfl | hm'
      · exact (includes_iff U x).mp hw
      · exact (hc x hx).2 hm'
    · rw [if_neg hw] at hnone ⊢
      generalize d.Storage.DelFromMap d.distributionNamespace w = r1 at hnone ⊢
      obtain ⟨e1, st⟩ := r1
      cases e1 with
      | some err => simp at hnone
      | none =>
        simp only at hnone ⊢
        obtain ⟨bp, bc, bu⟩ := balance_local hashFunc
          { d with workUnitsCache := d.workUnitsCache.del w, Storage := st }
        generalize Distributor.balance hashFunc
          { d with workUnitsCache := d.workUnitsCache.del w, Storage := st } = r2
          at hnone bp bc bu ⊢
        obtain ⟨e2, d2⟩ := r2
        cases e2 with
        | some err => simp at hnone
        | none =>
          simp only at hnone bp bc bu ⊢
          obtain ⟨hp, hu, hc⟩ := ih d2 hnone
          refine ⟨hp.trans bp, hu.trans bc, ?_⟩
          intro x hx
          have hx2 := (hc x hx).1
          rw [bu] at hx2
          simp only [WorkUnitsCache.mem_del_unit] at hx2
          refine ⟨hx2.2, ?_⟩
          intro hm
          rcases List.mem_cons.mp hm with rfl | hm'
          · exact absurd rfl hx2.1
          · exact (hc x hx).2 hm'

theorem adoptWorkUnits_raw (hashFunc : String → K) :
    ∀ (rest : List String) (d : Distributor),
      (adoptWorkUnits hashFunc rest d).p = d.p ∧
      (adoptWorkUnits hashFunc rest d).serviceCache = d.serviceCache ∧
      ∀ x ∈ (adoptWorkUnits hashFunc rest d).workUnitsCache.workunits,
        x ∈ d.workUnitsCache.workunits ∨ x ∈ rest := by
  intro rest
  induction rest with
  | nil =>
    intro d
    exact ⟨rfl, rfl, fun x hx => Or.inl hx⟩
  | cons w rest ih =>
    intro d
    rw [adoptWorkUnits]
    by_cases he : d.workUnitsCache.exist w = true
    · rw [if_neg (by simp [he])]
      obtain ⟨hp, hc, hu⟩ := ih d
      refine ⟨hp, hc, fun x hx => ?_⟩
      rcases hu x hx with h1 | h1
      · exact Or.inl h1
      · exact Or.inr (List.mem_cons_of_mem _ h1)
    · rw [if_pos (by simp [he])]
      obtain ⟨bp, bc, bu⟩ := balance_local hashFunc d
      generalize Distributor.balance hashFunc d = r at bp bc bu ⊢
      obtain ⟨e, d'⟩ := r
      simp only at bp bc bu
      cases e with
      | some err =>
        simp only []
        obtain ⟨hp, hc, hu⟩ := ih d'
        refine ⟨hp.trans bp, hc.trans bc, fun x hx => ?_⟩
        rcases hu x hx with h1 | h1
        · exact Or.inl (by rw [← bu]; exact h1)
        · exact Or.inr (List.mem_cons_of_mem _ h1)
      | none =>
        simp only []
        obtain ⟨hp, hc, hu⟩ := ih { d' with workUnitsCache := d'.workUnitsCache.add w }
        refine ⟨hp.trans bp, hc.trans bc, fun x hx => ?_⟩
        rcases hu x hx with h1 | h1
        · simp only [WorkUnitsCache.mem_add_unit, bu] at h1
          rcases h1 with h1 | h1
          · exact Or.inr (by rw [h1]; exact List.mem_cons_self _ _)
          · exact Or.inl h1
        · exact Or.inr (List.mem_cons_of_mem _ h1)

/-- Whatever the storage answers, after a tick that returns no error every
cached service is in the list of services read at the start of the tick and
answered its ping, and every cached work unit is in the list of work units
read at the start of the tick. -/
theorem LivenessCheck_raw (hashFunc : String → K) (d : Distributor)
    (hnone : (d.LivenessCheck hashFunc).1 = none) :
    (∀ x ∈ (d.LivenessCheck hashFunc).2.serviceCache.services,
      x ∈ d.svcList ∧ d.p x = true) ∧
    (∀ u ∈ (d.LivenessCheck hashFunc).2.workUnitsCache.workunits, u ∈ d.unitList) := by
  unfold Distributor.LivenessCheck Distributor.Services Distributor.RingMembers
    Storage.GetList at hnone ⊢
  by_cases h0 : d.Storage.faults 0 = true
  · simp [h0] at hnone
  · simp only [h0, Bool.false_eq_true, if_false] at hnone ⊢
    by_cases h1 : d.Storage.next.faults 0 = true
    · simp [h1] at hnone
    · simp only [h1, Bool.false_eq_true, if_false, ServiceCache.all,
        WorkUnitsCache.all] at hnone ⊢
      have hS : d.Storage.Lists d.serviceNamespace = d.svcList := rfl
      have hU : d.Storage.next.Lists d.ringMembers = d.unitList := rfl
      rw [hS, hU] at hnone ⊢
      generalize hd0 : ({ d with Storage := d.Storage.next.next } : Distributor) = d0
        at hnone ⊢
      have hc0 : d0.serviceCache = d.serviceCache := by rw [← hd0]
      have hu0 : d0.workUnitsCache = d.workUnitsCache := by rw [← hd0]
      have hp0 : d0.p = d.p := by rw [← hd0]
      have l1 := pruneServices_raw hashFunc d.svcList d.serviceCache.services d0
      generalize pruneServices hashFunc d.svcList d.serviceCache.services d0 = r1
        at hnone l1 ⊢
      obtain ⟨e1, d1⟩ := r1
      cases e1 with
      | some err => simp at hnone
      | none =>
        simp only at hnone l1 ⊢
        obtain ⟨p1, u1, c1⟩ := l1 trivial
        have l2 := probeServices_raw hashFunc d.svcList d1
        generalize probeServices hashFunc d.svcList d1 = r2 at hnone l2 ⊢
        obtain ⟨e2, d2⟩ := r2
        cases e2 with
        | some err => simp at hnone
        | none =>
          simp only at hnone l2 ⊢
          obtain ⟨p2, u2, c2⟩ := l2 trivial
          have l3 := pruneWorkUnits_raw hashFunc d.unitList d2.workUnitsCache.workunits d2
          generalize pruneWorkUnits hashFunc d.unitList d2.workUnitsCache.workunits d2 = r3
            at hnone l3 ⊢
          obtain ⟨e3, d3⟩ := r3
          cases e3 with
          | some err => simp at hnone
          | none =>
            simp only at hnone l3 ⊢
            obtain ⟨p3, c3, u3⟩ := l3 trivial
            obtain ⟨p4, c4, u4⟩ := adoptWorkUnits_raw hashFunc d.unitList d3
            refine ⟨?_, ?_⟩
            · intro x hx
              rw [c4, c3] at hx
              obtain ⟨h1', h2'⟩ := c2 x hx
              have hxs : x ∈ d.svcList := by
                rcases h1' with h3 | h3
                · exact (c1 x h3).2 (by rw [← hc0]; exact (c1 x h3).1)
                · exact h3
              refine ⟨hxs, ?_⟩
              rw [← hp0, ← p1]
              exact h2' hxs
            · intro x hx
              rcases u4 x hx with h3 | h3
              · exact (u3 x h3).2 (u3 x h3).1
              · exact h3

end RawLoops

end Main
namespace Main

section WrittenTable

variable {K : Type} [LinearOrder K]

/-- What a successful `PutToMatchingTable` leaves in the table: for every
service the comma-joined slice computed for it, and every other field as it
was. -/
theorem PutToMatchingTable_written (hashFunc : String → K) (d : Distributor)
    (services ringMembers : List String)
    (hok : (d.PutToMatchingTable hashFunc services ringMembers).1 = none) :
    (∀ w ∈ services, ∃ a, matchingTable hashFunc services ringMembers w = some a ∧
      (d.PutToMatchingTable hashFunc services ringMembers).2.Storage.HashTable
        d.distributionNamespace w = some (Join a ",")) ∧
    (∀ w, w ∉ services →
      (d.PutToMatchingTable hashFunc services ringMembers).2.Storage.HashTable
        d.distributionNamespace w = d.Storage.HashTable d.distributionNamespace w) := by
  obtain ⟨hne, hf⟩ := PutToMatchingTable_none hashFunc d services ringMembers hok
  have hw := (PutToMatchingTable_ok hashFunc d services ringMembers hne hf).2
  constructor
  · intro w hmem
    have hs := (matchingTable_isSome hashFunc services ringMembers w).mpr hmem
    cases hm : matchingTable hashFunc services ringMembers w with
    | none => rw [hm] at hs; cases hs
    | some a => exact ⟨a, rfl, by rw [hw w, hm]⟩
  · intro w hmem
    have hs : matchingTable hashFunc services ringMembers w = none := by
      cases hm : matchingTable hashFunc services ringMembers w with
      | none => rfl
      | some a =>
        exact absurd ((matchingTable_isSome hashFunc services ringMembers w).mp
          (by rw [hm]; rfl)) hmem
    rw [hw w, hs]

/-- With at least as many services as work units (quota 1), whatever the hash
function: in sorted order the first `|units|` services get one unit each, the
later ones the empty slice, and every unit is in the slice of some service. -/
theorem matchingTable_quota_one (hashFunc : String → K) (services ringMembers : List String)
    (hs : services.Nodup) (hu : ringMembers.Nodup)
    (hle : ringMembers.length ≤ services.length) :
    (∀ w ∈ (sortStrings services).take ringMembers.length,
      ∃ a, matchingTable hashFunc services ringMembers w = some a ∧ a.length = 1) ∧
    (∀ w ∈ (sortStrings services).drop ringMembers.length,
      matchingTable hashFunc services ringMembers w = some []) ∧
    (∀ u ∈ ringMembers, ∃ w ∈ services, ∃ a,
      matchingTable hashFunc services ringMembers w = some a ∧ u ∈ a) := by
  have hdiv : ringMembers.length / services.length ≤ 1 :=
    Nat.div_le_of_le_mul (by omega)
  have hbase : (if ringMembers.length / services.length < 1 then 1
      else ringMembers.length / services.length) = 1 := by
    split <;> omega
  have hnodes := buildRing_nodes_of_nodup hashFunc ringMembers hu
  obtain ⟨h1, h2, h3⟩ := matchingLoop_surplus hashFunc services.length ringMembers.length
    (by omega) (sortStrings services) 0 (buildRing hashFunc ringMembers) GoMap.empty
    (nodup_sortStrings services hs) (buildRing_inv hashFunc ringMembers)
  rw [hnodes] at h1 h2 h3
  have hT := matchingTable_eq hashFunc services ringMembers
  rw [hbase] at hT
  rw [← hT] at h1 h2 h3
  refine ⟨h1, h2, ?_⟩
  intro u hmem
  obtain ⟨w, hw, a, ha, hua⟩ := h3 (by rw [length_sortStrings]; exact hle) u hmem
  exact ⟨w, (mem_sortStrings services w).mp hw, a, ha, hua⟩

end WrittenTable

end Main
namespace Main

section GuardedOnLemmas

variable {K : Type} [LinearOrder K]

theorem GuardedOn.adoptOn {hashFunc : String → K} {C S W U : List String}
    {Q : Distributor → Prop} (hQ : GuardedOn hashFunc C S W U Q) (d : Distributor)
    (w : String) (h : NoFault d.Storage) (hq : Q d) : Q (adoptService hashFunc d w) := by
  rw [adoptService_eq hashFunc d w h]
  split
  · exact hq
  · split
    · exact hq
    · rename_i hf
      exact hQ.cacheService _ _ (hQ.rebalanced _ hf hq)

theorem pruneServices_guardedOn (hashFunc : String → K) (C S W U : List String)
    (Q : Distributor → Prop) (hQ : GuardedOn hashFunc C S W U Q) :
    ∀ (rest : List String) (d : Distributor), (∀ x ∈ rest, x ∈ C) → NoFault d.Storage → Q d →
      NoFault (pruneServices hashFunc S rest d).2.Storage ∧
      Q (pruneServices hashFunc S rest d).2 := by
  intro rest
  induction rest with
  | nil => intro d _ h hq; exact ⟨h, hq⟩
  | cons w rest ih =>
    intro d hsub h hq
    have hw : w ∈ C := hsub w (by simp)
    have hsub' : ∀ x ∈ rest, x ∈ C := fun x hx => hsub x (List.mem_cons_of_mem _ hx)
    rw [pruneServices_cons hashFunc S w rest d h]
    by_cases hok : pruneServiceOk S d w
    · rw [if_pos hok]
      apply ih _ hsub' (NoFault_pruneServiceStep hashFunc S d w h)
      unfold pruneServiceStep
      split
      · exact hq
      · rename_i hx
        rcases hok with hok | hok
        · exact absurd hok hx
        · exact hQ.rebalanced _ hok (hQ.dropService _ _ hw hx hq)
    · rw [if_neg hok]
      exact ⟨h, hQ.dropService _ _ hw (fun hx => hok (Or.inl hx)) hq⟩

theorem probeServices_guardedOn (hashFunc : String → K) (C S W U : List String)
    (Q : Distributor → Prop) (hQ : GuardedOn hashFunc C S W U Q) :
    ∀ (rest : List String) (d : Distributor), (∀ x ∈ rest, x ∈ S) → NoFault d.Storage → Q d →
      NoFault (probeServices hashFunc rest d).2.Storage ∧
      Q (probeServices hashFunc rest d).2 := by
  intro rest
  induction rest with
  | nil => intro d _ h hq; exact ⟨h, hq⟩
  | cons w rest ih =>
    intro d hsub h hq
    have hw : w ∈ S := hsub w (by simp)
    have hsub' : ∀ x ∈ rest, x ∈ S := fun x hx => hsub x (List.mem_cons_of_mem _ hx)
    rw [probeServices_cons hashFunc w rest d h]
    by_cases hok : probeOk hashFunc d w
    · rw [if_pos hok]
      apply ih _ hsub' (NoFault_probeStep hashFunc d w h)
      unfold probeStep
      split
      · exact hQ.adoptOn d w h hq
      · rename_i hp
        rcases hok with hok | hok
        · exact absurd hok hp
        · exact hQ.rebalanced _ hok
            (hQ.evictService _ _ hw (by simpa using hp) (hQ.adoptOn d w h hq))
    · rw [if_neg hok]
      have hp : ¬ (adoptService hashFunc d w).p w = true := fun hp => hok (Or.inl hp)
      exact ⟨NoFault_adoptService hashFunc d w h,
        hQ.evictService _ _ hw (by simpa using hp) (hQ.adoptOn d w h hq)⟩

theorem pruneWorkUnits_guardedOn (hashFunc : String → K) (C S W U : List String)
    (Q : Distributor → Prop) (hQ : GuardedOn hashFunc C S W U Q) :
    ∀ (rest : List String) (d : Distributor), (∀ x ∈ rest, x ∈ W) → NoFault d.Storage → Q d →
      NoFault (pruneWorkUnits hashFunc U rest d).2.Storage ∧
      Q (pruneWorkUnits hashFunc U rest d).2 := by
  intro rest
  induction rest with
  | nil => intro d _ h hq; exact ⟨h, hq⟩
  | cons w rest ih =>
    intro d hsub h hq
    have hw : w ∈ W := hsub w (by simp)
    have hsub' : ∀ x ∈ rest, x ∈ W := fun x hx => hsub x (List.mem_cons_of_mem _ hx)
    rw [pruneWorkUnits_cons hashFunc U w rest d h]
    by_cases hok : pruneUnitOk U d w
    · rw [if_pos hok]
      apply ih _ hsub' (NoFault_pruneUnitStep hashFunc U d w h)
      unfold pruneUnitStep
      split
      · exact hq
      · rename_i hx
        rcases hok with hok | hok
        · exact absurd hok hx
        · exact hQ.rebalanced _ hok (hQ.dropWorkUnit _ _ hw hx hq)
    · rw [if_neg hok]
      exact ⟨h, hQ.dropWorkUnit _ _ hw (fun hx => hok (Or.inl hx)) hq⟩

theorem adoptWorkUnits_guardedOn (hashFunc : String → K) (C S W U : List String)
    (Q : Distributor → Prop) (hQ : GuardedOn hashFunc C S W U Q) :
    ∀ (rest : List String) (d : Distributor), NoFault d.Storage → Q d →
      Q (adoptWorkUnits hashFunc rest d) := by
  intro rest
  induction rest with
  | nil => intro d _ hq; exact hq
  | cons w rest ih =>
    intro d h hq
    rw [adoptWorkUnits_cons hashFunc w rest d h]
    apply ih _ (NoFault_adoptUnitStep hashFunc d w h)
    unfold adoptUnitStep
    split
    · exact hq
    · split
      · exact hq
      · rename_i hf
        exact hQ.cacheWorkUnit _ _ (hQ.rebalanced _ hf hq)

/-- A tick with no storage failure keeps every property guarded on the caches
and lists it starts with. -/
theorem LivenessCheck_guardedOn (hashFunc : String → K) (Q : Distributor → Prop)
    (d : Distributor)
    (hQ : GuardedOn hashFunc d.serviceCache.services d.svcList d.workUnitsCache.workunits
      d.unitList Q)
    (h : NoFault d.Storage) (hq : Q d) : Q (d.LivenessCheck hashFunc).2 := by
  rw [LivenessCheck_eq hashFunc d h]
  obtain ⟨h1, q1⟩ := pruneServices_guardedOn hashFunc _ _ _ _ Q hQ
    d.serviceCache.services d (fun _ hx => hx) h hq
  have r1 := pruneServices_raw hashFunc d.svcList d.serviceCache.services d
  rcases hr1 : pruneServices hashFunc d.svcList d.serviceCache.services d with ⟨e1, d1⟩
  rw [hr1] at h1 q1 r1
  cases e1 with
  | some err => exact q1
  | none =>
    simp only []
    obtain ⟨h2, q2⟩ := probeServices_guardedOn hashFunc _ _ _ _ Q hQ d.svcList d1
      (fun _ hx => hx) h1 q1
    have r2 := probeServices_raw hashFunc d.svcList d1
    rcases hr2 : probeServices hashFunc d.svcList d1 with ⟨e2, d2⟩
    rw [hr2] at h2 q2 r2
    cases e2 with
    | some err => exact q2
    | none =>
      simp only []
      have hw : d2.workUnitsCache = d.workUnitsCache := by
        rw [(r2 rfl).2.1, (r1 rfl).2.1]
      obtain ⟨h3, q3⟩ := pruneWorkUnits_guardedOn hashFunc _ _ _ _ Q hQ
        d2.workUnitsCache.workunits d2 (fun x hx => by rw [← hw]; exact hx) h2 q2
      rcases hr3 : pruneWorkUnits hashFunc d.unitList d2.workUnitsCache.workunits d2
        with ⟨e3, d3⟩
      rw [hr3] at h3 q3
      cases e3 with
      | some err => exact q3
      | none => exact adoptWorkUnits_guardedOn hashFunc _ _ _ _ Q hQ d.unitList d3 h3 q3

theorem Cleared_guardedOn (hashFunc : String → K) (d0 : Distributor) :
    GuardedOn hashFunc d0.serviceCache.services d0.svcList d0.workUnitsCache.workunits
      d0.unitList (Distributor.Cleared d0) := by
  refine ⟨?_, ?_, ?_, ?_, ?_, ?_⟩
  · rintro d hf ⟨hp, hq⟩
    refine ⟨by rw [Distributor.rebalanced_p]; exact hp, ?_⟩
    intro f
    rw [Distributor.table_rebalanced, Distributor.rebalanced_svcList,
      Distributor.rebalanced_unitList]
    cases hm : matchingTable hashFunc d.svcList d.unitList f with
    | none => exact hq f
    | some a =>
      right; right
      refine ⟨(matchingTable_isSome hashFunc d.svcList d.unitList f).mp (by rw [hm]; rfl), ?_⟩
      exact fun hu => hf (Or.inl hu)
  · rintro d x hc hs ⟨hp, hq⟩
    refine ⟨by rw [Distributor.dropService_p]; exact hp, ?_⟩
    intro f
    rw [Distributor.dropService_table, Distributor.dropService_svcList,
      Distributor.dropService_unitList]
    by_cases hfx : f = x
    · right; left
      subst hfx
      exact ⟨by simp [GoMap.delete], Or.inl ⟨hc, hs⟩⟩
    · simpa [GoMap.delete, hfx] using hq f
  · rintro d x hs hpx ⟨hp, hq⟩
    refine ⟨by rw [Distributor.evictService_p]; exact hp, ?_⟩
    intro f
    rw [Distributor.evictService_table]
    by_cases hfx : f = x
    · right; left
      subst hfx
      exact ⟨by simp [GoMap.delete], Or.inr (Or.inl ⟨hs, by rw [← hp]; exact hpx⟩)⟩
    · simp only [GoMap.delete, hfx, if_false]
      rcases hq f with hq | hq | ⟨hs', hu⟩
      · exact Or.inl hq
      · exact Or.inr (Or.inl hq)
      · right; right
        have hmem : f ∈ d.svcList.filter (· ≠ x) := by
          simp [List.mem_filter, hs', hfx]
        refine ⟨by rw [Distributor.evictService_svcList]; exact hmem, ?_⟩
        rw [Distributor.evictService_unitList]
        split
        · rename_i hk
          rw [unitList_eq_of_keys d hk]
          intro he
          rw [he] at hmem
          cases hmem
        · exact hu
  · rintro d x hc hs ⟨hp, hq⟩
    refine ⟨by rw [Distributor.dropWorkUnit_p]; exact hp, ?_⟩
    intro f
    rw [Distributor.dropWorkUnit_table, Distributor.dropWorkUnit_svcList,
      Distributor.dropWorkUnit_unitList]
    by_cases hfx : f = x
    · right; left
      subst hfx
      exact ⟨by simp [GoMap.delete], Or.inr (Or.inr ⟨hc, hs⟩)⟩
    · simpa [GoMap.delete, hfx] using hq f
  · rintro d x ⟨hp, hq⟩
    exact ⟨by rw [Distributor.cacheService_p]; exact hp, fun f => by simpa using hq f⟩
  · rintro d x ⟨hp, hq⟩
    exact ⟨by rw [Distributor.cacheWorkUnit_p]; exact hp, fun f => by simpa using hq f⟩

/-- In a tick with no storage failure that ends with an empty list of
services or of work units, every field of the matching table is as it was at
the start, or has been deleted and is the field of a cached service missing
from the list, of a listed service whose ping fails, or of a cached work unit
missing from the list. -/
theorem LivenessCheck_cleared (hashFunc : String → K) (d : Distributor)
    (h : NoFault d.Storage) (hf : (d.LivenessCheck hashFunc).2.balanceFails) :
    ∀ f, (d.LivenessCheck hashFunc).2.table f = d.table f ∨
      ((d.LivenessCheck hashFunc).2.table f = none ∧ d.Removable f) := by
  have hq := (LivenessCheck_guardedOn hashFunc _ d (Cleared_guardedOn hashFunc d) h
    ⟨rfl, fun f => Or.inl rfl⟩).2
  intro f
  rcases hq f with hq | hq | ⟨hs, hu⟩
  · exact Or.inl hq
  · exact Or.inr hq
  · exfalso
    rcases hf with hf | hf
    · exact hu hf
    · rw [hf] at hs
      cases hs

end GuardedOnLemmas

end Main
namespace Main

section SettledLemmas

variable {K : Type} [LinearOrder K]

theorem Keys_stable (hashFunc : String → K) (d0 : Distributor) :
    Stable hashFunc (fun d => d.ringMembers = d0.ringMembers ∧
      d.serviceNamespace = d0.serviceNamespace) := by
  refine ⟨?_, ?_, ?_, ?_, ?_, ?_⟩
  · intro d hq; simpa using hq
  · intro d x hq; simpa using hq
  · intro d x hq; simpa using hq
  · intro d x hq; simpa using hq
  · intro d x hq; simpa using hq
  · intro d x hq; simpa using hq

theorem Shrunk_stable (hashFunc : String → K) (S : List String) :
    Stable hashFunc (fun d => ∀ x ∈ d.svcList, x ∈ S) := by
  refine ⟨?_, ?_, ?_, ?_, ?_, ?_⟩
  · intro d hq; simpa using hq
  · intro d x hq; simpa using hq
  · intro d x hq y hy
    rw [Distributor.evictService_svcList] at hy
    exact hq y (List.mem_filter.mp hy).1
  · intro d x hq; simpa using hq
  · intro d x hq; simpa using hq
  · intro d x hq; simpa using hq

/-- A service of `S` that is no longer listed has no field. -/
theorem Gone_stable (hashFunc : String → K) (S : List String) :
    Stable hashFunc (fun d => ∀ x ∈ S, x ∉ d.svcList → d.table x = none) := by
  refine ⟨?_, ?_, ?_, ?_, ?_, ?_⟩
  · intro d hq x hx hnot
    have hnot' : x ∉ d.svcList := by simpa using hnot
    rw [Distributor.table_rebalanced, matchingTable_none hashFunc _ _ x hnot']
    exact hq x hx hnot'
  · intro d x hq y hy hnot
    have hnot' : y ∉ d.svcList := by simpa using hnot
    simp [GoMap.delete, hq y hy hnot']
  · intro d x hq y hy hnot
    rw [Distributor.evictService_table]
    by_cases hyx : y = x
    · simp [GoMap.delete, hyx]
    · have hnot' : y ∉ d.svcList := by
        intro hmem
        apply hnot
        rw [Distributor.evictService_svcList]
        exact List.mem_filter.mpr ⟨hmem, by simpa using hyx⟩
      simp [GoMap.delete, hq y hy hnot']
  · intro d x hq y hy hnot
    have hnot' : y ∉ d.svcList := by simpa using hnot
    simp [GoMap.delete, hq y hy hnot']
  · intro d x hq y hy hnot
    have hnot' : y ∉ d.svcList := by simpa using hnot
    simpa using hq y hy hnot'
  · intro d x hq y hy hnot
    have hnot' : y ∉ d.svcList := by simpa using hnot
    simpa using hq y hy hnot'

/-- A listed service that answers its ping stays listed. -/
theorem Kept_guardedOn (hashFunc : String → K) (d0 : Distributor) (C S W U : List String) :
    GuardedOn hashFunc C S W U
      (fun d => d.p = d0.p ∧ ∀ y ∈ d0.svcList, d0.p y = true → y ∈ d.svcList) := by
  refine ⟨?_, ?_, ?_, ?_, ?_, ?_⟩
  · rintro d _ ⟨hp, hq⟩
    exact ⟨by simpa using hp, by simpa using hq⟩
  · rintro d x _ _ ⟨hp, hq⟩
    exact ⟨by simpa using hp, by simpa using hq⟩
  · rintro d x _ hpx ⟨hp, hq⟩
    refine ⟨by simpa using hp, ?_⟩
    intro y hy hpy
    rw [Distributor.evictService_svcList]
    refine List.mem_filter.mpr ⟨hq y hy hpy, ?_⟩
    have hne : y ≠ x := by
      rintro rfl
      rw [hp, hpy] at hpx
      cases hpx
    simpa using hne
  · rintro d x _ _ ⟨hp, hq⟩
    exact ⟨by simpa using hp, by simpa using hq⟩
  · rintro d x ⟨hp, hq⟩
    exact ⟨by simpa using hp, by simpa using hq⟩
  · rintro d x ⟨hp, hq⟩
    exact ⟨by simpa using hp, by simpa using hq⟩

/-- A tick that returns no error, no storage call failing: no listed service
whose ping fails is listed at the end; if there was one, the table at the end
is the one of the two lists and no rebalance would be refused; and every work
unit read at the start is cached at the end unless a rebalance would be
refused. -/
theorem LivenessCheck_walk (hashFunc : String → K) (d : Distributor)
    (h : NoFault d.Storage) (hnone : (d.LivenessCheck hashFunc).1 = none) :
    (∀ x ∈ d.svcList, d.p x = false → x ∉ (d.LivenessCheck hashFunc).2.svcList) ∧
    ((∃ x ∈ d.svcList, d.p x = false) →
      (d.LivenessCheck hashFunc).2.Synced hashFunc ∧
      ¬ (d.LivenessCheck hashFunc).2.balanceFails) ∧
    (∀ u ∈ d.unitList, u ∈ (d.LivenessCheck hashFunc).2.workUnitsCache.workunits ∨
      (d.LivenessCheck hashFunc).2.balanceFails) := by
  have hL := Loose_stable hashFunc d
  rw [LivenessCheck_eq hashFunc d h] at hnone ⊢
  -- first loop
  obtain ⟨h1, l1⟩ := pruneServices_stable hashFunc d.svcList (Distributor.Loose d) hL
    d.serviceCache.services d h ⟨rfl, fun _ hy => hy, Or.inl rfl⟩
  have hd1 := pruneServices_cache hashFunc d.svcList d.serviceCache.services d h rfl
  rcases hr1 : pruneServices hashFunc d.svcList d.serviceCache.services d with ⟨e1, d1⟩
  rw [hr1] at hnone h1 l1 hd1
  cases e1 with
  | some err => simp at hnone
  | none =>
    simp only [] at hnone h1 l1 hd1 ⊢
    obtain ⟨hl1, _, hp1, _⟩ := hd1 trivial
    -- second loop
    have hQ2 : ∀ (d' : Distributor) (w : String), True → NoFault d'.Storage →
        probeOk hashFunc d' w → d.Loose d' → d.Loose (probeStep hashFunc d' w) :=
      fun d' w _ h' _ hq => hL.probeStep d' w h' hq
    rcases hr2 : probeServices hashFunc d.svcList d1 with ⟨e2, d2⟩
    rw [hr2] at hnone
    cases e2 with
    | some err => simp at hnone
    | none =>
      have n2 : (probeServices hashFunc d.svcList d1).1 = none := by rw [hr2]
      obtain ⟨h2, l2, hb2⟩ := probeServices_each hashFunc (fun _ => True) (Distributor.Loose d)
        (fun x => d.p x = false) (fun x d' => x ∉ d'.svcList) hQ2
        (by
          intro d' w x _ h' _ hq hb
          rw [probeStep_eq hashFunc d' w h']
          rcases hb with hb | ⟨rfl, hpx⟩
          · by_cases hp : d'.p w = true
            · rw [if_pos hp, adoptService_svcList hashFunc d' w h']
              exact hb
            · rw [if_neg hp]
              simp only [Distributor.rebalanced_svcList,
                Distributor.evictService_svcList, adoptService_svcList hashFunc d' w h',
                List.mem_filter]
              exact fun hx => hb hx.1
          · have hp : ¬ d'.p w = true := by
              rw [hq.1, hpx]
              simp
            rw [if_neg hp]
            simp only [Distributor.rebalanced_svcList,
              Distributor.evictService_svcList, adoptService_svcList hashFunc d' w h',
              List.mem_filter, decide_eq_true_eq]
            exact fun hx => hx.2 rfl)
        d.svcList d1 (fun _ _ => trivial) h1 l1 n2
      obtain ⟨_, _, hs2⟩ := probeServices_each hashFunc (fun _ => True) (Distributor.Loose d)
        (fun x => d.p x = false)
        (fun _ d' => d'.Synced hashFunc ∧ ¬ d'.balanceFails) hQ2
        (by
          intro d' w x _ h' hok hq hb
          rw [probeOk_iff hashFunc d' w h'] at hok
          rw [probeStep_eq hashFunc d' w h']
          by_cases hp : d'.p w = true
          · rw [if_pos hp]
            rcases hb with ⟨hsy, hnf⟩ | ⟨rfl, hpx⟩
            · refine ⟨?_, fun hf => hnf ((adoptService_fails hashFunc d' w h').mp hf)⟩
              rw [adoptService_eq hashFunc d' w h']
              by_cases hc : w ∈ d'.serviceCache.services
              · rw [if_pos hc]
                exact hsy
              · rw [if_neg hc, if_neg hnf]
                exact Synced_cacheService hashFunc _ w (Synced_rebalanced hashFunc d')
            · rw [hq.1, hpx] at hp
              cases hp
          · rw [if_neg hp]
            have hnf : ¬ ((adoptService hashFunc d' w).evictService w).balanceFails := by
              rcases hok with hok | hok
              · exact absurd hok hp
              · exact hok
            refine ⟨Synced_rebalanced hashFunc _, ?_⟩
            intro hf
            apply hnf
            unfold Distributor.balanceFails at hf ⊢
            simpa using hf)
        d.svcList d1 (fun _ _ => trivial) h1 l1 n2
      rw [hr2] at h2 l2 hb2 hs2
      simp only [] at hnone h2 l2 hb2 hs2 ⊢
      -- third loop
      rcases hr3 : pruneWorkUnits hashFunc d.unitList d2.workUnitsCache.workunits d2
        with ⟨e3, d3⟩
      rw [hr3] at hnone
      cases e3 with
      | some err => simp at hnone
      | none =>
        have n3 : (pruneWorkUnits hashFunc d.unitList d2.workUnitsCache.workunits d2).1
            = none := by rw [hr3]
        obtain ⟨h3, hq3, hs3⟩ := pruneWorkUnits_each hashFunc d.unitList (fun _ => True)
          (fun d' => d'.svcList = d2.svcList ∧ d'.unitList = d2.unitList)
          (fun _ => False) (fun _ d' => d'.Synced hashFunc)
          (by
            intro d' w _ _ _ hq
            unfold pruneUnitStep
            split
            · exact hq
            · exact ⟨by simpa using hq.1, by simpa using hq.2⟩)
          (by
            intro d' w x _ _ _ _ hb
            unfold pruneUnitStep
            rcases hb with hb | ⟨_, hx⟩
            · split
              · exact hb
              · exact Synced_rebalanced hashFunc _
            · exact absurd hx id)
          d2.workUnitsCache.workunits d2 (fun _ _ => trivial) h2 ⟨rfl, rfl⟩ n3
        rw [hr3] at h3 hq3 hs3
        simp only [] at h3 hq3 hs3 ⊢
        obtain ⟨hl3, hu3⟩ := hq3
        -- fourth loop
        obtain ⟨hl4, hul4, _, _, hall4⟩ := adoptWorkUnits_done hashFunc d.unitList d3 h3
        obtain ⟨_, _, hs4⟩ := adoptWorkUnits_each hashFunc (fun _ => True) (fun _ => True)
          (fun _ => False) (fun _ d' => d'.Synced hashFunc)
          (fun _ _ _ _ _ => trivial)
          (by
            intro d' w x _ _ _ hb
            unfold adoptUnitStep
            rcases hb with hb | ⟨_, hx⟩
            · split
              · exact hb
              · split
                · exact hb
                · exact Synced_cacheWorkUnit hashFunc _ w (Synced_rebalanced hashFunc d')
            · exact absurd hx id)
          d.unitList d3 (fun _ _ => trivial) h3 trivial
        refine ⟨?_, ?_, hall4⟩
        · intro x hx hpx
          rw [hl4, hl3]
          exact hb2 x (Or.inl ⟨hx, hpx⟩)
        · rintro ⟨x, hx, hpx⟩
          obtain ⟨hsy, hnf⟩ := hs2 x (Or.inl ⟨hx, hpx⟩)
          refine ⟨hs4 "" (Or.inr (hs3 "" (Or.inr hsy))), ?_⟩
          unfold Distributor.balanceFails at hnf ⊢
          rw [hl4, hul4, hl3, hu3]
          exact hnf

/-- A tick that returns no error, no storage call failing, ends in a settled
state, whatever the keys of the two lists. -/
theorem LivenessCheck_settled (hashFunc : String → K) (d : Distributor)
    (h : NoFault d.Storage) (hnone : (d.LivenessCheck hashFunc).1 = none) :
    NoFault (d.LivenessCheck hashFunc).2.Storage ∧
    (d.LivenessCheck hashFunc).2.Settled hashFunc := by
  have hnf := LivenessCheck_stable hashFunc (fun d' => NoFault d'.Storage)
    ⟨fun _ hq => hq, fun _ _ hq => hq, fun _ _ hq => hq, fun _ _ hq => hq,
      fun _ _ hq => hq, fun _ _ hq => hq⟩ d h h
  have hloose := LivenessCheck_stable hashFunc _ (Loose_stable hashFunc d) d h
    ⟨rfl, fun _ hy => hy, Or.inl rfl⟩
  have hkeys := LivenessCheck_stable hashFunc _ (Keys_stable hashFunc d) d h ⟨rfl, rfl⟩
  have hshr := LivenessCheck_stable hashFunc _ (Shrunk_stable hashFunc d.svcList) d h
    (fun _ hx => hx)
  have hgone := LivenessCheck_stable hashFunc _ (Gone_stable hashFunc d.svcList) d h
    (fun x hx hnot => absurd hx hnot)
  have hkept := LivenessCheck_guardedOn hashFunc _ d
    (Kept_guardedOn hashFunc d _ _ _ _) h ⟨rfl, fun _ hy _ => hy⟩
  have hcache := LivenessCheck_cache hashFunc d h hnone
  have hraw := LivenessCheck_raw hashFunc d hnone
  obtain ⟨hbad, hsync, hall⟩ := LivenessCheck_walk hashFunc d h hnone
  generalize (d.LivenessCheck hashFunc).2 = d1 at *
  have hans : ∀ w ∈ d1.svcList, d.p w = true := by
    intro w hw
    by_contra hpw
    exact hbad w (hshr w hw) (by simpa using hpw) hw
  refine ⟨hnf, ?_, ?_, ?_, ?_, ?_⟩
  · intro x hx
    obtain ⟨hxs, hpx, _⟩ := (hcache x).mp hx
    exact hkept.2 x hxs hpx
  · intro w hw
    rw [hloose.1]
    exact hans w hw
  · by_cases hu : d.unitList = []
    · right; left
      apply List.eq_nil_iff_forall_not_mem.mpr
      intro y hy
      have := hloose.2.1 y hy
      rw [hu] at this
      cases this
    · left
      intro w hw
      exact (hcache w).mpr ⟨hshr w hw, hans w hw, Or.inr hu⟩
  · by_cases hf : d1.balanceFails
    · exact Or.inr hf
    · left
      intro u hu
      rcases hall u (hloose.2.1 u hu) with hc | hc
      · exact hc
      · exact absurd hc hf
  · by_cases hst : ∀ x ∈ d1.workUnitsCache.workunits, x ∈ d1.unitList
    · exact Or.inl hst
    · right
      push_neg at hst
      obtain ⟨x, hxc, hxn⟩ := hst
      have hxU : x ∈ d.unitList := hraw.2 x hxc
      have hk1 : d1.ringMembers = d1.serviceNamespace := by
        rcases hloose.2.2 with he | hk
        · rw [he] at hxn
          exact absurd hxU hxn
        · exact hk
      have hk0 : d.ringMembers = d.serviceNamespace := by
        rw [← hkeys.1, ← hkeys.2]
        exact hk1
      have hu0 := unitList_eq_of_keys d hk0
      have hu1 := unitList_eq_of_keys d1 hk1
      have hev : ∀ y ∈ d1.workUnitsCache.workunits, y ∉ d1.unitList →
          y ∈ d.svcList ∧ y ∉ d1.svcList ∧ d.p y = false := by
        intro y hyc hyn
        have hyU := hraw.2 y hyc
        rw [hu0] at hyU
        rw [hu1] at hyn
        refine ⟨hyU, hyn, ?_⟩
        by_contra hpy
        exact hyn (hkept.2 y hyU (by simpa using hpy))
      obtain ⟨hxS, _, hpx⟩ := hev x hxc hxn
      obtain ⟨hsy, hnf'⟩ := hsync ⟨x, hxS, hpx⟩
      refine ⟨hsy, hnf', ?_⟩
      intro y hyc hyn
      obtain ⟨hyS, hyn', _⟩ := hev y hyc hyn
      exact hgone y hyS hyn'

/-- A tick started in a settled state, no storage call failing, returns no
error and leaves the matching table as it was. -/
theorem LivenessCheck_table_idle (hashFunc : String → K) (d : Distributor)
    (h : NoFault d.Storage) (hst : d.Settled hashFunc) :
    (d.LivenessCheck hashFunc).1 = none ∧ (d.LivenessCheck hashFunc).2.table = d.table := by
  obtain ⟨q1, q2, q3, q4, q5⟩ := hst
  rcases q5 with q5 | ⟨hsy, hnf, habs⟩
  · rw [LivenessCheck_quiescent hashFunc d h ⟨q1, q2, q3, q5, q4⟩]
    exact ⟨rfl, rfl⟩
  · have hall : ∀ u ∈ d.unitList, u ∈ d.workUnitsCache.workunits := by
      rcases q4 with q4 | q4
      · exact q4
      · exact absurd q4 hnf
    rw [LivenessCheck_eq hashFunc d h,
      pruneServices_skip hashFunc d.svcList d.serviceCache.services d h q1]
    simp only []
    rw [probeServices_skip hashFunc d.svcList d h (by
      intro w hw
      refine ⟨q2 w hw, ?_⟩
      rcases q3 with q3 | q3
      · exact Or.inl (q3 w hw)
      · exact Or.inr q3)]
    simp only []
    have n3 := pruneWorkUnits_none hashFunc d.unitList
      (fun d' => d'.svcList = d.svcList ∧ d'.unitList = d.unitList)
      (by
        intro d' w _ _ hq
        unfold pruneUnitStep
        split
        · exact hq
        · exact ⟨by simpa using hq.1, by simpa using hq.2⟩)
      (by
        intro d' w _ hq
        right
        unfold Distributor.balanceFails
        rw [Distributor.dropWorkUnit_svcList, Distributor.dropWorkUnit_unitList, hq.1, hq.2]
        exact hnf)
      d.workUnitsCache.workunits d h ⟨rfl, rfl⟩
    obtain ⟨h3, hq3, _⟩ := pruneWorkUnits_each hashFunc d.unitList
      (fun x => x ∈ d.workUnitsCache.workunits)
      (fun d' => d'.table = d.table ∧ d'.svcList = d.svcList ∧ d'.unitList = d.unitList ∧
        ∀ u ∈ d.unitList, u ∈ d'.workUnitsCache.workunits)
      (fun _ => False) (fun _ _ => True)
      (by
        rintro d' w hw _ _ ⟨ht, hl, hu, hc⟩
        unfold pruneUnitStep
        by_cases hwU : w ∈ d.unitList
        · rw [if_pos hwU]
          exact ⟨ht, hl, hu, hc⟩
        · rw [if_neg hwU]
          refine ⟨?_, by simpa using hl, by simpa using hu, ?_⟩
          · funext f
            rw [Distributor.table_rebalanced, Distributor.dropWorkUnit_svcList,
              Distributor.dropWorkUnit_unitList, Distributor.dropWorkUnit_table, hl, hu, ht]
            cases hm : matchingTable hashFunc d.svcList d.unitList f with
            | none =>
              by_cases hfw : f = w
              · subst hfw
                simp [GoMap.delete, habs f hw hwU]
              · simp [GoMap.delete, hfw]
            | some a =>
              have hf : f ∈ d.svcList :=
                (matchingTable_isSome hashFunc d.svcList d.unitList f).mp (by rw [hm]; rfl)
              have := hsy f hf
              rw [hm] at this
              rw [this]
              rfl
          · intro u hu'
            simp only [Distributor.rebalanced_workUnitsCache,
              Distributor.dropWorkUnit_workUnitsCache, WorkUnitsCache.mem_del_unit]
            refine ⟨?_, hc u hu'⟩
            rintro rfl
            exact hwU hu')
      (fun _ _ _ _ _ _ _ _ => trivial)
      d.workUnitsCache.workunits d (fun _ hx => hx) h ⟨rfl, rfl, rfl, hall⟩ n3
    rcases hr3 : pruneWorkUnits hashFunc d.unitList d.workUnitsCache.workunits d with ⟨e3, d3⟩
    rw [hr3] at n3 h3 hq3
    simp only at n3 h3 hq3
    subst n3
    simp only []
    obtain ⟨ht3, _, hu3, hc3⟩ := hq3
    rw [adoptWorkUnits_skip hashFunc d.unitList d3 h3 (fun u hu => Or.inl (hc3 u hu))]
    exact ⟨trivial, ht3⟩

end SettledLemmas

end Main
namespace Main

section FirstTick

variable {K : Type} [LinearOrder K]

/-- Over a store that answers `GetList` with a copy: a tick that starts with an
empty service cache and an empty matching
table, in which no storage call fails, the list of work units is not empty and
some listed service answers its ping, returns no error and ends with: the list
of services of the storage reduced to the listed services whose ping
succeeded; every service whose ping failed absent from the cache, from that
list and from the matching table; and the fields of the matching table exactly
the listed services whose ping succeeded. -/
theorem LivenessCheck_first_tick (hashFunc : String → K) (d : Distributor)
    (hnf : NoFault d.Storage) (hcache : d.serviceCache.services = [])
    (htable : ∀ x, d.table x = none) (hu : d.unitList ≠ [])
    (hg : ∃ g ∈ d.svcList, d.p g = true) :
    (d.LivenessCheck hashFunc).1 = none ∧
    (d.LivenessCheck hashFunc).2.svcList = d.svcList.filter d.p ∧
    (∀ w, d.p w = false →
      w ∉ (d.LivenessCheck hashFunc).2.serviceCache.services ∧
      w ∉ (d.LivenessCheck hashFunc).2.svcList ∧
      (d.LivenessCheck hashFunc).2.table w = none) ∧
    (∀ w, ((d.LivenessCheck hashFunc).2.table w).isSome = true ↔
      (w ∈ d.svcList ∧ d.p w = true)) := by
  obtain ⟨hnone, _, hl, hbad, _, hout, hcov⟩ := LivenessCheck_healthy hashFunc d hnf ⟨hu, hg⟩
  have htight : (d.LivenessCheck hashFunc).2.Tight :=
    LivenessCheck_stable hashFunc Distributor.Tight (Tight_stable hashFunc) d hnf
      (by intro x hx; rw [htable x] at hx; cases hx)
  have hcovered := hcov (Or.inr (Or.inl hcache))
  have hiff : ∀ w, ((d.LivenessCheck hashFunc).2.table w).isSome = true ↔
      (w ∈ d.svcList ∧ d.p w = true) := by
    intro w
    constructor
    · intro hw
      have := htight w hw
      rw [hl, List.mem_filter] at this
      exact this
    · intro hw
      apply hcovered
      rw [hl, List.mem_filter]
      exact hw
  refine ⟨hnone, hl, ?_, hiff⟩
  intro w hpw
  refine ⟨?_, ?_, ?_⟩
  · by_cases hw : w ∈ d.svcList
    · exact (hbad w hw hpw).1
    · exact hout w hw
  · rw [hl, List.mem_filter]
    rintro ⟨_, hp⟩
    rw [hpw] at hp
    cases hp
  · cases hopt : (d.LivenessCheck hashFunc).2.table w with
    | none => rfl
    | some v =>
      have := (hiff w).mp (by rw [hopt]; rfl)
      rw [hpw] at this
      cases this.2

end FirstTick

end Main
/-! ## Claims about `PutToMatchingTable` -/

namespace Main

section BalancerClaims

variable {K : Type} [LinearOrder K]

/-- C1: for a non-empty list of services, the table `PutToMatchingTable`
writes holds for each service the comma-joined slice of its matching members;
no slice lists a work unit twice, and the slices of two different services
share no work unit. -/
theorem C1_no_unit_assigned_twice (hashFunc : String → K) (d : Distributor)
    (services ringMembers : List String) (hne : services ≠ [])
    (w₁ w₂ : String) (a₁ a₂ : List String)
    (h₁ : matchingTable hashFunc services ringMembers w₁ = some a₁)
    (h₂ : matchingTable hashFunc services ringMembers w₂ = some a₂) :
    ((d.PutToMatchingTable hashFunc services ringMembers).1 = none →
      (d.PutToMatchingTable hashFunc services ringMembers).2.Storage.HashTable
        d.distributionNamespace w₁ = some (Join a₁ ",")) ∧
    a₁.Nodup ∧ (w₁ ≠ w₂ → ∀ u ∈ a₁, u ∉ a₂) := by
  refine ⟨?_, (matchingTable_sub hashFunc services ringMembers w₁ a₁ h₁).1, ?_⟩
  · intro hok
    have hf := (PutToMatchingTable_none hashFunc d services ringMembers hok).2
    rw [(PutToMatchingTable_ok hashFunc d services ringMembers hne hf).2 w₁, h₁]
  · intro hw
    exact matchingTable_disjoint hashFunc services ringMembers w₁ w₂ a₁ a₂ hw h₁ h₂

set_option maxRecDepth 100000 in
/-- C1 at a sample input: two services and three work units. -/
theorem C1_no_unit_assigned_twice_witness :
    ((((sampleDistributor ["A", "B"] ["u1", "u2", "u3"] GoMap.empty [] []).PutToMatchingTable
        sampleHash ["A", "B"] ["u1", "u2", "u3"]).1 = none →
      ((sampleDistributor ["A", "B"] ["u1", "u2", "u3"] GoMap.empty [] []).PutToMatchingTable
        sampleHash ["A", "B"] ["u1", "u2", "u3"]).2.Storage.HashTable "T" "A" = some "u2") ∧
    ["u2"].Nodup ∧ ("A" ≠ "B" → ∀ u ∈ ["u2"], u ∉ ["u1", "u3"])) :=
  C1_no_unit_assigned_twice sampleHash
    (sampleDistributor ["A", "B"] ["u1", "u2", "u3"] GoMap.empty [] [])
    ["A", "B"] ["u1", "u2", "u3"] (by decide) "A" "B" ["u2"] ["u1", "u3"]
    (by decide) (by decide)

end BalancerClaims

end Main
namespace Main

section BalancerClaims2

variable {K : Type} [LinearOrder K]

set_option maxRecDepth 100000 in
/-- C2, as stated, fails in three ways. A repeated work unit: with the single
service `A` and the unit list `[u1, u1]` the quota 2 exceeds the one node of
the ring, `GetNodes` returns nothing, and whatever the hash function the table
written is `A: ""`, so `u1` is assigned to no service. A repeated service: with
the services `[A, A]` and the units `[u1, u2]` the second slice of `A`
replaces the first, the table written is `A: "u1"` and `u2` is assigned to no
service. Colliding ring keys: under a hash function that maps every ring key
to the same value, the service `A` and the units `[u1, u2]` give the table
`A: "u2"`, and `u1` is assigned to no service. -/
theorem C2_counterexample :
    ((1 ≤ ["A"].length ∧ ["A"].length ≤ ["u1", "u1"].length) ∧
      ∀ hashFunc : String → Nat,
        ((sampleDistributor ["A"] ["u1", "u1"] GoMap.empty [] []).PutToMatchingTable
          hashFunc ["A"] ["u1", "u1"]).1 = none ∧
        ∀ w, ((sampleDistributor ["A"] ["u1", "u1"] GoMap.empty [] []).PutToMatchingTable
          hashFunc ["A"] ["u1", "u1"]).2.Storage.HashTable "T" w =
            if w = "A" then some "" else none) ∧
    ((1 ≤ ["A", "A"].length ∧ ["A", "A"].length ≤ ["u1", "u2"].length) ∧
      ((sampleDistributor ["A", "A"] ["u1", "u2"] GoMap.empty [] []).PutToMatchingTable
        sampleHash ["A", "A"] ["u1", "u2"]).1 = none ∧
      ∀ w, ((sampleDistributor ["A", "A"] ["u1", "u2"] GoMap.empty [] []).PutToMatchingTable
        sampleHash ["A", "A"] ["u1", "u2"]).2.Storage.HashTable "T" w =
          if w = "A" then some "u1" else none) ∧
    ((1 ≤ ["A"].length ∧ ["A"].length ≤ ["u1", "u2"].length ∧ ["u1", "u2"].Nodup) ∧
      ((sampleDistributor ["A"] ["u1", "u2"] GoMap.empty [] []).PutToMatchingTable
        collidingHash ["A"] ["u1", "u2"]).1 = none ∧
      ∀ w, ((sampleDistributor ["A"] ["u1", "u2"] GoMap.empty [] []).PutToMatchingTable
        collidingHash ["A"] ["u1", "u2"]).2.Storage.HashTable "T" w =
          if w = "A" then some "u2" else none) := by
  refine ⟨⟨by decide, ?_⟩, ⟨by decide, rfl, ?_⟩, ⟨by decide, rfl, ?_⟩⟩
  · intro hashFunc
    have hnodes : (buildRing hashFunc ["u1", "u1"]).nodes = ["u1"] := by
      have h1 := AddWeightedNode_nodes hashFunc (NewWithWeights hashFunc)
        (RingInv_new hashFunc) "u1"
      have h1' : (AddWeightedNode hashFunc (NewWithWeights hashFunc) "u1" 50).nodes
          = ["u1"] := by
        rw [h1]; simp [NewWithWeights, generateCircle]
      have h2 := AddWeightedNode_nodes hashFunc
        (AddWeightedNode hashFunc (NewWithWeights hashFunc) "u1" 50)
        (RingInv_add hashFunc _ (RingInv_new hashFunc) "u1") "u1"
      rw [h1'] at h2
      simpa [buildRing] using h2
    have hget : (GetNodes hashFunc (buildRing hashFunc ["u1", "u1"]) "A" 2).1 = [] :=
      GetNodes_too_many hashFunc _ "A" 2 (by rw [hnodes]; decide)
    have htab : matchingTable hashFunc ["A"] ["u1", "u1"] = GoMap.empty.set "A" [] := by
      rw [matchingTable_eq]
      have hs : sortStrings ["A"] = ["A"] := by decide
      rw [hs, matchingLoop_cons]
      simp only [List.length_cons, List.length_nil]
      norm_num
      rw [hget]
      simp [matchingLoop]
    obtain ⟨hok, hw⟩ := PutToMatchingTable_ok hashFunc
      (sampleDistributor ["A"] ["u1", "u1"] GoMap.empty [] []) ["A"] ["u1", "u1"]
      (by decide) rfl
    refine ⟨hok, ?_⟩
    intro w
    have := hw w
    rw [htab] at this
    rw [show (sampleDistributor ["A"] ["u1", "u1"] GoMap.empty [] []).distributionNamespace
      = "T" from rfl] at this
    rw [this]
    by_cases hA : w = "A"
    · subst hA; rfl
    · simp only [GoMap.set, hA, if_false]
      rfl
  · intro w
    by_cases hA : w = "A"
    · subst hA; rw [if_pos rfl]; decide
    · rw [if_neg hA]
      exact (PutToMatchingTable_written sampleHash
        (sampleDistributor ["A", "A"] ["u1", "u2"] GoMap.empty [] []) ["A", "A"] ["u1", "u2"]
        rfl).2 w (by simpa using hA)
  · intro w
    by_cases hA : w = "A"
    · subst hA; rw [if_pos rfl]; decide
    · rw [if_neg hA]
      exact (PutToMatchingTable_written collidingHash
        (sampleDistributor ["A"] ["u1", "u2"] GoMap.empty [] []) ["A"] ["u1", "u2"]
        rfl).2 w (by simpa using hA)

/-- C2, amended: for pairwise distinct services and pairwise distinct work
units no two of whose ring keys collide, with `1 <= |services| <= |units|`,
after a successful `PutToMatchingTable` the work units found in the slices
written to the table are exactly the listed work units: `u` is a listed unit
if and only if some service has a field holding the comma-joined slice computed
for it and that slice contains `u`. -/
theorem C2_all_units_assigned (hashFunc : String → K) (d : Distributor)
    (services ringMembers : List String)
    (hs : services.Nodup) (hu : ringMembers.Nodup) (hcol : NoCollision hashFunc ringMembers)
    (h1 : 1 ≤ services.length) (hle : services.length ≤ ringMembers.length)
    (hok : (d.PutToMatchingTable hashFunc services ringMembers).1 = none) (u : String) :
    u ∈ ringMembers ↔
      ∃ w a, matchingTable hashFunc services ringMembers w = some a ∧
        (d.PutToMatchingTable hashFunc services ringMembers).2.Storage.HashTable
          d.distributionNamespace w = some (Join a ",") ∧ u ∈ a := by
  have hne : services ≠ [] := by
    intro he; rw [he] at h1; simp at h1
  have hf := (PutToMatchingTable_none hashFunc d services ringMembers hok).2
  have hw := (PutToMatchingTable_ok hashFunc d services ringMembers hne hf).2
  constructor
  · intro hmem
    obtain ⟨w, ⟨a, ha, hua⟩, _⟩ :=
      matchingTable_unique hashFunc services ringMembers hs hu hcol hne hle u hmem
    exact ⟨w, a, ha, by rw [hw w, ha], hua⟩
  · rintro ⟨w, a, ha, _, hua⟩
    exact (matchingTable_sub hashFunc services ringMembers w a ha).2 u hua

set_option maxRecDepth 100000 in
/-- C2, amended, at a sample input: two services and three work units. -/
theorem C2_all_units_assigned_witness :
    "u3" ∈ ["u1", "u2", "u3"] ↔
      ∃ w a, matchingTable sampleHash ["A", "B"] ["u1", "u2", "u3"] w = some a ∧
        ((sampleDistributor ["A", "B"] ["u1", "u2", "u3"] GoMap.empty [] []).PutToMatchingTable
          sampleHash ["A", "B"] ["u1", "u2", "u3"]).2.Storage.HashTable
          (sampleDistributor ["A", "B"] ["u1", "u2", "u3"] GoMap.empty [] []).distributionNamespace
          w = some (Join a ",") ∧ "u3" ∈ a :=
  C2_all_units_assigned sampleHash
    (sampleDistributor ["A", "B"] ["u1", "u2", "u3"] GoMap.empty [] [])
    ["A", "B"] ["u1", "u2", "u3"] (by decide) (by decide)
    (by decide) (by decide) (by decide) (by decide) "u3"

set_option maxRecDepth 100000 in
/-- C3, as stated, fails when ring keys collide: under a hash function that
maps every ring key to the same value, the service `A` and the distinct units
`[u1, u2]` (`2 = 2 * 1 + 0`, so `A` is due two units) give the slice `[u2]`
and the table `A: "u2"`: the last service receives one unit, and `u1` is
assigned to no service. -/
theorem C3_counterexample :
    (["A"].Nodup ∧ ["u1", "u2"].Nodup ∧ ["u1", "u2"].length = 2 * ["A"].length + 0 ∧
      0 < ["A"].length ∧ (sortStrings ["A"]).getLast? = some "A") ∧
    matchingTable collidingHash ["A"] ["u1", "u2"] "A" = some ["u2"] ∧
    ((sampleDistributor ["A"] ["u1", "u2"] GoMap.empty [] []).PutToMatchingTable
      collidingHash ["A"] ["u1", "u2"]).1 = none ∧
    ∀ w, ((sampleDistributor ["A"] ["u1", "u2"] GoMap.empty [] []).PutToMatchingTable
      collidingHash ["A"] ["u1", "u2"]).2.Storage.HashTable "T" w =
        if w = "A" then some "u2" else none := by
  refine ⟨by decide, by decide, rfl, ?_⟩
  intro w
  by_cases hA : w = "A"
  · subst hA; rw [if_pos rfl]; decide
  · rw [if_neg hA]
    exact (PutToMatchingTable_written collidingHash
      (sampleDistributor ["A"] ["u1", "u2"] GoMap.empty [] []) ["A"] ["u1", "u2"]
      rfl).2 w (by simpa using hA)

/-- C3, amended: for pairwise distinct services and pairwise distinct work
units with `|units| = k * |services| + r`, `r < |services|` and
`|services| <= |units|`, after a successful `PutToMatchingTable`: if no two
ring keys of the units collide, every service has a field holding the
comma-joined slice computed for it, of `k + r` work units for the last service
in sorted order and of `k` for every other, and every work unit is in the
slice of exactly one service; and when `|units| = |services|`, collisions or
not, the slice of every service has exactly one work unit and every work unit
is in the slice of exactly one service. -/
theorem C3_quota (hashFunc : String → K) (d : Distributor)
    (services ringMembers : List String)
    (hs : services.Nodup) (hu : ringMembers.Nodup)
    (k r : Nat) (hk : ringMembers.length = k * services.length + r)
    (hr : r < services.length) (hle : services.length ≤ ringMembers.length)
    (hok : (d.PutToMatchingTable hashFunc services ringMembers).1 = none) :
    (NoCollision hashFunc ringMembers →
      (∀ w ∈ services, ∃ a, matchingTable hashFunc services ringMembers w = some a ∧
        (d.PutToMatchingTable hashFunc services ringMembers).2.Storage.HashTable
          d.distributionNamespace w = some (Join a ",") ∧
        a.length = if (sortStrings services).getLast? = some w then k + r else k) ∧
      (∀ u ∈ ringMembers, ∃! w, ∃ a,
        matchingTable hashFunc services ringMembers w = some a ∧
        (d.PutToMatchingTable hashFunc services ringMembers).2.Storage.HashTable
          d.distributionNamespace w = some (Join a ",") ∧ u ∈ a)) ∧
    (ringMembers.length = services.length →
      (∀ w ∈ services, ∃ a, matchingTable hashFunc services ringMembers w = some a ∧
        (d.PutToMatchingTable hashFunc services ringMembers).2.Storage.HashTable
          d.distributionNamespace w = some (Join a ",") ∧ a.length = 1) ∧
      (∀ u ∈ ringMembers, ∃! w, ∃ a,
        matchingTable hashFunc services ringMembers w = some a ∧
        (d.PutToMatchingTable hashFunc services ringMembers).2.Storage.HashTable
          d.distributionNamespace w = some (Join a ",") ∧ u ∈ a)) := by
  have hm : 0 < services.length := by omega
  have hne0 : services ≠ [] := by
    intro he; rw [he] at hm; simp at hm
  have hf := (PutToMatchingTable_none hashFunc d services ringMembers hok).2
  have hw := (PutToMatchingTable_ok hashFunc d services ringMembers hne0 hf).2
  have hfield : ∀ w a, matchingTable hashFunc services ringMembers w = some a →
      (d.PutToMatchingTable hashFunc services ringMembers).2.Storage.HashTable
        d.distributionNamespace w = some (Join a ",") := by
    intro w a ha
    rw [hw w, ha]
  have huniq : (∀ u ∈ ringMembers, ∃ w, ∃ a,
        matchingTable hashFunc services ringMembers w = some a ∧ u ∈ a) →
      ∀ u ∈ ringMembers, ∃! w, ∃ a,
        matchingTable hashFunc services ringMembers w = some a ∧
        (d.PutToMatchingTable hashFunc services ringMembers).2.Storage.HashTable
          d.distributionNamespace w = some (Join a ",") ∧ u ∈ a := by
    intro hex u hmem
    obtain ⟨w, a, ha, hua⟩ := hex u hmem
    refine ⟨w, ⟨a, ha, hfield w a ha, hua⟩, ?_⟩
    rintro w' ⟨a', ha', _, hua'⟩
    by_contra hne'
    exact matchingTable_disjoint hashFunc services ringMembers w' w a' a hne' ha' ha u hua' hua
  constructor
  · intro hcol
    have hdiv : ringMembers.length / services.length = k ∧
        ringMembers.length % services.length = r := by
      rw [Nat.div_mod_unique hm]
      refine ⟨?_, hr⟩
      rw [hk, Nat.mul_comm]; omega
    obtain ⟨hq, hrem⟩ := hdiv
    have hb : 1 ≤ k := by
      rw [← hq]; exact (Nat.one_le_div_iff hm).mpr hle
    have hbase : (if ringMembers.length / services.length < 1 then 1
        else ringMembers.length / services.length) = k := by
      rw [hq, if_neg (by omega)]
    have hnodes := buildRing_nodes_of_nodup hashFunc ringMembers hu
    have hne : sortStrings services ≠ [] := by
      intro he
      have := length_sortStrings services
      rw [he] at this
      simp at this
      omega
    obtain ⟨h1, h2⟩ := matchingLoop_even hashFunc services.length ringMembers.length k r hb
      hrem hle (by rw [hk, Nat.mul_comm]) (sortStrings services) 0
      (buildRing hashFunc ringMembers) GoMap.empty hne (nodup_sortStrings services hs)
      (by simp [length_sortStrings]) (buildRing_inv hashFunc ringMembers)
      (by rw [hnodes]; exact hcol) (by simp [hnodes])
    constructor
    · intro w hmem
      obtain ⟨a, ha, hl⟩ := h1 w ((mem_sortStrings services w).mpr hmem)
      have hT : matchingTable hashFunc services ringMembers w = some a := by
        rw [matchingTable_eq, hbase]; exact ha
      exact ⟨a, hT, hfield w a hT, hl⟩
    · apply huniq
      intro u hmem
      obtain ⟨w, _, a, ha, hua⟩ := h2 u (by rw [hnodes]; exact hmem)
      exact ⟨w, a, by rw [matchingTable_eq, hbase]; exact ha, hua⟩
  · intro heq
    obtain ⟨q1, _, q3⟩ := matchingTable_quota_one hashFunc services ringMembers hs hu
      (by omega)
    constructor
    · intro w hmem
      have hw' : w ∈ (sortStrings services).take ringMembers.length := by
        rw [heq, ← length_sortStrings services, List.take_length]
        exact (mem_sortStrings services w).mpr hmem
      obtain ⟨a, ha, hl⟩ := q1 w hw'
      exact ⟨a, ha, hfield w a ha, hl⟩
    · apply huniq
      intro u hmem
      obtain ⟨w, _, a, ha, hua⟩ := q3 u hmem
      exact ⟨w, a, ha, hua⟩

set_option maxRecDepth 100000 in
/-- C3, amended, at a sample input: three work units over two services,
`3 = 1 * 2 + 1`. -/
theorem C3_quota_witness :
    (NoCollision sampleHash ["u1", "u2", "u3"] →
      (∀ w ∈ ["A", "B"], ∃ a,
        matchingTable sampleHash ["A", "B"] ["u1", "u2", "u3"] w = some a ∧
        ((sampleDistributor ["A", "B"] ["u1", "u2", "u3"] GoMap.empty [] []).PutToMatchingTable
          sampleHash ["A", "B"] ["u1", "u2", "u3"]).2.Storage.HashTable
          (sampleDistributor ["A", "B"] ["u1", "u2", "u3"] GoMap.empty [] []).distributionNamespace
          w = some (Join a ",") ∧
        a.length = if (sortStrings ["A", "B"]).getLast? = some w then 1 + 1 else 1) ∧
      (∀ u ∈ ["u1", "u2", "u3"], ∃! w, ∃ a,
        matchingTable sampleHash ["A", "B"] ["u1", "u2", "u3"] w = some a ∧
        ((sampleDistributor ["A", "B"] ["u1", "u2", "u3"] GoMap.empty [] []).PutToMatchingTable
          sampleHash ["A", "B"] ["u1", "u2", "u3"]).2.Storage.HashTable
          (sampleDistributor ["A", "B"] ["u1", "u2", "u3"] GoMap.empty [] []).distributionNamespace
          w = some (Join a ",") ∧ u ∈ a)) ∧
    (["u1", "u2", "u3"].length = ["A", "B"].length →
      (∀ w ∈ ["A", "B"], ∃ a,
        matchingTable sampleHash ["A", "B"] ["u1", "u2", "u3"] w = some a ∧
        ((sampleDistributor ["A", "B"] ["u1", "u2", "u3"] GoMap.empty [] []).PutToMatchingTable
          sampleHash ["A", "B"] ["u1", "u2", "u3"]).2.Storage.HashTable
          (sampleDistributor ["A", "B"] ["u1", "u2", "u3"] GoMap.empty [] []).distributionNamespace
          w = some (Join a ",") ∧ a.length = 1) ∧
      (∀ u ∈ ["u1", "u2", "u3"], ∃! w, ∃ a,
        matchingTable sampleHash ["A", "B"] ["u1", "u2", "u3"] w = some a ∧
        ((sampleDistributor ["A", "B"] ["u1", "u2", "u3"] GoMap.empty [] []).PutToMatchingTable
          sampleHash ["A", "B"] ["u1", "u2", "u3"]).2.Storage.HashTable
          (sampleDistributor ["A", "B"] ["u1", "u2", "u3"] GoMap.empty [] []).distributionNamespace
          w = some (Join a ",") ∧ u ∈ a)) :=
  C3_quota sampleHash (sampleDistributor ["A", "B"] ["u1", "u2", "u3"] GoMap.empty [] [])
    ["A", "B"] ["u1", "u2", "u3"] (by decide) (by decide) 1 1 (by decide) (by decide)
    (by decide) (by decide)

end BalancerClaims2

end Main
namespace Main

section BalancerClaims3

variable {K : Type} [LinearOrder K]

/-- C5: for pairwise distinct services and pairwise distinct work units, with
more services than work units and whatever the hash function, a successful
`PutToMatchingTable` writes for every service a field holding the comma-joined
slice computed for it, of one work unit or of none, and leaves every other
field as it was; exactly `|units|` services have a field holding a slice of
exactly one work unit; the empty slice is written as the empty string; and no
work unit is in the slices of two services. -/
theorem C5_surplus_services (hashFunc : String → K) (d : Distributor)
    (services ringMembers : List String)
    (hs : services.Nodup) (hu : ringMembers.Nodup)
    (hlt : ringMembers.length < services.length)
    (hok : (d.PutToMatchingTable hashFunc services ringMembers).1 = none) :
    (∀ w ∈ services, ∃ a, matchingTable hashFunc services ringMembers w = some a ∧
      (d.PutToMatchingTable hashFunc services ringMembers).2.Storage.HashTable
        d.distributionNamespace w = some (Join a ",") ∧ (a.length = 1 ∨ a = [])) ∧
    (∀ w, w ∉ services →
      (d.PutToMatchingTable hashFunc services ringMembers).2.Storage.HashTable
        d.distributionNamespace w = d.Storage.HashTable d.distributionNamespace w) ∧
    (services.filter (fun w =>
        match matchingTable hashFunc services ringMembers w with
        | some a =>
          decide ((d.PutToMatchingTable hashFunc services ringMembers).2.Storage.HashTable
            d.distributionNamespace w = some (Join a ",")) && decide (a.length = 1)
        | none => false)).length = ringMembers.length ∧
    (∀ w ∈ services, matchingTable hashFunc services ringMembers w = some [] →
      (d.PutToMatchingTable hashFunc services ringMembers).2.Storage.HashTable
        d.distributionNamespace w = some "") ∧
    (∀ w₁ w₂ a₁ a₂, w₁ ≠ w₂ →
      matchingTable hashFunc services ringMembers w₁ = some a₁ →
      matchingTable hashFunc services ringMembers w₂ = some a₂ → ∀ u ∈ a₁, u ∉ a₂) := by
  have hm : 0 < services.length := by omega
  have hne : services ≠ [] := by
    intro he; rw [he] at hm; simp at hm
  have hf := (PutToMatchingTable_none hashFunc d services ringMembers hok).2
  have hw := (PutToMatchingTable_ok hashFunc d services ringMembers hne hf).2
  have hfield : ∀ w a, matchingTable hashFunc services ringMembers w = some a →
      (d.PutToMatchingTable hashFunc services ringMembers).2.Storage.HashTable
        d.distributionNamespace w = some (Join a ",") := by
    intro w a ha
    rw [hw w, ha]
  obtain ⟨h1, h2, _⟩ := matchingTable_quota_one hashFunc services ringMembers hs hu
    (by omega)
  have hsplit : ∀ w ∈ services, w ∈ (sortStrings services).take ringMembers.length ∨
      w ∈ (sortStrings services).drop ringMembers.length := by
    intro w hmem
    rw [← List.mem_append, List.take_append_drop]
    exact (mem_sortStrings services w).mpr hmem
  refine ⟨?_, (PutToMatchingTable_written hashFunc d services ringMembers hok).2, ?_, ?_, ?_⟩
  · intro w hmem
    rcases hsplit w hmem with h | h
    · obtain ⟨a, ha, hl⟩ := h1 w h
      exact ⟨a, ha, hfield w a ha, Or.inl hl⟩
    · exact ⟨[], h2 w h, hfield w [] (h2 w h), Or.inr rfl⟩
  · rw [((sortStrings_perm services).symm.filter _).length_eq]
    conv_lhs => rw [← List.take_append_drop ringMembers.length (sortStrings services)]
    rw [List.filter_append]
    have e1 : List.filter (fun w =>
        match matchingTable hashFunc services ringMembers w with
        | some a =>
          decide ((d.PutToMatchingTable hashFunc services ringMembers).2.Storage.HashTable
            d.distributionNamespace w = some (Join a ",")) && decide (a.length = 1)
        | none => false)
        ((sortStrings services).take ringMembers.length)
        = (sortStrings services).take ringMembers.length := by
      rw [List.filter_eq_self]
      intro w hmem
      obtain ⟨a, ha, hl⟩ := h1 w hmem
      rw [ha]
      simp [hfield w a ha, hl]
    have e2 : List.filter (fun w =>
        match matchingTable hashFunc services ringMembers w with
        | some a =>
          decide ((d.PutToMatchingTable hashFunc services ringMembers).2.Storage.HashTable
            d.distributionNamespace w = some (Join a ",")) && decide (a.length = 1)
        | none => false)
        ((sortStrings services).drop ringMembers.length) = [] := by
      rw [List.filter_eq_nil_iff]
      intro w hmem
      rw [h2 w hmem]
      simp
    rw [e1, e2, List.append_nil, List.length_take, length_sortStrings]
    omega
  · intro w _ hmt
    rw [hfield w [] hmt]
    rfl
  · intro w₁ w₂ a₁ a₂ hne' ha₁ ha₂
    exact matchingTable_disjoint hashFunc services ringMembers w₁ w₂ a₁ a₂ hne' ha₁ ha₂

set_option maxRecDepth 100000 in
/-- C5 at a sample input: four services and two work units. -/
theorem C5_surplus_services_witness :
    (∀ w ∈ ["A", "B", "C", "D"], ∃ a,
      matchingTable sampleHash ["A", "B", "C", "D"] ["u1", "u2"] w = some a ∧
      ((sampleDistributor ["A", "B", "C", "D"] ["u1", "u2"] GoMap.empty [] []).PutToMatchingTable
        sampleHash ["A", "B", "C", "D"] ["u1", "u2"]).2.Storage.HashTable
        (sampleDistributor ["A", "B", "C", "D"] ["u1", "u2"] GoMap.empty [] []).distributionNamespace
        w = some (Join a ",") ∧ (a.length = 1 ∨ a = [])) ∧
    (∀ w, w ∉ ["A", "B", "C", "D"] →
      ((sampleDistributor ["A", "B", "C", "D"] ["u1", "u2"] GoMap.empty [] []).PutToMatchingTable
        sampleHash ["A", "B", "C", "D"] ["u1", "u2"]).2.Storage.HashTable
        (sampleDistributor ["A", "B", "C", "D"] ["u1", "u2"] GoMap.empty [] []).distributionNamespace
        w =
      (sampleDistributor ["A", "B", "C", "D"] ["u1", "u2"] GoMap.empty [] []).Storage.HashTable
        (sampleDistributor ["A", "B", "C", "D"] ["u1", "u2"] GoMap.empty [] []).distributionNamespace
        w) ∧
    (["A", "B", "C", "D"].filter (fun w =>
        match matchingTable sampleHash ["A", "B", "C", "D"] ["u1", "u2"] w with
        | some a =>
          decide (((sampleDistributor ["A", "B", "C", "D"] ["u1", "u2"] GoMap.empty []
            []).PutToMatchingTable sampleHash ["A", "B", "C", "D"]
            ["u1", "u2"]).2.Storage.HashTable
            (sampleDistributor ["A", "B", "C", "D"] ["u1", "u2"] GoMap.empty []
              []).distributionNamespace w = some (Join a ",")) && decide (a.length = 1)
        | none => false)).length = ["u1", "u2"].length ∧
    (∀ w ∈ ["A", "B", "C", "D"],
      matchingTable sampleHash ["A", "B", "C", "D"] ["u1", "u2"] w = some [] →
      ((sampleDistributor ["A", "B", "C", "D"] ["u1", "u2"] GoMap.empty [] []).PutToMatchingTable
        sampleHash ["A", "B", "C", "D"] ["u1", "u2"]).2.Storage.HashTable
        (sampleDistributor ["A", "B", "C", "D"] ["u1", "u2"] GoMap.empty [] []).distributionNamespace
        w = some "") ∧
    (∀ w₁ w₂ a₁ a₂, w₁ ≠ w₂ →
      matchingTable sampleHash ["A", "B", "C", "D"] ["u1", "u2"] w₁ = some a₁ →
      matchingTable sampleHash ["A", "B", "C", "D"] ["u1", "u2"] w₂ = some a₂ →
      ∀ u ∈ a₁, u ∉ a₂) :=
  C5_surplus_services sampleHash
    (sampleDistributor ["A", "B", "C", "D"] ["u1", "u2"] GoMap.empty [] [])
    ["A", "B", "C", "D"] ["u1", "u2"] (by decide) (by decide) (by decide) (by decide)

end BalancerClaims3

end Main
namespace Main

section BalancerClaims4

variable {K : Type} [LinearOrder K]

set_option maxRecDepth 100000 in
/-- C4, as stated, fails when ring keys collide: under a hash function that
maps every ring key to the same value, the key is owned by the unit added to
the ring last, so for the service `A` the unit list `[u1, u2]` gives the table
`A: "u2"` and its rearrangement `[u2, u1]` gives `A: "u1"`. -/
theorem C4_counterexample :
    ["u2", "u1"].Perm ["u1", "u2"] ∧
    ((sampleDistributor ["A"] ["u1", "u2"] GoMap.empty [] []).PutToMatchingTable
      collidingHash ["A"] ["u1", "u2"]).2.Storage.HashTable "T" "A" = some "u2" ∧
    ((sampleDistributor ["A"] ["u1", "u2"] GoMap.empty [] []).PutToMatchingTable
      collidingHash ["A"] ["u2", "u1"]).2.Storage.HashTable "T" "A" = some "u1" := by
  refine ⟨by decide, by decide, by decide⟩

/-- C4, amended: when no two ring keys of the work units collide,
`PutToMatchingTable` does not depend on the order of its inputs: for every
rearrangement of the services and of the work units it returns the same result
and leaves the same store, field for field; calling it again with the same
inputs does the same. -/
theorem C4_order_independent (hashFunc : String → K) (d : Distributor)
    (services services' ringMembers ringMembers' : List String)
    (hs : services'.Perm services) (hu : ringMembers'.Perm ringMembers)
    (hcol : NoCollision hashFunc ringMembers) :
    d.PutToMatchingTable hashFunc services' ringMembers' =
      d.PutToMatchingTable hashFunc services ringMembers := by
  unfold Distributor.PutToMatchingTable
  rw [matchingTable_perm hashFunc services services' ringMembers ringMembers' hs hu hcol,
    hs.length_eq]

set_option maxRecDepth 100000 in
/-- C4, amended, at the sample input of the determinism scenario. -/
theorem C4_order_independent_witness :
    (sampleDistributor ["A", "B", "C"] ["u1", "u2", "u3"] GoMap.empty [] []).PutToMatchingTable
        sampleHash ["C", "A", "B"] ["u2", "u1", "u3"] =
      (sampleDistributor ["A", "B", "C"] ["u1", "u2", "u3"] GoMap.empty [] []).PutToMatchingTable
        sampleHash ["A", "B", "C"] ["u1", "u2", "u3"] :=
  C4_order_independent sampleHash
    (sampleDistributor ["A", "B", "C"] ["u1", "u2", "u3"] GoMap.empty [] [])
    ["A", "B", "C"] ["C", "A", "B"] ["u1", "u2", "u3"] ["u2", "u1", "u3"]
    (by decide) (by decide) (by decide)

end BalancerClaims4

end Main
namespace Main

section BalanceClaims

variable {K : Type} [LinearOrder K]

/-- C6: whenever the list of work units or the list of services in the storage
is empty, `balance` returns an error and leaves the lists and the tables of the
storage as they were, whether or not its reads are answered; when both lists
are non-empty and both reads are answered, `balance` is the call of
`PutToMatchingTable` on exactly those two lists. -/
theorem C6_balance_guards (hashFunc : String → K) (d : Distributor) :
    ((d.unitList = [] ∨ d.svcList = []) →
      (d.balance hashFunc).1 ≠ none ∧
      (d.balance hashFunc).2.Storage.Lists = d.Storage.Lists ∧
      (d.balance hashFunc).2.Storage.HashTable = d.Storage.HashTable) ∧
    (d.unitList ≠ [] → d.svcList ≠ [] → d.Storage.faults 0 = false →
      d.Storage.faults 1 = false →
      d.balance hashFunc =
        ({ d with Storage := d.Storage.next.next }).PutToMatchingTable hashFunc
          d.svcList d.unitList) := by
  constructor
  · intro hempty
    unfold Distributor.balance Distributor.RingMembers Distributor.Services Storage.GetList
    by_cases h0 : d.Storage.faults 0 = true
    · simp [h0, Storage.next]
    · simp only [h0, Bool.false_eq_true, if_false, List.length_eq_zero]
      by_cases hu : d.Storage.Lists d.ringMembers = []
      · simp [hu, Storage.next]
      · simp only [hu, if_false]
        rcases hempty with he | he
        · exact absurd he hu
        · have hs : d.Storage.Lists d.serviceNamespace = [] := he
          by_cases h1 : d.Storage.faults 1 = true
          · simp [h1, Storage.next]
          · simp [h1, hs, Storage.next]
  · intro hu hs h0 h1
    have hu' : ¬ (d.Storage.Lists d.ringMembers = []) := hu
    have hs' : ¬ (d.Storage.Lists d.serviceNamespace = []) := hs
    unfold Distributor.balance Distributor.RingMembers Distributor.Services Storage.GetList
    simp only [h0, Bool.false_eq_true, if_false, List.length_eq_zero, hu', Storage.next,
      Nat.zero_add, h1, hs']
    rfl

/-- C6 at sample inputs: a store without work units, and a store with one
service and one work unit. -/
theorem C6_balance_guards_witness :
    (((sampleDistributor ["A"] [] GoMap.empty [] []).balance sampleHash).1 ≠ none ∧
      ((sampleDistributor ["A"] [] GoMap.empty [] []).balance sampleHash).2.Storage.Lists
        = (sampleDistributor ["A"] [] GoMap.empty [] []).Storage.Lists ∧
      ((sampleDistributor ["A"] [] GoMap.empty [] []).balance sampleHash).2.Storage.HashTable
        = (sampleDistributor ["A"] [] GoMap.empty [] []).Storage.HashTable) ∧
    (sampleDistributor ["A"] ["u"] GoMap.empty [] []).balance sampleHash =
      ({ sampleDistributor ["A"] ["u"] GoMap.empty [] [] with
          Storage := (sampleDistributor ["A"] ["u"] GoMap.empty [] []).Storage.next.next
        }).PutToMatchingTable sampleHash
        (sampleDistributor ["A"] ["u"] GoMap.empty [] []).svcList
        (sampleDistributor ["A"] ["u"] GoMap.empty [] []).unitList :=
  ⟨(C6_balance_guards sampleHash (sampleDistributor ["A"] [] GoMap.empty [] [])).1
      (Or.inl (by decide)),
    (C6_balance_guards sampleHash (sampleDistributor ["A"] ["u"] GoMap.empty [] [])).2
      (by decide) (by decide) (by decide) (by decide)⟩

end BalanceClaims

end Main
namespace Main

section TickClaims

variable {K : Type} [LinearOrder K]

/-- C9, as stated, fails: with the cached services `X` and `Y` both removed
from the list of services of the storage, which is now empty, the first loop
deletes the field of `X`, the rebalance that follows is refused ("no one
service responded") and the tick ends; the field of `Y` is still in the
matching table, whatever the hash function. -/
theorem C9_counterexample :
    (NoFault (sampleDistributor [] ["u"] ((GoMap.empty.set "X" "u").set "Y" "")
        ["X", "Y"] ["u"]).Storage ∧
      "Y" ∈ (sampleDistributor [] ["u"] ((GoMap.empty.set "X" "u").set "Y" "")
        ["X", "Y"] ["u"]).serviceCache.services ∧
      "Y" ∉ (sampleDistributor [] ["u"] ((GoMap.empty.set "X" "u").set "Y" "")
        ["X", "Y"] ["u"]).svcList) ∧
    ¬ ∃ hashFunc : String → Nat,
        ((sampleDistributor [] ["u"] ((GoMap.empty.set "X" "u").set "Y" "")
          ["X", "Y"] ["u"]).LivenessCheck hashFunc).2.table "Y" = none := by
  refine ⟨⟨fun _ => rfl, by decide, by decide⟩, ?_⟩
  rintro ⟨hashFunc, h⟩
  have h2 : ((sampleDistributor [] ["u"] ((GoMap.empty.set "X" "u").set "Y" "")
      ["X", "Y"] ["u"]).LivenessCheck hashFunc).2.table "Y" = some "" := rfl
  rw [h2] at h
  cases h

/-- C9, amended: when no storage call fails and the storage lists at least one
service and at least one work unit, every cached service that is no longer in
the list of services of the storage has no field in the matching table at the
end of the tick. -/
theorem C9_removed_service_pruned (hashFunc : String → K) (d : Distributor)
    (hnf : NoFault d.Storage) (hu : d.unitList ≠ []) (hs : d.svcList ≠ [])
    (w : String) (hw : w ∈ d.serviceCache.services) (hnot : w ∉ d.svcList) :
    (d.LivenessCheck hashFunc).2.table w = none := by
  have hQ : ∀ (d' : Distributor) (x : String), NoFault d'.Storage →
      pruneServiceOk d.svcList d' x → (d'.svcList = d.svcList ∧ d'.unitList ≠ []) →
      ((pruneServiceStep hashFunc d.svcList d' x).svcList = d.svcList ∧
        (pruneServiceStep hashFunc d.svcList d' x).unitList ≠ []) := by
    intro d' x _ _ hq
    unfold pruneServiceStep
    split
    · exact hq
    · simpa using hq
  have hok : ∀ (d' : Distributor) (x : String), NoFault d'.Storage →
      (d'.svcList = d.svcList ∧ d'.unitList ≠ []) → pruneServiceOk d.svcList d' x := by
    intro d' x _ hq
    right
    unfold Distributor.balanceFails
    simp [hq.1, hq.2, hs]
  have hnone := pruneServices_none hashFunc d.svcList _ hQ hok d.serviceCache.services d hnf
    ⟨rfl, hu⟩
  obtain ⟨h1, _, habs⟩ := pruneServices_each hashFunc d.svcList (fun _ => True)
    (fun d' => d'.svcList = d.svcList ∧ d'.unitList ≠ []) (fun x => x ∉ d.svcList)
    (fun x d' => d'.Absent x) (fun d' x _ => hQ d' x)
    (by
      intro d' x y _ _ _ hq hby
      unfold pruneServiceStep
      rcases hby with hb | ⟨rfl, hy⟩
      · split
        · exact hb
        · exact (Absent_stable hashFunc y).rebalanced _
            ((Absent_stable hashFunc y).dropService _ _ hb)
      · simp only [hy, if_false]
        refine ⟨by simpa [hq.1] using hy, ?_⟩
        rw [Distributor.table_rebalanced,
          matchingTable_none hashFunc _ _ x (by simpa [hq.1] using hy)]
        simp [GoMap.delete])
    d.serviceCache.services d (fun _ _ => trivial) hnf ⟨rfl, hu⟩ hnone
  have hw1 := habs w (Or.inl ⟨hw, hnot⟩)
  rw [LivenessCheck_eq hashFunc d hnf]
  rcases hr1 : pruneServices hashFunc d.svcList d.serviceCache.services d with ⟨e1, d1⟩
  rw [hr1] at hnone h1 hw1
  simp only at hnone
  subst hnone
  exact (tickTail_stable hashFunc (fun d => d.Absent w) (Absent_stable hashFunc w)
    d.svcList d.unitList d1 h1 hw1).2

/-- C9, amended, at a sample input: the cached service `X` has left the list
of services, which still holds `A`. -/
theorem C9_removed_service_pruned_witness :
    ((sampleDistributor ["A"] ["u"] ((GoMap.empty.set "X" "u").set "A" "")
      ["X", "A"] ["u"]).LivenessCheck sampleHash).2.table "X" = none :=
  C9_removed_service_pruned sampleHash
    (sampleDistributor ["A"] ["u"] ((GoMap.empty.set "X" "u").set "A" "") ["X", "A"] ["u"])
    (fun _ => rfl) (by decide) (by decide) "X" (by decide) (by decide)

end TickClaims

end Main
namespace Main

section TickClaims2

variable {K : Type} [LinearOrder K]

set_option maxRecDepth 1000000 in
/-- C7 fails over the in-memory store of the tests, at the data of the test
table of the repository: three services that answer and three that do not, in
this order, three work units, empty caches and an empty table. The adoption
rebalance of `service1` sorts the stored slice, over which the second loop is
ranging; the loop then reads `badService2`, `badService3`, `service1` again,
`service2` and `service3`, and never reads `badService1`. The tick returns no
error and `badService1`, whose ping fails, is still listed and still has a
field in the matching table. -/
theorem C7_failing_worker_kept :
    ((sampleMock
        ["service1", "service2", "service3", "badService1", "badService2", "badService3"]
        ["work1", "work2", "work3"] GoMap.empty [] []).serviceCache.services = [] ∧
      (sampleMock
        ["service1", "service2", "service3", "badService1", "badService2", "badService3"]
        ["work1", "work2", "work3"] GoMap.empty [] []).Storage.HashTable = GoMap.empty ∧
      (sampleMock
        ["service1", "service2", "service3", "badService1", "badService2", "badService3"]
        ["work1", "work2", "work3"] GoMap.empty [] []).p "service1" = true ∧
      (sampleMock
        ["service1", "service2", "service3", "badService1", "badService2", "badService3"]
        ["work1", "work2", "work3"] GoMap.empty [] []).p "badService1" = false) ∧
    ((sampleMock
        ["service1", "service2", "service3", "badService1", "badService2", "badService3"]
        ["work1", "work2", "work3"] GoMap.empty [] []).LivenessCheck sampleHash).1 = none ∧
    ((sampleMock
        ["service1", "service2", "service3", "badService1", "badService2", "badService3"]
        ["work1", "work2", "work3"] GoMap.empty [] []).LivenessCheck sampleHash).2.Storage.Lists
      "W" = ["badService1", "service1", "service2", "service3"] ∧
    ((sampleMock
        ["service1", "service2", "service3", "badService1", "badService2", "badService3"]
        ["work1", "work2", "work3"] GoMap.empty [] []).LivenessCheck
      sampleHash).2.serviceCache.services = ["service1", "service2", "service3"] ∧
    (((sampleMock
        ["service1", "service2", "service3", "badService1", "badService2", "badService3"]
        ["work1", "work2", "work3"] GoMap.empty [] []).LivenessCheck
      sampleHash).2.Storage.HashTable "badService1").isSome = true := by
  refine ⟨⟨rfl, rfl, by decide, by decide⟩, by decide, by decide, by decide, by decide⟩

/-- C8, as stated, fails: with `bad` the only listed service and every storage
call answered, the failed ping evicts `bad`, the rebalance that follows finds
no service and the tick returns that error, whatever the hash function. -/
theorem C8_counterexample :
    (NoFault (sampleDistributor ["bad"] ["u"] GoMap.empty [] []).Storage ∧
      "bad" ∈ (sampleDistributor ["bad"] ["u"] GoMap.empty [] []).svcList ∧
      (sampleDistributor ["bad"] ["u"] GoMap.empty [] []).p "bad" = false) ∧
    ¬ ∃ hashFunc : String → Nat,
        ((sampleDistributor ["bad"] ["u"] GoMap.empty [] []).LivenessCheck hashFunc).1
          = none := by
  refine ⟨⟨fun _ => rfl, by decide, by decide⟩, ?_⟩
  rintro ⟨hashFunc, h⟩
  have h2 : ((sampleDistributor ["bad"] ["u"] GoMap.empty [] []).LivenessCheck hashFunc).1
      = some Error.noService := rfl
  rw [h2] at h
  cases h

/-- C8, amended: when no storage call fails, the list of work units is not
empty and the ping of exactly one listed service `b` fails while another
service is listed, the tick returns no error and evicts no service other than
`b`: every other listed service stays in the list, stays in the cache if it
was there and keeps a field in the table if it had one; and `b`, once off the
list, is neither in the cache nor in the table. -/
theorem C8_probe_failure (hashFunc : String → K) (d : Distributor)
    (hnf : NoFault d.Storage) (hu : d.unitList ≠ []) (b : String) (hb : b ∈ d.svcList)
    (hpb : d.p b = false) (hothers : ∀ x ∈ d.svcList, x ≠ b → d.p x = true)
    (hex : ∃ x ∈ d.svcList, x ≠ b) :
    (d.LivenessCheck hashFunc).1 = none ∧
    (∀ x ∈ d.svcList, x ≠ b →
      x ∈ (d.LivenessCheck hashFunc).2.svcList ∧
      (x ∈ d.serviceCache.services →
        x ∈ (d.LivenessCheck hashFunc).2.serviceCache.services) ∧
      ((d.table x).isSome = true → ((d.LivenessCheck hashFunc).2.table x).isSome = true)) ∧
    (b ∉ (d.LivenessCheck hashFunc).2.svcList →
      b ∉ (d.LivenessCheck hashFunc).2.serviceCache.services ∧
      (d.LivenessCheck hashFunc).2.table b = none) := by
  obtain ⟨g, hg, hgb⟩ := hex
  obtain ⟨hnone, _, hl, hbad, hgood, _, hcov⟩ :=
    LivenessCheck_healthy hashFunc d hnf ⟨hu, g, hg, hothers g hg hgb⟩
  have hcovered := hcov (Or.inr (Or.inr ⟨b, hb, hpb⟩))
  obtain ⟨hbc, hba⟩ := hbad b hb hpb
  refine ⟨hnone, ?_, fun _ => ⟨hbc, hba.2⟩⟩
  intro x hx hxb
  have hxl : x ∈ (d.LivenessCheck hashFunc).2.svcList := by
    rw [hl, List.mem_filter]
    exact ⟨hx, hothers x hx hxb⟩
  exact ⟨hxl, fun _ => hgood x hx (hothers x hx hxb), fun _ => hcovered x hxl⟩

/-- C8, amended, at a sample input: services `A` and `bad1`, cached from an
earlier tick. -/
theorem C8_probe_failure_witness :
    ((sampleDistributor ["A", "bad1"] ["u1"] (GoMap.empty.set "A" "u1") ["A", "bad1"]
      ["u1"]).LivenessCheck sampleHash).1 = none ∧
    (∀ x ∈ (sampleDistributor ["A", "bad1"] ["u1"] (GoMap.empty.set "A" "u1") ["A", "bad1"]
        ["u1"]).svcList, x ≠ "bad1" →
      x ∈ ((sampleDistributor ["A", "bad1"] ["u1"] (GoMap.empty.set "A" "u1") ["A", "bad1"]
        ["u1"]).LivenessCheck sampleHash).2.svcList ∧
      (x ∈ (sampleDistributor ["A", "bad1"] ["u1"] (GoMap.empty.set "A" "u1") ["A", "bad1"]
          ["u1"]).serviceCache.services →
        x ∈ ((sampleDistributor ["A", "bad1"] ["u1"] (GoMap.empty.set "A" "u1") ["A", "bad1"]
          ["u1"]).LivenessCheck sampleHash).2.serviceCache.services) ∧
      (((sampleDistributor ["A", "bad1"] ["u1"] (GoMap.empty.set "A" "u1") ["A", "bad1"]
          ["u1"]).table x).isSome = true →
        (((sampleDistributor ["A", "bad1"] ["u1"] (GoMap.empty.set "A" "u1") ["A", "bad1"]
          ["u1"]).LivenessCheck sampleHash).2.table x).isSome = true)) ∧
    ("bad1" ∉ ((sampleDistributor ["A", "bad1"] ["u1"] (GoMap.empty.set "A" "u1")
        ["A", "bad1"] ["u1"]).LivenessCheck sampleHash).2.svcList →
      "bad1" ∉ ((sampleDistributor ["A", "bad1"] ["u1"] (GoMap.empty.set "A" "u1")
        ["A", "bad1"] ["u1"]).LivenessCheck sampleHash).2.serviceCache.services ∧
      ((sampleDistributor ["A", "bad1"] ["u1"] (GoMap.empty.set "A" "u1") ["A", "bad1"]
        ["u1"]).LivenessCheck sampleHash).2.table "bad1" = none) :=
  C8_probe_failure sampleHash
    (sampleDistributor ["A", "bad1"] ["u1"] (GoMap.empty.set "A" "u1") ["A", "bad1"] ["u1"])
    (fun _ => rfl) (by decide) "bad1" (by decide) (by decide) (by decide)
    ⟨"A", by decide, by decide⟩

end TickClaims2

end Main
namespace Main

section TickClaims3

variable {K : Type} [LinearOrder K]

set_option maxRecDepth 1000000 in
/-- C10, as stated, fails. By design: the services `X` and `Y` were cached and
given their fields by an earlier tick and have since left the list of
services, now empty. The first tick deletes the field of the first cached
service, is refused its rebalance and ends there; the second tick, with the
storage untouched and the pings unchanged, deletes the field of the other one.
This holds in either order of the cache and whatever the hash function. And
over the in-memory store of the tests, which hands out the slice it holds:
with `service1` and `bad1` listed, the first tick sorts the slice under its
second loop, never reads `bad1` and returns no error; the second tick reads
`bad1`, evicts it and deletes its field. -/
theorem C10_counterexample :
    (NoFault (sampleDistributor [] ["u"] ((GoMap.empty.set "X" "u").set "Y" "")
      ["X", "Y"] ["u"]).Storage ∧
    (¬ ∃ hashFunc : String → Nat,
      (((sampleDistributor [] ["u"] ((GoMap.empty.set "X" "u").set "Y" "")
        ["X", "Y"] ["u"]).LivenessCheck hashFunc).2.LivenessCheck hashFunc).2.table
      = ((sampleDistributor [] ["u"] ((GoMap.empty.set "X" "u").set "Y" "")
        ["X", "Y"] ["u"]).LivenessCheck hashFunc).2.table) ∧
    (¬ ∃ hashFunc : String → Nat,
      (((sampleDistributor [] ["u"] ((GoMap.empty.set "X" "u").set "Y" "")
        ["Y", "X"] ["u"]).LivenessCheck hashFunc).2.LivenessCheck hashFunc).2.table
      = ((sampleDistributor [] ["u"] ((GoMap.empty.set "X" "u").set "Y" "")
        ["Y", "X"] ["u"]).LivenessCheck hashFunc).2.table)) ∧
    (((sampleMock ["service1", "bad1"] ["work1"] GoMap.empty [] []).LivenessCheck
        sampleHash).1 = none ∧
      (((sampleMock ["service1", "bad1"] ["work1"] GoMap.empty [] []).LivenessCheck
        sampleHash).2.Storage.HashTable "bad1").isSome = true ∧
      (((sampleMock ["service1", "bad1"] ["work1"] GoMap.empty [] []).LivenessCheck
        sampleHash).2.LivenessCheck sampleHash).2.Storage.HashTable "bad1" = none) := by
  refine ⟨⟨fun _ => rfl, ?_, ?_⟩, by decide, by decide, by decide⟩
  · rintro ⟨hashFunc, h⟩
    have h1 : (((sampleDistributor [] ["u"] ((GoMap.empty.set "X" "u").set "Y" "")
        ["X", "Y"] ["u"]).LivenessCheck hashFunc).2.LivenessCheck hashFunc).2.table "Y"
        = none := rfl
    have h2 : ((sampleDistributor [] ["u"] ((GoMap.empty.set "X" "u").set "Y" "")
        ["X", "Y"] ["u"]).LivenessCheck hashFunc).2.table "Y" = some "" := rfl
    rw [h, h2] at h1
    cases h1
  · rintro ⟨hashFunc, h⟩
    have h1 : (((sampleDistributor [] ["u"] ((GoMap.empty.set "X" "u").set "Y" "")
        ["Y", "X"] ["u"]).LivenessCheck hashFunc).2.LivenessCheck hashFunc).2.table "X"
        = none := rfl
    have h2 : ((sampleDistributor [] ["u"] ((GoMap.empty.set "X" "u").set "Y" "")
        ["Y", "X"] ["u"]).LivenessCheck hashFunc).2.table "X" = some "u" := rfl
    rw [h, h2] at h1
    cases h1

/-- C10, amended: over a store that answers `GetList` with a copy, when no
storage call fails and a tick returns no error, the next tick, run on the
state the first one left and with the same outcome of the ping per endpoint,
returns no error, and the matching table after the second tick is the matching
table after the first. -/
theorem C10_second_tick_idle (hashFunc : String → K) (d : Distributor)
    (hnf : NoFault d.Storage) (hok : (d.LivenessCheck hashFunc).1 = none) :
    ((d.LivenessCheck hashFunc).2.LivenessCheck hashFunc).1 = none ∧
    ((d.LivenessCheck hashFunc).2.LivenessCheck hashFunc).2.table
      = (d.LivenessCheck hashFunc).2.table := by
  obtain ⟨h1, hs⟩ := LivenessCheck_settled hashFunc d hnf hok
  exact LivenessCheck_table_idle hashFunc (d.LivenessCheck hashFunc).2 h1 hs

set_option maxRecDepth 1000000 in
/-- C10, amended, at a sample input in which the two lists are stored under
one key: the first tick adopts `A`, evicts `bad1` and caches both names as work
units; the second prunes the cached unit `bad1` and rebalances, which rewrites
the same table. -/
theorem C10_second_tick_idle_witness :
    ((({ sampleDistributor ["A", "bad1"] [] GoMap.empty [] [] with
        ringMembers := "W" } : Distributor).LivenessCheck
      sampleHash).2.LivenessCheck sampleHash).1 = none ∧
    ((({ sampleDistributor ["A", "bad1"] [] GoMap.empty [] [] with
        ringMembers := "W" } : Distributor).LivenessCheck
      sampleHash).2.LivenessCheck sampleHash).2.table
      = (({ sampleDistributor ["A", "bad1"] [] GoMap.empty [] [] with
        ringMembers := "W" } : Distributor).LivenessCheck sampleHash).2.table :=
  C10_second_tick_idle sampleHash
    ({ sampleDistributor ["A", "bad1"] [] GoMap.empty [] [] with
      ringMembers := "W" } : Distributor)
    (fun _ => rfl) (by decide)

end TickClaims3

end Main
namespace Main

section CacheClaims

variable {K : Type} [LinearOrder K]

set_option maxRecDepth 1000000 in
/-- C11, as stated, fails. By design, in two ways, whatever the hash function:
first, with `X` and `Y` cached and the list of services empty, both reads
succeed, the tick ends at the refused rebalance that follows the pruning of
`X`, and `Y` stays cached though it is not in the storage; second, with `A`
and `bad1` listed and nothing cached, `bad1` is newly observed and its adoption
rebalance succeeds (it enters the cache), yet its ping fails and it is not
cached at the end of the tick, which returns no error. And over the in-memory
store of the tests, which hands out the slice it holds: with `service2` and
`service1` listed in this order, both answering, and a work unit, the adoption
rebalance of `service2` sorts the slice under the second loop, which reads
`service2` again and never `service1`; the tick returns no error and
`service1` is not cached. -/
theorem C11_counterexample :
    (NoFault (sampleDistributor [] ["u"] ((GoMap.empty.set "X" "u").set "Y" "")
        ["X", "Y"] ["u"]).Storage ∧
      (sampleDistributor [] ["u"] ((GoMap.empty.set "X" "u").set "Y" "")
        ["X", "Y"] ["u"]).svcList = [] ∧
      ∀ hashFunc : String → Nat,
        "Y" ∈ ((sampleDistributor [] ["u"] ((GoMap.empty.set "X" "u").set "Y" "")
          ["X", "Y"] ["u"]).LivenessCheck hashFunc).2.serviceCache.services) ∧
    (NoFault (sampleDistributor ["A", "bad1"] ["u1"] GoMap.empty [] []).Storage ∧
      "bad1" ∈ (sampleDistributor ["A", "bad1"] ["u1"] GoMap.empty [] []).svcList ∧
      "bad1" ∉ (sampleDistributor ["A", "bad1"] ["u1"] GoMap.empty [] []).serviceCache.services ∧
      ∀ hashFunc : String → Nat,
        ((sampleDistributor ["A", "bad1"] ["u1"] GoMap.empty [] []).LivenessCheck
          hashFunc).1 = none ∧
        (Distributor.balance hashFunc (probeServices hashFunc ["A"]
          (sampleDistributor ["A", "bad1"] ["u1"] GoMap.empty [] [])).2).1 = none ∧
        "bad1" ∈ (adoptService hashFunc (probeServices hashFunc ["A"]
          (sampleDistributor ["A", "bad1"] ["u1"] GoMap.empty [] [])).2
            "bad1").serviceCache.services ∧
        "bad1" ∉ ((sampleDistributor ["A", "bad1"] ["u1"] GoMap.empty [] []).LivenessCheck
          hashFunc).2.serviceCache.services) ∧
    (((sampleMock ["service2", "service1"] ["work1"] GoMap.empty [] []).LivenessCheck
        sampleHash).1 = none ∧
      (sampleMock ["service2", "service1"] ["work1"] GoMap.empty [] []).p "service1" = true ∧
      ((sampleMock ["service2", "service1"] ["work1"] GoMap.empty [] []).LivenessCheck
        sampleHash).2.Storage.Lists "W" = ["service1", "service2"] ∧
      ((sampleMock ["service2", "service1"] ["work1"] GoMap.empty [] []).LivenessCheck
        sampleHash).2.serviceCache.services = ["service2"]) := by
  refine ⟨⟨fun _ => rfl, rfl, fun hashFunc => ?_⟩, ⟨fun _ => rfl, by decide, by decide,
    fun hashFunc => ?_⟩, by decide, by decide, by decide, by decide⟩
  · have h2 : ((sampleDistributor [] ["u"] ((GoMap.empty.set "X" "u").set "Y" "")
        ["X", "Y"] ["u"]).LivenessCheck hashFunc).2.serviceCache.services = ["Y"] := rfl
    rw [h2]
    exact List.mem_singleton.mpr rfl
  · have hnf : NoFault (sampleDistributor ["A", "bad1"] ["u1"] GoMap.empty [] []).Storage :=
      fun _ => rfl
    have hnf1 := NoFault_adoptService hashFunc _ "A" hnf
    have hA : probeServices hashFunc ["A"]
        (sampleDistributor ["A", "bad1"] ["u1"] GoMap.empty [] []) =
        (none, adoptService hashFunc
          (sampleDistributor ["A", "bad1"] ["u1"] GoMap.empty [] []) "A") := by
      rw [probeServices_step hashFunc "A" [] _ hnf1,
        if_pos (by rw [adoptService_p hashFunc _ "A" hnf]; rfl)]
      rfl
    have hfails : ¬ (adoptService hashFunc
        (sampleDistributor ["A", "bad1"] ["u1"] GoMap.empty [] []) "A").balanceFails := by
      rw [adoptService_fails hashFunc _ "A" hnf]
      unfold Distributor.balanceFails
      decide
    obtain ⟨hnone, _, _, hbad, _, _, _⟩ := LivenessCheck_healthy hashFunc
      (sampleDistributor ["A", "bad1"] ["u1"] GoMap.empty [] []) hnf
      ⟨by decide, "A", by decide, by decide⟩
    refine ⟨hnone, ?_, ?_, (hbad "bad1" (by decide) (by decide)).1⟩
    · rw [hA]
      simp only []
      rw [Distributor.balance_eq' hashFunc _ hnf1, if_neg hfails]
    · rw [hA]
      simp only []
      rw [adoptService_cache hashFunc _ "bad1" "bad1" hnf1]
      exact Or.inr ⟨rfl, hfails⟩

/-- C11, amended: over a store that answers `GetList` with a copy, when no
storage call fails and the tick returns no error, a service `x` is in the cache of services at the end of the tick exactly when
it was in the list read at the start of the tick, its ping in the tick
succeeded, and it was cached at the start or newly observed with a work unit
in the storage (what lets its adoption rebalance succeed). -/
theorem C11_cache_after_tick (hashFunc : String → K) (d : Distributor)
    (hnf : NoFault d.Storage) (hok : (d.LivenessCheck hashFunc).1 = none) (x : String) :
    x ∈ (d.LivenessCheck hashFunc).2.serviceCache.services ↔
      (x ∈ d.svcList ∧ d.p x = true ∧ (x ∈ d.serviceCache.services ∨ d.unitList ≠ [])) :=
  LivenessCheck_cache hashFunc d hnf hok x

/-- C11, amended, at a sample input: `A` is adopted, `bad1` is adopted and
evicted, the cached `X` has left the list. -/
theorem C11_cache_after_tick_witness :
    ("A" ∈ ((sampleDistributor ["A", "bad1"] ["u1"] GoMap.empty ["X"] []).LivenessCheck
        sampleHash).2.serviceCache.services ↔
      ("A" ∈ (sampleDistributor ["A", "bad1"] ["u1"] GoMap.empty ["X"] []).svcList ∧
        (sampleDistributor ["A", "bad1"] ["u1"] GoMap.empty ["X"] []).p "A" = true ∧
        ("A" ∈ (sampleDistributor ["A", "bad1"] ["u1"] GoMap.empty ["X"]
            []).serviceCache.services ∨
          (sampleDistributor ["A", "bad1"] ["u1"] GoMap.empty ["X"] []).unitList ≠ []))) ∧
    ("bad1" ∈ ((sampleDistributor ["A", "bad1"] ["u1"] GoMap.empty ["X"] []).LivenessCheck
        sampleHash).2.serviceCache.services ↔
      ("bad1" ∈ (sampleDistributor ["A", "bad1"] ["u1"] GoMap.empty ["X"] []).svcList ∧
        (sampleDistributor ["A", "bad1"] ["u1"] GoMap.empty ["X"] []).p "bad1" = true ∧
        ("bad1" ∈ (sampleDistributor ["A", "bad1"] ["u1"] GoMap.empty ["X"]
            []).serviceCache.services ∨
          (sampleDistributor ["A", "bad1"] ["u1"] GoMap.empty ["X"] []).unitList ≠ []))) ∧
    ("X" ∈ ((sampleDistributor ["A", "bad1"] ["u1"] GoMap.empty ["X"] []).LivenessCheck
        sampleHash).2.serviceCache.services ↔
      ("X" ∈ (sampleDistributor ["A", "bad1"] ["u1"] GoMap.empty ["X"] []).svcList ∧
        (sampleDistributor ["A", "bad1"] ["u1"] GoMap.empty ["X"] []).p "X" = true ∧
        ("X" ∈ (sampleDistributor ["A", "bad1"] ["u1"] GoMap.empty ["X"]
            []).serviceCache.services ∨
          (sampleDistributor ["A", "bad1"] ["u1"] GoMap.empty ["X"] []).unitList ≠ []))) :=
  ⟨C11_cache_after_tick sampleHash
      (sampleDistributor ["A", "bad1"] ["u1"] GoMap.empty ["X"] []) (fun _ => rfl) (by decide) "A",
    C11_cache_after_tick sampleHash
      (sampleDistributor ["A", "bad1"] ["u1"] GoMap.empty ["X"] []) (fun _ => rfl) (by decide) "bad1",
    C11_cache_after_tick sampleHash
      (sampleDistributor ["A", "bad1"] ["u1"] GoMap.empty ["X"] []) (fun _ => rfl) (by decide) "X"⟩

end CacheClaims

end Main
namespace Main

section UnitClaims

variable {K : Type} [LinearOrder K]

set_option maxRecDepth 1000000 in
/-- C12, as stated, fails in three ways. First, whatever the hash function, an
empty list of services meets every condition of the claim (`|units| >= 0`):
the cached unit `u3` has left the storage, the rebalance that follows its
pruning is refused, and the listed unit `u1` is assigned to no service, for
the list of services is empty. Second, whatever the hash function, with `A`
the only service, the units `u1` and `u2` listed and all of them cached, the
tick finds nothing to do and rebalances nothing: the field of `A` still reads
`u1` and `u2` is assigned to no service. Third, under a hash function that maps
every ring key to the same value, with `A` the only service, `u1` and `u2`
listed and the cached `u3` no longer listed, the tick prunes `u3` and
rebalances; the field of `A` reads `u2`, and `u1` is assigned to no service. -/
theorem C12_counterexample :
    (NoFault (sampleDistributor [] ["u1"] GoMap.empty [] ["u1", "u3"]).Storage ∧
      (sampleDistributor [] ["u1"] GoMap.empty [] ["u1", "u3"]).svcList.Nodup ∧
      (∀ w ∈ (sampleDistributor [] ["u1"] GoMap.empty [] ["u1", "u3"]).svcList,
        (sampleDistributor [] ["u1"] GoMap.empty [] ["u1", "u3"]).p w = true) ∧
      (sampleDistributor [] ["u1"] GoMap.empty [] ["u1", "u3"]).unitList = ["u1"] ∧
      (sampleDistributor [] ["u1"] GoMap.empty [] ["u1", "u3"]).svcList.length ≤
        (sampleDistributor [] ["u1"] GoMap.empty [] ["u1", "u3"]).unitList.length ∧
      ∀ hashFunc : String → Nat,
        ((sampleDistributor [] ["u1"] GoMap.empty [] ["u1", "u3"]).LivenessCheck
          hashFunc).2.unitList = ["u1"] ∧
        ((sampleDistributor [] ["u1"] GoMap.empty [] ["u1", "u3"]).LivenessCheck
          hashFunc).2.svcList = []) ∧
    (NoFault (sampleDistributor ["A"] ["u1", "u2"] (GoMap.empty.set "A" "u1") ["A"]
        ["u1", "u2"]).Storage ∧
      (sampleDistributor ["A"] ["u1", "u2"] (GoMap.empty.set "A" "u1") ["A"]
        ["u1", "u2"]).svcList = ["A"] ∧
      (sampleDistributor ["A"] ["u1", "u2"] (GoMap.empty.set "A" "u1") ["A"]
        ["u1", "u2"]).p "A" = true ∧
      (sampleDistributor ["A"] ["u1", "u2"] (GoMap.empty.set "A" "u1") ["A"]
        ["u1", "u2"]).unitList = ["u1", "u2"] ∧
      ∀ hashFunc : String → Nat,
        ((sampleDistributor ["A"] ["u1", "u2"] (GoMap.empty.set "A" "u1") ["A"]
          ["u1", "u2"]).LivenessCheck hashFunc).1 = none ∧
        ((sampleDistributor ["A"] ["u1", "u2"] (GoMap.empty.set "A" "u1") ["A"]
          ["u1", "u2"]).LivenessCheck hashFunc).2.unitList = ["u1", "u2"] ∧
        ((sampleDistributor ["A"] ["u1", "u2"] (GoMap.empty.set "A" "u1") ["A"]
          ["u1", "u2"]).LivenessCheck hashFunc).2.svcList = ["A"] ∧
        (((sampleDistributor ["A"] ["u1", "u2"] (GoMap.empty.set "A" "u1") ["A"]
          ["u1", "u2"]).LivenessCheck hashFunc).2.Storage.GetMapField "T" "A").1
            = .ok ["u1"]) ∧
    (NoFault (sampleDistributor ["A"] ["u1", "u2"] GoMap.empty ["A"]
        ["u1", "u2", "u3"]).Storage ∧
      (sampleDistributor ["A"] ["u1", "u2"] GoMap.empty ["A"]
        ["u1", "u2", "u3"]).svcList = ["A"] ∧
      (sampleDistributor ["A"] ["u1", "u2"] GoMap.empty ["A"]
        ["u1", "u2", "u3"]).p "A" = true ∧
      (sampleDistributor ["A"] ["u1", "u2"] GoMap.empty ["A"]
        ["u1", "u2", "u3"]).unitList = ["u1", "u2"] ∧
      ((sampleDistributor ["A"] ["u1", "u2"] GoMap.empty ["A"]
        ["u1", "u2", "u3"]).LivenessCheck collidingHash).1 = none ∧
      ((sampleDistributor ["A"] ["u1", "u2"] GoMap.empty ["A"]
        ["u1", "u2", "u3"]).LivenessCheck collidingHash).2.unitList = ["u1", "u2"] ∧
      (((sampleDistributor ["A"] ["u1", "u2"] GoMap.empty ["A"]
        ["u1", "u2", "u3"]).LivenessCheck collidingHash).2.Storage.GetMapField "T" "A").1
          = .ok ["u2"]) := by
  refine ⟨⟨fun _ => rfl, by decide, by decide, rfl, by decide, fun _ => ⟨rfl, rfl⟩⟩,
    ⟨fun _ => rfl, rfl, by decide, rfl, fun _ => ⟨rfl, rfl, rfl, rfl⟩⟩,
    fun _ => rfl, rfl, by decide, rfl, by decide, by decide, rfl⟩

/-- C12, amended: in a tick with no storage failure, at least one service,
pairwise distinct services that all answer their ping, and pairwise distinct
work units no two of whose ring keys collide, at least as many as the
services: a work unit `u` that is cached but no longer listed leaves the
cache, the tick returns no error and leaves in the two lists the names they
held, the field of every listed service holds at the end the assignment
computed from the two lists, `u` is in no assignment, and every listed work
unit is in the assignment of exactly one service. -/
theorem C12_removed_unit (hashFunc : String → K) (d : Distributor)
    (hnf : NoFault d.Storage) (hs : d.svcList.Nodup) (hne : d.svcList ≠ [])
    (hp : ∀ w ∈ d.svcList, d.p w = true) (hu : d.unitList.Nodup)
    (hcol : NoCollision hashFunc d.unitList) (hle : d.svcList.length ≤ d.unitList.length)
    (u : String) (huc : u ∈ d.workUnitsCache.workunits) (hnot : u ∉ d.unitList) :
    (d.LivenessCheck hashFunc).1 = none ∧
    (∀ w, w ∈ (d.LivenessCheck hashFunc).2.svcList ↔ w ∈ d.svcList) ∧
    (∀ v, v ∈ (d.LivenessCheck hashFunc).2.unitList ↔ v ∈ d.unitList) ∧
    u ∉ (d.LivenessCheck hashFunc).2.workUnitsCache.workunits ∧
    (∀ w ∈ d.svcList, (d.LivenessCheck hashFunc).2.table w =
      (matchingTable hashFunc d.svcList d.unitList w).map (Join · ",")) ∧
    (∀ w a, matchingTable hashFunc d.svcList d.unitList w = some a → u ∉ a) ∧
    (∀ v ∈ d.unitList,
      ∃! w, ∃ a, matchingTable hashFunc d.svcList d.unitList w = some a ∧ v ∈ a) := by
  have hune : d.unitList ≠ [] := by
    intro he
    rw [he] at hle
    exact hne (List.length_eq_zero.mp (Nat.le_zero.mp hle))
  obtain ⟨hnone, hl, hul, hrem, hsync⟩ := LivenessCheck_all_alive hashFunc d hnf hne hp hune
  have hsy := hsync (Or.inr ⟨u, huc, hnot⟩)
  refine ⟨hnone, fun w => by rw [hl], fun v => by rw [hul], hrem u huc hnot, ?_, ?_,
    matchingTable_unique hashFunc d.svcList d.unitList hs hu hcol hne hle⟩
  · intro w hw
    have := hsy w (by rw [hl]; exact hw)
    rw [hl, hul] at this
    exact this
  · intro w a ha hua
    exact hnot ((matchingTable_sub hashFunc d.svcList d.unitList w a ha).2 u hua)

set_option maxRecDepth 100000 in
/-- C12, amended, at a sample input: services `A` and `B`, the cached unit
`u3` removed from the list that still holds `u1`, `u2` and `u4`. -/
theorem C12_removed_unit_witness :
    ((sampleDistributor ["A", "B"] ["u1", "u2", "u4"] GoMap.empty ["A", "B"]
      ["u1", "u2", "u3", "u4"]).LivenessCheck sampleHash).1 = none ∧
    (∀ w, w ∈ ((sampleDistributor ["A", "B"] ["u1", "u2", "u4"] GoMap.empty ["A", "B"]
      ["u1", "u2", "u3", "u4"]).LivenessCheck sampleHash).2.svcList ↔
      w ∈ (sampleDistributor ["A", "B"] ["u1", "u2", "u4"] GoMap.empty ["A", "B"]
        ["u1", "u2", "u3", "u4"]).svcList) ∧
    (∀ v, v ∈ ((sampleDistributor ["A", "B"] ["u1", "u2", "u4"] GoMap.empty ["A", "B"]
      ["u1", "u2", "u3", "u4"]).LivenessCheck sampleHash).2.unitList ↔
      v ∈ (sampleDistributor ["A", "B"] ["u1", "u2", "u4"] GoMap.empty ["A", "B"]
        ["u1", "u2", "u3", "u4"]).unitList) ∧
    "u3" ∉ ((sampleDistributor ["A", "B"] ["u1", "u2", "u4"] GoMap.empty ["A", "B"]
      ["u1", "u2", "u3", "u4"]).LivenessCheck sampleHash).2.workUnitsCache.workunits ∧
    (∀ w ∈ (sampleDistributor ["A", "B"] ["u1", "u2", "u4"] GoMap.empty ["A", "B"]
        ["u1", "u2", "u3", "u4"]).svcList,
      ((sampleDistributor ["A", "B"] ["u1", "u2", "u4"] GoMap.empty ["A", "B"]
        ["u1", "u2", "u3", "u4"]).LivenessCheck sampleHash).2.table w =
      (matchingTable sampleHash
        (sampleDistributor ["A", "B"] ["u1", "u2", "u4"] GoMap.empty ["A", "B"]
          ["u1", "u2", "u3", "u4"]).svcList
        (sampleDistributor ["A", "B"] ["u1", "u2", "u4"] GoMap.empty ["A", "B"]
          ["u1", "u2", "u3", "u4"]).unitList w).map (Join · ",")) ∧
    (∀ w a, matchingTable sampleHash
        (sampleDistributor ["A", "B"] ["u1", "u2", "u4"] GoMap.empty ["A", "B"]
          ["u1", "u2", "u3", "u4"]).svcList
        (sampleDistributor ["A", "B"] ["u1", "u2", "u4"] GoMap.empty ["A", "B"]
          ["u1", "u2", "u3", "u4"]).unitList w = some a → "u3" ∉ a) ∧
    (∀ v ∈ (sampleDistributor ["A", "B"] ["u1", "u2", "u4"] GoMap.empty ["A", "B"]
        ["u1", "u2", "u3", "u4"]).unitList,
      ∃! w, ∃ a, matchingTable sampleHash
        (sampleDistributor ["A", "B"] ["u1", "u2", "u4"] GoMap.empty ["A", "B"]
          ["u1", "u2", "u3", "u4"]).svcList
        (sampleDistributor ["A", "B"] ["u1", "u2", "u4"] GoMap.empty ["A", "B"]
          ["u1", "u2", "u3", "u4"]).unitList w = some a ∧ v ∈ a) :=
  C12_removed_unit sampleHash
    (sampleDistributor ["A", "B"] ["u1", "u2", "u4"] GoMap.empty ["A", "B"]
      ["u1", "u2", "u3", "u4"])
    (fun _ => rfl) (by decide) (by decide) (by decide) (by decide) (by decide) (by decide)
    "u3" (by decide) (by decide)

end UnitClaims

end Main
namespace Main

section RoundTripClaims

/-- C13, as stated, fails: the empty assignment is written as the empty
string, which `strings.Split` reads back as one empty work unit, and a work
unit whose name holds a comma is read back as two. With the services `A`, `B`
and the single unit `u1`, the service `B` is assigned the empty list and
`GetMapField` after `PutToMatchingTable` returns one empty string for it. -/
theorem C13_counterexample :
    Split (Join [] ",") ',' = [""] ∧
    Split (Join ["a,b"] ",") ',' = ["a", "b"] ∧
    matchingTable sampleHash ["A", "B"] ["u1"] "B" = some [] ∧
    (((sampleDistributor ["A", "B"] ["u1"] GoMap.empty [] []).PutToMatchingTable sampleHash
      ["A", "B"] ["u1"]).2.Storage.GetMapField "T" "B").1 = .ok [""] := by
  refine ⟨by decide, by decide, by decide, rfl⟩

/-- C13, amended: for every non-empty list `l` of work units none of which
holds a comma, splitting on the comma the string obtained by joining `l` with
commas yields `l` again, and `GetMapField` on the field after a `SetMap` that
wrote this string there returns `l`, both calls being answered. -/
theorem C13_round_trip (l : List String) (hne : l ≠ []) (hl : ∀ u ∈ l, ',' ∉ u.data)
    (s : Storage) (key field : String) (m : GoMap String)
    (hm : m field = some (Join l ",")) (hf0 : s.faults 0 = false)
    (hf1 : s.faults 1 = false) :
    Split (Join l ",") ',' = l ∧
    (s.SetMap key m).1 = none ∧
    ((s.SetMap key m).2.GetMapField key field).1 = .ok l := by
  have hsplit : Split (Join l ",") ',' = l := Split_Join ',' l hne hl
  refine ⟨hsplit, ?_, ?_⟩
  · simp [Storage.SetMap, hf0]
  · simp [Storage.SetMap, Storage.GetMapField, Storage.next, Storage.writeFields, hf0, hf1, hm,
      hsplit]

/-- C13, amended, at a sample input: the assignment `[u1, u2]` of `A`. -/
theorem C13_round_trip_witness :
    Split (Join ["u1", "u2"] ",") ',' = ["u1", "u2"] ∧
    ((sampleStorage [] [] GoMap.empty).SetMap "T" (GoMap.empty.set "A" "u1,u2")).1 = none ∧
    (((sampleStorage [] [] GoMap.empty).SetMap "T"
      (GoMap.empty.set "A" "u1,u2")).2.GetMapField "T" "A").1 = .ok ["u1", "u2"] :=
  C13_round_trip ["u1", "u2"] (by decide) (by decide) (sampleStorage [] [] GoMap.empty)
    "T" "A" (GoMap.empty.set "A" "u1,u2") (by decide) rfl rfl

end RoundTripClaims

end Main
namespace Main

section FrameClaims

variable {K : Type} [LinearOrder K]

/-- C14, as stated, fails: with `X` and `Y` cached and the list of services
empty, the tick deletes the field of `X` before it asks for the rebalance,
which is refused for want of a service; the table at the end of the tick has
lost the field `X` it had at the start, whatever the hash function. -/
theorem C14_counterexample :
    NoFault (sampleDistributor [] ["u"] ((GoMap.empty.set "X" "u").set "Y" "")
      ["X", "Y"] ["u"]).Storage ∧
    (sampleDistributor [] ["u"] ((GoMap.empty.set "X" "u").set "Y" "")
      ["X", "Y"] ["u"]).svcList = [] ∧
    (sampleDistributor [] ["u"] ((GoMap.empty.set "X" "u").set "Y" "")
      ["X", "Y"] ["u"]).table "X" = some "u" ∧
    ∀ hashFunc : String → Nat,
      ((sampleDistributor [] ["u"] ((GoMap.empty.set "X" "u").set "Y" "")
        ["X", "Y"] ["u"]).LivenessCheck hashFunc).1 = some Error.noService ∧
      ((sampleDistributor [] ["u"] ((GoMap.empty.set "X" "u").set "Y" "")
        ["X", "Y"] ["u"]).LivenessCheck hashFunc).2.table "X" = none :=
  ⟨fun _ => rfl, rfl, rfl, fun _ => ⟨rfl, rfl⟩⟩

/-- C14, amended: in a tick with no storage failure in which a rebalance is
refused, that is, a list of the storage is empty at the start of the tick or
the tick returns an error, a list of the storage is empty at the end of the
tick and no field of the matching table holds a value written by the tick:
each field is as it was at the start of the tick, or has been deleted and is
the field of a cached service missing from the list of services, of a listed
service whose ping fails, or of a cached work unit missing from the list of
work units. -/
theorem C14_refused_rebalance (hashFunc : String → K) (d : Distributor)
    (hnf : NoFault d.Storage)
    (hr : d.balanceFails ∨ (d.LivenessCheck hashFunc).1 ≠ none) :
    (d.LivenessCheck hashFunc).2.balanceFails ∧
    ∀ f, (d.LivenessCheck hashFunc).2.table f = d.table f ∨
      ((d.LivenessCheck hashFunc).2.table f = none ∧
        ((f ∈ d.serviceCache.services ∧ f ∉ d.svcList) ∨
          (f ∈ d.svcList ∧ d.p f = false) ∨
          (f ∈ d.workUnitsCache.workunits ∧ f ∉ d.unitList))) := by
  have hf : (d.LivenessCheck hashFunc).2.balanceFails := by
    rcases hr with hf | he
    · exact (LivenessCheck_guarded hashFunc _ (balanceFails_guarded hashFunc) d hnf hf).1
    · exact (LivenessCheck_guarded hashFunc (fun _ => True)
        ⟨fun _ _ _ => trivial, fun _ _ _ => trivial, fun _ _ _ => trivial,
          fun _ _ _ => trivial, fun _ _ _ => trivial, fun _ _ _ => trivial⟩ d hnf
          trivial).2 he
  exact ⟨hf, LivenessCheck_cleared hashFunc d hnf hf⟩

/-- C14, amended, at a sample input: `bad1` is the only listed service; the
tick evicts it and the rebalance that follows is refused. -/
theorem C14_refused_rebalance_witness :
    ((sampleDistributor ["bad1"] ["u"] (GoMap.empty.set "Z" "u") [] []).LivenessCheck
      sampleHash).2.balanceFails ∧
    ∀ f, ((sampleDistributor ["bad1"] ["u"] (GoMap.empty.set "Z" "u") [] []).LivenessCheck
        sampleHash).2.table f =
        (sampleDistributor ["bad1"] ["u"] (GoMap.empty.set "Z" "u") [] []).table f ∨
      (((sampleDistributor ["bad1"] ["u"] (GoMap.empty.set "Z" "u") [] []).LivenessCheck
        sampleHash).2.table f = none ∧
        ((f ∈ (sampleDistributor ["bad1"] ["u"] (GoMap.empty.set "Z" "u") []
            []).serviceCache.services ∧
          f ∉ (sampleDistributor ["bad1"] ["u"] (GoMap.empty.set "Z" "u") [] []).svcList) ∨
          (f ∈ (sampleDistributor ["bad1"] ["u"] (GoMap.empty.set "Z" "u") [] []).svcList ∧
            (sampleDistributor ["bad1"] ["u"] (GoMap.empty.set "Z" "u") [] []).p f = false) ∨
          (f ∈ (sampleDistributor ["bad1"] ["u"] (GoMap.empty.set "Z" "u") []
            []).workUnitsCache.workunits ∧
            f ∉ (sampleDistributor ["bad1"] ["u"] (GoMap.empty.set "Z" "u") [] []).unitList))) :=
  C14_refused_rebalance sampleHash
    (sampleDistributor ["bad1"] ["u"] (GoMap.empty.set "Z" "u") [] [])
    (fun _ => rfl) (Or.inr (by decide))

end FrameClaims

end Main
namespace Main

section StartupClaims

variable {K : Type} [LinearOrder K]

/-- C15, the code at the failing input: whatever `time.ParseDuration` is,
`main` parses the ping-timeout setting twice and never the poll-interval
setting, so both durations of the `Transport` are the parsed ping timeout;
with poll interval `5s` and ping timeout `1s` the `Transport` it hands to
`NewDistributor` has a `PollInterval` of one second. -/
theorem C15_poll_interval_from_ping_timeout :
    (∀ (ParseDuration : String → Option Nat) (configuration : Config),
      mainTransport ParseDuration configuration =
        (ParseDuration configuration.PingTimeout).map
          (fun t => { PingTimeout := t, PollInterval := t })) ∧
    sampleParseDuration "5s" = some 5000000000 ∧
    sampleParseDuration "1s" = some 1000000000 ∧
    mainTransport sampleParseDuration { PollInterval := "5s", PingTimeout := "1s" } =
      some { PingTimeout := 1000000000, PollInterval := 1000000000 } := by
  refine ⟨?_, by decide, by decide, by decide⟩
  intro ParseDuration configuration
  unfold mainTransport
  cases ParseDuration configuration.PingTimeout <;> rfl

/-- C17, the code at the failing input: `NewPinger` leaves `kaParameters` at
its zero value whatever parameters it is given, so the connection that `Ping`
or `Init` opens is dialled with the zero parameters, here instead of
`(30s, 5s, true)`. -/
theorem C17_keepalive_dropped :
    (∀ ka : ClientParameters,
      (NewPinger ka).kaParameters = { Time := 0, Timeout := 0, PermitWithoutStream := false }) ∧
    ((NewPinger { Time := 30000000000, Timeout := 5000000000, PermitWithoutStream := true }).Ping
        (fun _ => true) (fun _ => true) "w:1").2.connPool "w:1" =
      some { keepaliveParams := { Time := 0, Timeout := 0, PermitWithoutStream := false } } ∧
    ((NewPinger { Time := 30000000000, Timeout := 5000000000, PermitWithoutStream := true }).Init
        (fun _ => true) ["w:1"]).2.connPool "w:1" =
      some { keepaliveParams := { Time := 0, Timeout := 0, PermitWithoutStream := false } } :=
  ⟨fun _ => rfl, by decide, by decide⟩

/-- C18: `balance` never ends with a division by zero: either it returns one
of its own errors before any call of `PutToMatchingTable` (a failed read, no
work unit, no service), or both lists it read are non-empty and it is the call
of `PutToMatchingTable` on them; and `PutToMatchingTable` on a non-empty list
of services does not end with a division by zero. -/
theorem C18_no_division_by_zero (hashFunc : String → K) (d : Distributor)
    (services ringMembers : List String) (hs : services ≠ []) :
    (d.PutToMatchingTable hashFunc services ringMembers).1 ≠ some Error.divideByZero ∧
    (d.balance hashFunc).1 ≠ some Error.divideByZero ∧
    (((d.balance hashFunc).1 = some Error.storage ∨
        (d.balance hashFunc).1 = some Error.unitsNotFound ∨
        (d.balance hashFunc).1 = some Error.noService) ∨
      (d.unitList ≠ [] ∧ d.svcList ≠ [] ∧
        d.balance hashFunc =
          ({ d with Storage := d.Storage.next.next }).PutToMatchingTable hashFunc
            d.svcList d.unitList)) := by
  have hput : ∀ (d' : Distributor) (S U : List String), S ≠ [] →
      (d'.PutToMatchingTable hashFunc S U).1 ≠ some Error.divideByZero := by
    intro d' S U hS
    have hl : ¬ (S.length = 0) := by
      rw [List.length_eq_zero]; exact hS
    unfold Distributor.PutToMatchingTable Storage.SetMap
    by_cases hf : d'.Storage.faults 0 = true
    · simp [hl, hf]
    · simp [hl, hf]
  have hcases : ((d.balance hashFunc).1 = some Error.storage ∨
        (d.balance hashFunc).1 = some Error.unitsNotFound ∨
        (d.balance hashFunc).1 = some Error.noService) ∨
      (d.unitList ≠ [] ∧ d.svcList ≠ [] ∧
        d.balance hashFunc =
          ({ d with Storage := d.Storage.next.next }).PutToMatchingTable hashFunc
            d.svcList d.unitList) := by
    unfold Distributor.balance Distributor.RingMembers Distributor.Services Storage.GetList
    by_cases h0 : d.Storage.faults 0 = true
    · left; left
      simp [h0]
    · simp only [h0, Bool.false_eq_true, if_false, List.length_eq_zero]
      by_cases hu : d.Storage.Lists d.ringMembers = []
      · left; right; left
        simp [hu]
      · simp only [hu, if_false]
        by_cases h1 : d.Storage.faults 1 = true
        · left; left
          simp [h1, Storage.next]
        · by_cases hsv : d.Storage.Lists d.serviceNamespace = []
          · left; right; right
            simp [h1, hsv, Storage.next]
          · right
            refine ⟨hu, hsv, ?_⟩
            simp only [Storage.next, Nat.zero_add, h1, Bool.false_eq_true, if_false, hsv]
            rfl
  refine ⟨hput d services ringMembers hs, ?_, hcases⟩
  rcases hcases with (he | he | he) | ⟨_, hsv, he⟩
  · rw [he]; simp
  · rw [he]; simp
  · rw [he]; simp
  · rw [he]
    exact hput _ _ _ hsv

/-- C18 at a sample input: one service and one work unit. -/
theorem C18_no_division_by_zero_witness :
    ((sampleDistributor ["A"] ["u"] GoMap.empty [] []).PutToMatchingTable sampleHash
      ["A"] ["u"]).1 ≠ some Error.divideByZero ∧
    ((sampleDistributor ["A"] ["u"] GoMap.empty [] []).balance sampleHash).1
      ≠ some Error.divideByZero ∧
    ((((sampleDistributor ["A"] ["u"] GoMap.empty [] []).balance sampleHash).1
          = some Error.storage ∨
        ((sampleDistributor ["A"] ["u"] GoMap.empty [] []).balance sampleHash).1
          = some Error.unitsNotFound ∨
        ((sampleDistributor ["A"] ["u"] GoMap.empty [] []).balance sampleHash).1
          = some Error.noService) ∨
      ((sampleDistributor ["A"] ["u"] GoMap.empty [] []).unitList ≠ [] ∧
        (sampleDistributor ["A"] ["u"] GoMap.empty [] []).svcList ≠ [] ∧
        (sampleDistributor ["A"] ["u"] GoMap.empty [] []).balance sampleHash =
          ({ sampleDistributor ["A"] ["u"] GoMap.empty [] [] with
              Storage := (sampleDistributor ["A"] ["u"] GoMap.empty [] []).Storage.next.next
            }).PutToMatchingTable sampleHash
            (sampleDistributor ["A"] ["u"] GoMap.empty [] []).svcList
            (sampleDistributor ["A"] ["u"] GoMap.empty [] []).unitList)) :=
  C18_no_division_by_zero sampleHash (sampleDistributor ["A"] ["u"] GoMap.empty [] [])
    ["A"] ["u"] (by decide)

/-- C19, the code at the failing input: a call of `NewDistributor` whose only
option is `WithStorage` reads `d.transport.PingTimeout` through the nil
pointer before anything else and ends with that panic, whatever the keys, the
storage and the pinger; so does a call that passes `WithTransport(nil)`. -/
theorem C19_missing_transport :
    (∀ (distributionNamespace ringMembers serviceNamespace : String) (p : String → Bool)
        (pInit : List String → Bool) (stor : Storage),
      (NewDistributor distributionNamespace ringMembers serviceNamespace p pInit
        [WithStorage stor]).toOption = none ∧
      NewDistributor distributionNamespace ringMembers serviceNamespace p pInit
        [WithStorage stor] = .error InitError.nilDereference ∧
      NewDistributor distributionNamespace ringMembers serviceNamespace p pInit
        [WithStorage stor, WithTransport none] = .error InitError.nilDereference) ∧
    (∀ (p : String → Bool) (stor : Storage),
      ((NewDistributor "T" "U" "W" p (fun _ => true)
        [WithStorage stor, WithTransport (some { PingTimeout := 0, PollInterval := 7 })]).toOption.map
          (fun d => d.transport)) =
        if stor.faults 0 = true then none
        else some (some { PingTimeout := defaultPingTimeout, PollInterval := 7 })) := by
  refine ⟨fun _ _ _ _ _ _ => ⟨rfl, rfl, rfl⟩, ?_⟩
  intro p stor
  unfold NewDistributor applyOpts applyOpts applyOpts WithStorage WithTransport Storage.GetList
  by_cases hf : stor.faults 0 = true
  · simp [hf, Except.toOption]
  · simp [hf, Except.toOption]

end StartupClaims

end Main
namespace Main

section CacheOriginClaims

variable {K : Type} [LinearOrder K]

set_option maxRecDepth 1000000 in
/-- C16 fails over the in-memory store of the tests, which hands out the slice
it holds: `service1` and `bad1` are listed in this order, `bad1` was cached by
an earlier tick and its ping fails now. The adoption rebalance of `service1`
sorts the stored slice, over which the second loop is ranging; the loop reads
`service1` again and never pings `bad1`. The tick returns no error and `bad1`,
whose ping fails, is still in the cache of services. -/
theorem C16_unanswering_worker_cached :
    ("bad1" ∈ (sampleMock ["service1", "bad1"] ["work1"] GoMap.empty ["bad1"]
        []).Storage.Lists "W" ∧
      (sampleMock ["service1", "bad1"] ["work1"] GoMap.empty ["bad1"] []).p "bad1" = false) ∧
    ((sampleMock ["service1", "bad1"] ["work1"] GoMap.empty ["bad1"] []).LivenessCheck
      sampleHash).1 = none ∧
    ((sampleMock ["service1", "bad1"] ["work1"] GoMap.empty ["bad1"] []).LivenessCheck
      sampleHash).2.serviceCache.services = ["bad1", "service1"] := by
  refine ⟨⟨by decide, by decide⟩, by decide, by decide⟩

end CacheOriginClaims

end Main
